import Mathlib

/-!
# gojs: event loop, promise engine, module loader and lexer

A shallow embedding of `runtime/eventloop.go`, of the Promise implementation in
`runtime/promise.go`, of `modules/require.go` (with `RegisterModule` of
`modules/fs.go`) and of `lexer/lexer.go`, with the properties of the design document
stated and proved, or refuted, over it.

Conventions of the embedding.

* Event loop (namespace `GoJS`).  A Go `func()` callback is a `Script`: a finite tree of
  calls to the public API of the event loop.  A script may read the id returned by
  `SetTimeout`/`SetInterval`, may let time pass, may emit an observable mark and may
  raise (a Go panic).  A callback may also hand the loop a function value that the program
  holds in a variable, by the number of the variable; this is how a callback enqueues or
  re-arms itself, and why the drain of the microtask queue and `Run` need not return.
  A `*Task` is the position of the task object in `TaskQueue.objs`,
  the list of all task objects allocated so far; the slice `[]*Task` is
  `TaskQueue.items`.  `time.Time` and `time.Duration` are integers (nanoseconds);
  `time.Now()` reads the field `clock`.  `container/heap` is transcribed from the Go
  standard library.  `trace` is a history variable: it records which callbacks the loop
  called and in which order; no operation reads it.  Loops that need not end (`Run`,
  `processMicrotasks`) take fuel and return `none` when it runs out.
* Promises (namespace `GoJS.JS`).  The JavaScript of `promise.go` is transcribed function
  by function over a `World` holding the promise objects, the variables captured by the
  closures of the implementation, and the queue of microtasks.  Functions of user code
  are `Code` trees; objects other than promises are described by what reading and calling
  their `then` member does.
* Modules (namespace `GoJS.Modules`).  The engine is reduced to its objects, its global
  variables and a file system; `path/filepath` is transcribed for Unix paths.  A module
  file is a `Body`: the `require` calls and the assignments to `exports` that it makes.
* Lexer (namespace `GoJS.Lex`).  A Go string is the list of its bytes; an index or a slice
  out of range is `Except.error`; the loops take fuel.
-/

/-! # Part 1: definitions -/

namespace GoJS

/-! ## Callbacks -/

/-- The body of a Go callback `func()`, as the sequence of event-loop calls it makes. -/
inductive Script where
  /-- the callback returns normally -/
  | ret : Script
  /-- the callback raises (Go panic) -/
  | raise : Script
  /-- an observable side effect, such as a line printed by `console.log` -/
  | emit (n : Nat) (k : Script) : Script
  /-- the callback computes for `dt` nanoseconds -/
  | work (dt : Nat) (k : Script) : Script
  /-- `el.QueueMicrotask(fn)` -/
  | queueMicrotask (fn : Script) (k : Script) : Script
  /-- `id := el.SetTimeout(fn, delay)` -/
  | setTimeout (fn : Script) (delay : Int) (k : Int → Script) : Script
  /-- `el.ClearTimeout(id)` -/
  | clearTimeout (id : Int) (k : Script) : Script
  /-- `id := el.SetInterval(fn, delay)` -/
  | setInterval (fn : Script) (delay : Int) (k : Int → Script) : Script
  /-- `el.ClearInterval(id)` -/
  | clearInterval (id : Int) (k : Script) : Script
  /-- `el.QueueMicrotask(f)` for the function value held by the variable `f`, which may be
  the callback that is running -/
  | queueMicrotaskVar (f : Nat) (k : Script) : Script
  /-- `id := el.SetTimeout(f, delay)` for the function value held by the variable `f` -/
  | setTimeoutVar (f : Nat) (delay : Int) (k : Int → Script) : Script

instance : Inhabited Script := ⟨Script.ret⟩

/-- The value of `Task.Callback`: either the function handed to `SetTimeout`, or the
closure `repeatFunc` that `SetInterval` builds around `callback`, `id` and `delay`. -/
inductive Callback where
  | plain (body : Script) : Callback
  | repeatFunc (callback : Script) (id : Int) (delay : Int) : Callback

/-- The struct `Task`. -/
structure Task where
  Callback : Callback
  Time : Int
  Index : Int

instance : Inhabited Task := ⟨⟨Callback.plain Script.ret, 0, 0⟩⟩

/-- What the loop did, in order. -/
inductive Event where
  /-- `QueueMicrotask(fn)` was called -/
  | queued (fn : Script) : Event
  /-- `processMicrotasks` called the microtask `fn` -/
  | micro (fn : Script) : Event
  /-- `Run` popped the task from the macrotask queue -/
  | popped (task : Nat) : Event
  /-- `Run` called `task.Callback()` when the clock read `now` -/
  | fired (task : Nat) (now : Int) : Event
  /-- a callback emitted the mark `n` -/
  | emit (n : Nat) : Event

/-! ## TaskQueue -/

/-- The type `TaskQueue` (`[]*Task`) together with the task objects its entries point to. -/
structure TaskQueue where
  objs : List Task
  items : List Nat

namespace TaskQueue

/-- Dereference of a `*Task`. -/
def deref (tq : TaskQueue) (p : Nat) : Task := tq.objs.getD p default

/-- The expression `tq[i]`. -/
def ptr (tq : TaskQueue) (i : Nat) : Nat := tq.items.getD i 0

/-- Assignment `p.Index = v` through the pointer `p`. -/
def setIndex (tq : TaskQueue) (p : Nat) (v : Int) : TaskQueue :=
  { tq with objs := tq.objs.modify (fun t => { t with Index := v }) p }

def Len (tq : TaskQueue) : Nat := tq.items.length

def Less (tq : TaskQueue) (i j : Nat) : Bool :=
  decide ((tq.deref (tq.ptr i)).Time < (tq.deref (tq.ptr j)).Time)

def Swap (tq : TaskQueue) (i j : Nat) : TaskQueue :=
  let pi := tq.ptr i
  let pj := tq.ptr j
  let tq1 : TaskQueue := { tq with items := (tq.items.set i pj).set j pi }
  let tq2 := tq1.setIndex (tq1.ptr i) i
  tq2.setIndex (tq2.ptr j) j

def Push (tq : TaskQueue) (x : Nat) : TaskQueue :=
  let n := tq.items.length
  let tq1 := tq.setIndex x n
  { tq1 with items := tq1.items ++ [x] }

def Pop (tq : TaskQueue) : TaskQueue × Nat :=
  let n := tq.items.length
  let task := tq.ptr (n - 1)
  let tq1 := tq.setIndex task (-1)
  ({ tq1 with items := tq1.items.take (n - 1) }, task)

/-- The allocation `&Task{Callback: cb, Time: t}`: a new object, `Index` zero. -/
def alloc (tq : TaskQueue) (cb : Callback) (t : Int) : TaskQueue × Nat :=
  ({ tq with objs := tq.objs ++ [⟨cb, t, 0⟩] }, tq.objs.length)

end TaskQueue

/-! ## container/heap, as instantiated on `TaskQueue` -/

namespace heap

/-- The loop of `heap.up`; the fuel bounds the number of iterations. -/
def upLoop : Nat → TaskQueue → Nat → TaskQueue
  | 0, h, _ => h
  | fuel + 1, h, j =>
    let i := (j - 1) / 2
    if i = j ∨ ¬ h.Less j i = true then h
    else upLoop fuel (h.Swap i j) i

def up (h : TaskQueue) (j : Nat) : TaskQueue := upLoop (j + 1) h j

/-- The loop of `heap.down`; returns the queue and the final value of `i`. -/
def downLoop : Nat → TaskQueue → Nat → Nat → TaskQueue × Nat
  | 0, h, i, _ => (h, i)
  | fuel + 1, h, i, n =>
    let j1 := 2 * i + 1
    if n ≤ j1 then (h, i)
    else
      let j := if j1 + 1 < n ∧ h.Less (j1 + 1) j1 = true then j1 + 1 else j1
      if ¬ h.Less j i = true then (h, i)
      else downLoop fuel (h.Swap i j) j n

def down (h : TaskQueue) (i0 n : Nat) : TaskQueue × Bool :=
  let r := downLoop n h i0 n
  (r.1, decide (i0 < r.2))

def Push (h : TaskQueue) (x : Nat) : TaskQueue :=
  let h1 := h.Push x
  up h1 (h1.Len - 1)

def Pop (h : TaskQueue) : TaskQueue × Nat :=
  let n := h.Len - 1
  let h1 := h.Swap 0 n
  let h2 := (down h1 0 n).1
  h2.Pop

def Remove (h : TaskQueue) (i : Nat) : TaskQueue × Nat :=
  let n := h.Len - 1
  if n ≠ i then
    let h1 := h.Swap i n
    let r := down h1 i n
    let h2 := if r.2 then r.1 else up r.1 i
    h2.Pop
  else h.Pop

end heap

/-! ## EventLoop -/

/-- A Go `map[int]*Task`. -/
abbrev TimerMap := List (Int × Nat)

namespace TimerMap

def get (m : TimerMap) (id : Int) : Option Nat := List.lookup id m

def delete (m : TimerMap) (id : Int) : TimerMap := m.filter (fun e => e.1 ≠ id)

def set (m : TimerMap) (id : Int) (p : Nat) : TimerMap := (id, p) :: delete m id

end TimerMap

/-- The struct `EventLoop` (without `vm`, `mutex` and `stopChan`), the clock, the function
values that the program holds in variables (`funcs`, by the number of the variable), and the
history of calls. -/
structure EventLoop where
  macrotasks : TaskQueue
  microtasks : List Script
  timers : TimerMap
  intervals : TimerMap
  timerID : Int
  running : Bool
  pendingTasks : Int
  clock : Int
  trace : List Event
  funcs : List Script

/-- The function `NewEventLoop`, started when the clock reads `now`. -/
def NewEventLoop (now : Int) : EventLoop :=
  { macrotasks := ⟨[], []⟩, microtasks := [], timers := [], intervals := [],
    timerID := 1, running := false, pendingTasks := 0, clock := now, trace := [],
    funcs := [] }

namespace EventLoop

def log (el : EventLoop) (e : Event) : EventLoop := { el with trace := el.trace ++ [e] }

/-- The program assigns the function value `fn` to a new variable. -/
def define (el : EventLoop) (fn : Script) : EventLoop := { el with funcs := el.funcs ++ [fn] }

/-- The function value held by the variable `f`.  A variable that has not been assigned
holds `nil`, and the call of `nil` is a Go panic. -/
def func (el : EventLoop) (f : Nat) : Script := el.funcs.getD f Script.raise

def QueueMicrotask (el : EventLoop) (fn : Script) : EventLoop :=
  { el with microtasks := el.microtasks ++ [fn], trace := el.trace ++ [Event.queued fn] }

def SetTimeout (el : EventLoop) (callback : Script) (delay : Int) : EventLoop × Int :=
  let id := el.timerID
  let a := el.macrotasks.alloc (Callback.plain callback) (el.clock + delay)
  ({ el with
      timerID := el.timerID + 1
      macrotasks := heap.Push a.1 a.2
      timers := el.timers.set id a.2
      pendingTasks := el.pendingTasks + 1 }, id)

def ClearTimeout (el : EventLoop) (id : Int) : EventLoop :=
  match el.timers.get id with
  | some task =>
    let el1 :=
      if 0 ≤ (el.macrotasks.deref task).Index then
        { el with
            macrotasks := (heap.Remove el.macrotasks (el.macrotasks.deref task).Index.toNat).1
            pendingTasks := el.pendingTasks - 1 }
      else el
    { el1 with timers := el1.timers.delete id }
  | none => el

def SetInterval (el : EventLoop) (callback : Script) (delay : Int) : EventLoop × Int :=
  let id := el.timerID
  let a := el.macrotasks.alloc (Callback.repeatFunc callback id delay) (el.clock + delay)
  ({ el with
      timerID := el.timerID + 1
      macrotasks := heap.Push a.1 a.2
      intervals := el.intervals.set id a.2
      pendingTasks := el.pendingTasks + 1 }, id)

def ClearInterval (el : EventLoop) (id : Int) : EventLoop :=
  match el.intervals.get id with
  | some task =>
    let el1 :=
      if 0 ≤ (el.macrotasks.deref task).Index then
        { el with
            macrotasks := (heap.Remove el.macrotasks (el.macrotasks.deref task).Index.toNat).1
            pendingTasks := el.pendingTasks - 1 }
      else el
    { el1 with intervals := el1.intervals.delete id }
  | none => el

end EventLoop

/-- Execution of a callback body on the loop.  The flag is `true` when the body
returned and `false` when it raised. -/
def Script.run : Script → EventLoop → EventLoop × Bool
  | .ret, el => (el, true)
  | .raise, el => (el, false)
  | .emit n k, el => k.run (el.log (Event.emit n))
  | .work dt k, el => k.run { el with clock := el.clock + dt }
  | .queueMicrotask fn k, el => k.run (el.QueueMicrotask fn)
  | .setTimeout fn delay k, el => (k (el.SetTimeout fn delay).2).run (el.SetTimeout fn delay).1
  | .clearTimeout id k, el => k.run (el.ClearTimeout id)
  | .setInterval fn delay k, el => (k (el.SetInterval fn delay).2).run (el.SetInterval fn delay).1
  | .clearInterval id k, el => k.run (el.ClearInterval id)
  | .queueMicrotaskVar f k, el => k.run (el.QueueMicrotask (el.func f))
  | .setTimeoutVar f delay k, el =>
    (k (el.SetTimeout (el.func f) delay).2).run (el.SetTimeout (el.func f) delay).1

/-- The call `task.Callback()`.  For an interval this is the closure `repeatFunc`:
it calls `callback` and then, if `id` is still in `intervals`, pushes a new task. -/
def Callback.call : Callback → EventLoop → EventLoop × Bool
  | .plain body, el => body.run el
  | .repeatFunc callback id delay, el =>
    let r := callback.run el
    if r.2 then
      let el1 := r.1
      match el1.intervals.get id with
      | some _ =>
        let a := el1.macrotasks.alloc (Callback.repeatFunc callback id delay) (el1.clock + delay)
        ({ el1 with
            macrotasks := heap.Push a.1 a.2
            intervals := el1.intervals.set id a.2 }, true)
      | none => (el1, true)
    else r

namespace EventLoop

/-- The method `processMicrotasks`.  `none`: the fuel ran out; the flag is `false` when a
microtask raised, which ends the loop since nothing recovers there. -/
def processMicrotasks : Nat → EventLoop → Option (EventLoop × Bool)
  | 0, _ => none
  | fuel + 1, el =>
    match el.microtasks with
    | [] => some (el, true)
    | task :: rest =>
      let r := task.run { el with microtasks := rest, trace := el.trace ++ [Event.micro task] }
      if r.2 then processMicrotasks fuel r.1 else some (r.1, false)

/-- How one pass through the body of the `for` loop of `Run` ends. -/
inductive Pass where
  /-- the loop goes round again -/
  | again : Pass
  /-- `break`: the macrotask queue was empty -/
  | stop : Pass
  /-- a microtask raised; the panic leaves `Run` -/
  | raised : Pass
  deriving DecidableEq

/-- The pop and the wait in `Run`: `task := heap.Pop(&el.macrotasks)`, then the sleep until
the task is due.  `sleep now d` is the clock reading when `time.Sleep(d)`, called at
`now`, returns. -/
def popNext (sleep : Int → Int → Int) (el : EventLoop) : EventLoop × Nat :=
  let r := heap.Pop el.macrotasks
  let task := r.2
  let el2 : EventLoop := { el with macrotasks := r.1, trace := el.trace ++ [Event.popped task] }
  let now := el2.clock
  let due := (el2.macrotasks.deref task).Time
  (if now < due then { el2 with clock := sleep now (due - now) } else el2, task)

/-- The call of the popped task in `Run`: `task.Callback()` under `recover`, then the
bookkeeping of `pendingTasks`. -/
def fire (el : EventLoop) (task : Nat) : EventLoop :=
  let el4 := ((el.macrotasks.deref task).Callback.call (el.log (Event.fired task el.clock))).1
  let isInterval := el4.intervals.any (fun e => e.2 == task)
  if isInterval then el4 else { el4 with pendingTasks := el4.pendingTasks - 1 }

/-- One pass through the body of the `for` loop of `Run`. -/
def runPass (sleep : Int → Int → Int) (fuel : Nat) (el : EventLoop) :
    Option (EventLoop × Pass) :=
  match el.processMicrotasks fuel with
  | none => none
  | some (el1, false) => some (el1, Pass.raised)
  | some (el1, true) =>
    if el1.macrotasks.Len = 0 then some (el1, Pass.stop)
    else
      let r := el1.popNext sleep
      match (r.1.fire r.2).processMicrotasks fuel with
      | none => none
      | some (el6, false) => some (el6, Pass.raised)
      | some (el6, true) => some (el6, Pass.again)

/-- The `for` loop of `Run`, for at most `n` passes. -/
def runLoop (sleep : Int → Int → Int) (fuel : Nat) : Nat → EventLoop → Option (EventLoop × Pass)
  | 0, el => some (el, Pass.again)
  | n + 1, el =>
    match runPass sleep fuel el with
    | none => none
    | some (el1, Pass.again) => runLoop sleep fuel n el1
    | some (el1, p) => some (el1, p)

/-- The method `Run`: `running` is set, the loop runs, and the deferred function clears
`running` when the loop is left by `break` or by a panic.  `none`: the loop was still
going after `n` passes, or the fuel ran out. -/
def Run (sleep : Int → Int → Int) (fuel n : Nat) (el : EventLoop) : Option (EventLoop × Bool) :=
  match runLoop sleep fuel n { el with running := true } with
  | some (el1, Pass.stop) => some ({ el1 with running := false }, true)
  | some (el1, Pass.raised) => some ({ el1 with running := false }, false)
  | _ => none

end EventLoop

/-- A `time.Sleep` that returns exactly on time. -/
def exactSleep (now d : Int) : Int := now + d

end GoJS

namespace GoJS

namespace TaskQueue

/-- The due time of the task at position `i` of the queue. -/
def key (tq : TaskQueue) (i : Nat) : Int := (tq.deref (tq.ptr i)).Time

/-- The index permutation of a swap. -/
def sw (i j k : Nat) : Nat := if k = j then i else if k = i then j else k

/-- Well-formed queue: the slice holds distinct, allocated tasks, each task in the slice
knows its position, and every allocated task outside the slice has `Index = -1`. -/
structure WF (tq : TaskQueue) : Prop where
  nodup : tq.items.Nodup
  bound : ∀ p ∈ tq.items, p < tq.objs.length
  index : ∀ i, i < tq.Len → (tq.deref (tq.ptr i)).Index = i
  out : ∀ p, p < tq.objs.length → p ∉ tq.items → (tq.deref p).Index = -1

end TaskQueue
end GoJS

namespace GoJS
namespace TaskQueue

/-- Two queues over the same task objects (up to `Index`) holding the same tasks. -/
structure Same (a b : TaskQueue) : Prop where
  len : b.Len = a.Len
  objs : b.objs.length = a.objs.length
  mem : ∀ p, p ∈ b.items ↔ p ∈ a.items
  time : ∀ p, (b.deref p).Time = (a.deref p).Time
  cb : ∀ p, (b.deref p).Callback = (a.deref p).Callback

/-- The task at position `c` is not due before the task at its parent position. -/
def ok (tq : TaskQueue) (c : Nat) : Prop := tq.key ((c - 1) / 2) ≤ tq.key c

/-- The first `n` positions form a min-heap by due time. -/
def HeapOn (tq : TaskQueue) (n : Nat) : Prop := ∀ c, 0 < c → c < n → tq.ok c

/-- The first `n` positions form a min-heap except that the task at `j` may be due
before its parent. -/
def UpInv (tq : TaskQueue) (n j : Nat) : Prop :=
  (∀ c, 0 < c → c < n → c ≠ j → tq.ok c) ∧
  (0 < j → ∀ c, 0 < c → c < n → (c - 1) / 2 = j → tq.key ((j - 1) / 2) ≤ tq.key c)

end TaskQueue

end GoJS

namespace GoJS
namespace TaskQueue

/-- Queue `b` is queue `a` with the task `p` taken out. -/
structure Removed (a b : TaskQueue) (p : Nat) : Prop where
  wf : b.WF
  heap : HeapOn b b.Len
  len : b.Len + 1 = a.Len
  objs : b.objs.length = a.objs.length
  mem : ∀ q, q ∈ b.items ↔ q ∈ a.items ∧ q ≠ p
  time : ∀ q, (b.deref q).Time = (a.deref q).Time
  cb : ∀ q, (b.deref q).Callback = (a.deref q).Callback

end TaskQueue

end GoJS

namespace GoJS

/-- The event is `Run` popping a macrotask or calling its callback. -/
def Event.isMacro : Event → Bool
  | .popped _ => true
  | .fired _ _ => true
  | _ => false

/-- The task of a macrotask event. -/
def Event.task? : Event → Option Nat
  | .popped p => some p
  | .fired p _ => some p
  | _ => none

/-- The microtasks that were executed, in order. -/
def microsOf (tr : List Event) : List Script :=
  tr.filterMap (fun e => match e with
    | .micro s => some s
    | _ => none)

/-- The microtasks that were enqueued, in order. -/
def queuedOf (tr : List Event) : List Script :=
  tr.filterMap (fun e => match e with
    | .queued s => some s
    | _ => none)

/-- A `time.Sleep` never returns early. -/
def SleepOK (sleep : Int → Int → Int) : Prop := ∀ now d, now + d ≤ sleep now d

namespace EventLoop

/-- Well-formed loop state: the macrotask queue is a well-formed min-heap by due time,
and the timer maps point to allocated tasks. -/
structure Inv (el : EventLoop) : Prop where
  wf : el.macrotasks.WF
  heap : el.macrotasks.HeapOn el.macrotasks.Len
  timers : ∀ e ∈ el.timers, e.2 < el.macrotasks.objs.length
  intervals : ∀ e ∈ el.intervals, e.2 < el.macrotasks.objs.length

/-- What happened between two states `a` and `b` of which `new` is the added history. -/
structure Hist (sleep : Int → Int → Int) (a b : EventLoop) (new : List Event) : Prop where
  trace : b.trace = a.trace ++ new
  fifo : a.microtasks ++ queuedOf new = microsOf new ++ b.microtasks
  drained : ∀ n e, new[n]? = some e → e.isMacro = true →
    a.microtasks ++ queuedOf (new.take n) = microsOf (new.take n)
  tasks : ∀ e ∈ new, ∀ p, e.task? = some p →
    p ∈ a.macrotasks.items ∨ a.macrotasks.objs.length ≤ p
  timely : SleepOK sleep → ∀ p t, Event.fired p t ∈ new →
    p < b.macrotasks.objs.length ∧ (b.macrotasks.deref p).Time ≤ t

/-- State `b` comes after state `a`: task objects are only added, their due time and
callback never change, no task that left the queue comes back, ids are never reused. -/
structure Adv (sleep : Int → Int → Int) (a b : EventLoop) : Prop where
  objs : a.macrotasks.objs.length ≤ b.macrotasks.objs.length
  time : ∀ p, p < a.macrotasks.objs.length →
    (b.macrotasks.deref p).Time = (a.macrotasks.deref p).Time
  cb : ∀ p, p < a.macrotasks.objs.length →
    (b.macrotasks.deref p).Callback = (a.macrotasks.deref p).Callback
  items : ∀ p ∈ b.macrotasks.items, p ∈ a.macrotasks.items ∨ a.macrotasks.objs.length ≤ p
  timerID : a.timerID ≤ b.timerID
  kept : ∀ id p, id < a.timerID → p < a.macrotasks.objs.length → a.timers.get id = some p →
    p ∈ b.macrotasks.items → b.timers.get id = some p
  hist : ∃ new, Hist sleep a b new

end EventLoop

end GoJS

namespace GoJS
namespace heap
open TaskQueue

/-- What `heap.Push` of a newly allocated task does to the queue. -/
structure Pushed (tq r : TaskQueue) (c : Callback) (t : Int) : Prop where
  wf : r.WF
  heap : HeapOn r r.Len
  len : r.Len = tq.Len + 1
  objs : r.objs.length = tq.objs.length + 1
  mem : ∀ q, q ∈ r.items ↔ q ∈ tq.items ∨ q = tq.objs.length
  time : ∀ p, p < tq.objs.length → (r.deref p).Time = (tq.deref p).Time
  cb : ∀ p, p < tq.objs.length → (r.deref p).Callback = (tq.deref p).Callback
  newTime : (r.deref tq.objs.length).Time = t
  newCb : (r.deref tq.objs.length).Callback = c

end heap

end GoJS

namespace GoJS
open EventLoop TaskQueue

/-- One thing that happens to the loop: a call of a method of the public API, a piece of
code (top-level code, or the part of a callback executed so far), the passing of time, a
(possibly partial) run of the loop, or the start of a callback inside such a run. -/
inductive Step (sleep : Int → Int → Int) : EventLoop → EventLoop → Prop where
  | queueMicrotask (el : EventLoop) (fn : Script) : Step sleep el (el.QueueMicrotask fn)
  | setTimeout (el : EventLoop) (callback : Script) (delay : Int) :
      Step sleep el (el.SetTimeout callback delay).1
  | clearTimeout (el : EventLoop) (id : Int) : Step sleep el (el.ClearTimeout id)
  | setInterval (el : EventLoop) (callback : Script) (delay : Int) :
      Step sleep el (el.SetInterval callback delay).1
  | clearInterval (el : EventLoop) (id : Int) : Step sleep el (el.ClearInterval id)
  | script (el : EventLoop) (s : Script) : Step sleep el (s.run el).1
  | tick (el : EventLoop) (dt : Nat) : Step sleep el { el with clock := el.clock + dt }
  /-- the program assigns a function value to a new variable -/
  | define (el : EventLoop) (fn : Script) : Step sleep el (el.define fn)
  | processMicrotasks (el : EventLoop) (fuel : Nat) (r : EventLoop × Bool) :
      el.processMicrotasks fuel = some r → Step sleep el r.1
  | runPass (el : EventLoop) (fuel : Nat) (r : EventLoop × Pass) :
      el.runPass sleep fuel = some r → Step sleep el r.1
  | run (el : EventLoop) (fuel n : Nat) (r : EventLoop × Bool) :
      el.Run sleep fuel n = some r → Step sleep el r.1
  /-- `Run` pops the next macrotask, waits until it is due and is about to call it -/
  | beginMacrotask (el : EventLoop) : el.microtasks = [] → el.macrotasks.Len ≠ 0 →
      Step sleep el
        ((el.popNext sleep).1.log (Event.fired (el.popNext sleep).2 (el.popNext sleep).1.clock))
  /-- `processMicrotasks` takes the next microtask off the queue and is about to call it -/
  | beginMicrotask (el : EventLoop) (task : Script) (rest : List Script) :
      el.microtasks = task :: rest →
      Step sleep el { el with microtasks := rest, trace := el.trace ++ [Event.micro task] }

/-- Any number of calls, one after the other. -/
def Steps (sleep : Int → Int → Int) : EventLoop → EventLoop → Prop :=
  Relation.ReflTransGen (Step sleep)

/-- The states of an event loop created by `NewEventLoop` and then used in any way. -/
def Reachable (sleep : Int → Int → Int) (el : EventLoop) : Prop :=
  ∃ now, Steps sleep (NewEventLoop now) el

/-- The tasks that `Run` popped, in order. -/
def poppedOf (tr : List Event) : List Nat :=
  tr.filterMap (fun e => match e with
    | .popped p => some p
    | _ => none)

end GoJS

namespace GoJS
open EventLoop TaskQueue

/-- Three timeouts `a`, `b`, `c` set in this order on a new loop at the same instant with
the same delay; they are the tasks 0, 1 and 2 and emit 1, 2 and 3. -/
def threeEqualTimers : EventLoop :=
  let e0 := NewEventLoop 0
  let e1 := (e0.SetTimeout (Script.emit 1 Script.ret) 5).1
  let e2 := (e1.SetTimeout (Script.emit 2 Script.ret) 5).1
  (e2.SetTimeout (Script.emit 3 Script.ret) 5).1

end GoJS

namespace GoJS
open EventLoop TaskQueue

/-- The function `func f() { el.QueueMicrotask(f) }`, held by the variable 0. -/
def selfQueue : Script :=
  Script.queueMicrotaskVar 0 Script.ret

/-- A new loop on which the program defined `selfQueue` and called `QueueMicrotask` with
it. -/
def selfQueueLoop : EventLoop :=
  ((NewEventLoop 0).define selfQueue).QueueMicrotask selfQueue

end GoJS

namespace GoJS
open EventLoop TaskQueue

/-- The state after `Run`, or the state itself if `Run` does not return within the bounds. -/
def EventLoop.afterRun (sleep : Int → Int → Int) (fuel n : Nat) (el : EventLoop) : EventLoop :=
  match el.Run sleep fuel n with
  | some r => r.1
  | none => el

/-- Two timeouts due at 5 on a new loop: the first set at clock 0 with delay 5, the second
at clock 2 with delay 3. -/
def twoEqualTimers : EventLoop :=
  let e1 := ((NewEventLoop 0).SetTimeout Script.ret 5).1
  (({ e1 with clock := e1.clock + (2 : Nat) } : EventLoop).SetTimeout Script.ret 3).1

/-- Three timeouts set on a new loop at the same instant with the delays 7, 3 and 5; they
are the tasks 0, 1 and 2. -/
def threeTimers : EventLoop :=
  let e0 := NewEventLoop 0
  let e1 := (e0.SetTimeout (Script.emit 1 Script.ret) 7).1
  let e2 := (e1.SetTimeout (Script.emit 2 Script.ret) 3).1
  (e2.SetTimeout (Script.emit 3 Script.ret) 5).1

/-- A new loop with one interval of 5 ns whose callback emits 1. -/
def intervalLoop : EventLoop :=
  ((NewEventLoop 0).SetInterval (Script.emit 1 Script.ret) 5).1

end GoJS

namespace GoJS
open TaskQueue

/-- The callback is the repeating function that `SetInterval` built for `id`. -/
def Callback.isRepeat (id : Int) : Callback → Bool
  | .repeatFunc _ id' _ => decide (id' = id)
  | .plain _ => false

/-- The callback is a function handed to `SetTimeout`. -/
def Callback.isPlain : Callback → Bool
  | .plain _ => true
  | .repeatFunc _ _ _ => false

/-- The execution of the body on `el` calls `ClearInterval(id)`. -/
def Script.clearsInterval (id : Int) : Script → EventLoop → Bool
  | .ret, _ => false
  | .raise, _ => false
  | .emit n k, el => k.clearsInterval id (el.log (Event.emit n))
  | .work dt k, el => k.clearsInterval id { el with clock := el.clock + dt }
  | .queueMicrotask fn k, el => k.clearsInterval id (el.QueueMicrotask fn)
  | .setTimeout fn delay k, el =>
    (k (el.SetTimeout fn delay).2).clearsInterval id (el.SetTimeout fn delay).1
  | .clearTimeout id' k, el => k.clearsInterval id (el.ClearTimeout id')
  | .setInterval fn delay k, el =>
    (k (el.SetInterval fn delay).2).clearsInterval id (el.SetInterval fn delay).1
  | .clearInterval id' k, el => decide (id' = id) || k.clearsInterval id (el.ClearInterval id')
  | .queueMicrotaskVar f k, el => k.clearsInterval id (el.QueueMicrotask (el.func f))
  | .setTimeoutVar f delay k, el =>
    (k (el.SetTimeout (el.func f) delay).2).clearsInterval id (el.SetTimeout (el.func f) delay).1

namespace EventLoop

/-- The callback of the task object `p`. -/
def cbOf (el : EventLoop) (p : Nat) : Callback := (el.macrotasks.deref p).Callback

/-- No task of the interval `id` is in the macrotask queue. -/
def NoQueued (id : Int) (el : EventLoop) : Prop :=
  ∀ p ∈ el.macrotasks.items, (el.cbOf p).isRepeat id = false

/-- The timer maps and the queue agree: `timers` holds tasks of `SetTimeout`, each under
one id; `intervals` holds under `id` a task of the interval `id`; registered ids have been
issued; and a queued task of an interval is the task registered for that interval. -/
structure Reg (el : EventLoop) : Prop where
  tplain : ∀ id p, el.timers.get id = some p → (el.cbOf p).isPlain = true
  irep : ∀ id p, el.intervals.get id = some p → (el.cbOf p).isRepeat id = true
  tlt : ∀ id p, el.timers.get id = some p → id < el.timerID
  ilt : ∀ id p, el.intervals.get id = some p → id < el.timerID
  tinj : ∀ id id' p, el.timers.get id = some p → el.timers.get id' = some p → id = id'
  queued : ∀ p ∈ el.macrotasks.items, ∀ id, (el.cbOf p).isRepeat id = true →
    el.intervals.get id = some p

/-- What became of the registrations and of the queued tasks between two states: a task
that existed is registered later only if it was before; a task that was queued is still
queued, or was called, or is no longer registered under any id; an interval that was
cleared stays cleared, none of its tasks gets into the queue and none is popped or called. -/
structure Flow (a b : EventLoop) : Prop where
  backT : ∀ id p, p < a.macrotasks.objs.length → b.timers.get id = some p →
    a.timers.get id = some p
  backI : ∀ id p, p < a.macrotasks.objs.length → b.intervals.get id = some p →
    a.intervals.get id = some p
  left : ∀ p ∈ a.macrotasks.items, p ∈ b.macrotasks.items ∨
    (∃ t, Event.fired p t ∈ b.trace.drop a.trace.length) ∨
    (∀ id, b.timers.get id ≠ some p ∧ b.intervals.get id ≠ some p)
  gone : ∀ id, id < a.timerID → a.intervals.get id = none → b.intervals.get id = none
  quiet : ∀ id, id < a.timerID → NoQueued id a → a.intervals.get id = none →
    NoQueued id b ∧ ∀ e ∈ b.trace.drop a.trace.length, ∀ p, e.task? = some p →
      p < b.macrotasks.objs.length ∧ (b.cbOf p).isRepeat id = false

/-- Between the two states no interval whose id had been issued was registered anew. -/
def Calm (a b : EventLoop) : Prop :=
  ∀ id p, id < a.timerID → b.intervals.get id = some p → a.intervals.get id = some p

end EventLoop

end GoJS

namespace GoJS
open EventLoop TaskQueue

/-- A new loop with one interval, of id 1, whose callback clears the interval. -/
def selfClearingLoop : EventLoop :=
  ((NewEventLoop 0).SetInterval (Script.clearInterval 1 Script.ret) 5).1

end GoJS

namespace GoJS
open EventLoop TaskQueue

end GoJS

namespace GoJS
open EventLoop TaskQueue

namespace EventLoop

/-- Every task that `Run` popped or called is allocated and is not in the macrotask
queue. -/
def Gone (el : EventLoop) : Prop :=
  ∀ e ∈ el.trace, ∀ p, e.task? = some p →
    p < el.macrotasks.objs.length ∧ p ∉ el.macrotasks.items

/-- Between the two states `Run` neither popped nor called a task. -/
def Quiet (a b : EventLoop) : Prop :=
  ∀ e ∈ b.trace, ∀ p, e.task? = some p → e ∈ a.trace

end EventLoop

end GoJS

namespace GoJS
open EventLoop TaskQueue

/-- A JavaScript value handed to one of the global functions of `setupGlobals` (runtime.go)
in the list `call.Arguments`.  Of an argument only two things are read: whether it is
callable (`goja.AssertFunction`) and its `ToInteger`.  A function is given by the body it
runs when called; the extra arguments that `setTimeout` hands on to the function have no
counterpart in a body and are left out.  A Go `panic` with a JavaScript value is an
exception thrown at the call. -/
inductive Arg where
  /-- a callable object, with the body it runs when called -/
  | function (body : Script) : Arg
  /-- any value that is not callable, with the result of `ToInteger` -/
  | value (toInteger : Int) : Arg

/-- The method `ToInteger` of a value; for a function object it is 0 (`NaN`). -/
def Arg.ToInteger : Arg → Int
  | .function _ => 0
  | .value n => n

/-- How the call of a global function ends. -/
inductive Completion where
  /-- `return goja.Undefined()` -/
  | undefined : Completion
  /-- `return vm.ToValue(id)` -/
  | number (id : Int) : Completion
  /-- `panic(vm.ToValue(message))` -/
  | thrown (message : String) : Completion
  deriving DecidableEq

/-- Arithmetic of `int64`: the result wraps around. -/
def wrap64 (x : Int) : Int := (x + 2 ^ 63) % 2 ^ 64 - 2 ^ 63

/-- The expression `time.Duration(delay)*time.Millisecond`, in nanoseconds. -/
def milliseconds (delay : Int) : Int := wrap64 (wrap64 delay * 1000000)

namespace setupGlobals

/-- The global `queueMicrotask`. -/
def queueMicrotask (loop : EventLoop) (arguments : List Arg) : EventLoop × Completion :=
  match arguments with
  | [] => (loop, Completion.thrown "queueMicrotask requires a function argument")
  | Arg.value _ :: _ => (loop, Completion.thrown "queueMicrotask argument must be a function")
  | Arg.function fn :: _ => (loop.QueueMicrotask fn, Completion.undefined)

/-- The global `setTimeout`. -/
def setTimeout (loop : EventLoop) (arguments : List Arg) : EventLoop × Completion :=
  match arguments with
  | [] => (loop, Completion.thrown "setTimeout requires at least 1 argument")
  | Arg.value _ :: _ => (loop, Completion.thrown "setTimeout first argument must be a function")
  | Arg.function fn :: rest =>
    let delay : Int :=
      match rest with
      | [] => 0
      | d :: _ => d.ToInteger
    let r := loop.SetTimeout fn (milliseconds delay)
    (r.1, Completion.number r.2)

/-- The global `clearTimeout`. -/
def clearTimeout (loop : EventLoop) (arguments : List Arg) : EventLoop × Completion :=
  match arguments with
  | [] => (loop, Completion.undefined)
  | a :: _ => (loop.ClearTimeout (wrap64 a.ToInteger), Completion.undefined)

/-- The global `setInterval`. -/
def setInterval (loop : EventLoop) (arguments : List Arg) : EventLoop × Completion :=
  match arguments with
  | [] => (loop, Completion.thrown "setInterval requires at least 1 argument")
  | Arg.value _ :: _ => (loop, Completion.thrown "setInterval first argument must be a function")
  | Arg.function fn :: rest =>
    let delay : Int :=
      match rest with
      | [] => 0
      | d :: _ => d.ToInteger
    let r := loop.SetInterval fn (milliseconds delay)
    (r.1, Completion.number r.2)

/-- The global `clearInterval`. -/
def clearInterval (loop : EventLoop) (arguments : List Arg) : EventLoop × Completion :=
  match arguments with
  | [] => (loop, Completion.undefined)
  | a :: _ => (loop.ClearInterval (wrap64 a.ToInteger), Completion.undefined)

/-- The global `setImmediate`. -/
def setImmediate (loop : EventLoop) (arguments : List Arg) : EventLoop × Completion :=
  match arguments with
  | [] => (loop, Completion.thrown "setImmediate requires a function argument")
  | Arg.value _ :: _ => (loop, Completion.thrown "setImmediate argument must be a function")
  | Arg.function fn :: _ =>
    let r := loop.SetTimeout fn 0
    (r.1, Completion.number r.2)

end setupGlobals

/-- The call has a first argument and that argument is callable. -/
def firstIsFunction : List Arg → Bool
  | Arg.function _ :: _ => true
  | _ => false

/-- The call threw an exception. -/
def Completion.isThrown : Completion → Bool
  | .thrown _ => true
  | _ => false

/-- The marks that callbacks emitted, in order. -/
def emittedOf (tr : List Event) : List Nat :=
  tr.filterMap (fun e => match e with
    | .emit n => some n
    | _ => none)

end GoJS

namespace GoJS
open EventLoop TaskQueue

namespace EventLoop

/-- From state `a` to state `b` the counter of timer ids did not go back, and no id below
the counter of `a` that was unregistered in `a` is registered in `b`. -/
structure Stale (a b : EventLoop) : Prop where
  timerID : a.timerID ≤ b.timerID
  timers : ∀ id, id < a.timerID → a.timers.get id = none → b.timers.get id = none
  intervals : ∀ id, id < a.timerID → a.intervals.get id = none → b.intervals.get id = none

end EventLoop

end GoJS

namespace GoJS
open EventLoop TaskQueue

/-- The id is stale as a timeout id in state `el`: it was never issued, or `ClearTimeout`
was called for it after it had been issued, or `Run` already popped or called the task
registered under it. -/
def StaleTimeout (sleep : Int → Int → Int) (el : EventLoop) (id : Int) : Prop :=
  (id < 1 ∨ el.timerID ≤ id) ∨
  (∃ el0 : EventLoop, id < el0.timerID ∧ Steps sleep (el0.ClearTimeout id) el) ∨
  (∃ p e, el.timers.get id = some p ∧ e ∈ el.trace ∧ e.task? = some p)

/-- The id is stale as an interval id in state `el`: it was never issued, or `ClearInterval`
was called for it after it had been issued, or `Run` already popped or called the task
registered under it. -/
def StaleInterval (sleep : Int → Int → Int) (el : EventLoop) (id : Int) : Prop :=
  (id < 1 ∨ el.timerID ≤ id) ∨
  (∃ el0 : EventLoop, id < el0.timerID ∧ Steps sleep (el0.ClearInterval id) el) ∨
  (∃ p e, el.intervals.get id = some p ∧ e ∈ el.trace ∧ e.task? = some p)

/-- A call of one of the four timer methods of the loop. -/
inductive TimerCall where
  | setTimeout (callback : Script) (delay : Int) : TimerCall
  | setInterval (callback : Script) (delay : Int) : TimerCall
  | clearTimeout (id : Int) : TimerCall
  | clearInterval (id : Int) : TimerCall

/-- The call returns an id. -/
def TimerCall.issues : TimerCall → Bool
  | .setTimeout _ _ => true
  | .setInterval _ _ => true
  | .clearTimeout _ => false
  | .clearInterval _ => false

/-- The call on the loop: the new state and the id returned, if any. -/
def TimerCall.run : TimerCall → EventLoop → EventLoop × Option Int
  | .setTimeout callback delay, el =>
    ((el.SetTimeout callback delay).1, some (el.SetTimeout callback delay).2)
  | .setInterval callback delay, el =>
    ((el.SetInterval callback delay).1, some (el.SetInterval callback delay).2)
  | .clearTimeout id, el => (el.ClearTimeout id, none)
  | .clearInterval id, el => (el.ClearInterval id, none)

/-- The ids returned by the calls, made one after the other, in order. -/
def issuedBy : List TimerCall → EventLoop → List Int
  | [], _ => []
  | c :: cs, el =>
    match (c.run el).2 with
    | some id => id :: issuedBy cs (c.run el).1
    | none => issuedBy cs (c.run el).1

/-- A new loop with a timeout of 5 ns that ran until idle: the timeout fired and its id 1
is still in `timers`. -/
def firedTimeoutLoop : EventLoop :=
  ((NewEventLoop 0).SetTimeout (Script.emit 1 Script.ret) 5).1.afterRun exactSleep 10 10

end GoJS

namespace GoJS

/-- A loop on which `SetInterval` was called once, at time 0 with the delay 5, for a
callback that emits the mark 7 and then raises. -/
def raisingIntervalLoop : EventLoop :=
  ((NewEventLoop 0).SetInterval (Script.emit 7 Script.raise) 5).1

/-- The same loop for a callback that emits the mark 7 and returns. -/
def returningIntervalLoop : EventLoop :=
  ((NewEventLoop 0).SetInterval (Script.emit 7 Script.ret) 5).1

/-- How a call of `Runtime.Eval` ends: with a value, with the error of the line, or not at
all because a microtask raised and nothing recovers. -/
inductive EvalResult where
  | value : EvalResult
  | error : EvalResult
  | raised : EvalResult
  deriving DecidableEq

/-- The method `Runtime.Eval`.  The line `code` is a `Script`: the calls of the event loop
that `rt.VM.RunString(code)` makes, ending in `ret` when `RunString` returns a value and in
`raise` when it returns an error.  `none`: the fuel of `processMicrotasks` ran out. -/
def Runtime.Eval (fuel : Nat) (el : EventLoop) (code : Script) : Option (EventLoop × EvalResult) :=
  let r := code.run el
  if r.2 = false then some (r.1, EvalResult.error)
  else
    match r.1.processMicrotasks fuel with
    | none => none
    | some (el1, true) => some (el1, EvalResult.value)
    | some (el1, false) => some (el1, EvalResult.raised)

/-- The line `queueMicrotask(() => console.log(1)); throw ...`. -/
def throwingLine : Script :=
  Script.queueMicrotask (Script.emit 1 Script.ret) Script.raise

/-- The line `queueMicrotask(() => console.log(1))`. -/
def returningLine : Script :=
  Script.queueMicrotask (Script.emit 1 Script.ret) Script.ret

end GoJS

namespace GoJS
open EventLoop TaskQueue

/-- The assignment `p.Callback = cb` through the pointer `p`.  No operation of the loop
makes it; it serves to compare a loop with the loop in which one task has another
callback. -/
def TaskQueue.setCallback (tq : TaskQueue) (p : Nat) (cb : Callback) : TaskQueue :=
  { tq with objs := tq.objs.modify (fun t => { t with Callback := cb }) p }

end GoJS

namespace GoJS
namespace JS

/-- JavaScript values, as far as the Promise implementation tells them apart. -/
inductive Value where
  | undefined : Value
  | null : Value
  | bool (b : Bool) : Value
  | num (n : Int) : Value
  | str (s : String) : Value
  /-- an `Error` object such as a `TypeError`; it has no `then` member -/
  | error (msg : String) : Value
  /-- an instance of `Promise`, by its address -/
  | promise (p : Nat) : Value
  /-- any other object or function, by its address in `World.objects` -/
  | object (o : Nat) : Value
  | array (vs : List Value) : Value
  /-- a descriptor of `Promise.allSettled`: `{status: 'fulfilled', value}` when the flag is
  set, `{status: 'rejected', reason}` otherwise -/
  | settled (fulfilled : Bool) (v : Value) : Value

instance : Inhabited Value := ⟨Value.undefined⟩

/-- The test `value && (typeof value === 'object' || typeof value === 'function')`. -/
def Value.isObject : Value → Bool
  | .error _ => true
  | .promise _ => true
  | .object _ => true
  | .array _ => true
  | .settled _ _ => true
  | _ => false

/-- The test `value === this` for the promise at address `p`. -/
def Value.isPromise (p : Nat) : Value → Bool
  | .promise q => q == p
  | _ => false

/-- The constant `PromiseState`. -/
inductive PromiseState where
  | PENDING : PromiseState
  | FULFILLED : PromiseState
  | REJECTED : PromiseState
  deriving DecidableEq

/-- The closures that the implementation itself creates. -/
inductive Native where
  /-- `(value) => this._resolve(value)`, handed to the executor of promise `p` -/
  | resolveFn (p : Nat) : Native
  /-- `(reason) => this._reject(reason)` -/
  | rejectFn (p : Nat) : Native
  /-- `(result) => { if (called) return; called = true; this._resolve(result) }`, where
  `called` is the variable at address `c` -/
  | adoptResolve (p : Nat) (c : Nat) : Native
  /-- `(error) => { if (called) return; called = true; this._reject(error) }` -/
  | adoptReject (p : Nat) (c : Nat) : Native
  /-- `() => value` -/
  | constant (value : Value) : Native
  /-- `() => { throw reason }` -/
  | thrower (reason : Value) : Native
  /-- the fulfilment handler of `Promise.all` for `index`; `ctx` holds `remaining`,
  `results` and the result promise -/
  | allFulfilled (ctx : Nat) (index : Nat) : Native
  /-- `(error) => { reject(error) }` of `Promise.all` -/
  | allRejected (p : Nat) : Native
  /-- the fulfilment handler of `Promise.allSettled` for `index` -/
  | settledFulfilled (ctx : Nat) (index : Nat) : Native
  /-- the rejection handler of `Promise.allSettled` for `index` -/
  | settledRejected (ctx : Nat) (index : Nat) : Native

mutual

/-- Function values: a closure of the implementation, a function of user code given by
its body, or one of the two closures of `finally` around the user's `onFinally`. -/
inductive Fn where
  | native (n : Native) : Fn
  /-- a function of user code with one parameter -/
  | user (body : Value → Code) : Fn
  /-- `(value) => Promise.resolve(onFinally()).then(() => value)` of `finally` -/
  | finallyValue (onFinally : Option Fn) : Fn
  /-- `(reason) => Promise.resolve(onFinally()).then(() => { throw reason })` of `finally` -/
  | finallyReason (onFinally : Option Fn) : Fn

/-- The body of a function of user code: what it calls, and how it ends. -/
inductive Code where
  | ret (v : Value) : Code
  | raise (e : Value) : Code
  /-- `r = f(arg)` -/
  | call (f : Fn) (arg : Value) (k : Value → Code) : Code
  /-- `p = new Promise(executor)`; `none` stands for an executor that is not a function -/
  | construct (executor : Option (Native → Native → Code)) (k : Value → Code) : Code
  /-- `q = p.then(onFulfilled, onRejected)`; `none` stands for an argument that is not a
  function -/
  | then_ (p : Nat) (onFulfilled onRejected : Option Fn) (k : Value → Code) : Code
  /-- `q = p.catch(onRejected)` -/
  | catch_ (p : Nat) (onRejected : Option Fn) (k : Value → Code) : Code
  /-- `q = p.finally(onFinally)` -/
  | finally_ (p : Nat) (onFinally : Option Fn) (k : Value → Code) : Code
  /-- `q = Promise.resolve(value)` -/
  | resolve (value : Value) (k : Value → Code) : Code
  /-- `q = Promise.reject(reason)` -/
  | reject (reason : Value) (k : Value → Code) : Code
  /-- `q = Promise.all(promises)` -/
  | all (promises : Value) (k : Value → Code) : Code
  /-- `q = Promise.race(promises)` -/
  | race (promises : Value) (k : Value → Code) : Code
  /-- `q = Promise.allSettled(promises)` -/
  | allSettled (promises : Value) (k : Value → Code) : Code
  /-- `p._resolve(value)` -/
  | _resolve (p : Nat) (value : Value) (k : Code) : Code
  /-- `p._reject(reason)` -/
  | _reject (p : Nat) (reason : Value) (k : Code) : Code

end

/-- An entry of `_handlers`. -/
structure Handler where
  onFulfilled : Option Fn
  onRejected : Option Fn
  resolve : Fn
  reject : Fn

/-- The fields of a `Promise` instance. -/
structure PromiseObj where
  _state : PromiseState
  _value : Value
  _handlers : List Handler

instance : Inhabited PromiseObj := ⟨⟨PromiseState.PENDING, Value.undefined, []⟩⟩

/-- The variables shared by the handlers of one `Promise.all` or `Promise.allSettled`
call: `remaining`, `results`, and the promise that `resolve` settles. -/
structure Ctx where
  remaining : Int
  results : List Value
  target : Nat

instance : Inhabited Ctx := ⟨⟨0, [], 0⟩⟩

/-- An object that is not a `Promise`: what reading its `then` member does (`getter`;
if it raises, the read raises) and what the member is when the read succeeds: a function
called with the two callbacks, or `none` for anything that is not a function. -/
structure Thenable where
  getter : Code
  member : Option (Native → Native → Code)

instance : Inhabited Thenable := ⟨⟨Code.ret Value.undefined, none⟩⟩

/-- The state of the JavaScript side. -/
structure World where
  promises : List PromiseObj
  /-- the `called` variables of the thenable adoptions -/
  called : List Bool
  ctxs : List Ctx
  /-- the closures handed to `queueMicrotask` by `_executeHandlers`: `this` and `handler` -/
  microtasks : List (Nat × Handler)
  objects : List Thenable
  /-- history: every assignment to `_state` and `_value`, in order -/
  writes : List (Nat × PromiseState × Value)

namespace World

def get (w : World) (p : Nat) : PromiseObj := w.promises.getD p default

def modify (w : World) (p : Nat) (f : PromiseObj → PromiseObj) : World :=
  { w with promises := w.promises.modify f p }

/-- The allocation of a `Promise` instance by the constructor: `_state = PENDING`,
`_value = undefined`, `_handlers = []`. -/
def alloc (w : World) : World × Nat :=
  ({ w with promises := w.promises ++ [⟨PromiseState.PENDING, Value.undefined, []⟩] },
    w.promises.length)

end World

/-- The method `Promise.prototype._executeHandlers`. -/
def Promise._executeHandlers (w : World) (p : Nat) : World :=
  if (w.get p)._state = PromiseState.PENDING then w
  else
    let w1 : World := { w with microtasks := w.microtasks ++ (w.get p)._handlers.map (fun h => (p, h)) }
    w1.modify p (fun o => { o with _handlers := [] })

/-- The assignments `this._state = s; this._value = v` followed by
`this._executeHandlers()`. -/
def Promise.settle (w : World) (p : Nat) (s : PromiseState) (v : Value) : World :=
  let w1 := w.modify p (fun o => { o with _state := s, _value := v })
  Promise._executeHandlers { w1 with writes := w1.writes ++ [(p, s, v)] } p

/-- The method `Promise.prototype._reject`. -/
def Promise._reject (w : World) (p : Nat) (reason : Value) : World :=
  if (w.get p)._state ≠ PromiseState.PENDING then w
  else Promise.settle w p PromiseState.REJECTED reason

/-- The method `Promise.prototype.then`: a new promise whose executor pushes the handler
on `this._handlers` and calls `this._executeHandlers()`. -/
def Promise.then_ (w : World) (p : Nat) (onFulfilled onRejected : Option Fn) : World × Nat :=
  let a := w.alloc
  let q := a.2
  let w1 := a.1.modify p (fun o =>
    { o with _handlers := o._handlers ++
      [⟨onFulfilled, onRejected, Fn.native (Native.resolveFn q), Fn.native (Native.rejectFn q)⟩] })
  (Promise._executeHandlers w1 p, q)

/-- The method `Promise.prototype.catch`. -/
def Promise.catch_ (w : World) (p : Nat) (onRejected : Option Fn) : World × Nat :=
  Promise.then_ w p none onRejected

/-- The method `Promise.prototype.finally`. -/
def Promise.finally_ (w : World) (p : Nat) (onFinally : Option Fn) : World × Nat :=
  Promise.then_ w p (some (Fn.finallyValue onFinally)) (some (Fn.finallyReason onFinally))

/-- The function `Promise.reject`. -/
def Promise.reject (w : World) (reason : Value) : World × Nat :=
  let a := w.alloc
  (Promise._reject a.1 a.2 reason, a.2)

/-- The result of running code: the value returned or the error raised. -/
abbrev Outcome := Except Value Value

mutual

/-- The method `Promise.prototype._resolve`; `none` when the fuel runs out. -/
def Promise._resolve : Nat → World → Nat → Value → Option World
  | 0, _, _, _ => none
  | fuel + 1, w, p, value =>
    if (w.get p)._state ≠ PromiseState.PENDING then some w
    else if value.isPromise p then
      some (Promise._reject w p (Value.error "Cannot resolve promise with itself"))
    else
      match value with
      | .promise p' =>
        -- `value.then` is `Promise.prototype.then`
        let c := w.called.length
        let w1 : World := { w with called := w.called ++ [false] }
        some (Promise.then_ w1 p' (some (Fn.native (Native.adoptResolve p c)))
          (some (Fn.native (Native.adoptReject p c)))).1
      | .object o =>
        match exec fuel w (w.objects.getD o default).getter with
        | none => none
        | some (w1, .error e) => some (Promise._reject w1 p e)
        | some (w1, .ok _) =>
          match (w.objects.getD o default).member with
          | some body =>
            let c := w1.called.length
            let w2 : World := { w1 with called := w1.called ++ [false] }
            match exec fuel w2 (body (Native.adoptResolve p c) (Native.adoptReject p c)) with
            | none => none
            | some (w3, .error e) =>
              if w3.called.getD c false then some w3 else some (Promise._reject w3 p e)
            | some (w3, .ok _) => some w3
          | none => some (Promise.settle w1 p PromiseState.FULFILLED value)
      | _ => some (Promise.settle w p PromiseState.FULFILLED value)

/-- The function `Promise.resolve`. -/
def Promise.resolve : Nat → World → Value → Option (World × Nat)
  | 0, _, _ => none
  | fuel + 1, w, value =>
    match value with
    | .promise p => some (w, p)
    | _ =>
      let a := w.alloc
      match Promise._resolve fuel a.1 a.2 value with
      | none => none
      | some w1 => some (w1, a.2)

/-- The call `f(arg)` of a function value. -/
def call : Nat → World → Fn → Value → Option (World × Outcome)
  | 0, _, _, _ => none
  | fuel + 1, w, f, arg =>
    match f with
    | .native (.resolveFn p) =>
      (Promise._resolve fuel w p arg).map (fun w1 => (w1, .ok Value.undefined))
    | .native (.rejectFn p) => some (Promise._reject w p arg, .ok Value.undefined)
    | .native (.adoptResolve p c) =>
      if w.called.getD c false then some (w, .ok Value.undefined)
      else
        (Promise._resolve fuel { w with called := w.called.set c true } p arg).map
          (fun w1 => (w1, .ok Value.undefined))
    | .native (.adoptReject p c) =>
      if w.called.getD c false then some (w, .ok Value.undefined)
      else some (Promise._reject { w with called := w.called.set c true } p arg, .ok Value.undefined)
    | .native (.constant value) => some (w, .ok value)
    | .native (.thrower reason) => some (w, .error reason)
    | .native (.allFulfilled ctx index) =>
      let c := w.ctxs.getD ctx default
      let c1 : Ctx := { c with results := c.results.set index arg, remaining := c.remaining - 1 }
      let w1 : World := { w with ctxs := w.ctxs.set ctx c1 }
      if c1.remaining = 0 then
        (Promise._resolve fuel w1 c1.target (Value.array c1.results)).map
          (fun w2 => (w2, .ok Value.undefined))
      else some (w1, .ok Value.undefined)
    | .native (.allRejected p) => some (Promise._reject w p arg, .ok Value.undefined)
    | .native (.settledFulfilled ctx index) =>
      let c := w.ctxs.getD ctx default
      let c1 : Ctx :=
        { c with results := c.results.set index (Value.settled true arg), remaining := c.remaining - 1 }
      let w1 : World := { w with ctxs := w.ctxs.set ctx c1 }
      if c1.remaining = 0 then
        (Promise._resolve fuel w1 c1.target (Value.array c1.results)).map
          (fun w2 => (w2, .ok Value.undefined))
      else some (w1, .ok Value.undefined)
    | .native (.settledRejected ctx index) =>
      let c := w.ctxs.getD ctx default
      let c1 : Ctx :=
        { c with results := c.results.set index (Value.settled false arg), remaining := c.remaining - 1 }
      let w1 : World := { w with ctxs := w.ctxs.set ctx c1 }
      if c1.remaining = 0 then
        (Promise._resolve fuel w1 c1.target (Value.array c1.results)).map
          (fun w2 => (w2, .ok Value.undefined))
      else some (w1, .ok Value.undefined)
    | .user body => exec fuel w (body arg)
    | .finallyValue onFinally =>
      match onFinally with
      | none => some (w, .error (Value.error "onFinally is not a function"))
      | some g =>
        match call fuel w g Value.undefined with
        | none => none
        | some (w1, .error e) => some (w1, .error e)
        | some (w1, .ok r) =>
          match Promise.resolve fuel w1 r with
          | none => none
          | some (w2, q) =>
            let t := Promise.then_ w2 q (some (Fn.native (Native.constant arg))) none
            some (t.1, .ok (Value.promise t.2))
    | .finallyReason onFinally =>
      match onFinally with
      | none => some (w, .error (Value.error "onFinally is not a function"))
      | some g =>
        match call fuel w g Value.undefined with
        | none => none
        | some (w1, .error e) => some (w1, .error e)
        | some (w1, .ok r) =>
          match Promise.resolve fuel w1 r with
          | none => none
          | some (w2, q) =>
            let t := Promise.then_ w2 q (some (Fn.native (Native.thrower arg))) none
            some (t.1, .ok (Value.promise t.2))

/-- The loop `promises.forEach((promise, index) => Promise.resolve(promise).then(...))` of
the combinators, from `index` on; `handlers index` are the two arguments of `then`. -/
def forEach : Nat → World → List Value → Nat → (Nat → Option Fn × Option Fn) → Option World
  | 0, _, _, _, _ => none
  | _ + 1, w, [], _, _ => some w
  | fuel + 1, w, promise :: rest, index, handlers =>
    match Promise.resolve fuel w promise with
    | none => none
    | some (w1, q) =>
      forEach fuel (Promise.then_ w1 q (handlers index).1 (handlers index).2).1 rest (index + 1)
        handlers

/-- The function `Promise.all`. -/
def Promise.all : Nat → World → Value → Option (World × Nat)
  | 0, _, _ => none
  | fuel + 1, w, promises =>
    let a := w.alloc
    match promises with
    | .array vs =>
      if vs.length = 0 then
        (Promise._resolve fuel a.1 a.2 (Value.array [])).map (fun w1 => (w1, a.2))
      else
        let ctx := a.1.ctxs.length
        let w1 : World :=
          { a.1 with ctxs := a.1.ctxs ++ [⟨vs.length, List.replicate vs.length Value.undefined, a.2⟩] }
        (forEach fuel w1 vs 0
          (fun index => (some (Fn.native (Native.allFulfilled ctx index)),
            some (Fn.native (Native.allRejected a.2))))).map
          (fun w2 => (w2, a.2))
    | _ => some (Promise._reject a.1 a.2 (Value.error "Promise.all expects an array"), a.2)

/-- The function `Promise.race`. -/
def Promise.race : Nat → World → Value → Option (World × Nat)
  | 0, _, _ => none
  | fuel + 1, w, promises =>
    let a := w.alloc
    match promises with
    | .array vs =>
      (forEach fuel a.1 vs 0
        (fun _ => (some (Fn.native (Native.resolveFn a.2)), some (Fn.native (Native.rejectFn a.2))))).map (fun w2 => (w2, a.2))
    | _ => some (Promise._reject a.1 a.2 (Value.error "Promise.race expects an array"), a.2)

/-- The function `Promise.allSettled`. -/
def Promise.allSettled : Nat → World → Value → Option (World × Nat)
  | 0, _, _ => none
  | fuel + 1, w, promises =>
    let a := w.alloc
    match promises with
    | .array vs =>
      if vs.length = 0 then
        (Promise._resolve fuel a.1 a.2 (Value.array [])).map (fun w1 => (w1, a.2))
      else
        let ctx := a.1.ctxs.length
        let w1 : World :=
          { a.1 with ctxs := a.1.ctxs ++ [⟨vs.length, List.replicate vs.length Value.undefined, a.2⟩] }
        (forEach fuel w1 vs 0
          (fun index => (some (Fn.native (Native.settledFulfilled ctx index)),
            some (Fn.native (Native.settledRejected ctx index))))).map
          (fun w2 => (w2, a.2))
    | _ => (Promise._resolve fuel a.1 a.2 (Value.array [])).map (fun w1 => (w1, a.2))

/-- Execution of a body of user code. -/
def exec : Nat → World → Code → Option (World × Outcome)
  | 0, _, _ => none
  | fuel + 1, w, code =>
    match code with
    | .ret v => some (w, .ok v)
    | .raise e => some (w, .error e)
    | .call f arg k =>
      match call fuel w f arg with
      | none => none
      | some (w1, .error e) => some (w1, .error e)
      | some (w1, .ok r) => exec fuel w1 (k r)
    | .construct executor k =>
      match executor with
      | none => some (w, .error (Value.error "Promise executor must be a function"))
      | some body =>
        let a := w.alloc
        match exec fuel a.1 (body (Native.resolveFn a.2) (Native.rejectFn a.2)) with
        | none => none
        | some (w1, .error e) => exec fuel (Promise._reject w1 a.2 e) (k (Value.promise a.2))
        | some (w1, .ok _) => exec fuel w1 (k (Value.promise a.2))
    | .then_ p onFulfilled onRejected k =>
      let t := Promise.then_ w p onFulfilled onRejected
      exec fuel t.1 (k (Value.promise t.2))
    | .catch_ p onRejected k =>
      let t := Promise.catch_ w p onRejected
      exec fuel t.1 (k (Value.promise t.2))
    | .finally_ p onFinally k =>
      let t := Promise.finally_ w p onFinally
      exec fuel t.1 (k (Value.promise t.2))
    | .resolve value k =>
      match Promise.resolve fuel w value with
      | none => none
      | some (w1, q) => exec fuel w1 (k (Value.promise q))
    | .reject reason k =>
      let t := Promise.reject w reason
      exec fuel t.1 (k (Value.promise t.2))
    | .all promises k =>
      match Promise.all fuel w promises with
      | none => none
      | some (w1, q) => exec fuel w1 (k (Value.promise q))
    | .race promises k =>
      match Promise.race fuel w promises with
      | none => none
      | some (w1, q) => exec fuel w1 (k (Value.promise q))
    | .allSettled promises k =>
      match Promise.allSettled fuel w promises with
      | none => none
      | some (w1, q) => exec fuel w1 (k (Value.promise q))
    | ._resolve p value k =>
      match Promise._resolve fuel w p value with
      | none => none
      | some w1 => exec fuel w1 k
    | ._reject p reason k => exec fuel (Promise._reject w p reason) k

end

/-- The closure `() => { ... }` that `_executeHandlers` hands to `queueMicrotask` for
`handler` of promise `p`.  An error that leaves the closure is dropped by the caller. -/
def runReaction (fuel : Nat) (w : World) (p : Nat) (handler : Handler) : Option World :=
  match (w.get p)._state with
  | .FULFILLED =>
    match handler.onFulfilled with
    | some f =>
      match call fuel w f (w.get p)._value with
      | none => none
      | some (w1, .ok result) =>
        match call fuel w1 handler.resolve result with
        | none => none
        | some (w2, .ok _) => some w2
        | some (w2, .error e) => (call fuel w2 handler.reject e).map (fun r => r.1)
      | some (w1, .error e) => (call fuel w1 handler.reject e).map (fun r => r.1)
    | none => (call fuel w handler.resolve (w.get p)._value).map (fun r => r.1)
  | .REJECTED =>
    match handler.onRejected with
    | some f =>
      match call fuel w f (w.get p)._value with
      | none => none
      | some (w1, .ok result) =>
        match call fuel w1 handler.resolve result with
        | none => none
        | some (w2, .ok _) => some w2
        | some (w2, .error e) => (call fuel w2 handler.reject e).map (fun r => r.1)
      | some (w1, .error e) => (call fuel w1 handler.reject e).map (fun r => r.1)
    | none => (call fuel w handler.reject (w.get p)._value).map (fun r => r.1)
  | .PENDING => some w

/-- The drain of the microtask queue (`processMicrotasks` of the event loop), seen from
the JavaScript side: the queued reactions run in order until the queue is empty. -/
def processMicrotasks : Nat → World → Option World
  | 0, _ => none
  | fuel + 1, w =>
    match w.microtasks with
    | [] => some w
    | (p, handler) :: rest =>
      match runReaction fuel { w with microtasks := rest } p handler with
      | none => none
      | some w1 => processMicrotasks fuel w1

/-- A world with nothing in it but the given objects. -/
def World.init (objects : List Thenable) : World :=
  { promises := [], called := [], ctxs := [], microtasks := [], objects := objects, writes := [] }

end JS
end GoJS

namespace GoJS
namespace JS

/-- A value without a callable `then` member whose `then` can be read without effect:
anything but a promise, and of the other objects those whose getter just returns and whose
member is not a function. -/
def NonThenable (w : World) : Value → Prop
  | .promise _ => False
  | .object o =>
    (∃ r, (w.objects.getD o default).getter = Code.ret r) ∧ (w.objects.getD o default).member = none
  | _ => True

/-- An object whose `then` getter calls the `resolve` function of promise 0 with `1` and
returns something that is not a function. -/
def reentrantGetter : Thenable :=
  ⟨Code.call (Fn.native (Native.resolveFn 0)) (Value.num 1) (fun _ => Code.ret Value.undefined), none⟩

end JS
end GoJS

namespace GoJS
namespace JS

end JS
end GoJS

namespace GoJS
namespace JS

/-- One thing that happens after a combinator was called: somebody calls the `resolve`
function of the promise `p` with `v`, or its `reject` function with `e`, or
`processMicrotasks` runs the next microtask. -/
inductive Act where
  | fulfil (p : Nat) (v : Value) : Act
  | reject (p : Nat) (e : Value) : Act
  | react : Act

/-- The effect of an action. -/
def Act.run (fuel : Nat) (w : World) : Act → Option World
  | .fulfil p v => (call fuel w (Fn.native (Native.resolveFn p)) v).map (fun r => r.1)
  | .reject p e => (call fuel w (Fn.native (Native.rejectFn p)) e).map (fun r => r.1)
  | .react =>
    match w.microtasks with
    | [] => some w
    | (p, handler) :: rest => runReaction fuel { w with microtasks := rest } p handler

/-- What an action adds to the record of the reactions: for a reaction that runs, the
state and the value of the promise it was registered on. -/
def Act.entry (w : World) : Act → List (PromiseState × Value)
  | .react =>
    match w.microtasks with
    | [] => []
    | (p, _) :: _ => [((w.get p)._state, (w.get p)._value)]
  | _ => []

/-- A sequence of actions: the final world and the record of the reactions that ran. -/
def runActs (fuel : Nat) : World → List Act → Option (World × List (PromiseState × Value))
  | w, [] => some (w, [])
  | w, a :: rest =>
    match a.run fuel w with
    | none => none
    | some w1 => (runActs fuel w1 rest).map (fun r => (r.1, a.entry w ++ r.2))

/-- An input that a combinator can be given here: a promise that exists and on which no
reaction is registered, or a value that is not thenable. -/
def InputOK (w : World) : Value → Prop
  | .promise p => p < w.promises.length ∧ (w.get p)._handlers = []
  | v => NonThenable w v

/-- The state of an input and its value or reason: those of the promise, and for a value
that is not a promise, fulfilled with the value itself. -/
def inputState (w : World) : Value → PromiseState × Value
  | .promise p => ((w.get p)._state, (w.get p)._value)
  | v => (PromiseState.FULFILLED, v)

/-- The actions considered after a combinator was called on `vs` in the world `w`: the
inputs are settled through their own `resolve` and `reject` functions, fulfilled with
values that are not thenable, and the microtasks run. -/
def Act.Admissible (w : World) (vs : List Value) : Act → Prop
  | .fulfil p v => Value.promise p ∈ vs ∧ NonThenable w v
  | .reject p _ => Value.promise p ∈ vs
  | .react => True

/-- The reason of the first rejection in a record of reactions. -/
def firstRejected (log : List (PromiseState × Value)) : Option Value :=
  (log.find? (fun e => decide (e.1 = PromiseState.REJECTED))).map (fun e => e.2)

/-- The reaction that the combinator registers for the input of index `i`: the two
handlers `H i` and the functions of the derived promise `ds[i]`. -/
def hnd (H : Nat → Fn × Fn) (ds : List Nat) (i : Nat) : Handler :=
  ⟨some (H i).1, some (H i).2, Fn.native (Native.resolveFn (ds.getD i 0)),
    Fn.native (Native.rejectFn (ds.getD i 0))⟩

/-- The world `w1` differs from `w` at most in the promise `r`, whose state changed only
if it was pending, and in the variables of the combinators. -/
structure Frame (r : Nat) (w w1 : World) : Prop where
  micro : w1.microtasks = w.microtasks
  len : w1.promises.length = w.promises.length
  other : ∀ p, p ≠ r → w1.get p = w.get p
  handlers : (w1.get r)._handlers = []
  keep : (w.get r)._state ≠ PromiseState.PENDING → w1.get r = w.get r
  objects : w1.objects = w.objects

/-- The reactions of a combinator call: `qs[i]` is the promise on which the reaction of
index `i` is registered, `ds[i]` the promise derived by that `then`, `r` the result
promise, and `queue` the indices whose reaction is in the microtask queue, in order.  The
reaction of an index is in the handlers of its promise while that one is pending, then in
the microtask queue, and nothing else is registered or queued. -/
structure Wired (H : Nat → Fn × Fn) (r : Nat) (qs ds queue : List Nat) (w : World) : Prop where
  len : ds.length = qs.length
  micro : w.microtasks = queue.map (fun i => (qs.getD i 0, hnd H ds i))
  qnodup : queue.Nodup
  qlt : ∀ i ∈ queue, i < qs.length
  qsettled : ∀ i ∈ queue, (w.get (qs.getD i 0))._state ≠ PromiseState.PENDING
  waiting : ∀ p ∈ qs, (w.get p)._handlers =
    if (w.get p)._state = PromiseState.PENDING then
      ((List.range qs.length).filter (fun i => decide (qs.getD i 0 = p))).map (hnd H ds)
    else []
  qbound : ∀ p ∈ qs, p < w.promises.length
  dbound : ∀ d ∈ ds, d < w.promises.length
  dhandlers : ∀ d ∈ ds, (w.get d)._handlers = []
  dq : ∀ d ∈ ds, d ∉ qs
  rbound : r < w.promises.length
  rhandlers : (w.get r)._handlers = []
  rq : r ∉ qs
  rd : r ∉ ds

/-- The inputs `vs` and the promises `qs` on which the reactions are registered: an input
that is a promise is that promise; for any other input it is a promise made by
`Promise.resolve`, fulfilled with the input. -/
def Sourced (vs : List Value) (qs : List Nat) (w : World) : Prop :=
  qs.length = vs.length ∧
  ∀ i, i < vs.length →
    vs.getD i Value.undefined = Value.promise (qs.getD i 0) ∨
    ((∀ p, vs.getD i Value.undefined ≠ Value.promise p) ∧
      (w.get (qs.getD i 0))._state = PromiseState.FULFILLED ∧
      (w.get (qs.getD i 0))._value = vs.getD i Value.undefined)

/-- The reaction of index `i` has run. -/
def reacted (qs queue : List Nat) (w : World) (i : Nat) : Prop :=
  i < qs.length ∧ i ∉ queue ∧ (w.get (qs.getD i 0))._state ≠ PromiseState.PENDING

instance (qs queue : List Nat) (w : World) (i : Nat) : Decidable (reacted qs queue w i) := by
  unfold reacted
  infer_instance

/-- The indices registered on the promise `p`. -/
def indicesOf (qs : List Nat) (p : Nat) : List Nat :=
  (List.range qs.length).filter (fun i => decide (qs.getD i 0 = p))

end JS
end GoJS

namespace GoJS
namespace JS

/-- The state of the registrations while the loop `promises.forEach` of a combinator runs:
`pre` are the inputs dealt with so far, `winit` is the world in which the loop started, and
`r`, the result promise, is the last promise made before the loop. -/
structure Built (H : Nat → Fn × Fn) (r : Nat) (winit : World) (pre : List Value)
    (qs ds queue : List Nat) (w : World) : Prop where
  wired : Wired H r qs ds queue w
  sourced : Sourced pre qs w
  fresh : ∀ p, p < r → p ∉ qs → (w.get p)._handlers = (winit.get p)._handlers
  state : ∀ p, p < r → (w.get p)._state = (winit.get p)._state ∧
    (w.get p)._value = (winit.get p)._value
  objects : w.objects = winit.objects
  ctxs : w.ctxs = winit.ctxs
  result : w.get r = winit.get r
  unreacted : ∀ i, i < qs.length → (w.get (qs.getD i 0))._state ≠ PromiseState.PENDING →
    i ∈ queue
  dgt : ∀ d ∈ ds, r < d

end JS
end GoJS

namespace GoJS
namespace JS

/-- The two handlers that `Promise.all` hands to `then` for the input of index `i`. -/
def allHandlers (ctx r : Nat) (i : Nat) : Fn × Fn :=
  (Fn.native (Native.allFulfilled ctx i), Fn.native (Native.allRejected r))

/-- No reaction has run on a rejected promise. -/
def NoRejection (qs queue : List Nat) (w : World) : Prop :=
  ∀ i, reacted qs queue w i → (w.get (qs.getD i 0))._state = PromiseState.FULFILLED

/-- The reaction of index `i` has run, on a fulfilled promise. -/
def ranFulfilled (qs queue : List Nat) (w : World) (i : Nat) : Bool :=
  decide (reacted qs queue w i ∧ (w.get (qs.getD i 0))._state = PromiseState.FULFILLED)

/-- The state of a call of `Promise.all` on the inputs `vs`: the variable `remaining` counts
the inputs whose fulfilment has not been seen, `results` holds the values seen, and the
result promise `r` is pending until either all fulfilments or one rejection have been seen. -/
structure AllInv (vs : List Value) (ctx r : Nat) (qs ds queue : List Nat) (w : World) : Prop where
  wired : Wired (allHandlers ctx r) r qs ds queue w
  sourced : Sourced vs qs w
  ctxlt : ctx < w.ctxs.length
  target : (w.ctxs.getD ctx default).target = r
  rlen : (w.ctxs.getD ctx default).results.length = vs.length
  count : (w.ctxs.getD ctx default).remaining =
    (vs.length : Int) - (((List.range vs.length).filter (ranFulfilled qs queue w)).length : Int)
  filled : ∀ i, i < vs.length → ranFulfilled qs queue w i = true →
    (w.ctxs.getD ctx default).results.getD i Value.undefined = (w.get (qs.getD i 0))._value
  outcome : NoRejection qs queue w →
    ((w.ctxs.getD ctx default).remaining ≠ 0 → (w.get r)._state = PromiseState.PENDING) ∧
    ((w.ctxs.getD ctx default).remaining = 0 → (w.get r)._state = PromiseState.FULFILLED ∧
      (w.get r)._value = Value.array (w.ctxs.getD ctx default).results)
  rejected : ¬ NoRejection qs queue w → (w.get r)._state = PromiseState.REJECTED

end JS
end GoJS

namespace GoJS
namespace JS

/-- Two pending promises on which nothing is registered. -/
def twoPending : World :=
  { World.init [] with
    promises := [⟨PromiseState.PENDING, Value.undefined, []⟩,
      ⟨PromiseState.PENDING, Value.undefined, []⟩] }

end JS
end GoJS

namespace GoJS
namespace JS

end JS
end GoJS

namespace GoJS
namespace JS

/-- The two handlers that `Promise.allSettled` hands to `then` for the input of index `i`. -/
def settledHandlers (ctx : Nat) (i : Nat) : Fn × Fn :=
  (Fn.native (Native.settledFulfilled ctx i), Fn.native (Native.settledRejected ctx i))

/-- The descriptor of an outcome: `{status: 'fulfilled', value}` for a fulfilment and
`{status: 'rejected', reason}` otherwise. -/
def descriptor (o : PromiseState × Value) : Value :=
  Value.settled (decide (o.1 = PromiseState.FULFILLED)) o.2

/-- The reaction of index `i` has run. -/
def ran (qs queue : List Nat) (w : World) (i : Nat) : Bool :=
  decide (reacted qs queue w i)

/-- The state of a call of `Promise.allSettled` on the inputs `vs`: the variable
`remaining` counts the inputs whose settlement has not been seen, `results` holds the
descriptors of those seen, and the result promise `r` is pending until all have been seen. -/
structure SettledInv (vs : List Value) (ctx r : Nat) (qs ds queue : List Nat) (w : World) :
    Prop where
  wired : Wired (settledHandlers ctx) r qs ds queue w
  sourced : Sourced vs qs w
  ctxlt : ctx < w.ctxs.length
  target : (w.ctxs.getD ctx default).target = r
  rlen : (w.ctxs.getD ctx default).results.length = vs.length
  count : (w.ctxs.getD ctx default).remaining =
    (vs.length : Int) - (((List.range vs.length).filter (ran qs queue w)).length : Int)
  filled : ∀ i, i < vs.length → reacted qs queue w i →
    (w.ctxs.getD ctx default).results.getD i Value.undefined =
      descriptor ((w.get (qs.getD i 0))._state, (w.get (qs.getD i 0))._value)
  outcome :
    ((w.ctxs.getD ctx default).remaining ≠ 0 → (w.get r)._state = PromiseState.PENDING) ∧
    ((w.ctxs.getD ctx default).remaining = 0 → (w.get r)._state = PromiseState.FULFILLED ∧
      (w.get r)._value = Value.array (w.ctxs.getD ctx default).results)

end JS
end GoJS

namespace GoJS
namespace JS

/-- The reaction by which the promise `n` adopts the state of a promise it was resolved
with; `c` is the variable `called` and `u` the promise derived by that `then`. -/
def adoptHandler (n c u : Nat) : Handler :=
  ⟨some (Fn.native (Native.adoptResolve n c)), some (Fn.native (Native.adoptReject n c)),
    Fn.native (Native.resolveFn u), Fn.native (Native.rejectFn u)⟩

end JS
end GoJS

namespace GoJS
namespace JS

end JS
end GoJS

namespace GoJS
namespace JS

end JS
end GoJS

namespace GoJS
namespace JS

/-- From `w` to `w1` no `called` variable is lost and none that is set is reset. -/
def FlagsKept (w w1 : World) : Prop :=
  w.called.length ≤ w1.called.length ∧
  ∀ c, w.called.getD c false = true → w1.called.getD c false = true

/-- The property `FlagsKept` for everything that returns with the given fuel. -/
structure KeptAt (fuel : Nat) : Prop where
  res : ∀ w p v w1, Promise._resolve fuel w p v = some w1 → FlagsKept w w1
  resolve : ∀ w v r, Promise.resolve fuel w v = some r → FlagsKept w r.1
  call : ∀ w f a r, call fuel w f a = some r → FlagsKept w r.1
  forEach : ∀ w vs i H w1, forEach fuel w vs i H = some w1 → FlagsKept w w1
  all : ∀ w v r, Promise.all fuel w v = some r → FlagsKept w r.1
  race : ∀ w v r, Promise.race fuel w v = some r → FlagsKept w r.1
  allSettled : ∀ w v r, Promise.allSettled fuel w v = some r → FlagsKept w r.1
  exec : ∀ w code r, exec fuel w code = some r → FlagsKept w r.1

end JS
end GoJS

namespace GoJS
namespace JS

/-- What may happen after a state of the world: user code runs, a function is called, or
the microtasks run, any number of times. -/
inductive After : World → World → Prop where
  | refl (w : World) : After w w
  | exec {w w1 : World} (fuel : Nat) (code : Code) (r : World × Outcome) :
      After w w1 → exec fuel w1 code = some r → After w r.1
  | call {w w1 : World} (fuel : Nat) (f : Fn) (a : Value) (r : World × Outcome) :
      After w w1 → call fuel w1 f a = some r → After w r.1
  | micro {w w1 : World} (fuel : Nat) (w2 : World) :
      After w w1 → processMicrotasks fuel w1 = some w2 → After w w2

/-- A thenable whose `then` calls `resolve(1)`, then `reject(2)`, and then throws 3. -/
def doubleCaller : Thenable :=
  ⟨Code.ret Value.undefined, some (fun rs rj =>
    Code.call (Fn.native rs) (Value.num 1) (fun _ =>
      Code.call (Fn.native rj) (Value.num 2) (fun _ => Code.raise (Value.num 3))))⟩

/-- A world with the thenable `doubleCaller` and one pending promise. -/
def onePending : World :=
  { World.init [doubleCaller] with promises := [⟨PromiseState.PENDING, Value.undefined, []⟩] }

/-- The world in which the resolution of promise 0 of `onePending` with `doubleCaller` calls
`then`: a new variable `called` has been added. -/
def onePendingThen : World :=
  { onePending with called := onePending.called ++ [false] }

/-- The world that the call of `then` of `doubleCaller` leaves: the promise is fulfilled
with 1 and `called` is set. -/
def afterDoubleCall : World :=
  { promises := [⟨PromiseState.FULFILLED, Value.num 1, []⟩], called := [true], ctxs := [],
    microtasks := [], objects := [doubleCaller],
    writes := [(0, PromiseState.FULFILLED, Value.num 1)] }

end JS
end GoJS

namespace GoJS
namespace JS

/-- The error of a promise resolved with itself. -/
def selfResolutionError : Value := Value.error "Cannot resolve promise with itself"

end JS
end GoJS

namespace GoJS
namespace JS

/-- The entry of `_handlers` that `then(l.1, l.2)` pushes; `q` is the promise that `then`
returns. -/
def thenHandler (l : Option Fn × Option Fn) (q : Nat) : Handler :=
  ⟨l.1, l.2, Fn.native (Native.resolveFn q), Fn.native (Native.rejectFn q)⟩

/-- The chain `p.then(l0.1, l0.2).then(l1.1, l1.2)...`: the world after the calls and the
promise that the last call returns (`p` itself for no call). -/
def thenChain (w : World) (p : Nat) : List (Option Fn × Option Fn) → World × Nat
  | [] => (w, p)
  | l :: ls => thenChain (Promise.then_ w p l.1 l.2).1 (Promise.then_ w p l.1 l.2).2 ls

/-- The promises `n`, `n + 1`, ... of a chain are pending, each with the reaction of the
next link registered on it, the last one with none. -/
def Waiting (w : World) : Nat → List (Option Fn × Option Fn) → Prop
  | n, [] => w.get n = ⟨PromiseState.PENDING, Value.undefined, []⟩
  | n, l :: ls =>
    w.get n = ⟨PromiseState.PENDING, Value.undefined, [thenHandler l (n + 1)]⟩ ∧
      Waiting w (n + 1) ls

/-- A chain about to pass a rejection on: the promise `a` is rejected with `r`, its
reaction `l` is the only microtask, and the promises from `n` on wait. -/
structure Armed (w : World) (r : Value) (a n : Nat) (l : Option Fn × Option Fn)
    (ls : List (Option Fn × Option Fn)) : Prop where
  queue : w.microtasks = [(a, thenHandler l n)]
  src : w.get a = ⟨PromiseState.REJECTED, r, []⟩
  lt : a < n
  wait : Waiting w n ls
  len : w.promises.length = n + ls.length + 1

/-- A world with one promise, rejected with the error `boom`. -/
def rejectedOne : World :=
  { World.init [] with promises := [⟨PromiseState.REJECTED, Value.error "boom", []⟩] }

end JS
end GoJS

namespace GoJS
namespace JS

/-- A relation between worlds that holds along every elementary step of the promise
implementation. -/
structure Stable (R : World → World → Prop) : Prop where
  same : ∀ w, R w w
  next : ∀ w w1 w2, R w w1 → R w1 w2 → R w w2
  alloc : ∀ w, R w w.alloc.1
  fulfil : ∀ w p v, R w (Promise.settle w p PromiseState.FULFILLED v)
  reject : ∀ w p e, R w (Promise._reject w p e)
  then_ : ∀ w p f g, R w (Promise.then_ w p f g).1
  called : ∀ (w : World) (cs : List Bool), R w { w with called := cs }
  ctxs : ∀ (w : World) (cs : List Ctx), R w { w with ctxs := cs }

/-- The relation holds from the start to the end of everything that returns with the given
fuel. -/
structure HoldsAt (R : World → World → Prop) (fuel : Nat) : Prop where
  res : ∀ w p v w1, Promise._resolve fuel w p v = some w1 → R w w1
  resolve : ∀ w v r, Promise.resolve fuel w v = some r → R w r.1
  call : ∀ w f a r, call fuel w f a = some r → R w r.1
  forEach : ∀ w vs i H w1, forEach fuel w vs i H = some w1 → R w w1
  all : ∀ w v r, Promise.all fuel w v = some r → R w r.1
  race : ∀ w v r, Promise.race fuel w v = some r → R w r.1
  allSettled : ∀ w v r, Promise.allSettled fuel w v = some r → R w r.1
  exec : ∀ w code r, exec fuel w code = some r → R w r.1

end JS
end GoJS

namespace GoJS
namespace JS

/-- A world in which every promise that is not pending has an empty handler list and every
queued reaction belongs to a promise that is not pending. -/
structure Sane (w : World) : Prop where
  tidy : ∀ p, (w.get p)._state ≠ PromiseState.PENDING → (w.get p)._handlers = []
  queued : ∀ m ∈ w.microtasks, (w.get m.1)._state ≠ PromiseState.PENDING

/-- From `w` to `w1` the microtask queue was only appended to, no settled promise became
pending again, and the world stayed sane if it was. -/
structure Grows (w w1 : World) : Prop where
  sane : Sane w → Sane w1
  queue : w.microtasks <+: w1.microtasks
  settled : ∀ p, (w.get p)._state ≠ PromiseState.PENDING →
    (w1.get p)._state ≠ PromiseState.PENDING

/-- The drain of the microtask queue together with the reactions that ran, in the order in
which they ran. -/
def drainLog : Nat → World → Option (World × List (Nat × Handler))
  | 0, _ => none
  | fuel + 1, w =>
    match w.microtasks with
    | [] => some (w, [])
    | (p, handler) :: rest =>
      match runReaction fuel { w with microtasks := rest } p handler with
      | none => none
      | some w1 => (drainLog fuel w1).map (fun r => (r.1, (p, handler) :: r.2))

end JS
end GoJS

namespace GoJS
namespace JS

/-- A call of `then`, `_resolve` or `_reject` on the promise `p`. -/
inductive PCall where
  | then_ (p : Nat) (onFulfilled onRejected : Option Fn) : PCall
  | _resolve (p : Nat) (value : Value) : PCall
  | _reject (p : Nat) (reason : Value) : PCall

/-- The call in the world `w`. -/
def PCall.run (fuel : Nat) (w : World) : PCall → Option World
  | .then_ p f g => some (Promise.then_ w p f g).1
  | ._resolve p v => Promise._resolve fuel w p v
  | ._reject p e => some (Promise._reject w p e)

/-- The calls considered: the promise exists, and `_resolve` is given a value that is not
thenable or a promise that exists. -/
def PCall.OK (w : World) : PCall → Prop
  | .then_ p _ _ => p < w.promises.length
  | ._resolve p v =>
    p < w.promises.length ∧
      (NonThenable w v ∨ ∃ p', v = Value.promise p' ∧ p' < w.promises.length)
  | ._reject p _ => p < w.promises.length

/-- The reaction that the call, made in the world `w`, registers on the promise `q`: the one
of `then` on `q`, and the one by which a promise resolved with the promise `q` adopts the
state of `q`. -/
def PCall.registers (w : World) (q : Nat) : PCall → List Handler
  | .then_ p f g => if p = q then [thenHandler (f, g) w.promises.length] else []
  | ._resolve p v =>
    match v with
    | .promise p' =>
      if (w.get p)._state = PromiseState.PENDING ∧ p' ≠ p ∧ p' = q then
        [adoptHandler p w.called.length w.promises.length]
      else []
    | _ => []
  | ._reject _ _ => []

/-- The calls made one after the other. -/
def runCalls (fuel : Nat) : World → List PCall → Option World
  | w, [] => some w
  | w, c :: cs =>
    match c.run fuel w with
    | none => none
    | some w1 => runCalls fuel w1 cs

/-- The reactions that the calls, made one after the other, register on the promise `q`,
in the order of the calls. -/
def registeredOn (fuel : Nat) : World → List PCall → Nat → List Handler
  | _, [], _ => []
  | w, c :: cs, q =>
    c.registers w q ++
      match c.run fuel w with
      | none => []
      | some w1 => registeredOn fuel w1 cs q

/-- Each call is one of those considered in the world in which it is made. -/
def CallsOK (fuel : Nat) : World → List PCall → Prop
  | _, [] => True
  | w, c :: cs =>
    c.OK w ∧
      match c.run fuel w with
      | none => True
      | some w1 => CallsOK fuel w1 cs

/-- The handlers of the entries of a queue that belong to the promise `q`, in order. -/
def onOf (ms : List (Nat × Handler)) (q : Nat) : List Handler :=
  (ms.filter (fun m => decide (m.1 = q))).map (fun m => m.2)

/-- The reactions of the promise `q` that are in the microtask queue, in order. -/
def queuedOn (w : World) (q : Nat) : List Handler := onOf w.microtasks q

/-- The reactions of the promise `q` that have been registered and have not run yet: those
in the microtask queue followed by those in the handler list. -/
def reactionsOn (w : World) (q : Nat) : List Handler := queuedOn w q ++ (w.get q)._handlers

end JS
end GoJS

namespace GoJS
namespace JS

/-- The drain of the microtask queue stopped after at most `n` reactions, together with the
reactions that ran, in the order in which they ran. -/
def drainUpTo : Nat → Nat → World → Option (World × List (Nat × Handler))
  | 0, _, _ => none
  | _ + 1, 0, w => some (w, [])
  | fuel + 1, n + 1, w =>
    match w.microtasks with
    | [] => some (w, [])
    | (p, handler) :: rest =>
      match runReaction fuel { w with microtasks := rest } p handler with
      | none => none
      | some w1 => (drainUpTo fuel n w1).map (fun r => (r.1, (p, handler) :: r.2))

/-- The calls `p.then(a)`, `p._resolve(7)`, `p.then(b)`, `q._resolve(p)` on the promises
`p = 0` and `q = 1`, where `a` and `b` return 1 and 2. -/
def fourCalls : List PCall :=
  [PCall.then_ 0 (some (Fn.native (Native.constant (Value.num 1)))) none,
    PCall._resolve 0 (Value.num 7),
    PCall.then_ 0 (some (Fn.native (Native.constant (Value.num 2)))) none,
    PCall._resolve 1 (Value.promise 0)]

end JS
end GoJS

namespace GoJS
namespace JS

/-- A thenable whose `then` keeps the two callbacks for later and returns. -/
def deferringThenable : Thenable :=
  ⟨Code.ret Value.undefined, some (fun _ _ => Code.ret Value.undefined)⟩

/-- A world with the thenable `deferringThenable` and one pending promise. -/
def deferredWorld : World :=
  { World.init [deferringThenable] with promises := [⟨PromiseState.PENDING, Value.undefined, []⟩] }

end JS
end GoJS

namespace GoJS
namespace Modules

/-! ## path/filepath (Unix), on lists of characters -/

namespace filepath

/-- The elements of a path between its slashes. -/
def split : List Char → List (List Char)
  | [] => [[]]
  | c :: cs =>
    if c = '/' then [] :: split cs
    else
      match split cs with
      | [] => [[c]]
      | e :: es => (c :: e) :: es

/-- The elements that `Clean` keeps, last one first: `acc` holds those kept so far. -/
def cleanElems (rooted : Bool) : List (List Char) → List (List Char) → List (List Char)
  | [], acc => acc
  | e :: es, acc =>
    if e = [] ∨ e = ['.'] then cleanElems rooted es acc
    else if e = ['.', '.'] then
      match acc with
      | [] => if rooted then cleanElems rooted es [] else cleanElems rooted es [e]
      | top :: rest =>
        if top = ['.', '.'] then cleanElems rooted es (e :: acc)
        else cleanElems rooted es rest
    else cleanElems rooted es (e :: acc)

def joinElems : List (List Char) → List Char
  | [] => []
  | [e] => e
  | e :: es => e ++ '/' :: joinElems es

/-- The function `filepath.Clean`. -/
def Clean (path : String) : String :=
  if path = "" then "."
  else
    let rooted := path.data.head? = some '/'
    let body := joinElems (cleanElems rooted (split path.data) []).reverse
    if rooted then String.mk ('/' :: body)
    else if body = [] then "." else String.mk body

/-- The function `filepath.IsAbs`. -/
def IsAbs (path : String) : Bool := path.data.head? = some '/'

/-- The function `filepath.Join`. -/
def Join (elem : List String) : String :=
  match elem.filter (fun e => e ≠ "") with
  | [] => ""
  | es => Clean (String.mk (joinElems (es.map String.data)))

/-- The extension of the last element, read from the end: `rev` is the reversed path and
`acc` the characters passed. -/
def extFrom : List Char → List Char → List Char
  | [], _ => []
  | c :: rev, acc =>
    if c = '/' then []
    else if c = '.' then c :: acc
    else extFrom rev (c :: acc)

/-- The function `filepath.Ext`. -/
def Ext (path : String) : String := String.mk (extFrom path.data.reverse [])

/-- The function `filepath.Dir`. -/
def Dir (path : String) : String :=
  Clean (String.mk (path.data.reverse.dropWhile (fun c => c ≠ '/')).reverse)

end filepath

/-! ## The values and objects of the engine that the loader touches -/

/-- Values: primitives and references to objects. -/
inductive Val where
  | undefined : Val
  | num (n : Int) : Val
  | str (s : String) : Val
  | obj (addr : Nat) : Val
  deriving DecidableEq

/-- The method `Value.String()`. -/
def Val.String : Val → String
  | .undefined => "undefined"
  | .num n => toString n
  | .str s => s
  | .obj _ => "[object Object]"

/-- The statements of a module file that compiles, as far as the loader is concerned. -/
inductive Body where
  /-- the end of the file -/
  | done : Body
  /-- an uncaught `throw` -/
  | raise (msg : String) : Body
  /-- `v = require(spec)`, with the `require` parameter of the wrapper -/
  | require (spec : Val) (k : Val → Body) : Body
  /-- `exports[name] = value` -/
  | setExport (name : String) (value : Val) (k : Body) : Body
  /-- `module.exports = value` -/
  | setModuleExports (value : Val) (k : Body) : Body
  /-- an observable mark -/
  | emit (n : Nat) (k : Body) : Body

/-- The content of a file: text that does not compile, or a module body. -/
inductive Source where
  | invalid (err : String) : Source
  | code (body : Body) : Source

/-- What a global variable holds. -/
inductive Global where
  /-- the function `require` built by `SetupRequire`, with its `cache` and `currentDir` -/
  | requireFn (cache : Nat) (currentDir : String) : Global
  | value (v : Val) : Global

/-- What the loader did, in order. -/
inductive Event where
  /-- `ioutil.ReadFile(path)` -/
  | read (path : String) : Event
  /-- the wrapped body of the file was called -/
  | run (path : String) : Event
  /-- a `require` call of a module body returned `v` -/
  | got (path : String) (spec : String) (v : Val) : Event
  | emit (n : Nat) : Event
  deriving DecidableEq

/-- The engine: its objects (each a list of properties), its global variables, the file
system, and the history. -/
structure VM where
  objects : List (List (String × Val))
  globals : List (String × Global)
  files : List (String × Source)
  log : List Event

/-- How a call ends: with a value, with a value thrown to the script, or with a Go
run-time panic. -/
inductive Res (α : Type) where
  | ok (a : α) : Res α
  | throw (msg : String) : Res α
  | crash : Res α
  deriving DecidableEq

namespace VM

/-- The method `vm.NewObject()`. -/
def NewObject (vm : VM) : VM × Nat :=
  ({ vm with objects := vm.objects ++ [[]] }, vm.objects.length)

/-- The method `obj.Get(name)`; `none` is Go's `nil`. -/
def Get (vm : VM) (obj : Nat) (name : String) : Option Val :=
  (vm.objects.getD obj []).lookup name

/-- The method `obj.Set(name, value)`. -/
def Set (vm : VM) (obj : Nat) (name : String) (value : Val) : VM :=
  { vm with objects :=
      vm.objects.modify (fun ps => (name, value) :: ps.filter (fun e => e.1 ≠ name)) obj }

/-- The method `obj.Delete(name)`. -/
def Delete (vm : VM) (obj : Nat) (name : String) : VM :=
  { vm with objects := vm.objects.modify (fun ps => ps.filter (fun e => e.1 ≠ name)) obj }

/-- The method `vm.Get(name)` on the global object. -/
def GetGlobal (vm : VM) (name : String) : Option Global := vm.globals.lookup name

/-- The method `vm.Set(name, value)` on the global object. -/
def SetGlobal (vm : VM) (name : String) (g : Global) : VM :=
  { vm with globals := (name, g) :: vm.globals.filter (fun e => e.1 ≠ name) }

def note (vm : VM) (e : Event) : VM := { vm with log := vm.log ++ [e] }

end VM

mutual

/-- The function `require` built by `SetupRequire(vm, currentDir)`, whose cache is the
object `cache`.  `none`: the fuel ran out. -/
def require : Nat → VM → Nat → String → List Val → Option (VM × Res Val)
  | 0, _, _, _, _ => none
  | fuel + 1, vm, cache, currentDir, args =>
    match args with
    | [] => some (vm, .throw "require() requires a module name")
    | arg :: _ =>
      let moduleName := arg.String
      -- Check cache first
      let hit : Option Val :=
        match vm.Get cache moduleName with
        | some (.obj cachedModule) => vm.Get cachedModule "exports"
        | _ => none
      match hit with
      | some exports => some (vm, .ok exports)
      | none =>
        -- Check if it's a built-in module
        if moduleName = "fs" ∨ moduleName = "path" then
          match vm.Get cache moduleName with
          | some (.obj moduleObj) => some (vm, .ok ((vm.Get moduleObj "exports").getD Val.undefined))
          | some (.num _) => some (vm, .ok Val.undefined)
          | some (.str _) => some (vm, .ok Val.undefined)
          | _ => some (vm, .throw ("Built-in module '" ++ moduleName ++ "' not found"))
        else
          match moduleName.data with
          | [] => some (vm, .crash)
          | c :: _ =>
            let filePath0 :=
              if filepath.IsAbs moduleName then moduleName
              else if c = '.' then filepath.Join [currentDir, moduleName]
              else filepath.Join [currentDir, "node_modules", moduleName]
            let filePath := if filepath.Ext filePath0 = "" then filePath0 ++ ".js" else filePath0
            let vm0 := vm.note (Event.read filePath)
            match vm0.files.lookup filePath with
            | none => some (vm0, .throw ("Cannot find module '" ++ moduleName ++ "'"))
            | some content =>
              let m := vm0.NewObject
              let e := m.1.NewObject
              let moduleObj := m.2
              let exportsObj := e.2
              let vm1 := e.1.Set moduleObj "exports" (Val.obj exportsObj)
              -- Set module in cache before execution to handle circular dependencies
              let vm2 := vm1.Set cache moduleName (Val.obj moduleObj)
              let moduleDir := filepath.Dir filePath
              match content with
              | .invalid _ =>
                some (vm2.Delete cache moduleName,
                  .throw ("Error compiling module '" ++ moduleName ++ "'"))
              | .code body =>
                match run fuel (vm2.note (Event.run filePath)) body exportsObj moduleObj filePath
                    moduleDir with
                | none => none
                | some (vm3, .ok _) => some (vm3, .ok ((vm3.Get moduleObj "exports").getD Val.undefined))
                | some (vm3, .throw _) =>
                  some (vm3.Delete cache moduleName,
                    .throw ("Error executing module '" ++ moduleName ++ "'"))
                | some (vm3, .crash) => some (vm3, .crash)

/-- The function built by `SetupRequireInner(vm, currentDir)`. -/
def requireInner : Nat → VM → String → List Val → Option (VM × Res Val)
  | 0, _, _, _ => none
  | fuel + 1, vm, currentDir, args =>
    match args with
    | [] => some (vm, .throw "require() requires a module name")
    | arg :: _ =>
      let moduleName := arg.String
      -- Check for built-in modules
      match vm.GetGlobal "require", decide (moduleName = "fs" ∨ moduleName = "path") with
      | some (.requireFn cache dir), true => require fuel vm cache dir args
      | g, _ =>
        -- For relative paths, resolve from current directory
        match moduleName.data with
        | [] => some (vm, .crash)
        | c :: _ =>
          let filePath := if c = '.' then filepath.Join [currentDir, moduleName] else moduleName
          -- Delegate to main require
          match g with
          | some (.requireFn cache dir) => require fuel vm cache dir [Val.str filePath]
          | _ => some (vm, .throw "require function not available")

/-- The call of the wrapped module body
`(function(exports, require, module, __filename, __dirname) { ... })`. -/
def run : Nat → VM → Body → Nat → Nat → String → String → Option (VM × Res Unit)
  | 0, _, _, _, _, _, _ => none
  | fuel + 1, vm, body, exportsObj, moduleObj, filename, dirname =>
    match body with
    | .done => some (vm, .ok ())
    | .raise msg => some (vm, .throw msg)
    | .require spec k =>
      match requireInner fuel vm dirname [spec] with
      | none => none
      | some (vm1, .ok v) =>
        run fuel (vm1.note (Event.got filename spec.String v)) (k v) exportsObj moduleObj filename
          dirname
      | some (vm1, .throw msg) => some (vm1, .throw msg)
      | some (vm1, .crash) => some (vm1, .crash)
    | .setExport name value k =>
      run fuel (vm.Set exportsObj name value) k exportsObj moduleObj filename dirname
    | .setModuleExports value k =>
      run fuel (vm.Set moduleObj "exports" value) k exportsObj moduleObj filename dirname
    | .emit n k => run fuel (vm.note (Event.emit n)) k exportsObj moduleObj filename dirname

end

/-- The function `SetupRequire`: a new cache object, the unused `requireObj`, and the
global `require`. -/
def SetupRequire (vm : VM) (currentDir : String) : VM :=
  let c := vm.NewObject
  let r := c.1.NewObject
  let vm1 := r.1.Set r.2 "cache" (Val.obj c.2)
  vm1.SetGlobal "require" (Global.requireFn c.2 currentDir)

/-- The function `RegisterModule`. -/
def RegisterModule (vm : VM) (name : String) (module : Nat) : Except String VM :=
  match vm.GetGlobal "__moduleCache" with
  | none => .error "module cache not initialized - call SetupRequire first"
  | some (.value .undefined) => .error "module cache not initialized - call SetupRequire first"
  | some (.value (.obj cache)) =>
    let m := vm.NewObject
    .ok ((m.1.Set m.2 "exports" (Val.obj module)).Set cache name (Val.obj m.2))
  | some _ =>
    -- a primitive or a function: the property is set on an object nobody looks at
    let m := vm.NewObject
    .ok (m.1.Set m.2 "exports" (Val.obj module))

/-- The function `SetupFS`: the object `fs` with its methods, registered as `"fs"`. -/
def SetupFS (vm : VM) : Except String VM :=
  let fs := vm.NewObject
  let names := ["readFileSync", "writeFileSync", "existsSync", "mkdirSync", "readdirSync",
    "unlinkSync", "statSync"]
  RegisterModule (names.foldl (fun v n => v.Set fs.2 n (Val.str "function")) fs.1) "fs" fs.2

/-- The function `SetupPath`: the object `path` with its methods, registered as `"path"`. -/
def SetupPath (vm : VM) : Except String VM :=
  let path := vm.NewObject
  let names := ["join", "resolve", "basename", "dirname", "extname", "parse", "format",
    "isAbsolute", "normalize", "relative", "sep", "delimiter"]
  RegisterModule (names.foldl (fun v n => v.Set path.2 n (Val.str "function")) path.1) "path" path.2

/-- The call `require(spec)` of top-level code: the global `require`. -/
def requireGlobal (fuel : Nat) (vm : VM) (args : List Val) : Option (VM × Res Val) :=
  match vm.GetGlobal "require" with
  | some (.requireFn cache dir) => require fuel vm cache dir args
  | _ => some (vm, .throw "require is not a function")

end Modules
end GoJS

namespace GoJS
namespace Modules

/-- The file `/app/a.js`: `exports.before = 1; const b = require('./b'); exports.b = b;
exports.after = 2`. -/
def circularA : Body :=
  Body.setExport "before" (Val.num 1)
    (Body.require (Val.str "./b") (fun b =>
      Body.setExport "b" b (Body.setExport "after" (Val.num 2) Body.done)))

/-- The file `/app/b.js`: `const a = require('./a'); exports.a = a`. -/
def circularB : Body :=
  Body.require (Val.str "./a") (fun a => Body.setExport "a" a Body.done)

/-- An engine with no objects and no globals over the given files. -/
def VM.fresh (files : List (String × Source)) : VM :=
  { objects := [], globals := [], files := files, log := [] }

/-- An engine that holds the two files and on which `SetupRequire(vm, "/app")` ran. -/
def circularVM : VM :=
  SetupRequire (VM.fresh [("/app/a.js", Source.code circularA), ("/app/b.js", Source.code circularB)])
    "/app"

/-- The error of a result, if it is one. -/
def errorOf : Except String VM → Option String
  | .error e => some e
  | .ok _ => none

end Modules
end GoJS

namespace GoJS
namespace Modules

/-- The path of the file that `require` reads for `moduleName`, whose first character is
`c`. -/
def modulePath (currentDir moduleName : String) (c : Char) : String :=
  let filePath0 :=
    if filepath.IsAbs moduleName then moduleName
    else if c = '.' then filepath.Join [currentDir, moduleName]
    else filepath.Join [currentDir, "node_modules", moduleName]
  if filepath.Ext filePath0 = "" then filePath0 ++ ".js" else filePath0

/-- The engine when `require` compiles the file `filePath`: the file has been read, the
module object and its `exports` object have been made, and the module object is in the
cache under `moduleName`. -/
def VM.registered (vm : VM) (cache : Nat) (moduleName filePath : String) : VM :=
  let vm0 := vm.note (Event.read filePath)
  let m := vm0.NewObject
  let e := m.1.NewObject
  (e.1.Set m.2 "exports" (Val.obj e.2)).Set cache moduleName (Val.obj m.2)

/-- The engine when `require` calls the wrapped body of the file `filePath`. -/
def VM.loading (vm : VM) (cache : Nat) (moduleName filePath : String) : VM :=
  (vm.registered cache moduleName filePath).note (Event.run filePath)

/-- The file `/app/m.js` when it is broken: it throws. -/
def brokenModule : Body := Body.emit 1 (Body.raise "boom")

/-- The file `/app/m.js` when it is repaired: `exports.ok = 1`. -/
def repairedModule : Body := Body.emit 2 (Body.setExport "ok" (Val.num 1) Body.done)

/-- An engine that holds the broken `/app/m.js` and on which `SetupRequire(vm, "/app")`
ran. -/
def brokenVM : VM := SetupRequire (VM.fresh [("/app/m.js", Source.code brokenModule)]) "/app"

/-- The engine after a call `require("./m")` on `vm` that returned, with the file
`/app/m.js` then replaced by the repaired one. -/
def repairedAfter (fuel : Nat) (vm : VM) : VM :=
  match require fuel vm 0 "/app" [Val.str "./m"] with
  | some r => { r.1 with files := [("/app/m.js", Source.code repairedModule)] }
  | none => vm

end Modules
end GoJS

namespace GoJS
namespace Modules

/-- From `vm` to `vm1` the history has only grown. -/
def LogGrows (vm vm1 : VM) : Prop := vm.log <+: vm1.log

/-- The property `LogGrows` for every call that returns with the given fuel. -/
structure GrowsAt (fuel : Nat) : Prop where
  require : ∀ vm cache dir args r, require fuel vm cache dir args = some r → LogGrows vm r.1
  inner : ∀ vm dir args r, requireInner fuel vm dir args = some r → LogGrows vm r.1
  run : ∀ vm body e m f d r, run fuel vm body e m f d = some r → LogGrows vm r.1

end Modules
end GoJS

namespace GoJS
namespace Modules

/-- The file `/app/a.js`: an observable mark, then `exports.x = 1`. -/
def markedModule : Body :=
  Body.emit 1 (Body.setExport "x" (Val.num 1) Body.done)

/-- An engine that holds the file `/app/a.js` and on which `SetupRequire(vm, "/app")`
ran. -/
def oneFileVM : VM :=
  SetupRequire (VM.fresh [("/app/a.js", Source.code markedModule)]) "/app"

/-- Two top-level calls `require(first)` and `require(second)`, one after the other: the
two results and the history. -/
def requireTwice (fuel : Nat) (vm : VM) (first second : Val) :
    Option ((Res Val × Res Val) × List Event) :=
  match requireGlobal fuel vm [first] with
  | none => none
  | some (vm1, r1) =>
    match requireGlobal fuel vm1 [second] with
    | none => none
    | some (vm2, r2) => some ((r1, r2), vm2.log)

end Modules
end GoJS

namespace GoJS
namespace Modules

/-- The file `/app/a.js`: `require("")`, then the end of the file. -/
def emptyRequireModule : Body :=
  Body.require (Val.str "") (fun _ => Body.done)

/-- An engine that holds the file `/app/a.js` and on which `SetupRequire(vm, "/app")`
ran. -/
def emptyRequireVM : VM :=
  SetupRequire (VM.fresh [("/app/a.js", Source.code emptyRequireModule)]) "/app"

end Modules
end GoJS

namespace GoJS
namespace Modules

/-- The file `/app/a.js`: `exports.x = 1`, then `require("")`. -/
def partialModule : Body :=
  Body.setExport "x" (Val.num 1) (Body.require (Val.str "") (fun _ => Body.done))

/-- An engine that holds the file `/app/a.js` and on which `SetupRequire(vm, "/app")`
ran. -/
def partialVM : VM :=
  SetupRequire (VM.fresh [("/app/a.js", Source.code partialModule)]) "/app"

/-- The file `/app/a.js`: `exports.x = 1`, then an uncaught `throw`. -/
def throwingModule : Body :=
  Body.setExport "x" (Val.num 1) (Body.raise "boom")

/-- An engine that holds the throwing file and on which `SetupRequire(vm, "/app")` ran. -/
def throwingVM : VM :=
  SetupRequire (VM.fresh [("/app/a.js", Source.code throwingModule)]) "/app"

/-- The call ended with a value thrown to the script. -/
def Res.isThrow {α : Type} : Res α → Bool
  | .throw _ => true
  | _ => false

end Modules
end GoJS

namespace GoJS
namespace Lex

/-- The type `token.TokenType`, a Go string. -/
abbrev TokenType := String

/-- The struct `token.Token`.  A Go string is its list of bytes. -/
structure Token where
  Type_ : TokenType
  Literal : List Nat
  Line : Nat
  Column : Nat
  deriving DecidableEq

namespace token

def ILLEGAL : TokenType := "ILLEGAL"

def EOF : TokenType := "EOF"

def IDENT : TokenType := "IDENT"

def INT : TokenType := "INT"

def FLOAT : TokenType := "FLOAT"

def STRING : TokenType := "STRING"

def ASSIGN : TokenType := "="

def PLUS : TokenType := "+"

def MINUS : TokenType := "-"

def BANG : TokenType := "!"

def ASTERISK : TokenType := "*"

def SLASH : TokenType := "/"

def PERCENT : TokenType := "%"

def LT : TokenType := "<"

def GT : TokenType := ">"

def LE : TokenType := "<="

def GE : TokenType := ">="

def EQ : TokenType := "=="

def NOT_EQ : TokenType := "!="

def STRICT_EQ : TokenType := "==="

def STRICT_NOT_EQ : TokenType := "!=="

def AND : TokenType := "&&"

def OR : TokenType := "||"

def PLUS_ASSIGN : TokenType := "+="

def MINUS_ASSIGN : TokenType := "-="

def TIMES_ASSIGN : TokenType := "*="

def DIV_ASSIGN : TokenType := "/="

def INCREMENT : TokenType := "++"

def DECREMENT : TokenType := "--"

def COMMA : TokenType := ","

def SEMICOLON : TokenType := ";"

def COLON : TokenType := ":"

def DOT : TokenType := "."

def QUESTION : TokenType := "?"

def LPAREN : TokenType := "("

def RPAREN : TokenType := ")"

def LBRACE : TokenType := "\x7b"

def RBRACE : TokenType := "\x7d"

def LBRACKET : TokenType := "["

def RBRACKET : TokenType := "]"

def ARROW : TokenType := "=>"

/-- The map `keywords`; the type of a keyword is its spelling in capitals. -/
def keywords : List (String × TokenType) :=
  [("function", "FUNCTION"), ("let", "LET"), ("const", "CONST"), ("var", "VAR"),
    ("return", "RETURN"), ("if", "IF"), ("else", "ELSE"), ("true", "TRUE"),
    ("false", "FALSE"), ("null", "NULL"), ("undefined", "UNDEFINED"), ("for", "FOR"),
    ("while", "WHILE"), ("do", "DO"), ("break", "BREAK"), ("continue", "CONTINUE"),
    ("switch", "SWITCH"), ("case", "CASE"), ("default", "DEFAULT"), ("new", "NEW"),
    ("this", "THIS"), ("try", "TRY"), ("catch", "CATCH"), ("finally", "FINALLY"),
    ("throw", "THROW"), ("typeof", "TYPEOF"), ("delete", "DELETE"), ("in", "IN"),
    ("of", "OF"), ("instanceof", "INSTANCEOF"), ("async", "ASYNC"), ("await", "AWAIT"),
    ("class", "CLASS"), ("extends", "EXTENDS"), ("static", "STATIC"), ("super", "SUPER"),
    ("import", "IMPORT"), ("export", "EXPORT"), ("from", "FROM"), ("as", "AS")]

end token

/-- The bytes of a string literal of the source that holds ASCII characters only. -/
def lit (s : String) : List Nat := s.data.map Char.toNat

/-- The function `token.LookupIdent`. -/
def token.LookupIdent (ident : List Nat) : TokenType :=
  match token.keywords.find? (fun kw => lit kw.1 = ident) with
  | some kw => kw.2
  | none => token.IDENT

/-- The conversion `string(ch)` of a byte: the UTF-8 encoding of the code point `ch`. -/
def stringOfByte (ch : Nat) : List Nat :=
  if ch < 128 then [ch] else [192 + ch / 64, 128 + ch % 64]

/-- The slice expression `s[lo:hi]` of a string: a run-time panic unless
`lo ≤ hi ≤ len(s)`. -/
def slice (s : List Nat) (lo hi : Nat) : Except String (List Nat) :=
  if lo ≤ hi ∧ hi ≤ s.length then Except.ok ((s.take hi).drop lo)
  else Except.error "slice bounds out of range"

/-- The struct `Lexer`. -/
structure Lexer where
  input : List Nat
  position : Nat
  readPosition : Nat
  ch : Nat
  line : Nat
  column : Nat
  deriving DecidableEq

/-- The function `unicode.IsLetter` on a byte: the letters of Latin-1. -/
def unicodeIsLetter (ch : Nat) : Bool :=
  (65 ≤ ch ∧ ch ≤ 90) ∨ (97 ≤ ch ∧ ch ≤ 122) ∨ ch = 170 ∨ ch = 181 ∨ ch = 186 ∨
    (192 ≤ ch ∧ ch ≤ 214) ∨ (216 ≤ ch ∧ ch ≤ 246) ∨ (248 ≤ ch ∧ ch ≤ 255)

def isLetter (ch : Nat) : Bool := unicodeIsLetter ch || ch = 95 || ch = 36

def isDigit (ch : Nat) : Bool := 48 ≤ ch ∧ ch ≤ 57

def newToken (tokenType : TokenType) (ch : Nat) (line column : Nat) : Token :=
  ⟨tokenType, stringOfByte ch, line, column⟩

namespace Lexer

/-- The method `readChar`.  `position` and `readPosition` advance also at the end of the
input. -/
def readChar (l : Lexer) : Lexer :=
  let ch := if l.readPosition ≥ l.input.length then 0 else l.input.getD l.readPosition 0
  let l1 : Lexer :=
    { l with ch := ch, position := l.readPosition, readPosition := l.readPosition + 1,
             column := l.column + 1 }
  if ch = 10 then { l1 with line := l1.line + 1, column := 0 } else l1

def peekChar (l : Lexer) : Nat :=
  if l.readPosition ≥ l.input.length then 0 else l.input.getD l.readPosition 0

/-- The method `skipWhitespace`; `none` when the fuel runs out. -/
def skipWhitespace : Nat → Lexer → Option Lexer
  | 0, _ => none
  | fuel + 1, l =>
    if l.ch = 32 ∨ l.ch = 9 ∨ l.ch = 10 ∨ l.ch = 13 then skipWhitespace fuel l.readChar
    else some l

/-- The method `skipLineComment`. -/
def skipLineComment : Nat → Lexer → Option Lexer
  | 0, _ => none
  | fuel + 1, l => if l.ch ≠ 10 ∧ l.ch ≠ 0 then skipLineComment fuel l.readChar else some l

/-- The `for` loop of `skipBlockComment`. -/
def skipBlockCommentLoop : Nat → Lexer → Option Lexer
  | 0, _ => none
  | fuel + 1, l =>
    if l.ch = 0 then some l
    else if l.ch = 42 ∧ l.peekChar = 47 then some l.readChar.readChar
    else skipBlockCommentLoop fuel l.readChar

/-- The method `skipBlockComment`. -/
def skipBlockComment (fuel : Nat) (l : Lexer) : Option Lexer :=
  skipBlockCommentLoop fuel l.readChar.readChar

/-- The loop `for isLetter(l.ch) || isDigit(l.ch) { l.readChar() }`. -/
def identLoop : Nat → Lexer → Option Lexer
  | 0, _ => none
  | fuel + 1, l => if isLetter l.ch || isDigit l.ch then identLoop fuel l.readChar else some l

/-- The method `readIdentifier`. -/
def readIdentifier (fuel : Nat) (l : Lexer) : Option (Except String (Lexer × List Nat)) :=
  let position := l.position
  match identLoop fuel l with
  | none => none
  | some l1 => some ((slice l1.input position l1.position).map (fun s => (l1, s)))

/-- The loop `for isDigit(l.ch) { l.readChar() }`. -/
def digitLoop : Nat → Lexer → Option Lexer
  | 0, _ => none
  | fuel + 1, l => if isDigit l.ch then digitLoop fuel l.readChar else some l

/-- The method `readNumber`. -/
def readNumber (fuel : Nat) (l : Lexer) (line column : Nat) :
    Option (Except String (Lexer × Token)) :=
  let position := l.position
  match digitLoop fuel l with
  | none => none
  | some l1 =>
    let frac : Option (Lexer × Bool) :=
      if l1.ch = 46 ∧ isDigit l1.peekChar then
        (digitLoop fuel l1.readChar).map (fun l2 => (l2, true))
      else some (l1, false)
    match frac with
    | none => none
    | some (l2, isFloat2) =>
      let expo : Option (Lexer × Bool) :=
        if l2.ch = 101 ∨ l2.ch = 69 then
          let l3 := l2.readChar
          let l4 := if l3.ch = 43 ∨ l3.ch = 45 then l3.readChar else l3
          (digitLoop fuel l4).map (fun l5 => (l5, true))
        else some (l2, isFloat2)
      match expo with
      | none => none
      | some (l5, isFloat) =>
        some ((slice l5.input position l5.position).map (fun literal =>
          (l5, ⟨if isFloat then token.FLOAT else token.INT, literal, line, column⟩)))

/-- The `for` loop of `readString`, and of `readTemplateString` with the backquote for
`quote`. -/
def readStringLoop (quote : Nat) : Nat → Lexer → Option Lexer
  | 0, _ => none
  | fuel + 1, l =>
    let l1 := l.readChar
    if l1.ch = quote ∨ l1.ch = 0 then some l1
    else if l1.ch = 92 then readStringLoop quote fuel l1.readChar
    else readStringLoop quote fuel l1

/-- The method `readString`. -/
def readString (fuel : Nat) (l : Lexer) (quote : Nat) :
    Option (Except String (Lexer × List Nat)) :=
  let position := l.position + 1
  match readStringLoop quote fuel l with
  | none => none
  | some l1 => some ((slice l1.input position l1.position).map (fun s => (l1, s)))

/-- The method `readTemplateString`. -/
def readTemplateString (fuel : Nat) (l : Lexer) : Option (Except String (Lexer × List Nat)) :=
  let position := l.position + 1
  match readStringLoop 96 fuel l with
  | none => none
  | some l1 => some ((slice l1.input position l1.position).map (fun s => (l1, s)))

/-- The end of `NextToken`: `l.readChar(); return tok`. -/
def finish (l : Lexer) (tok : Token) : Option (Except String (Lexer × Token)) :=
  some (Except.ok (l.readChar, tok))

/-- The method `NextToken`.  `none`: the fuel ran out; `Except.error`: a run-time panic;
otherwise the lexer after the call and the token returned. -/
def NextToken : Nat → Lexer → Option (Except String (Lexer × Token))
  | 0, _ => none
  | fuel + 1, l0 =>
    match skipWhitespace (fuel + 1) l0 with
    | none => none
    | some l =>
      let line := l.line
      let column := l.column
      if l.ch = 61 then
        if l.peekChar = 61 then
          let ch := l.ch
          let l1 := l.readChar
          if l1.peekChar = 61 then finish l1.readChar ⟨token.STRICT_EQ, lit "===", line, column⟩
          else finish l1 ⟨token.EQ, stringOfByte ch ++ stringOfByte l1.ch, line, column⟩
        else if l.peekChar = 62 then finish l.readChar ⟨token.ARROW, lit "=>", line, column⟩
        else finish l (newToken token.ASSIGN l.ch line column)
      else if l.ch = 43 then
        if l.peekChar = 43 then finish l.readChar ⟨token.INCREMENT, lit "++", line, column⟩
        else if l.peekChar = 61 then finish l.readChar ⟨token.PLUS_ASSIGN, lit "+=", line, column⟩
        else finish l (newToken token.PLUS l.ch line column)
      else if l.ch = 45 then
        if l.peekChar = 45 then finish l.readChar ⟨token.DECREMENT, lit "--", line, column⟩
        else if l.peekChar = 61 then finish l.readChar ⟨token.MINUS_ASSIGN, lit "-=", line, column⟩
        else finish l (newToken token.MINUS l.ch line column)
      else if l.ch = 33 then
        if l.peekChar = 61 then
          let ch := l.ch
          let l1 := l.readChar
          if l1.peekChar = 61 then
            finish l1.readChar ⟨token.STRICT_NOT_EQ, lit "!==", line, column⟩
          else finish l1 ⟨token.NOT_EQ, stringOfByte ch ++ stringOfByte l1.ch, line, column⟩
        else finish l (newToken token.BANG l.ch line column)
      else if l.ch = 47 then
        if l.peekChar = 47 then
          match skipLineComment (fuel + 1) l with
          | none => none
          | some l1 => NextToken fuel l1
        else if l.peekChar = 42 then
          match skipBlockComment (fuel + 1) l with
          | none => none
          | some l1 => NextToken fuel l1
        else if l.peekChar = 61 then finish l.readChar ⟨token.DIV_ASSIGN, lit "/=", line, column⟩
        else finish l (newToken token.SLASH l.ch line column)
      else if l.ch = 42 then
        if l.peekChar = 61 then finish l.readChar ⟨token.TIMES_ASSIGN, lit "*=", line, column⟩
        else finish l (newToken token.ASTERISK l.ch line column)
      else if l.ch = 37 then finish l (newToken token.PERCENT l.ch line column)
      else if l.ch = 60 then
        if l.peekChar = 61 then finish l.readChar ⟨token.LE, lit "<=", line, column⟩
        else finish l (newToken token.LT l.ch line column)
      else if l.ch = 62 then
        if l.peekChar = 61 then finish l.readChar ⟨token.GE, lit ">=", line, column⟩
        else finish l (newToken token.GT l.ch line column)
      else if l.ch = 38 then
        if l.peekChar = 38 then finish l.readChar ⟨token.AND, lit "&&", line, column⟩
        else finish l (newToken token.ILLEGAL l.ch line column)
      else if l.ch = 124 then
        if l.peekChar = 124 then finish l.readChar ⟨token.OR, lit "||", line, column⟩
        else finish l (newToken token.ILLEGAL l.ch line column)
      else if l.ch = 59 then finish l (newToken token.SEMICOLON l.ch line column)
      else if l.ch = 58 then finish l (newToken token.COLON l.ch line column)
      else if l.ch = 63 then finish l (newToken token.QUESTION l.ch line column)
      else if l.ch = 44 then finish l (newToken token.COMMA l.ch line column)
      else if l.ch = 46 then finish l (newToken token.DOT l.ch line column)
      else if l.ch = 40 then finish l (newToken token.LPAREN l.ch line column)
      else if l.ch = 41 then finish l (newToken token.RPAREN l.ch line column)
      else if l.ch = 123 then finish l (newToken token.LBRACE l.ch line column)
      else if l.ch = 125 then finish l (newToken token.RBRACE l.ch line column)
      else if l.ch = 91 then finish l (newToken token.LBRACKET l.ch line column)
      else if l.ch = 93 then finish l (newToken token.RBRACKET l.ch line column)
      else if l.ch = 34 ∨ l.ch = 39 then
        match readString (fuel + 1) l l.ch with
        | none => none
        | some (Except.error e) => some (Except.error e)
        | some (Except.ok (l1, s)) => finish l1 ⟨token.STRING, s, line, column⟩
      else if l.ch = 96 then
        match readTemplateString (fuel + 1) l with
        | none => none
        | some (Except.error e) => some (Except.error e)
        | some (Except.ok (l1, s)) => finish l1 ⟨token.STRING, s, line, column⟩
      else if l.ch = 0 then finish l ⟨token.EOF, [], line, column⟩
      else if isLetter l.ch then
        match readIdentifier (fuel + 1) l with
        | none => none
        | some (Except.error e) => some (Except.error e)
        | some (Except.ok (l1, s)) => some (Except.ok (l1, ⟨token.LookupIdent s, s, line, column⟩))
      else if isDigit l.ch then readNumber (fuel + 1) l line column
      else finish l (newToken token.ILLEGAL l.ch line column)

end Lexer

/-- The function `New`. -/
def New (input : List Nat) : Lexer :=
  Lexer.readChar { input := input, position := 0, readPosition := 0, ch := 0, line := 1, column := 0 }

/-- The tokens of the first `n` calls of `NextToken` on a new lexer for `input`. -/
def tokens (fuel : Nat) : Nat → Lexer → Option (Except String (List Token))
  | 0, _ => some (Except.ok [])
  | n + 1, l =>
    match l.NextToken fuel with
    | none => none
    | some (Except.error e) => some (Except.error e)
    | some (Except.ok (l1, tok)) =>
      match tokens fuel n l1 with
      | none => none
      | some (Except.error e) => some (Except.error e)
      | some (Except.ok ts) => some (Except.ok (tok :: ts))

end Lex
end GoJS

/-! # Part 2: theorems -/

namespace GoJS

/-! ## Lemmas: task objects and the queue slice -/

namespace TaskQueue

theorem Less_iff (tq : TaskQueue) (i j : Nat) : tq.Less i j = true ↔ tq.key i < tq.key j := by
  simp [Less, key]

@[simp] theorem setIndex_items (tq : TaskQueue) (p : Nat) (v : Int) :
    (tq.setIndex p v).items = tq.items := rfl

@[simp] theorem setIndex_length (tq : TaskQueue) (p : Nat) (v : Int) :
    (tq.setIndex p v).objs.length = tq.objs.length := by
  simp [setIndex]

@[simp] theorem setIndex_ptr (tq : TaskQueue) (p : Nat) (v : Int) (i : Nat) :
    (tq.setIndex p v).ptr i = tq.ptr i := rfl

theorem deref_setIndex (tq : TaskQueue) (p q : Nat) (v : Int) :
    (tq.setIndex p v).deref q =
      if p = q ∧ q < tq.objs.length then { tq.deref q with Index := v } else tq.deref q := by
  unfold deref setIndex
  simp only [List.getD_eq_getElem?_getD, List.getElem?_modify]
  by_cases hq : q < tq.objs.length
  · by_cases hp : p = q
    · subst hp; simp [hq]
    · simp [hp, hq]
  · have : tq.objs[q]? = none := List.getElem?_eq_none (by omega)
    simp [this, hq]

@[simp] theorem deref_setIndex_Time (tq : TaskQueue) (p q : Nat) (v : Int) :
    ((tq.setIndex p v).deref q).Time = (tq.deref q).Time := by
  rw [deref_setIndex]; split <;> rfl

@[simp] theorem deref_setIndex_Callback (tq : TaskQueue) (p q : Nat) (v : Int) :
    ((tq.setIndex p v).deref q).Callback = (tq.deref q).Callback := by
  rw [deref_setIndex]; split <;> rfl

theorem deref_setIndex_self (tq : TaskQueue) (p : Nat) (v : Int) (h : p < tq.objs.length) :
    ((tq.setIndex p v).deref p).Index = v := by
  rw [deref_setIndex]; simp [h]

theorem deref_setIndex_ne (tq : TaskQueue) (p q : Nat) (v : Int) (h : p ≠ q) :
    (tq.setIndex p v).deref q = tq.deref q := by
  rw [deref_setIndex]; simp [h]

theorem sw_sw (i j k : Nat) : sw i j (sw i j k) = k := by
  unfold sw; split_ifs <;> omega

theorem sw_lt {i j k n : Nat} (hi : i < n) (hj : j < n) : sw i j k < n ↔ k < n := by
  unfold sw; split_ifs <;> omega

theorem swap_items_getElem? (l : List Nat) (i j k : Nat) (hi : i < l.length) (hj : j < l.length) :
    ((l.set i (l.getD j 0)).set j (l.getD i 0))[k]? = l[sw i j k]? := by
  simp only [List.getElem?_set, List.length_set, List.getD_eq_getElem?_getD, sw]
  by_cases h1 : j = k
  · subst h1; simp [hj, hi, List.getElem?_eq_getElem]
  · by_cases h2 : i = k
    · subst h2; simp [h1, hi, hj, List.getElem?_eq_getElem, Ne.symm h1]
    · simp [h1, h2, Ne.symm h1, Ne.symm h2]

@[simp] theorem Swap_items (tq : TaskQueue) (i j : Nat) :
    (tq.Swap i j).items = (tq.items.set i (tq.ptr j)).set j (tq.ptr i) := rfl

@[simp] theorem Swap_Len (tq : TaskQueue) (i j : Nat) : (tq.Swap i j).Len = tq.Len := by
  simp [Len]

@[simp] theorem Swap_length (tq : TaskQueue) (i j : Nat) :
    (tq.Swap i j).objs.length = tq.objs.length := by
  simp [Swap]

theorem Swap_ptr (tq : TaskQueue) (i j k : Nat) (hi : i < tq.Len) (hj : j < tq.Len) :
    (tq.Swap i j).ptr k = tq.ptr (sw i j k) := by
  have := swap_items_getElem? tq.items i j k hi hj
  simp only [ptr, List.getD_eq_getElem?_getD, Swap_items] at this ⊢
  rw [this]

@[simp] theorem Swap_deref_Time (tq : TaskQueue) (i j p : Nat) :
    ((tq.Swap i j).deref p).Time = (tq.deref p).Time := by
  simp only [Swap, deref_setIndex_Time]
  rfl

@[simp] theorem Swap_deref_Callback (tq : TaskQueue) (i j p : Nat) :
    ((tq.Swap i j).deref p).Callback = (tq.deref p).Callback := by
  simp only [Swap, deref_setIndex_Callback]
  rfl

theorem Swap_key (tq : TaskQueue) (i j k : Nat) (hi : i < tq.Len) (hj : j < tq.Len) :
    (tq.Swap i j).key k = tq.key (sw i j k) := by
  unfold key
  rw [Swap_ptr tq i j k hi hj, Swap_deref_Time]

theorem getElem?_ptr (tq : TaskQueue) {i : Nat} (h : i < tq.Len) :
    tq.items[i]? = some (tq.ptr i) := by
  unfold Len at h
  simp [ptr, List.getD_eq_getElem?_getD, List.getElem?_eq_getElem h]

theorem mem_items_iff (tq : TaskQueue) (p : Nat) :
    p ∈ tq.items ↔ ∃ i, i < tq.Len ∧ tq.ptr i = p := by
  rw [List.mem_iff_getElem?]
  constructor
  · rintro ⟨i, hi⟩
    have hlt : i < tq.Len := by
      rcases List.getElem?_eq_some.1 hi with ⟨h, _⟩; exact h
    refine ⟨i, hlt, ?_⟩
    have := getElem?_ptr tq hlt
    rw [hi] at this
    exact (Option.some.inj this).symm
  · rintro ⟨i, hi, rfl⟩
    exact ⟨i, getElem?_ptr tq hi⟩

theorem ptr_mem (tq : TaskQueue) {i : Nat} (h : i < tq.Len) : tq.ptr i ∈ tq.items :=
  (mem_items_iff tq _).2 ⟨i, h, rfl⟩

theorem ptr_inj (tq : TaskQueue) (hn : tq.items.Nodup) {i j : Nat} (hi : i < tq.Len)
    (hj : j < tq.Len) (h : tq.ptr i = tq.ptr j) : i = j := by
  by_contra hne
  have key := List.nodup_iff_getElem?_ne_getElem?.1 hn
  rcases Nat.lt_or_gt_of_ne hne with hlt | hlt
  · exact key i j hlt hj (by rw [getElem?_ptr tq hi, getElem?_ptr tq hj, h])
  · exact key j i hlt hi (by rw [getElem?_ptr tq hi, getElem?_ptr tq hj, h])

theorem Swap_mem (tq : TaskQueue) (i j p : Nat) (hi : i < tq.Len) (hj : j < tq.Len) :
    p ∈ (tq.Swap i j).items ↔ p ∈ tq.items := by
  rw [mem_items_iff, mem_items_iff]
  constructor
  · rintro ⟨k, hk, rfl⟩
    rw [Swap_Len] at hk
    exact ⟨sw i j k, (sw_lt hi hj).2 hk, (Swap_ptr tq i j k hi hj).symm⟩
  · rintro ⟨k, hk, rfl⟩
    refine ⟨sw i j k, by rw [Swap_Len]; exact (sw_lt hi hj).2 hk, ?_⟩
    rw [Swap_ptr tq i j _ hi hj, sw_sw]

theorem Swap_nodup (tq : TaskQueue) (i j : Nat) (hi : i < tq.Len) (hj : j < tq.Len)
    (hn : tq.items.Nodup) : (tq.Swap i j).items.Nodup := by
  rw [List.nodup_iff_getElem?_ne_getElem?]
  intro a b hab hb heq
  have hb' : b < (tq.Swap i j).Len := hb
  have ha' : a < (tq.Swap i j).Len := by omega
  rw [getElem?_ptr _ ha', getElem?_ptr _ hb'] at heq
  have heq' := Option.some.inj heq
  rw [Swap_ptr tq i j a hi hj, Swap_ptr tq i j b hi hj] at heq'
  rw [Swap_Len] at ha' hb'
  have := ptr_inj tq hn ((sw_lt hi hj).2 ha') ((sw_lt hi hj).2 hb') heq'
  have h2 : sw i j (sw i j a) = sw i j (sw i j b) := by rw [this]
  rw [sw_sw, sw_sw] at h2
  omega

theorem Swap_deref_Index (tq : TaskQueue) (i j p : Nat) (hi : i < tq.Len) (hj : j < tq.Len)
    (hb : ∀ p ∈ tq.items, p < tq.objs.length) :
    ((tq.Swap i j).deref p).Index =
      if p = tq.ptr i then (j : Int) else if p = tq.ptr j then (i : Int) else (tq.deref p).Index := by
  have e1 : (tq.Swap i j).ptr i = tq.ptr (sw i j i) := Swap_ptr tq i j i hi hj
  have e2 : (tq.Swap i j).ptr j = tq.ptr (sw i j j) := Swap_ptr tq i j j hi hj
  have s1 : sw i j j = i := by simp [sw]
  have s2 : sw i j i = j := by unfold sw; split_ifs <;> omega
  rw [s2] at e1
  rw [s1] at e2
  have hpi := hb _ (ptr_mem tq hi)
  have hpj := hb _ (ptr_mem tq hj)
  have unf : (tq.Swap i j) =
      (({ tq with items := (tq.items.set i (tq.ptr j)).set j (tq.ptr i) } : TaskQueue).setIndex
        ((tq.Swap i j).ptr i) i).setIndex ((tq.Swap i j).ptr j) j := rfl
  rw [unf, deref_setIndex, deref_setIndex]
  simp only [setIndex_length]
  rw [e1, e2]
  have hd : ∀ q, ({ tq with items := (tq.items.set i (tq.ptr j)).set j (tq.ptr i) } : TaskQueue).deref q
      = tq.deref q := fun q => rfl
  simp only [hd]
  by_cases h1 : p = tq.ptr i
  · subst h1
    simp [hpi]
  · by_cases h2 : p = tq.ptr j
    · subst h2
      have : ¬ tq.ptr i = tq.ptr j := fun h => h1 h.symm
      simp [hpj, this, h1]
    · have a1 : ¬ tq.ptr i = p := fun h => h1 h.symm
      have a2 : ¬ tq.ptr j = p := fun h => h2 h.symm
      simp [a1, a2, h1, h2]

theorem WF.Swap {tq : TaskQueue} (h : tq.WF) (i j : Nat) (hi : i < tq.Len) (hj : j < tq.Len) :
    (tq.Swap i j).WF := by
  refine ⟨Swap_nodup tq i j hi hj h.nodup, ?_, ?_, ?_⟩
  · intro p hp
    rw [Swap_length]
    exact h.bound p ((Swap_mem tq i j p hi hj).1 hp)
  · intro k hk
    rw [Swap_Len] at hk
    rw [Swap_deref_Index tq i j _ hi hj h.bound, Swap_ptr tq i j k hi hj]
    have hsk : sw i j k < tq.Len := (sw_lt hi hj).2 hk
    by_cases h1 : k = j
    · subst h1
      have : sw i k k = i := by simp [sw]
      simp [this]
    · by_cases h2 : k = i
      · subst h2
        have : sw k j k = j := by unfold sw; split_ifs <;> omega
        rw [this]
        have hne : ¬ tq.ptr j = tq.ptr k := fun e => h1 (ptr_inj tq h.nodup hj hk e).symm
        simp [hne]
      · have : sw i j k = k := by unfold sw; simp [h1, h2]
        rw [this]
        have n1 : ¬ tq.ptr k = tq.ptr i := fun e => h2 (ptr_inj tq h.nodup hk hi e)
        have n2 : ¬ tq.ptr k = tq.ptr j := fun e => h1 (ptr_inj tq h.nodup hk hj e)
        simp [n1, n2, h.index k hk]
  · intro p hp hnot
    rw [Swap_length] at hp
    have hnot' : p ∉ tq.items := fun hm => hnot ((Swap_mem tq i j p hi hj).2 hm)
    rw [Swap_deref_Index tq i j _ hi hj h.bound]
    have n1 : ¬ p = tq.ptr i := fun e => hnot' (e ▸ ptr_mem tq hi)
    have n2 : ¬ p = tq.ptr j := fun e => hnot' (e ▸ ptr_mem tq hj)
    simp [n1, n2, h.out p hp hnot']

end TaskQueue
end GoJS

namespace GoJS
namespace TaskQueue

theorem Same.same_refl (a : TaskQueue) : Same a a :=
  ⟨rfl, rfl, fun _ => Iff.rfl, fun _ => rfl, fun _ => rfl⟩

theorem Same.same_trans {a b c : TaskQueue} (h1 : Same a b) (h2 : Same b c) : Same a c :=
  ⟨h2.len.trans h1.len, h2.objs.trans h1.objs, fun p => (h2.mem p).trans (h1.mem p),
    fun p => (h2.time p).trans (h1.time p), fun p => (h2.cb p).trans (h1.cb p)⟩

theorem Same.of_Swap (tq : TaskQueue) (i j : Nat) (hi : i < tq.Len) (hj : j < tq.Len) :
    Same tq (tq.Swap i j) :=
  ⟨Swap_Len tq i j, Swap_length tq i j, fun p => Swap_mem tq i j p hi hj,
    fun p => Swap_deref_Time tq i j p, fun p => Swap_deref_Callback tq i j p⟩

theorem Swap_key_left (tq : TaskQueue) (i j : Nat) (hi : i < tq.Len) (hj : j < tq.Len) :
    (tq.Swap i j).key i = tq.key j := by
  rw [Swap_key tq i j i hi hj]; unfold sw; split_ifs <;> simp_all

theorem Swap_key_right (tq : TaskQueue) (i j : Nat) (hi : i < tq.Len) (hj : j < tq.Len) :
    (tq.Swap i j).key j = tq.key i := by
  rw [Swap_key tq i j j hi hj]; simp [sw]

theorem Swap_key_other (tq : TaskQueue) (i j k : Nat) (hi : i < tq.Len) (hj : j < tq.Len)
    (h1 : k ≠ i) (h2 : k ≠ j) : (tq.Swap i j).key k = tq.key k := by
  rw [Swap_key tq i j k hi hj]; simp [sw, h1, h2]

theorem Swap_ptr_other (tq : TaskQueue) (i j k : Nat) (hi : i < tq.Len) (hj : j < tq.Len)
    (h1 : k ≠ i) (h2 : k ≠ j) : (tq.Swap i j).ptr k = tq.ptr k := by
  rw [Swap_ptr tq i j k hi hj]; simp [sw, h1, h2]

end TaskQueue

namespace heap
open TaskQueue

theorem upLoop_spec (n : Nat) : ∀ (fuel : Nat) (tq : TaskQueue) (j : Nat), j < fuel → j < n →
    n ≤ tq.Len → tq.WF → UpInv tq n j →
    (upLoop fuel tq j).WF ∧ Same tq (upLoop fuel tq j) ∧ HeapOn (upLoop fuel tq j) n ∧
      ∀ k, n ≤ k → (upLoop fuel tq j).ptr k = tq.ptr k := by
  intro fuel
  induction fuel with
  | zero => intro tq j h; omega
  | succ fuel ih =>
    intro tq j hf hj hn hwf hinv
    unfold upLoop
    simp only
    by_cases hc : (j - 1) / 2 = j ∨ ¬ tq.Less j ((j - 1) / 2) = true
    · rw [if_pos hc]
      refine ⟨hwf, Same.same_refl _, ?_, fun _ _ => rfl⟩
      intro c hc0 hcn
      by_cases hcj : c = j
      · subst hcj
        rcases hc with h | h
        · omega
        · rw [Less_iff] at h
          unfold ok; omega
      · exact hinv.1 c hc0 hcn hcj
    · rw [if_neg hc]
      push_neg at hc
      obtain ⟨hne, hless⟩ := hc
      rw [Less_iff] at hless
      have hj0 : 0 < j := by
        rcases Nat.eq_zero_or_pos j with h | h
        · subst h; simp at hne
        · exact h
      have hij : (j - 1) / 2 < j := by omega
      have hiL : (j - 1) / 2 < tq.Len := by omega
      have hjL : j < tq.Len := by omega
      have kl := Swap_key_left tq _ _ hiL hjL
      have kr := Swap_key_right tq _ _ hiL hjL
      have ko := fun k => Swap_key_other tq _ _ k hiL hjL
      have hinv' : UpInv (tq.Swap ((j - 1) / 2) j) n ((j - 1) / 2) := by
        constructor
        · intro c hc0 hcn hci
          unfold ok
          by_cases hcj : c = j
          · subst hcj
            rw [kl, kr]; omega
          · rw [ko c hci hcj]
            by_cases hp1 : (c - 1) / 2 = j
            · rw [hp1, kr]
              have := hinv.2 hj0 c hc0 hcn hp1
              exact this
            · by_cases hp2 : (c - 1) / 2 = (j - 1) / 2
              · rw [hp2, kl]
                have := hinv.1 c hc0 hcn hcj
                unfold ok at this
                rw [hp2] at this
                omega
              · rw [ko _ hp2 hp1]
                exact hinv.1 c hc0 hcn hcj
        · intro hi0 c hc0 hcn hpc
          have hpi1 : ((j - 1) / 2 - 1) / 2 ≠ (j - 1) / 2 := by omega
          have hpi2 : ((j - 1) / 2 - 1) / 2 ≠ j := by omega
          rw [ko _ hpi1 hpi2]
          have hpar := hinv.1 ((j - 1) / 2) hi0 (by omega) (by omega)
          unfold ok at hpar
          by_cases hcj : c = j
          · subst hcj
            rw [kr]; exact hpar
          · have hci : c ≠ (j - 1) / 2 := by omega
            rw [ko c hci hcj]
            have := hinv.1 c hc0 hcn hcj
            unfold ok at this
            rw [hpc] at this
            omega
      have hwf' := hwf.Swap _ _ hiL hjL
      have hn' : n ≤ (tq.Swap ((j - 1) / 2) j).Len := by rw [Swap_Len]; exact hn
      obtain ⟨r1, r2, r3, r4⟩ := ih (tq.Swap ((j - 1) / 2) j) ((j - 1) / 2) (by omega) (by omega)
        hn' hwf' hinv'
      refine ⟨r1, (Same.of_Swap tq _ _ hiL hjL).same_trans r2, r3, ?_⟩
      intro k hk
      rw [r4 k hk, Swap_ptr_other tq _ _ k hiL hjL (by omega) (by omega)]

end heap
end GoJS

namespace GoJS
namespace heap
open TaskQueue

theorem downLoop_spec (n i0 : Nat) : ∀ (fuel : Nat) (tq : TaskQueue) (i : Nat), n ≤ i + fuel →
    i0 ≤ i → n ≤ tq.Len → tq.WF →
    (∀ c, 0 < c → c < n → c ≠ i → (c - 1) / 2 ≠ i → tq.ok c) →
    (0 < i → ∀ c, 0 < c → c < n → (c - 1) / 2 = i → tq.key ((i - 1) / 2) ≤ tq.key c) →
    (i ≠ i0 → tq.ok i) →
    (downLoop fuel tq i n).1.WF ∧ Same tq (downLoop fuel tq i n).1 ∧
      UpInv (downLoop fuel tq i n).1 n (downLoop fuel tq i n).2 ∧
      ((downLoop fuel tq i n).2 ≠ i0 → HeapOn (downLoop fuel tq i n).1 n) ∧
      i0 ≤ (downLoop fuel tq i n).2 ∧
      ∀ k, n ≤ k → (downLoop fuel tq i n).1.ptr k = tq.ptr k := by
  intro fuel
  induction fuel with
  | zero =>
    intro tq i hf hi0 hn hwf hA hB hC
    have hin : n ≤ i := by omega
    unfold downLoop
    have hup : UpInv tq n i := ⟨fun c h0 hcn hci => hA c h0 hcn hci (by omega), hB⟩
    refine ⟨hwf, Same.same_refl _, hup, ?_, hi0, fun _ _ => rfl⟩
    intro hne c h0 hcn
    exact hup.1 c h0 hcn (by omega)
  | succ fuel ih =>
    intro tq i hf hi0 hn hwf hA hB hC
    unfold downLoop
    simp only
    by_cases h1 : n ≤ 2 * i + 1
    · rw [if_pos h1]
      have hup : UpInv tq n i := ⟨fun c h0 hcn hci => hA c h0 hcn hci (by omega), hB⟩
      refine ⟨hwf, Same.same_refl _, hup, ?_, hi0, fun _ _ => rfl⟩
      intro hne c h0 hcn
      by_cases hci : c = i
      · subst hci; exact hC hne
      · exact hup.1 c h0 hcn hci
    · rw [if_neg h1]
      -- the smaller child
      obtain ⟨j, hjdef, hjlt, hij, hjpar, hjmin⟩ : ∃ j,
          (if 2 * i + 1 + 1 < n ∧ tq.Less (2 * i + 1 + 1) (2 * i + 1) = true then 2 * i + 1 + 1
            else 2 * i + 1) = j ∧ j < n ∧ i < j ∧ (j - 1) / 2 = i ∧
          ∀ c, 0 < c → c < n → (c - 1) / 2 = i → tq.key j ≤ tq.key c := by
        by_cases h2 : 2 * i + 1 + 1 < n ∧ tq.Less (2 * i + 1 + 1) (2 * i + 1) = true
        · refine ⟨2 * i + 1 + 1, if_pos h2, h2.1, by omega, by omega, ?_⟩
          intro c h0 hcn hpc
          have h3 := (Less_iff _ _ _).1 h2.2
          have : c = 2 * i + 1 ∨ c = 2 * i + 1 + 1 := by omega
          rcases this with rfl | rfl
          · omega
          · exact le_refl _
        · refine ⟨2 * i + 1, if_neg h2, by omega, by omega, by omega, ?_⟩
          intro c h0 hcn hpc
          have : c = 2 * i + 1 ∨ c = 2 * i + 1 + 1 := by omega
          rcases this with rfl | rfl
          · exact le_refl _
          · have h3 : ¬ tq.Less (2 * i + 1 + 1) (2 * i + 1) = true := fun h => h2 ⟨hcn, h⟩
            rw [Less_iff] at h3
            omega
      rw [hjdef]
      by_cases h4 : ¬ tq.Less j i = true
      · rw [if_pos h4]
        rw [Less_iff] at h4
        have hup : UpInv tq n i := by
          refine ⟨?_, hB⟩
          intro c h0 hcn hci
          by_cases hpc : (c - 1) / 2 = i
          · have := hjmin c h0 hcn hpc
            unfold ok; rw [hpc]; omega
          · exact hA c h0 hcn hci hpc
        refine ⟨hwf, Same.same_refl _, hup, ?_, hi0, fun _ _ => rfl⟩
        intro hne c h0 hcn
        by_cases hci : c = i
        · subst hci; exact hC hne
        · exact hup.1 c h0 hcn hci
      · rw [if_neg h4]
        push_neg at h4
        rw [Less_iff] at h4
        have hiL : i < tq.Len := by omega
        have hjL : j < tq.Len := by omega
        have kl := Swap_key_left tq _ _ hiL hjL
        have kr := Swap_key_right tq _ _ hiL hjL
        have ko := fun k => Swap_key_other tq _ _ k hiL hjL
        have hwf' := hwf.Swap _ _ hiL hjL
        have hn' : n ≤ (tq.Swap i j).Len := by rw [Swap_Len]; exact hn
        have hA' : ∀ c, 0 < c → c < n → c ≠ j → (c - 1) / 2 ≠ j → (tq.Swap i j).ok c := by
          intro c h0 hcn hcj hpcj
          unfold ok
          by_cases hci : c = i
          · subst hci
            rw [kl, ko _ (by omega) hpcj]
            exact hB h0 j (by omega) hjlt hjpar
          · rw [ko c hci hcj]
            by_cases hpc : (c - 1) / 2 = i
            · rw [hpc, kl]
              exact hjmin c h0 hcn hpc
            · rw [ko _ hpc hpcj]
              exact hA c h0 hcn hci hpc
        have hB' : 0 < j → ∀ c, 0 < c → c < n → (c - 1) / 2 = j →
            (tq.Swap i j).key ((j - 1) / 2) ≤ (tq.Swap i j).key c := by
          intro _ c h0 hcn hpc
          rw [hjpar, kl, ko c (by omega) (by omega)]
          have := hA c h0 hcn (by omega) (by omega)
          unfold ok at this
          rw [hpc] at this
          exact this
        have hC' : j ≠ i0 → (tq.Swap i j).ok j := by
          intro _
          unfold ok
          rw [hjpar, kl, kr]
          omega
        obtain ⟨r1, r2, r3, r4, r5, r6⟩ := ih (tq.Swap i j) j (by omega) (by omega) hn' hwf'
          hA' hB' hC'
        refine ⟨r1, (Same.of_Swap tq _ _ hiL hjL).same_trans r2, r3, r4, by omega, ?_⟩
        intro k hk
        rw [r6 k hk, Swap_ptr_other tq _ _ k hiL hjL (by omega) (by omega)]

theorem downLoop_moved (n i0 : Nat) : ∀ (fuel : Nat) (tq : TaskQueue) (i : Nat), i0 < i →
    i0 < (downLoop fuel tq i n).2 := by
  intro fuel
  induction fuel with
  | zero => intro tq i h; simpa [downLoop] using h
  | succ fuel ih =>
    intro tq i h
    unfold downLoop
    simp only
    split_ifs <;> first | exact h | exact ih _ _ (by omega)

end heap
end GoJS

namespace GoJS
namespace TaskQueue

theorem HeapOn.root_le {tq : TaskQueue} {n : Nat} (h : HeapOn tq n) :
    ∀ c, c < n → tq.key 0 ≤ tq.key c := by
  intro c
  induction c using Nat.strong_induction_on with
  | _ c ih =>
    intro hc
    rcases Nat.eq_zero_or_pos c with h0 | h0
    · subst h0; exact le_refl _
    · have h1 := h c h0 hc
      have h2 := ih ((c - 1) / 2) (by omega) (by omega)
      unfold ok at h1
      omega

theorem alloc_deref_old (tq : TaskQueue) (cb : Callback) (t : Int) (p : Nat)
    (hp : p < tq.objs.length) : (tq.alloc cb t).1.deref p = tq.deref p := by
  simp [alloc, deref, List.getD_eq_getElem?_getD, List.getElem?_append_left hp]

theorem alloc_deref_new (tq : TaskQueue) (cb : Callback) (t : Int) :
    (tq.alloc cb t).1.deref (tq.alloc cb t).2 = ⟨cb, t, 0⟩ := by
  simp [alloc, deref, List.getD_eq_getElem?_getD]

@[simp] theorem alloc_items (tq : TaskQueue) (cb : Callback) (t : Int) :
    (tq.alloc cb t).1.items = tq.items := rfl

@[simp] theorem alloc_snd (tq : TaskQueue) (cb : Callback) (t : Int) :
    (tq.alloc cb t).2 = tq.objs.length := rfl

@[simp] theorem alloc_length (tq : TaskQueue) (cb : Callback) (t : Int) :
    (tq.alloc cb t).1.objs.length = tq.objs.length + 1 := by
  simp [alloc]

@[simp] theorem Push_items (tq : TaskQueue) (x : Nat) : (tq.Push x).items = tq.items ++ [x] := rfl

@[simp] theorem Push_length (tq : TaskQueue) (x : Nat) :
    (tq.Push x).objs.length = tq.objs.length := by
  simp [Push]

theorem Push_deref (tq : TaskQueue) (x p : Nat) :
    (tq.Push x).deref p = (tq.setIndex x tq.items.length).deref p := rfl

theorem Push_ptr_old (tq : TaskQueue) (x k : Nat) (hk : k < tq.Len) :
    (tq.Push x).ptr k = tq.ptr k := by
  unfold Len at hk
  simp [ptr, List.getD_eq_getElem?_getD, List.getElem?_append_left hk]

theorem Push_ptr_new (tq : TaskQueue) (x : Nat) : (tq.Push x).ptr tq.Len = x := by
  simp [ptr, Len, List.getD_eq_getElem?_getD]

@[simp] theorem Push_Len (tq : TaskQueue) (x : Nat) : (tq.Push x).Len = tq.Len + 1 := by
  simp [Len]

/-- Pushing a newly allocated task keeps the queue well formed. -/
theorem WF.alloc_Push {tq : TaskQueue} (h : tq.WF) (cb : Callback) (t : Int) :
    ((tq.alloc cb t).1.Push (tq.alloc cb t).2).WF := by
  have hfresh : tq.objs.length ∉ tq.items := fun hm => Nat.lt_irrefl _ (h.bound _ hm)
  refine ⟨?_, ?_, ?_, ?_⟩
  · simp only [Push_items, alloc_items, alloc_snd]
    exact List.Nodup.append h.nodup (List.nodup_singleton _) (by simpa using hfresh)
  · intro p hp
    simp only [Push_items, alloc_items, alloc_snd, List.mem_append, List.mem_singleton] at hp
    simp only [Push_length, alloc_length]
    rcases hp with hp | hp
    · have := h.bound p hp; omega
    · omega
  · intro i hi
    simp only [Push_Len] at hi
    have hlen : (tq.alloc cb t).1.Len = tq.Len := rfl
    rw [hlen] at hi
    rw [Push_deref, deref_setIndex]
    simp only [alloc_snd, alloc_length, alloc_items]
    by_cases hil : i < tq.Len
    · have e : ((tq.alloc cb t).1.Push tq.objs.length).ptr i = tq.ptr i := by
        have := Push_ptr_old (tq.alloc cb t).1 tq.objs.length i (by rw [hlen]; exact hil)
        rw [this]; rfl
      rw [e]
      have hb := h.bound _ (ptr_mem tq hil)
      have hne : ¬ tq.objs.length = tq.ptr i := by omega
      simp only [hne, false_and, if_false]
      rw [alloc_deref_old tq cb t _ hb]
      exact h.index i hil
    · have hi' : i = tq.Len := by omega
      subst hi'
      have e : ((tq.alloc cb t).1.Push tq.objs.length).ptr tq.Len = tq.objs.length := by
        have := Push_ptr_new (tq.alloc cb t).1 tq.objs.length
        rw [hlen] at this; exact this
      rw [e]
      simp [Len]
  · intro p hp hnot
    simp only [Push_items, alloc_items, alloc_snd, List.mem_append, List.mem_singleton,
      not_or] at hnot
    simp only [Push_length, alloc_length] at hp
    rw [Push_deref, deref_setIndex]
    have hne : ¬ (tq.alloc cb t).2 = p := fun e => hnot.2 e.symm
    simp only [hne, false_and, if_false]
    have hp' : p < tq.objs.length := by
      have : p ≠ tq.objs.length := hnot.2
      omega
    rw [alloc_deref_old tq cb t _ hp']
    exact h.out p hp' hnot.1

theorem alloc_Push_key_old (tq : TaskQueue) (h : tq.WF) (cb : Callback) (t : Int) (k : Nat)
    (hk : k < tq.Len) : ((tq.alloc cb t).1.Push (tq.alloc cb t).2).key k = tq.key k := by
  unfold key
  have hlen : (tq.alloc cb t).1.Len = tq.Len := rfl
  rw [Push_ptr_old _ _ _ (by rw [hlen]; exact hk), Push_deref, deref_setIndex_Time]
  have e : (tq.alloc cb t).1.ptr k = tq.ptr k := rfl
  rw [e, alloc_deref_old tq cb t _ (h.bound _ (ptr_mem tq hk))]

theorem alloc_Push_key_new (tq : TaskQueue) (cb : Callback) (t : Int) :
    ((tq.alloc cb t).1.Push (tq.alloc cb t).2).key tq.Len = t := by
  unfold key
  have hlen : (tq.alloc cb t).1.Len = tq.Len := rfl
  have := Push_ptr_new (tq.alloc cb t).1 (tq.alloc cb t).2
  rw [hlen] at this
  rw [this, Push_deref, deref_setIndex_Time, alloc_deref_new]

end TaskQueue
end GoJS

namespace GoJS
namespace TaskQueue

@[simp] theorem Pop_snd (tq : TaskQueue) : tq.Pop.2 = tq.ptr (tq.Len - 1) := rfl

@[simp] theorem Pop_items (tq : TaskQueue) : tq.Pop.1.items = tq.items.take (tq.Len - 1) := rfl

theorem Pop_deref (tq : TaskQueue) (q : Nat) :
    tq.Pop.1.deref q = (tq.setIndex (tq.ptr (tq.Len - 1)) (-1)).deref q := rfl

theorem Pop_Len (tq : TaskQueue) : tq.Pop.1.Len = tq.Len - 1 := by
  simp [Len]

theorem Pop_ptr (tq : TaskQueue) (k : Nat) (hk : k < tq.Len - 1) : tq.Pop.1.ptr k = tq.ptr k := by
  simp [ptr, List.getD_eq_getElem?_getD, List.getElem?_take, hk]

theorem Pop_mem (tq : TaskQueue) (hn : tq.items.Nodup) (h0 : 0 < tq.Len) (q : Nat) :
    q ∈ tq.Pop.1.items ↔ q ∈ tq.items ∧ q ≠ tq.ptr (tq.Len - 1) := by
  rw [mem_items_iff, mem_items_iff, Pop_Len]
  constructor
  · rintro ⟨k, hk, rfl⟩
    rw [Pop_ptr tq k hk]
    refine ⟨⟨k, by omega, rfl⟩, ?_⟩
    intro e
    have := ptr_inj tq hn (by omega) (by omega) e
    omega
  · rintro ⟨⟨k, hk, rfl⟩, hne⟩
    have : k ≠ tq.Len - 1 := fun e => hne (by rw [e])
    exact ⟨k, by omega, Pop_ptr tq k (by omega)⟩

/-- Cutting the last task off a queue whose first `Len - 1` positions form a heap. -/
theorem Removed.Pop {tq : TaskQueue} (h : tq.WF) (h0 : 0 < tq.Len)
    (hh : HeapOn tq (tq.Len - 1)) : Removed tq tq.Pop.1 tq.Pop.2 := by
  have hlast : tq.ptr (tq.Len - 1) ∈ tq.items := ptr_mem tq (by omega)
  have hmem := Pop_mem tq h.nodup h0
  refine ⟨⟨?_, ?_, ?_, ?_⟩, ?_, ?_, ?_, ?_, ?_, ?_⟩
  · rw [Pop_items]; exact h.nodup.sublist (List.take_sublist _ _)
  · intro p hp
    have : tq.Pop.1.objs.length = tq.objs.length := by simp [TaskQueue.Pop]
    rw [this]
    exact h.bound p ((hmem p).1 hp).1
  · intro i hi
    rw [Pop_Len] at hi
    rw [Pop_ptr tq i hi, Pop_deref, deref_setIndex]
    have hne : ¬ tq.ptr (tq.Len - 1) = tq.ptr i := by
      intro e
      have := ptr_inj tq h.nodup (by omega) (by omega) e
      omega
    simp only [hne, false_and, if_false]
    exact h.index i (by omega)
  · intro p hp hnot
    have hl : tq.Pop.1.objs.length = tq.objs.length := by simp [TaskQueue.Pop]
    rw [hl] at hp
    rw [Pop_deref, deref_setIndex]
    by_cases e : tq.ptr (tq.Len - 1) = p
    · simp [e, hp]
    · simp only [e, false_and, if_false]
      apply h.out p hp
      intro hm
      exact hnot ((hmem p).2 ⟨hm, fun e' => e e'.symm⟩)
  · intro c hc0 hcn
    rw [Pop_Len] at hcn
    have := hh c hc0 hcn
    unfold ok key at this ⊢
    rw [Pop_ptr tq c hcn, Pop_ptr tq _ (by omega), Pop_deref, Pop_deref, deref_setIndex_Time,
      deref_setIndex_Time]
    exact this
  · rw [Pop_Len]; omega
  · simp [TaskQueue.Pop]
  · intro q; rw [Pop_snd]; exact hmem q
  · intro q; rw [Pop_deref, deref_setIndex_Time]
  · intro q; rw [Pop_deref, deref_setIndex_Callback]

theorem Removed.of_same {a b c : TaskQueue} {p : Nat} (hs : Same a b) (hr : Removed b c p) :
    Removed a c p :=
  ⟨hr.wf, hr.heap, by rw [hr.len, hs.len], by rw [hr.objs, hs.objs],
    fun q => by rw [hr.mem q, hs.mem q], fun q => by rw [hr.time q, hs.time q],
    fun q => by rw [hr.cb q, hs.cb q]⟩

/-- The removed task ends with `Index = -1`. -/
theorem Removed.index {a b : TaskQueue} {p : Nat} (hr : Removed a b p) (ha : a.WF)
    (hp : p ∈ a.items) : (b.deref p).Index = -1 := by
  apply hr.wf.out p
  · rw [hr.objs]; exact ha.bound p hp
  · intro hm
    exact ((hr.mem p).1 hm).2 rfl

end TaskQueue

namespace heap
open TaskQueue

theorem down_fst (h : TaskQueue) (i n : Nat) : (down h i n).1 = (downLoop n h i n).1 := rfl

theorem Push_spec {tq : TaskQueue} (h : tq.WF) (hh : HeapOn tq tq.Len) (cb : Callback) (t : Int) :
    (heap.Push (tq.alloc cb t).1 (tq.alloc cb t).2).WF ∧
    HeapOn (heap.Push (tq.alloc cb t).1 (tq.alloc cb t).2)
      (heap.Push (tq.alloc cb t).1 (tq.alloc cb t).2).Len ∧
    Same ((tq.alloc cb t).1.Push (tq.alloc cb t).2)
      (heap.Push (tq.alloc cb t).1 (tq.alloc cb t).2) := by
  unfold heap.Push up
  simp only [Push_Len, Nat.add_sub_cancel]
  have hlen : (tq.alloc cb t).1.Len = tq.Len := rfl
  rw [hlen]
  have hinv : UpInv ((tq.alloc cb t).1.Push (tq.alloc cb t).2) (tq.Len + 1) tq.Len := by
    constructor
    · intro c hc0 hcn hne
      have hc : c < tq.Len := by omega
      unfold ok
      rw [alloc_Push_key_old tq h cb t c hc, alloc_Push_key_old tq h cb t _ (by omega)]
      exact hh c hc0 hc
    · intro _ c hc0 hcn hpc
      omega
  obtain ⟨r1, r2, r3, _⟩ := upLoop_spec (tq.Len + 1) (tq.Len + 1)
    ((tq.alloc cb t).1.Push (tq.alloc cb t).2) tq.Len (by omega) (by omega)
    (by rw [Push_Len, hlen]) (h.alloc_Push cb t) hinv
  refine ⟨r1, ?_, r2⟩
  rw [r2.len, Push_Len, hlen]
  exact r3

theorem Pop_spec {tq : TaskQueue} (h : tq.WF) (hh : HeapOn tq tq.Len) (h0 : 0 < tq.Len) :
    Removed tq (heap.Pop tq).1 (heap.Pop tq).2 ∧ (heap.Pop tq).2 = tq.ptr 0 := by
  unfold heap.Pop
  simp only
  have hnL : tq.Len - 1 < tq.Len := by omega
  have ko := fun k => Swap_key_other tq 0 (tq.Len - 1) k h0 hnL
  have hwf1 := h.Swap 0 (tq.Len - 1) h0 hnL
  have hs1 := Same.of_Swap tq 0 (tq.Len - 1) h0 hnL
  obtain ⟨r1, r2, r3, r4, _, r6⟩ := downLoop_spec (tq.Len - 1) 0 (tq.Len - 1)
    (tq.Swap 0 (tq.Len - 1)) 0 (by omega) (le_refl _) (by rw [Swap_Len]; omega) hwf1
    (by
      intro c hc0 hcn hc1 hc2
      unfold ok
      rw [ko c (by omega) (by omega), ko _ hc2 (by omega)]
      exact hh c hc0 (by omega))
    (by intro h; omega)
    (by intro h; exact absurd rfl h)
  have hL2 : (down (tq.Swap 0 (tq.Len - 1)) 0 (tq.Len - 1)).1.Len = tq.Len := by
    show (downLoop _ _ _ _).1.Len = _
    rw [r2.len, Swap_Len]
  have hheap : HeapOn (down (tq.Swap 0 (tq.Len - 1)) 0 (tq.Len - 1)).1
      ((down (tq.Swap 0 (tq.Len - 1)) 0 (tq.Len - 1)).1.Len - 1) := by
    rw [hL2]
    show HeapOn (downLoop _ _ _ _).1 _
    intro c hc0 hcn
    by_cases hz : (downLoop (tq.Len - 1) (tq.Swap 0 (tq.Len - 1)) 0 (tq.Len - 1)).2 = 0
    · exact r3.1 c hc0 hcn (by omega)
    · exact r4 hz c hc0 hcn
  have hrem := @Removed.Pop (down (tq.Swap 0 (tq.Len - 1)) 0 (tq.Len - 1)).1 r1
    (by rw [hL2]; exact h0) hheap
  refine ⟨Removed.of_same (hs1.same_trans r2) hrem, ?_⟩
  rw [Pop_snd, hL2]
  show (downLoop _ _ _ _).1.ptr _ = _
  rw [r6 _ (le_refl _), Swap_ptr tq 0 _ _ h0 hnL]
  simp [sw]

theorem Remove_spec {tq : TaskQueue} (h : tq.WF) (hh : HeapOn tq tq.Len) (i : Nat)
    (hi : i < tq.Len) :
    Removed tq (heap.Remove tq i).1 (heap.Remove tq i).2 ∧ (heap.Remove tq i).2 = tq.ptr i := by
  unfold heap.Remove
  simp only
  by_cases hn : tq.Len - 1 ≠ i
  · rw [if_pos hn]
    have hin : i < tq.Len - 1 := by omega
    have hnL : tq.Len - 1 < tq.Len := by omega
    have ko := fun k => Swap_key_other tq i (tq.Len - 1) k hi hnL
    have hwf1 := h.Swap i (tq.Len - 1) hi hnL
    have hs1 := Same.of_Swap tq i (tq.Len - 1) hi hnL
    obtain ⟨r1, r2, r3, r4, r5, r6⟩ := downLoop_spec (tq.Len - 1) i (tq.Len - 1)
      (tq.Swap i (tq.Len - 1)) i (by omega) (le_refl _) (by rw [Swap_Len]; omega) hwf1
      (by
        intro c hc0 hcn hc1 hc2
        unfold ok
        rw [ko c hc1 (by omega), ko _ hc2 (by omega)]
        exact hh c hc0 (by omega))
      (by
        intro hi0 c hc0 hcn hpc
        rw [ko c (by omega) (by omega), ko _ (by omega) (by omega)]
        have a1 := hh c hc0 (by omega)
        have a2 := hh i hi0 hi
        unfold ok at a1 a2
        rw [hpc] at a1
        omega)
      (by intro h; exact absurd rfl h)
    -- the queue after `down` and, when nothing moved, `up`
    obtain ⟨h2, hh2def, hwf2, hs2, hheap2, hptr2⟩ : ∃ h2,
        (if (down (tq.Swap i (tq.Len - 1)) i (tq.Len - 1)).2 = true
          then (down (tq.Swap i (tq.Len - 1)) i (tq.Len - 1)).1
          else up (down (tq.Swap i (tq.Len - 1)) i (tq.Len - 1)).1 i) = h2 ∧
        h2.WF ∧ Same tq h2 ∧ HeapOn h2 (tq.Len - 1) ∧ h2.ptr (tq.Len - 1) = tq.ptr i := by
      have hp0 : (tq.Swap i (tq.Len - 1)).ptr (tq.Len - 1) = tq.ptr i := by
        rw [Swap_ptr tq i _ _ hi hnL]; simp [sw]
      by_cases hm : (down (tq.Swap i (tq.Len - 1)) i (tq.Len - 1)).2 = true
      · refine ⟨_, if_pos hm, r1, hs1.same_trans r2, ?_, ?_⟩
        · have : i < (downLoop (tq.Len - 1) (tq.Swap i (tq.Len - 1)) i (tq.Len - 1)).2 := by
            simpa [down] using hm
          exact r4 (by omega)
        · show (downLoop _ _ _ _).1.ptr _ = _
          rw [r6 _ (le_refl _), hp0]
      · have heq : (downLoop (tq.Len - 1) (tq.Swap i (tq.Len - 1)) i (tq.Len - 1)).2 = i := by
          have : ¬ i < (downLoop (tq.Len - 1) (tq.Swap i (tq.Len - 1)) i (tq.Len - 1)).2 := by
            simpa [down] using hm
          omega
        rw [heq] at r3
        obtain ⟨u1, u2, u3, u4⟩ := upLoop_spec (tq.Len - 1) (i + 1)
          (downLoop (tq.Len - 1) (tq.Swap i (tq.Len - 1)) i (tq.Len - 1)).1 i (by omega) hin
          (by rw [r2.len, Swap_Len]; omega) r1 r3
        refine ⟨_, if_neg hm, u1, (hs1.same_trans r2).same_trans u2, u3, ?_⟩
        rw [down_fst]
        unfold up
        rw [u4 _ (le_refl _), r6 _ (le_refl _), hp0]
    rw [hh2def]
    have hL2 : h2.Len = tq.Len := hs2.len
    have hrem := @Removed.Pop h2 hwf2 (by omega) (by rw [hL2]; exact hheap2)
    refine ⟨Removed.of_same hs2 hrem, ?_⟩
    rw [Pop_snd, hL2, hptr2]
  · rw [if_neg hn]
    push_neg at hn
    have hrem := Removed.Pop h (by omega) (fun c hc0 hcn => hh c hc0 (by omega))
    refine ⟨hrem, ?_⟩
    rw [Pop_snd, hn]

end heap
end GoJS

namespace GoJS
namespace TimerMap

theorem get_nil (id : Int) : get ([] : TimerMap) id = none := rfl

theorem get_cons (m : TimerMap) (k id : Int) (p : Nat) :
    get ((k, p) :: m) id = if id = k then some p else get m id := by
  unfold get
  rw [List.lookup_cons]
  by_cases h : id = k
  · simp [h]
  · have : (id == k) = false := by simpa using h
    rw [this, if_neg h]

theorem get_delete (m : TimerMap) (id id' : Int) :
    (delete m id).get id' = if id' = id then none else m.get id' := by
  induction m with
  | nil => simp [delete, get]
  | cons e m ih =>
    obtain ⟨k, p⟩ := e
    by_cases hk : k = id
    · have : delete ((k, p) :: m) id = delete m id := by simp [delete, hk]
      rw [this, ih, get_cons]
      by_cases h : id' = id
      · simp [h]
      · have : ¬ id' = k := by rw [hk]; exact h
        simp [h, this]
    · have : delete ((k, p) :: m) id = (k, p) :: delete m id := by simp [delete, hk]
      rw [this, get_cons, ih, get_cons]
      by_cases h : id' = id
      · have : ¬ id' = k := by rw [h]; exact fun e => hk e.symm
        rw [if_neg this, if_pos h, if_pos h]
      · simp [h]

theorem get_set (m : TimerMap) (id id' : Int) (p : Nat) :
    (set m id p).get id' = if id' = id then some p else m.get id' := by
  unfold set
  rw [get_cons, get_delete]
  by_cases h : id' = id <;> simp [h]

theorem mem_of_get {m : TimerMap} {id : Int} {p : Nat} (h : m.get id = some p) :
    (id, p) ∈ m := by
  induction m with
  | nil => simp [get] at h
  | cons e m ih =>
    obtain ⟨k, q⟩ := e
    rw [get_cons] at h
    by_cases hk : id = k
    · rw [if_pos hk] at h
      cases h
      rw [hk]; exact List.mem_cons_self _ _
    · rw [if_neg hk] at h
      exact List.mem_cons_of_mem _ (ih h)

theorem get_of_mem {m : TimerMap} {id : Int} {p : Nat} (h : (id, p) ∈ m) :
    ∃ q, m.get id = some q := by
  induction m with
  | nil => simp at h
  | cons e m ih =>
    obtain ⟨k, q⟩ := e
    rw [get_cons]
    by_cases hk : id = k
    · exact ⟨q, by rw [if_pos hk]⟩
    · rw [if_neg hk]
      rcases List.mem_cons.1 h with h | h
      · cases h; exact absurd rfl hk
      · exact ih h

end TimerMap
end GoJS

namespace GoJS

theorem microsOf_append (a b : List Event) : microsOf (a ++ b) = microsOf a ++ microsOf b := by
  simp [microsOf, List.filterMap_append]

theorem queuedOf_append (a b : List Event) : queuedOf (a ++ b) = queuedOf a ++ queuedOf b := by
  simp [queuedOf, List.filterMap_append]

namespace EventLoop

theorem Hist.nil (sleep : Int → Int → Int) (a b : EventLoop) (ht : b.trace = a.trace)
    (hm : b.microtasks = a.microtasks) : Hist sleep a b [] :=
  ⟨by simp [ht], by simp [microsOf, queuedOf, hm], by intro n e h; simp at h,
    by intro e h; simp at h, by intro _ p t h; simp at h⟩

theorem Hist.append {sleep : Int → Int → Int} {a b c : EventLoop} {n1 n2 : List Event}
    (hobjs : b.macrotasks.objs.length ≤ c.macrotasks.objs.length)
    (htime : ∀ p, p < b.macrotasks.objs.length →
      (c.macrotasks.deref p).Time = (b.macrotasks.deref p).Time)
    (hitems : ∀ p ∈ b.macrotasks.items, p ∈ a.macrotasks.items ∨ a.macrotasks.objs.length ≤ p)
    (hobjs1 : a.macrotasks.objs.length ≤ b.macrotasks.objs.length)
    (h1 : Hist sleep a b n1) (h2 : Hist sleep b c n2) : Hist sleep a c (n1 ++ n2) := by
  refine ⟨?_, ?_, ?_, ?_, ?_⟩
  · rw [h2.trace, h1.trace, List.append_assoc]
  · rw [queuedOf_append, microsOf_append, ← List.append_assoc, h1.fifo, List.append_assoc,
      h2.fifo, List.append_assoc]
  · intro n e hn he
    by_cases hlt : n < n1.length
    · rw [List.getElem?_append_left hlt] at hn
      have := h1.drained n e hn he
      rw [List.take_append_of_le_length (by omega)]
      exact this
    · push_neg at hlt
      rw [List.getElem?_append_right hlt] at hn
      have := h2.drained _ e hn he
      rw [List.take_append_eq_append_take, List.take_of_length_le hlt, queuedOf_append,
        microsOf_append, ← List.append_assoc, h1.fifo, List.append_assoc, this]
  · intro e he p hp
    rcases List.mem_append.1 he with h | h
    · exact h1.tasks e h p hp
    · rcases h2.tasks e h p hp with h' | h'
      · exact hitems p h'
      · right; omega
  · intro hs p t hp
    rcases List.mem_append.1 hp with h | h
    · obtain ⟨q1, q2⟩ := h1.timely hs p t h
      exact ⟨by omega, by rw [htime p q1]; exact q2⟩
    · exact h2.timely hs p t h

theorem Adv.refl (sleep : Int → Int → Int) (a : EventLoop) : Adv sleep a a :=
  ⟨le_refl _, fun _ _ => rfl, fun _ _ => rfl, fun _ h => Or.inl h, le_refl _,
    fun _ _ _ _ h _ => h, ⟨[], Hist.nil sleep a a rfl rfl⟩⟩

theorem Adv.trans {sleep : Int → Int → Int} {a b c : EventLoop} (h1 : Adv sleep a b)
    (h2 : Adv sleep b c) : Adv sleep a c := by
  obtain ⟨n1, hn1⟩ := h1.hist
  obtain ⟨n2, hn2⟩ := h2.hist
  refine ⟨le_trans h1.objs h2.objs, ?_, ?_, ?_, le_trans h1.timerID h2.timerID, ?_,
    ⟨n1 ++ n2, Hist.append h2.objs h2.time h1.items h1.objs hn1 hn2⟩⟩
  · intro p hp
    rw [h2.time p (by have := h1.objs; omega), h1.time p hp]
  · intro p hp
    rw [h2.cb p (by have := h1.objs; omega), h1.cb p hp]
  · intro p hp
    rcases h2.items p hp with h | h
    · exact h1.items p h
    · right; have := h1.objs; omega
  · intro id p hid hp hg hm
    have hb : p ∈ b.macrotasks.items := by
      rcases h2.items p hm with h | h
      · exact h
      · have := h1.objs; omega
    exact h2.kept id p (lt_of_lt_of_le hid h1.timerID) (by have := h1.objs; omega)
      (h1.kept id p hid hp hg hb) hm

/-- A step that leaves the macrotask queue, the timer maps, the id counter, the
microtask queue and the history alone. -/
theorem Adv.of_fields (sleep : Int → Int → Int) {a b : EventLoop} (hq : b.macrotasks = a.macrotasks)
    (hid : b.timerID = a.timerID) (ht : b.timers = a.timers)
    (htr : b.trace = a.trace) (hm : b.microtasks = a.microtasks) : Adv sleep a b :=
  ⟨by rw [hq], fun _ _ => by rw [hq], fun _ _ => by rw [hq], fun p h => by rw [hq] at h; exact Or.inl h,
    by rw [hid], fun _ _ _ _ h hm => by rw [ht]; exact h, ⟨[], Hist.nil sleep a b htr hm⟩⟩

theorem Inv.of_eq {a b : EventLoop} (h : a.Inv) (hq : b.macrotasks = a.macrotasks)
    (ht : b.timers = a.timers) (hi : b.intervals = a.intervals) : b.Inv :=
  ⟨by rw [hq]; exact h.wf, by rw [hq]; exact h.heap, by rw [hq, ht]; exact h.timers,
    by rw [hq, hi]; exact h.intervals⟩

end EventLoop
end GoJS

namespace GoJS
namespace heap
open TaskQueue

theorem Push_pushed {tq : TaskQueue} (h : tq.WF) (hh : HeapOn tq tq.Len) (cb : Callback)
    (t : Int) : Pushed tq (heap.Push (tq.alloc cb t).1 (tq.alloc cb t).2) cb t := by
  obtain ⟨r1, r2, r3⟩ := Push_spec h hh cb t
  refine ⟨r1, r2, ?_, ?_, ?_, ?_, ?_, ?_, ?_⟩
  · rw [r3.len, Push_Len]; rfl
  · rw [r3.objs, Push_length, alloc_length]
  · intro q
    rw [r3.mem q]
    simp [Push_items]
  · intro p hp
    rw [r3.time p, Push_deref, deref_setIndex_Time, alloc_deref_old tq cb t p hp]
  · intro p hp
    rw [r3.cb p, Push_deref, deref_setIndex_Callback, alloc_deref_old tq cb t p hp]
  · rw [r3.time, Push_deref, deref_setIndex_Time]
    have := alloc_deref_new tq cb t
    rw [alloc_snd] at this
    rw [this]
  · rw [r3.cb, Push_deref, deref_setIndex_Callback]
    have := alloc_deref_new tq cb t
    rw [alloc_snd] at this
    rw [this]

end heap

namespace EventLoop
open TaskQueue

theorem Hist.single (sleep : Int → Int → Int) (a b : EventLoop) (e : Event)
    (ht : b.trace = a.trace ++ [e]) (hmac : e.isMacro = false)
    (hm : a.microtasks ++ queuedOf [e] = microsOf [e] ++ b.microtasks) : Hist sleep a b [e] := by
  refine ⟨ht, hm, ?_, ?_, ?_⟩
  · intro n e' hn he
    rcases n with _ | n
    · simp at hn; subst hn; rw [hmac] at he; cases he
    · simp at hn
  · intro e' he p hp
    rw [List.mem_singleton] at he
    rw [he] at hp
    cases e <;> simp [Event.task?, Event.isMacro] at hp hmac
  · intro _ p t hp
    rw [List.mem_singleton] at hp
    rw [← hp] at hmac
    simp [Event.isMacro] at hmac

theorem log_emit_evo (sleep : Int → Int → Int) {a : EventLoop} (h : a.Inv) (n : Nat) :
    (a.log (Event.emit n)).Inv ∧ Adv sleep a (a.log (Event.emit n)) := by
  refine ⟨h.of_eq rfl rfl rfl, le_refl _, fun _ _ => rfl, fun _ _ => rfl, fun _ h => Or.inl h,
    le_refl _, fun _ _ _ _ h _ => h, ⟨[Event.emit n], ?_⟩⟩
  exact Hist.single sleep _ _ _ rfl rfl (by simp [queuedOf, microsOf, log])

theorem QueueMicrotask_evo (sleep : Int → Int → Int) {a : EventLoop} (h : a.Inv) (fn : Script) :
    (a.QueueMicrotask fn).Inv ∧ Adv sleep a (a.QueueMicrotask fn) := by
  refine ⟨h.of_eq rfl rfl rfl, le_refl _, fun _ _ => rfl, fun _ _ => rfl, fun _ h => Or.inl h,
    le_refl _, fun _ _ _ _ h _ => h, ⟨[Event.queued fn], ?_⟩⟩
  exact Hist.single sleep _ _ _ rfl rfl (by simp [queuedOf, microsOf, QueueMicrotask])

theorem work_evo (sleep : Int → Int → Int) {a : EventLoop} (h : a.Inv) (c : Int) :
    ({ a with clock := c } : EventLoop).Inv ∧ Adv sleep a { a with clock := c } :=
  ⟨h.of_eq rfl rfl rfl, Adv.of_fields sleep rfl rfl rfl rfl rfl⟩

/-- A state obtained by pushing one newly allocated task, possibly registering it. -/
theorem push_evo (sleep : Int → Int → Int) {a b : EventLoop} (h : a.Inv) (cb : Callback)
    (t : Int)
    (hq : b.macrotasks = heap.Push (a.macrotasks.alloc cb t).1 (a.macrotasks.alloc cb t).2)
    (hid : a.timerID ≤ b.timerID)
    (ht : b.timers = a.timers ∨ b.timers = a.timers.set a.timerID a.macrotasks.objs.length)
    (hi : b.intervals = a.intervals ∨
      ∃ id, b.intervals = a.intervals.set id a.macrotasks.objs.length)
    (htr : b.trace = a.trace) (hm : b.microtasks = a.microtasks) : b.Inv ∧ Adv sleep a b := by
  have hp := heap.Push_pushed h.wf h.heap cb t
  rw [← hq] at hp
  have hvalid : ∀ (m m' : TimerMap), (∀ e ∈ m, e.2 < a.macrotasks.objs.length) →
      (m' = m ∨ ∃ id, m' = m.set id a.macrotasks.objs.length) →
      ∀ e ∈ m', e.2 < b.macrotasks.objs.length := by
    intro m m' hmv hm' e he
    rw [hp.objs]
    rcases hm' with rfl | ⟨id, rfl⟩
    · have := hmv e he; omega
    · rcases List.mem_cons.1 he with rfl | he
      · simp
      · have := hmv e (List.mem_of_mem_filter he); omega
  refine ⟨⟨hp.wf, hp.heap, ?_, ?_⟩, ?_⟩
  · exact hvalid _ _ h.timers (ht.imp id (fun h => ⟨_, h⟩))
  · exact hvalid _ _ h.intervals hi
  · refine ⟨by rw [hp.objs]; omega, hp.time, hp.cb, ?_, hid, ?_, ⟨[], Hist.nil sleep a b htr hm⟩⟩
    · intro p hpm
      rcases (hp.mem p).1 hpm with h | h
      · exact Or.inl h
      · right; omega
    · intro id p hlt _ hg _
      rcases ht with ht | ht
      · rw [ht]; exact hg
      · rw [ht, TimerMap.get_set, if_neg (by omega)]; exact hg

theorem SetTimeout_evo (sleep : Int → Int → Int) {a : EventLoop} (h : a.Inv) (callback : Script)
    (delay : Int) :
    (a.SetTimeout callback delay).1.Inv ∧ Adv sleep a (a.SetTimeout callback delay).1 :=
  push_evo sleep h (Callback.plain callback) (a.clock + delay) rfl
    (by show a.timerID ≤ a.timerID + 1; omega) (Or.inr rfl) (Or.inl rfl) rfl rfl

theorem SetInterval_evo (sleep : Int → Int → Int) {a : EventLoop} (h : a.Inv) (callback : Script)
    (delay : Int) :
    (a.SetInterval callback delay).1.Inv ∧ Adv sleep a (a.SetInterval callback delay).1 :=
  push_evo sleep h (Callback.repeatFunc callback a.timerID delay) (a.clock + delay) rfl
    (by show a.timerID ≤ a.timerID + 1; omega) (Or.inl rfl) (Or.inr ⟨_, rfl⟩) rfl rfl

end EventLoop
end GoJS

namespace GoJS
namespace TaskQueue

/-- In a well-formed queue a task is queued exactly when its `Index` is not negative,
and then `Index` is its position. -/
theorem WF.index_pos {tq : TaskQueue} (h : tq.WF) {p : Nat} (hp : p < tq.objs.length) :
    (0 ≤ (tq.deref p).Index ↔ p ∈ tq.items) ∧
    (p ∈ tq.items → (tq.deref p).Index.toNat < tq.Len ∧
      tq.ptr (tq.deref p).Index.toNat = p) := by
  have hin : p ∈ tq.items → (tq.deref p).Index.toNat < tq.Len ∧
      tq.ptr (tq.deref p).Index.toNat = p ∧ 0 ≤ (tq.deref p).Index := by
    intro hm
    obtain ⟨i, hi, rfl⟩ := (mem_items_iff tq p).1 hm
    rw [h.index i hi]
    simp [hi]
  refine ⟨⟨?_, fun hm => (hin hm).2.2⟩, fun hm => ⟨(hin hm).1, (hin hm).2.1⟩⟩
  intro h0
  by_contra hm
  rw [h.out p hp hm] at h0
  omega

end TaskQueue

namespace EventLoop
open TaskQueue

theorem ClearTimeout_none {a : EventLoop} {id : Int} (h : a.timers.get id = none) :
    a.ClearTimeout id = a := by
  simp [ClearTimeout, h]

theorem ClearTimeout_queued {a : EventLoop} {id : Int} {task : Nat}
    (h : a.timers.get id = some task) (hi : 0 ≤ (a.macrotasks.deref task).Index) :
    a.ClearTimeout id =
      { a with
          macrotasks := (heap.Remove a.macrotasks (a.macrotasks.deref task).Index.toNat).1
          pendingTasks := a.pendingTasks - 1
          timers := a.timers.delete id } := by
  simp [ClearTimeout, h, hi]

theorem ClearTimeout_gone {a : EventLoop} {id : Int} {task : Nat}
    (h : a.timers.get id = some task) (hi : ¬ 0 ≤ (a.macrotasks.deref task).Index) :
    a.ClearTimeout id = { a with timers := a.timers.delete id } := by
  simp [ClearTimeout, h, hi]

theorem ClearInterval_none {a : EventLoop} {id : Int} (h : a.intervals.get id = none) :
    a.ClearInterval id = a := by
  simp [ClearInterval, h]

theorem ClearInterval_queued {a : EventLoop} {id : Int} {task : Nat}
    (h : a.intervals.get id = some task) (hi : 0 ≤ (a.macrotasks.deref task).Index) :
    a.ClearInterval id =
      { a with
          macrotasks := (heap.Remove a.macrotasks (a.macrotasks.deref task).Index.toNat).1
          pendingTasks := a.pendingTasks - 1
          intervals := a.intervals.delete id } := by
  simp [ClearInterval, h, hi]

theorem ClearInterval_gone {a : EventLoop} {id : Int} {task : Nat}
    (h : a.intervals.get id = some task) (hi : ¬ 0 ≤ (a.macrotasks.deref task).Index) :
    a.ClearInterval id = { a with intervals := a.intervals.delete id } := by
  simp [ClearInterval, h, hi]

theorem delete_valid {m : TimerMap} {n : Nat} (h : ∀ e ∈ m, e.2 < n) (id : Int) :
    ∀ e ∈ m.delete id, e.2 < n :=
  fun e he => h e (List.mem_of_mem_filter he)

/-- A state obtained by taking the queued task `p` out of the queue. -/
theorem remove_evo (sleep : Int → Int → Int) {a b : EventLoop} (h : a.Inv) (p : Nat)
    (hp : p ∈ a.macrotasks.items)
    (hq : b.macrotasks = (heap.Remove a.macrotasks (a.macrotasks.deref p).Index.toNat).1)
    (hid : b.timerID = a.timerID)
    (ht : b.timers = a.timers ∨ ∃ id, b.timers = a.timers.delete id ∧ a.timers.get id = some p)
    (hi : b.intervals = a.intervals ∨ ∃ id, b.intervals = a.intervals.delete id)
    (htr : b.trace = a.trace) (hm : b.microtasks = a.microtasks) :
    (b.Inv ∧ Adv sleep a b) ∧ p ∉ b.macrotasks.items ∧
      (∀ q, q ∈ b.macrotasks.items ↔ q ∈ a.macrotasks.items ∧ q ≠ p) := by
  have hpb := h.wf.bound p hp
  obtain ⟨hlt, hptr⟩ := (h.wf.index_pos hpb).2 hp
  obtain ⟨hrem, hres⟩ := heap.Remove_spec h.wf h.heap _ hlt
  rw [hres, hptr, ← hq] at hrem
  have hnot : p ∉ b.macrotasks.items := fun hm => ((hrem.mem p).1 hm).2 rfl
  refine ⟨⟨⟨hrem.wf, hrem.heap, ?_, ?_⟩, ?_⟩, hnot, hrem.mem⟩
  · rw [hrem.objs]
    rcases ht with ht | ⟨id, ht, _⟩
    · rw [ht]; exact h.timers
    · rw [ht]; exact delete_valid h.timers id
  · rw [hrem.objs]
    rcases hi with hi | ⟨id, hi⟩
    · rw [hi]; exact h.intervals
    · rw [hi]; exact delete_valid h.intervals id
  · refine ⟨by rw [hrem.objs], fun q _ => hrem.time q, fun q _ => hrem.cb q,
      fun q hq => Or.inl ((hrem.mem q).1 hq).1, by rw [hid], ?_, ⟨[], Hist.nil sleep a b htr hm⟩⟩
    intro id q _ _ hg hqm
    rcases ht with ht | ⟨id', ht, hg'⟩
    · rw [ht]; exact hg
    · rw [ht, TimerMap.get_delete]
      by_cases e : id = id'
      · subst e
        rw [hg] at hg'
        cases hg'
        exact absurd hqm hnot
      · rw [if_neg e]; exact hg

/-- A state obtained by dropping the registration of a task that is not queued. -/
theorem unregister_evo (sleep : Int → Int → Int) {a b : EventLoop} (h : a.Inv)
    (hq : b.macrotasks = a.macrotasks) (hid : b.timerID = a.timerID)
    (ht : b.timers = a.timers ∨
      ∃ id p, b.timers = a.timers.delete id ∧ a.timers.get id = some p ∧ p ∉ a.macrotasks.items)
    (hi : b.intervals = a.intervals ∨ ∃ id, b.intervals = a.intervals.delete id)
    (htr : b.trace = a.trace) (hm : b.microtasks = a.microtasks) : b.Inv ∧ Adv sleep a b := by
  refine ⟨⟨by rw [hq]; exact h.wf, by rw [hq]; exact h.heap, ?_, ?_⟩, ?_⟩
  · rw [hq]
    rcases ht with ht | ⟨id, _, ht, _⟩
    · rw [ht]; exact h.timers
    · rw [ht]; exact delete_valid h.timers id
  · rw [hq]
    rcases hi with hi | ⟨id, hi⟩
    · rw [hi]; exact h.intervals
    · rw [hi]; exact delete_valid h.intervals id
  · refine ⟨by rw [hq], fun q _ => by rw [hq], fun q _ => by rw [hq],
      fun q hqm => Or.inl (by rw [hq] at hqm; exact hqm), by rw [hid], ?_,
      ⟨[], Hist.nil sleep a b htr hm⟩⟩
    intro id q _ _ hg hqm
    rw [hq] at hqm
    rcases ht with ht | ⟨id', p, ht, hg', hnot⟩
    · rw [ht]; exact hg
    · rw [ht, TimerMap.get_delete]
      by_cases e : id = id'
      · subst e
        rw [hg] at hg'
        cases hg'
        exact absurd hqm hnot
      · rw [if_neg e]; exact hg

theorem ClearTimeout_evo (sleep : Int → Int → Int) {a : EventLoop} (h : a.Inv) (id : Int) :
    (a.ClearTimeout id).Inv ∧ Adv sleep a (a.ClearTimeout id) := by
  cases hg : a.timers.get id with
  | none => rw [ClearTimeout_none hg]; exact ⟨h, Adv.refl sleep a⟩
  | some task =>
    have hv : task < a.macrotasks.objs.length := h.timers _ (TimerMap.mem_of_get hg)
    by_cases hi : 0 ≤ (a.macrotasks.deref task).Index
    · rw [ClearTimeout_queued hg hi]
      have hmem := ((h.wf.index_pos hv).1).1 hi
      refine (remove_evo sleep h task hmem ?_ ?_ ?_ ?_ ?_ ?_).1
      · rfl
      · rfl
      · exact Or.inr ⟨id, rfl, hg⟩
      · exact Or.inl rfl
      · rfl
      · rfl
    · rw [ClearTimeout_gone hg hi]
      have hmem : task ∉ a.macrotasks.items := fun hm => hi (((h.wf.index_pos hv).1).2 hm)
      refine unregister_evo sleep h ?_ ?_ ?_ ?_ ?_ ?_
      · rfl
      · rfl
      · exact Or.inr ⟨id, task, rfl, hg, hmem⟩
      · exact Or.inl rfl
      · rfl
      · rfl

theorem ClearInterval_evo (sleep : Int → Int → Int) {a : EventLoop} (h : a.Inv) (id : Int) :
    (a.ClearInterval id).Inv ∧ Adv sleep a (a.ClearInterval id) := by
  cases hg : a.intervals.get id with
  | none => rw [ClearInterval_none hg]; exact ⟨h, Adv.refl sleep a⟩
  | some task =>
    have hv : task < a.macrotasks.objs.length := h.intervals _ (TimerMap.mem_of_get hg)
    by_cases hi : 0 ≤ (a.macrotasks.deref task).Index
    · rw [ClearInterval_queued hg hi]
      have hmem := ((h.wf.index_pos hv).1).1 hi
      refine (remove_evo sleep h task hmem ?_ ?_ ?_ ?_ ?_ ?_).1
      · rfl
      · rfl
      · exact Or.inl rfl
      · exact Or.inr ⟨id, rfl⟩
      · rfl
      · rfl
    · rw [ClearInterval_gone hg hi]
      refine unregister_evo sleep h ?_ ?_ ?_ ?_ ?_ ?_
      · rfl
      · rfl
      · exact Or.inl rfl
      · exact Or.inr ⟨id, rfl⟩
      · rfl
      · rfl

end EventLoop

open EventLoop in
theorem Script.run_evo (sleep : Int → Int → Int) (s : Script) :
    ∀ a : EventLoop, a.Inv → (s.run a).1.Inv ∧ Adv sleep a (s.run a).1 := by
  induction s with
  | ret => intro a h; exact ⟨h, Adv.refl sleep a⟩
  | raise => intro a h; exact ⟨h, Adv.refl sleep a⟩
  | emit n k ih =>
    intro a h
    obtain ⟨h1, a1⟩ := log_emit_evo sleep h n
    obtain ⟨h2, a2⟩ := ih _ h1
    exact ⟨h2, a1.trans a2⟩
  | work dt k ih =>
    intro a h
    obtain ⟨h1, a1⟩ := work_evo sleep h (a.clock + dt)
    obtain ⟨h2, a2⟩ := ih _ h1
    exact ⟨h2, a1.trans a2⟩
  | queueMicrotask fn k _ ih =>
    intro a h
    obtain ⟨h1, a1⟩ := QueueMicrotask_evo sleep h fn
    obtain ⟨h2, a2⟩ := ih _ h1
    exact ⟨h2, a1.trans a2⟩
  | setTimeout fn delay k _ ih =>
    intro a h
    obtain ⟨h1, a1⟩ := SetTimeout_evo sleep h fn delay
    obtain ⟨h2, a2⟩ := ih _ _ h1
    exact ⟨h2, a1.trans a2⟩
  | clearTimeout id k ih =>
    intro a h
    obtain ⟨h1, a1⟩ := ClearTimeout_evo sleep h id
    obtain ⟨h2, a2⟩ := ih _ h1
    exact ⟨h2, a1.trans a2⟩
  | setInterval fn delay k _ ih =>
    intro a h
    obtain ⟨h1, a1⟩ := SetInterval_evo sleep h fn delay
    obtain ⟨h2, a2⟩ := ih _ _ h1
    exact ⟨h2, a1.trans a2⟩
  | clearInterval id k ih =>
    intro a h
    obtain ⟨h1, a1⟩ := ClearInterval_evo sleep h id
    obtain ⟨h2, a2⟩ := ih _ h1
    exact ⟨h2, a1.trans a2⟩
  | queueMicrotaskVar f k ih =>
    intro a h
    obtain ⟨h1, a1⟩ := QueueMicrotask_evo sleep h (a.func f)
    obtain ⟨h2, a2⟩ := ih _ h1
    exact ⟨h2, a1.trans a2⟩
  | setTimeoutVar f delay k ih =>
    intro a h
    obtain ⟨h1, a1⟩ := SetTimeout_evo sleep h (a.func f) delay
    obtain ⟨h2, a2⟩ := ih _ _ h1
    exact ⟨h2, a1.trans a2⟩

end GoJS

namespace GoJS
open EventLoop TaskQueue

theorem Callback.call_evo (sleep : Int → Int → Int) (cb : Callback) (a : EventLoop)
    (h : a.Inv) : (cb.call a).1.Inv ∧ Adv sleep a (cb.call a).1 := by
  cases cb with
  | plain body => exact Script.run_evo sleep body a h
  | repeatFunc callback id delay =>
    obtain ⟨h1, a1⟩ := Script.run_evo sleep callback a h
    unfold Callback.call
    simp only
    by_cases hr : (callback.run a).2 = true
    · rw [if_pos hr]
      cases hg : (callback.run a).1.intervals.get id with
      | none => exact ⟨h1, a1⟩
      | some q =>
        simp only
        refine ⟨?_, a1.trans ?_⟩
        · refine (push_evo sleep h1 (Callback.repeatFunc callback id delay)
            ((callback.run a).1.clock + delay) ?_ ?_ ?_ ?_ ?_ ?_).1
          · rfl
          · exact le_refl _
          · exact Or.inl rfl
          · exact Or.inr ⟨id, rfl⟩
          · rfl
          · rfl
        · refine (push_evo sleep h1 (Callback.repeatFunc callback id delay)
            ((callback.run a).1.clock + delay) ?_ ?_ ?_ ?_ ?_ ?_).2
          · rfl
          · exact le_refl _
          · exact Or.inl rfl
          · exact Or.inr ⟨id, rfl⟩
          · rfl
          · rfl
    · rw [if_neg hr]
      exact ⟨h1, a1⟩

namespace EventLoop

theorem processMicrotasks_evo (sleep : Int → Int → Int) : ∀ (fuel : Nat) (a : EventLoop)
    (r : EventLoop × Bool), a.Inv → a.processMicrotasks fuel = some r →
    r.1.Inv ∧ Adv sleep a r.1 ∧ (r.2 = true → r.1.microtasks = []) := by
  intro fuel
  induction fuel with
  | zero => intro a r _ h; simp [processMicrotasks] at h
  | succ fuel ih =>
    intro a r h hr
    unfold processMicrotasks at hr
    cases hm : a.microtasks with
    | nil =>
      rw [hm] at hr
      simp only [Option.some.injEq] at hr
      subst hr
      exact ⟨h, Adv.refl sleep a, fun _ => hm⟩
    | cons task rest =>
      rw [hm] at hr
      simp only at hr
      have h0 : ({ a with microtasks := rest, trace := a.trace ++ [Event.micro task] } :
          EventLoop).Inv := h.of_eq rfl rfl rfl
      have a0 : Adv sleep a { a with microtasks := rest, trace := a.trace ++ [Event.micro task] } :=
        ⟨le_refl _, fun _ _ => rfl, fun _ _ => rfl, fun _ h => Or.inl h, le_refl _,
          fun _ _ _ _ h _ => h,
          ⟨[Event.micro task], Hist.single sleep _ _ _ rfl rfl (by simp [queuedOf, microsOf, hm])⟩⟩
      obtain ⟨h1, a1⟩ := Script.run_evo sleep task _ h0
      by_cases hok : (task.run
          { a with microtasks := rest, trace := a.trace ++ [Event.micro task] }).2 = true
      · rw [if_pos hok] at hr
        obtain ⟨h2, a2, m2⟩ := ih _ r h1 hr
        exact ⟨h2, (a0.trans a1).trans a2, m2⟩
      · rw [if_neg hok] at hr
        simp only [Option.some.injEq] at hr
        subst hr
        exact ⟨h1, a0.trans a1, fun h => by simp at h⟩

/-- The part of a pass of `Run` from the pop to the call of the callback. -/
theorem pop_fire_evo (sleep : Int → Int → Int) {a b : EventLoop} (h : a.Inv)
    (hlen : a.macrotasks.Len ≠ 0) (hmicro : a.microtasks = []) (t : Int)
    (hq : b.macrotasks = (heap.Pop a.macrotasks).1) (hid : b.timerID = a.timerID)
    (ht : b.timers = a.timers) (hi : b.intervals = a.intervals)
    (htr : b.trace = a.trace ++
      [Event.popped (heap.Pop a.macrotasks).2, Event.fired (heap.Pop a.macrotasks).2 t])
    (hm : b.microtasks = a.microtasks)
    (htime : SleepOK sleep → (a.macrotasks.deref (heap.Pop a.macrotasks).2).Time ≤ t) :
    b.Inv ∧ Adv sleep a b := by
  obtain ⟨hrem, hres⟩ := heap.Pop_spec h.wf h.heap (Nat.pos_of_ne_zero hlen)
  rw [← hq] at hrem
  have hin : (heap.Pop a.macrotasks).2 ∈ a.macrotasks.items := by
    rw [hres]; exact ptr_mem _ (Nat.pos_of_ne_zero hlen)
  refine ⟨⟨hrem.wf, hrem.heap, by rw [hrem.objs, ht]; exact h.timers,
    by rw [hrem.objs, hi]; exact h.intervals⟩, ?_⟩
  refine ⟨by rw [hrem.objs], fun q _ => hrem.time q, fun q _ => hrem.cb q,
    fun q hq => Or.inl ((hrem.mem q).1 hq).1, by rw [hid], fun _ _ _ _ hg _ => by rw [ht]; exact hg,
    ⟨_, ⟨htr, ?_, ?_, ?_, ?_⟩⟩⟩
  · simp [queuedOf, microsOf, hm]
  · intro n e hn he
    rcases n with _ | _ | n
    · simp [queuedOf, microsOf, hmicro]
    · simp [queuedOf, microsOf, hmicro]
    · simp at hn
  · intro e he p hp
    simp only [List.mem_cons, List.mem_singleton, List.not_mem_nil, or_false] at he
    rcases he with rfl | rfl
    · simp only [Event.task?, Option.some.injEq] at hp
      subst hp; exact Or.inl hin
    · simp only [Event.task?, Option.some.injEq] at hp
      subst hp; exact Or.inl hin
  · intro hs p t' hp
    simp only [List.mem_cons, List.mem_singleton, List.not_mem_nil, or_false] at hp
    rcases hp with hp | hp
    · cases hp
    · cases hp
      exact ⟨by rw [hrem.objs]; exact h.wf.bound _ hin, by rw [hrem.time]; exact htime hs⟩

/-- The pop, the wait and the record of the call in a pass of `Run`. -/
theorem popNext_log_evo (sleep : Int → Int → Int) {a : EventLoop} (h : a.Inv)
    (hlen : a.macrotasks.Len ≠ 0) (hmicro : a.microtasks = []) :
    ((a.popNext sleep).1.log (Event.fired (a.popNext sleep).2 (a.popNext sleep).1.clock)).Inv ∧
      Adv sleep a ((a.popNext sleep).1.log
        (Event.fired (a.popNext sleep).2 (a.popNext sleep).1.clock)) := by
  refine pop_fire_evo sleep h hlen hmicro (a.popNext sleep).1.clock ?_ ?_ ?_ ?_ ?_ ?_ ?_
  · unfold popNext log; simp only; split_ifs <;> rfl
  · unfold popNext log; simp only; split_ifs <;> rfl
  · unfold popNext log; simp only; split_ifs <;> rfl
  · unfold popNext log; simp only; split_ifs <;> rfl
  · unfold popNext log; simp only; split_ifs <;> simp
  · unfold popNext log; simp only; split_ifs <;> rfl
  · intro hs
    have hrem := (heap.Pop_spec h.wf h.heap (Nat.pos_of_ne_zero hlen)).1
    rw [← hrem.time]
    unfold popNext
    simp only
    split_ifs with hc
    · have := hs a.clock
        (((heap.Pop a.macrotasks).1.deref (heap.Pop a.macrotasks).2).Time - a.clock)
      show _ ≤ sleep _ _
      omega
    · show _ ≤ a.clock
      omega

/-- The start of a microtask in `processMicrotasks`: it leaves the queue and is recorded. -/
theorem micro_begin_evo (sleep : Int → Int → Int) {a : EventLoop} (h : a.Inv) (task : Script)
    (rest : List Script) (hm : a.microtasks = task :: rest) :
    ({ a with microtasks := rest, trace := a.trace ++ [Event.micro task] } : EventLoop).Inv ∧
      Adv sleep a { a with microtasks := rest, trace := a.trace ++ [Event.micro task] } :=
  ⟨h.of_eq rfl rfl rfl,
    ⟨le_refl _, fun _ _ => rfl, fun _ _ => rfl, fun _ h => Or.inl h, le_refl _,
      fun _ _ _ _ h _ => h,
      ⟨[Event.micro task], Hist.single sleep _ _ _ rfl rfl (by simp [queuedOf, microsOf, hm])⟩⟩⟩

theorem popNext_fire_evo (sleep : Int → Int → Int) {a : EventLoop} (h : a.Inv)
    (hlen : a.macrotasks.Len ≠ 0) (hmicro : a.microtasks = []) :
    ((a.popNext sleep).1.fire (a.popNext sleep).2).Inv ∧
      Adv sleep a ((a.popNext sleep).1.fire (a.popNext sleep).2) := by
  obtain ⟨i3, a3⟩ := popNext_log_evo sleep h hlen hmicro
  obtain ⟨i4, a4⟩ := Callback.call_evo sleep
    (((a.popNext sleep).1.macrotasks.deref (a.popNext sleep).2).Callback) _ i3
  unfold fire
  simp only
  split_ifs
  · exact ⟨i4, a3.trans a4⟩
  · exact ⟨i4.of_eq rfl rfl rfl, (a3.trans a4).trans (Adv.of_fields sleep rfl rfl rfl rfl rfl)⟩

theorem runPass_evo (sleep : Int → Int → Int) (fuel : Nat) (a : EventLoop)
    (r : EventLoop × Pass) (h : a.Inv) (hr : a.runPass sleep fuel = some r) :
    r.1.Inv ∧ Adv sleep a r.1 := by
  unfold runPass at hr
  cases h1 : a.processMicrotasks fuel with
  | none => rw [h1] at hr; simp at hr
  | some r1 =>
    obtain ⟨el1, ok1⟩ := r1
    obtain ⟨i1, a1, m1⟩ := processMicrotasks_evo sleep fuel a _ h h1
    rw [h1] at hr
    cases ok1 with
    | false =>
      simp only [Option.some.injEq] at hr
      subst hr
      exact ⟨i1, a1⟩
    | true =>
      simp only at hr
      by_cases hlen : el1.macrotasks.Len = 0
      · rw [if_pos hlen] at hr
        simp only [Option.some.injEq] at hr
        subst hr
        exact ⟨i1, a1⟩
      · rw [if_neg hlen] at hr
        obtain ⟨i5, a5⟩ := popNext_fire_evo sleep i1 hlen (m1 rfl)
        cases h6 : ((el1.popNext sleep).1.fire (el1.popNext sleep).2).processMicrotasks fuel with
        | none => rw [h6] at hr; simp at hr
        | some r6 =>
          obtain ⟨el6, ok6⟩ := r6
          obtain ⟨i6, a6, _⟩ := processMicrotasks_evo sleep fuel _ _ i5 h6
          rw [h6] at hr
          have hfin : r.1 = el6 := by
            cases ok6
            · injection hr with hr; rw [← hr]
            · injection hr with hr; rw [← hr]
          rw [hfin]
          exact ⟨i6, (a1.trans a5).trans a6⟩

theorem runLoop_evo (sleep : Int → Int → Int) (fuel : Nat) : ∀ (n : Nat) (a : EventLoop)
    (r : EventLoop × Pass), a.Inv → runLoop sleep fuel n a = some r →
    r.1.Inv ∧ Adv sleep a r.1 := by
  intro n
  induction n with
  | zero =>
    intro a r h hr
    simp only [runLoop, Option.some.injEq] at hr
    subst hr
    exact ⟨h, Adv.refl sleep a⟩
  | succ n ih =>
    intro a r h hr
    unfold runLoop at hr
    cases h1 : a.runPass sleep fuel with
    | none => rw [h1] at hr; simp at hr
    | some r1 =>
      obtain ⟨el1, p1⟩ := r1
      obtain ⟨i1, a1⟩ := runPass_evo sleep fuel a _ h h1
      rw [h1] at hr
      cases p1 with
      | again =>
        obtain ⟨i2, a2⟩ := ih el1 r i1 hr
        exact ⟨i2, a1.trans a2⟩
      | stop => injection hr with hr; rw [← hr]; exact ⟨i1, a1⟩
      | raised => injection hr with hr; rw [← hr]; exact ⟨i1, a1⟩

theorem Run_evo (sleep : Int → Int → Int) (fuel n : Nat) (a : EventLoop)
    (r : EventLoop × Bool) (h : a.Inv) (hr : a.Run sleep fuel n = some r) :
    r.1.Inv ∧ Adv sleep a r.1 := by
  unfold Run at hr
  have i0 : ({ a with running := true } : EventLoop).Inv := h.of_eq rfl rfl rfl
  have a0 : Adv sleep a { a with running := true } := Adv.of_fields sleep rfl rfl rfl rfl rfl
  cases h1 : runLoop sleep fuel n { a with running := true } with
  | none => rw [h1] at hr; simp at hr
  | some r1 =>
    obtain ⟨el1, p1⟩ := r1
    obtain ⟨i1, a1⟩ := runLoop_evo sleep fuel n _ _ i0 h1
    rw [h1] at hr
    cases p1 with
    | again => simp at hr
    | stop =>
      injection hr with hr; rw [← hr]
      exact ⟨i1.of_eq rfl rfl rfl, (a0.trans a1).trans (Adv.of_fields sleep rfl rfl rfl rfl rfl)⟩
    | raised =>
      injection hr with hr; rw [← hr]
      exact ⟨i1.of_eq rfl rfl rfl, (a0.trans a1).trans (Adv.of_fields sleep rfl rfl rfl rfl rfl)⟩

theorem NewEventLoop_inv (now : Int) : (NewEventLoop now).Inv := by
  refine ⟨⟨List.nodup_nil, ?_, ?_, ?_⟩, ?_, ?_, ?_⟩
  · intro p hp; simp [NewEventLoop] at hp
  · intro i hi; simp [NewEventLoop, TaskQueue.Len] at hi
  · intro p hp; simp [NewEventLoop] at hp
  · intro c _ hc; simp [NewEventLoop, TaskQueue.Len] at hc
  · intro e he; simp [NewEventLoop] at he
  · intro e he; simp [NewEventLoop] at he

end EventLoop
end GoJS

namespace GoJS
open EventLoop TaskQueue

theorem Step.evo {sleep : Int → Int → Int} {a b : EventLoop} (h : a.Inv) (hs : Step sleep a b) :
    b.Inv ∧ Adv sleep a b := by
  cases hs with
  | queueMicrotask fn => exact QueueMicrotask_evo sleep h fn
  | setTimeout cb d => exact SetTimeout_evo sleep h cb d
  | clearTimeout id => exact ClearTimeout_evo sleep h id
  | setInterval cb d => exact SetInterval_evo sleep h cb d
  | clearInterval id => exact ClearInterval_evo sleep h id
  | script s => exact Script.run_evo sleep s a h
  | tick dt => exact work_evo sleep h _
  | define fn => exact ⟨h.of_eq rfl rfl rfl, Adv.of_fields sleep rfl rfl rfl rfl rfl⟩
  | processMicrotasks fuel r hr =>
    obtain ⟨i, a, _⟩ := processMicrotasks_evo sleep fuel _ r h hr
    exact ⟨i, a⟩
  | runPass fuel r hr => exact runPass_evo sleep fuel _ r h hr
  | run fuel n r hr => exact Run_evo sleep fuel n _ r h hr
  | beginMacrotask hm hlen => exact popNext_log_evo sleep h hlen hm
  | beginMicrotask task rest hm => exact micro_begin_evo sleep h task rest hm

theorem Steps.evos {sleep : Int → Int → Int} {a b : EventLoop} (h : a.Inv)
    (hs : Steps sleep a b) : b.Inv ∧ Adv sleep a b := by
  induction hs with
  | refl => exact ⟨h, Adv.refl sleep a⟩
  | tail _ hstep ih =>
    obtain ⟨i1, a1⟩ := ih
    obtain ⟨i2, a2⟩ := hstep.evo i1
    exact ⟨i2, a1.trans a2⟩

theorem Reachable.inv {sleep : Int → Int → Int} {el : EventLoop} (h : Reachable sleep el) :
    el.Inv := by
  obtain ⟨now, hs⟩ := h
  exact (hs.evos (NewEventLoop_inv now)).1

theorem Reachable.hist {sleep : Int → Int → Int} {el : EventLoop} (h : Reachable sleep el) :
    ∃ now, Hist sleep (NewEventLoop now) el el.trace := by
  obtain ⟨now, hs⟩ := h
  obtain ⟨new, hn⟩ := (hs.evos (NewEventLoop_inv now)).2.hist
  have : el.trace = new := by
    have := hn.trace
    simpa [NewEventLoop] using this
  rw [this]
  exact ⟨now, hn⟩

theorem Reachable.step {sleep : Int → Int → Int} {a b : EventLoop} (h : Reachable sleep a)
    (hs : Step sleep a b) : Reachable sleep b := by
  obtain ⟨now, h1⟩ := h
  exact ⟨now, Relation.ReflTransGen.tail h1 hs⟩

theorem Reachable.steps {sleep : Int → Int → Int} {a b : EventLoop} (h : Reachable sleep a)
    (hs : Steps sleep a b) : Reachable sleep b := by
  obtain ⟨now, h1⟩ := h
  exact ⟨now, Relation.ReflTransGen.trans h1 hs⟩

theorem Reachable.new (sleep : Int → Int → Int) (now : Int) :
    Reachable sleep (NewEventLoop now) :=
  ⟨now, Relation.ReflTransGen.refl⟩

end GoJS

namespace GoJS
open EventLoop TaskQueue

namespace EventLoop

@[simp] theorem popNext_snd (sleep : Int → Int → Int) (el : EventLoop) :
    (el.popNext sleep).2 = (heap.Pop el.macrotasks).2 := rfl

@[simp] theorem popNext_macrotasks (sleep : Int → Int → Int) (el : EventLoop) :
    (el.popNext sleep).1.macrotasks = (heap.Pop el.macrotasks).1 := by
  unfold popNext; simp only; split_ifs <;> rfl

@[simp] theorem popNext_intervals (sleep : Int → Int → Int) (el : EventLoop) :
    (el.popNext sleep).1.intervals = el.intervals := by
  unfold popNext; simp only; split_ifs <;> rfl

@[simp] theorem popNext_timers (sleep : Int → Int → Int) (el : EventLoop) :
    (el.popNext sleep).1.timers = el.timers := by
  unfold popNext; simp only; split_ifs <;> rfl

theorem popNext_inv (sleep : Int → Int → Int) {el : EventLoop} (h : el.Inv)
    (hne : el.macrotasks.Len ≠ 0) : (el.popNext sleep).1.Inv := by
  obtain ⟨hrem, _⟩ := heap.Pop_spec h.wf h.heap (Nat.pos_of_ne_zero hne)
  refine ⟨?_, ?_, ?_, ?_⟩
  · rw [popNext_macrotasks]; exact hrem.wf
  · rw [popNext_macrotasks]; exact hrem.heap
  · rw [popNext_macrotasks, popNext_timers, hrem.objs]; exact h.timers
  · rw [popNext_macrotasks, popNext_intervals, hrem.objs]; exact h.intervals

end EventLoop

/-- C2: in every state of a loop with a non-empty macrotask queue, the pop of `Run` takes
one task out of the queue: the task was in the queue and is no longer, every other task
stays and the queue is shorter by one, and no due time changes.  The task is due no later
than any task that was in the queue, hence no later than any task that stays. -/
theorem popped_task_is_earliest (sleep : Int → Int → Int) (el : EventLoop)
    (h : Reachable sleep el) (hne : el.macrotasks.Len ≠ 0) :
    (el.popNext sleep).2 ∈ el.macrotasks.items ∧
    (∀ q, q ∈ (el.popNext sleep).1.macrotasks.items ↔
      q ∈ el.macrotasks.items ∧ q ≠ (el.popNext sleep).2) ∧
    (el.popNext sleep).1.macrotasks.Len + 1 = el.macrotasks.Len ∧
    (∀ q, ((el.popNext sleep).1.macrotasks.deref q).Time = (el.macrotasks.deref q).Time) ∧
    (∀ q ∈ el.macrotasks.items,
      (el.macrotasks.deref (el.popNext sleep).2).Time ≤ (el.macrotasks.deref q).Time) ∧
    ∀ q ∈ (el.popNext sleep).1.macrotasks.items,
      ((el.popNext sleep).1.macrotasks.deref (el.popNext sleep).2).Time ≤
        ((el.popNext sleep).1.macrotasks.deref q).Time := by
  have hi := h.inv
  obtain ⟨hrem, hres⟩ := heap.Pop_spec hi.wf hi.heap (Nat.pos_of_ne_zero hne)
  have hmin : ∀ q ∈ el.macrotasks.items,
      (el.macrotasks.deref (el.popNext sleep).2).Time ≤ (el.macrotasks.deref q).Time := by
    intro q hq
    rw [popNext_snd, hres]
    obtain ⟨c, hc, rfl⟩ := (mem_items_iff _ _).1 hq
    exact hi.heap.root_le c hc
  refine ⟨?_, ?_, ?_, ?_, hmin, ?_⟩
  · rw [popNext_snd, hres]
    exact ptr_mem _ (Nat.pos_of_ne_zero hne)
  · intro q
    rw [popNext_macrotasks, popNext_snd]
    exact hrem.mem q
  · rw [popNext_macrotasks]
    exact hrem.len
  · intro q
    rw [popNext_macrotasks]
    exact hrem.time q
  · intro q hq
    rw [popNext_macrotasks] at hq ⊢
    rw [hrem.time, hrem.time]
    exact hmin q ((hrem.mem q).1 hq).1

/-- C8: a timeout that is cleared while its task is still queued never fires.  Let `id` be
returned by `SetTimeout(fn, d)` and let the loop then be used in any way, the task still
being in the macrotask queue.  Then `id` is still registered for that task, whose callback
is `fn`; after `ClearTimeout(id)` the task is not in the queue; and whatever is done with the
loop afterwards, the task never is in the queue again and `Run` neither pops nor calls it. -/
theorem clearTimeout_before_pop_prevents_firing (sleep : Int → Int → Int) (el0 : EventLoop)
    (h0 : Reachable sleep el0) (fn : Script) (d : Int) (el : EventLoop)
    (hs : Steps sleep (el0.SetTimeout fn d).1 el)
    (hq : el0.macrotasks.objs.length ∈ el.macrotasks.items) :
    el.timers.get (el0.SetTimeout fn d).2 = some el0.macrotasks.objs.length ∧
    (el.macrotasks.deref el0.macrotasks.objs.length).Callback = Callback.plain fn ∧
    el0.macrotasks.objs.length ∉ (el.ClearTimeout (el0.SetTimeout fn d).2).macrotasks.items ∧
    ∀ el', Steps sleep (el.ClearTimeout (el0.SetTimeout fn d).2) el' →
      el0.macrotasks.objs.length ∉ el'.macrotasks.items ∧
      ∀ e ∈ el'.trace.drop (el.ClearTimeout (el0.SetTimeout fn d).2).trace.length,
        e.task? ≠ some el0.macrotasks.objs.length := by
  have i0 := h0.inv
  have hp := heap.Push_pushed i0.wf i0.heap (Callback.plain fn) (el0.clock + d)
  obtain ⟨i1, _⟩ := SetTimeout_evo sleep i0 fn d
  obtain ⟨i2, a2⟩ := hs.evos i1
  have hlen1 : el0.macrotasks.objs.length < (el0.SetTimeout fn d).1.macrotasks.objs.length := by
    show _ < (heap.Push _ _).objs.length
    rw [hp.objs]; omega
  have hget : el.timers.get (el0.SetTimeout fn d).2 = some el0.macrotasks.objs.length := by
    apply a2.kept _ _ _ hlen1 _ hq
    · show el0.timerID < el0.timerID + 1
      omega
    · show (el0.timers.set el0.timerID _).get el0.timerID = _
      rw [TimerMap.get_set, if_pos rfl]
      rfl
  have hlen2 : el0.macrotasks.objs.length < el.macrotasks.objs.length :=
    lt_of_lt_of_le hlen1 a2.objs
  have hidx : 0 ≤ (el.macrotasks.deref el0.macrotasks.objs.length).Index :=
    ((i2.wf.index_pos hlen2).1).2 hq
  have hrm : ((el.ClearTimeout (el0.SetTimeout fn d).2).Inv ∧
      Adv sleep el (el.ClearTimeout (el0.SetTimeout fn d).2)) ∧
      el0.macrotasks.objs.length ∉ (el.ClearTimeout (el0.SetTimeout fn d).2).macrotasks.items := by
    rw [ClearTimeout_queued hget hidx]
    refine ⟨(remove_evo sleep i2 _ hq ?_ ?_ ?_ ?_ ?_ ?_).1,
      (remove_evo sleep i2 _ hq ?_ ?_ ?_ ?_ ?_ ?_).2.1⟩
    · rfl
    · rfl
    · exact Or.inr ⟨_, rfl, hget⟩
    · exact Or.inl rfl
    · rfl
    · rfl
    · rfl
    · rfl
    · exact Or.inr ⟨_, rfl, hget⟩
    · exact Or.inl rfl
    · rfl
    · rfl
  obtain ⟨⟨i3, a3⟩, hnot⟩ := hrm
  refine ⟨hget, ?_, hnot, ?_⟩
  · rw [a2.cb _ hlen1]
    exact hp.newCb
  · intro el' hs'
    obtain ⟨_, a4⟩ := hs'.evos i3
    have hlen3 : el0.macrotasks.objs.length <
        (el.ClearTimeout (el0.SetTimeout fn d).2).macrotasks.objs.length :=
      lt_of_lt_of_le hlen2 a3.objs
    refine ⟨?_, ?_⟩
    · intro hm
      rcases a4.items _ hm with h | h
      · exact hnot h
      · omega
    · obtain ⟨new, hn⟩ := a4.hist
      rw [hn.trace, List.drop_left]
      intro e he hp'
      rcases hn.tasks e he _ hp' with h | h
      · exact hnot h
      · omega

/-- C9: a timeout never fires early.  Let the task be created by `SetTimeout(fn, d)` when
the clock reads `t`, with `d ≥ 0`, and let `time.Sleep` never return early.  Whatever is
done with the loop afterwards, every call of the task's callback by `Run` happens at a
clock reading of at least `t + d`. -/
theorem timeout_never_fires_early (sleep : Int → Int → Int) (hsleep : SleepOK sleep)
    (el0 : EventLoop) (h0 : Reachable sleep el0) (fn : Script) (d : Int) (_hd : 0 ≤ d)
    (el : EventLoop) (hs : Steps sleep (el0.SetTimeout fn d).1 el) :
    (el.macrotasks.deref el0.macrotasks.objs.length).Callback = Callback.plain fn ∧
    ∀ t, Event.fired el0.macrotasks.objs.length t ∈ el.trace → el0.clock + d ≤ t := by
  have i0 := h0.inv
  have hp := heap.Push_pushed i0.wf i0.heap (Callback.plain fn) (el0.clock + d)
  obtain ⟨i1, _⟩ := SetTimeout_evo sleep i0 fn d
  obtain ⟨_, a2⟩ := hs.evos i1
  have hlen1 : el0.macrotasks.objs.length < (el0.SetTimeout fn d).1.macrotasks.objs.length := by
    show _ < (heap.Push _ _).objs.length
    rw [hp.objs]; omega
  refine ⟨by rw [a2.cb _ hlen1]; exact hp.newCb, ?_⟩
  intro t ht
  obtain ⟨new, hn⟩ := a2.hist
  rw [hn.trace] at ht
  rcases List.mem_append.1 ht with h | h
  · -- the task did not exist when the earlier history was made
    obtain ⟨now, hh⟩ := h0.hist
    have : (el0.SetTimeout fn d).1.trace = el0.trace := rfl
    rw [this] at h
    have := (hh.timely hsleep _ _ h).1
    omega
  · have := (hn.timely hsleep _ _ h).2
    rw [a2.time _ hlen1] at this
    have e : ((el0.SetTimeout fn d).1.macrotasks.deref el0.macrotasks.objs.length).Time =
        el0.clock + d := hp.newTime
    rw [e] at this
    exact this

end GoJS

namespace GoJS
open EventLoop TaskQueue

/-- C3, counterexample: three timeouts with the same due time, set in the order a, b, c,
are popped by `Run` in the order a, c, b. -/
theorem equal_due_times_not_popped_in_insertion_order :
    threeEqualTimers.macrotasks.objs.map (fun t => t.Time) = [5, 5, 5] ∧
    (Run exactSleep 10 10 threeEqualTimers).map (fun r => poppedOf r.1.trace) = some [0, 2, 1] ∧
    (Run exactSleep 10 10 threeEqualTimers).map (fun r => poppedOf r.1.trace) ≠ some [0, 1, 2] := by
  refine ⟨by decide, by decide, by decide⟩

namespace heap

theorem Push_eq_of_not_less (tq : TaskQueue) (x : Nat)
    (h : tq.Len = 0 ∨ ¬ (tq.Push x).Less tq.Len ((tq.Len - 1) / 2) = true) :
    heap.Push tq x = tq.Push x := by
  unfold heap.Push up upLoop
  simp only [Push_Len, Nat.add_sub_cancel]
  rw [if_pos]
  rcases h with h | h
  · left; rw [h]
  · right; exact h

end heap

/-- C3, amended: two timeouts with the same due time set on a loop whose macrotask queue is
empty are popped in the order in which they were set. -/
theorem equal_due_times_two_tasks_fifo (sleep : Int → Int → Int) (el : EventLoop)
    (h : Reachable sleep el) (hempty : el.macrotasks.Len = 0) (fn1 fn2 : Script)
    (d1 d2 : Int) (dt : Nat) (heq : el.clock + d1 = el.clock + dt + d2) :
    let e1 := (el.SetTimeout fn1 d1).1
    let e2 := (({ e1 with clock := e1.clock + dt } : EventLoop).SetTimeout fn2 d2).1
    (e2.macrotasks.deref el.macrotasks.objs.length).Time =
      (e2.macrotasks.deref (el.macrotasks.objs.length + 1)).Time ∧
    (e2.popNext sleep).2 = el.macrotasks.objs.length ∧
    ((e2.popNext sleep).1.popNext sleep).2 = el.macrotasks.objs.length + 1 := by
  intro e1 e2
  have i0 := h.inv
  have hitems : el.macrotasks.items = [] := List.eq_nil_of_length_eq_zero hempty
  -- the first push
  have hq1 : e1.macrotasks = (el.macrotasks.alloc (Callback.plain fn1) (el.clock + d1)).1.Push
      (el.macrotasks.alloc (Callback.plain fn1) (el.clock + d1)).2 :=
    heap.Push_eq_of_not_less _ _ (Or.inl hempty)
  have hp1 := heap.Push_pushed i0.wf i0.heap (Callback.plain fn1) (el.clock + d1)
  have i1 : e1.Inv := (SetTimeout_evo sleep i0 fn1 d1).1
  have hI1 : e1.macrotasks.items = [el.macrotasks.objs.length] := by
    rw [hq1]; simp [hitems]
  have hL1 : e1.macrotasks.objs.length = el.macrotasks.objs.length + 1 := hp1.objs
  have hT1 : (e1.macrotasks.deref el.macrotasks.objs.length).Time = el.clock + d1 := hp1.newTime
  -- the second push
  have i1' : ({ e1 with clock := e1.clock + dt } : EventLoop).Inv := i1.of_eq rfl rfl rfl
  have hp2 := heap.Push_pushed i1.wf i1.heap (Callback.plain fn2) (e1.clock + dt + d2)
  have hc1 : e1.clock = el.clock := rfl
  have hkey0 : ((e1.macrotasks.alloc (Callback.plain fn2) (e1.clock + dt + d2)).1.Push
      (e1.macrotasks.alloc (Callback.plain fn2) (e1.clock + dt + d2)).2).key 0 = el.clock + d1 := by
    rw [alloc_Push_key_old _ i1.wf _ _ 0 (by simp [Len, hI1])]
    unfold key ptr
    rw [hI1]
    exact hT1
  have hkey1 : ((e1.macrotasks.alloc (Callback.plain fn2) (e1.clock + dt + d2)).1.Push
      (e1.macrotasks.alloc (Callback.plain fn2) (e1.clock + dt + d2)).2).key 1 =
      e1.clock + dt + d2 := by
    have := alloc_Push_key_new e1.macrotasks (Callback.plain fn2) (e1.clock + dt + d2)
    have hl : e1.macrotasks.Len = 1 := by simp [Len, hI1]
    rw [hl] at this
    exact this
  have hq2 : e2.macrotasks = (e1.macrotasks.alloc (Callback.plain fn2) (e1.clock + dt + d2)).1.Push
      (e1.macrotasks.alloc (Callback.plain fn2) (e1.clock + dt + d2)).2 := by
    apply heap.Push_eq_of_not_less
    right
    have hl : (e1.macrotasks.alloc (Callback.plain fn2) (e1.clock + dt + d2)).1.Len = 1 := by
      show e1.macrotasks.items.length = 1
      rw [hI1]; rfl
    rw [hl, Less_iff]
    show ¬ _ < ((e1.macrotasks.alloc (Callback.plain fn2) (e1.clock + dt + d2)).1.Push
      (e1.macrotasks.alloc (Callback.plain fn2) (e1.clock + dt + d2)).2).key 0
    rw [hkey0, hkey1, hc1]
    omega
  have i2 : e2.Inv := (SetTimeout_evo sleep i1' fn2 d2).1
  have hI2 : e2.macrotasks.items = [el.macrotasks.objs.length, el.macrotasks.objs.length + 1] := by
    rw [hq2]
    simp [hI1, hL1]
  have hlen2 : e2.macrotasks.Len ≠ 0 := by simp [Len, hI2]
  obtain ⟨hrem, hres⟩ := heap.Pop_spec i2.wf i2.heap (Nat.pos_of_ne_zero hlen2)
  have hfirst : (e2.popNext sleep).2 = el.macrotasks.objs.length := by
    rw [popNext_snd, hres]
    unfold ptr
    rw [hI2]; rfl
  refine ⟨?_, hfirst, ?_⟩
  · have a : (e2.macrotasks.deref el.macrotasks.objs.length).Time = el.clock + d1 := by
      have := hp2.time el.macrotasks.objs.length (by omega)
      rw [hT1] at this
      exact this
    have b : (e2.macrotasks.deref (el.macrotasks.objs.length + 1)).Time =
        e1.clock + dt + d2 := by
      have := hp2.newTime
      rw [hL1] at this
      exact this
    rw [a, b, hc1, heq]
  · have i3 := popNext_inv sleep i2 hlen2
    have hlen3 : (e2.popNext sleep).1.macrotasks.Len ≠ 0 := by
      rw [popNext_macrotasks]
      have := hrem.len
      simp only [Len, hI2, List.length_cons, List.length_nil] at this
      simp only [Len]
      omega
    obtain ⟨_, hres3⟩ := heap.Pop_spec i3.wf i3.heap (Nat.pos_of_ne_zero hlen3)
    rw [popNext_snd, hres3]
    have hm := ptr_mem (e2.popNext sleep).1.macrotasks (Nat.pos_of_ne_zero hlen3)
    rw [popNext_macrotasks] at hm ⊢
    have := (hrem.mem _).1 hm
    rw [hI2] at this
    rw [popNext_snd] at hfirst
    rw [hfirst] at this
    simp only [List.mem_cons, List.mem_singleton, List.not_mem_nil, or_false] at this
    rcases this with ⟨h1 | h1, h2⟩
    · exact absurd h1 h2
    · exact h1

end GoJS

namespace GoJS
open EventLoop TaskQueue

namespace EventLoop

theorem fire_macrotasks (el : EventLoop) (task : Nat) :
    (el.fire task).macrotasks =
      ((el.macrotasks.deref task).Callback.call (el.log (Event.fired task el.clock))).1.macrotasks := by
  unfold fire; simp only; split_ifs <;> rfl

theorem fire_intervals (el : EventLoop) (task : Nat) :
    (el.fire task).intervals =
      ((el.macrotasks.deref task).Callback.call (el.log (Event.fired task el.clock))).1.intervals := by
  unfold fire; simp only; split_ifs <;> rfl

end EventLoop

theorem Callback.call_repeatFunc_some (callback : Script) (id delay : Int) (el : EventLoop)
    (q : Nat) (hret : (callback.run el).2 = true)
    (hreg : (callback.run el).1.intervals.get id = some q) :
    (Callback.call (Callback.repeatFunc callback id delay) el).1 =
      { (callback.run el).1 with
          macrotasks := heap.Push
            ((callback.run el).1.macrotasks.alloc (Callback.repeatFunc callback id delay)
              ((callback.run el).1.clock + delay)).1
            ((callback.run el).1.macrotasks.alloc (Callback.repeatFunc callback id delay)
              ((callback.run el).1.clock + delay)).2
          intervals := (callback.run el).1.intervals.set id
            ((callback.run el).1.macrotasks.alloc (Callback.repeatFunc callback id delay)
              ((callback.run el).1.clock + delay)).2 } := by
  unfold Callback.call
  simp only [hret, if_true, hreg]

/-- C10: an interval reschedules itself.  In any state of a loop, when `Run` pops a task
whose callback is the repeating function built by `SetInterval(cb, d)` for `id`, `cb`
returns normally and `id` is registered when it returns, then `Run`'s call pushes exactly
one task, a new one, on the macrotask queue; its callback is the same repeating function,
it is due `d` after the clock reading at which `cb` returned, and it is the task
registered for `id`. -/
theorem interval_reschedules_after_firing (sleep : Int → Int → Int) (el : EventLoop)
    (h : Reachable sleep el) (hne : el.macrotasks.Len ≠ 0) (cb : Script) (id d : Int)
    (htask : ((el.popNext sleep).1.macrotasks.deref (el.popNext sleep).2).Callback =
      Callback.repeatFunc cb id d)
    (hret : (cb.run ((el.popNext sleep).1.log
      (Event.fired (el.popNext sleep).2 (el.popNext sleep).1.clock))).2 = true)
    (hreg : ((cb.run ((el.popNext sleep).1.log
      (Event.fired (el.popNext sleep).2 (el.popNext sleep).1.clock))).1.intervals.get id).isSome
        = true) :
    let el1 := (cb.run ((el.popNext sleep).1.log
      (Event.fired (el.popNext sleep).2 (el.popNext sleep).1.clock))).1
    let res := (el.popNext sleep).1.fire (el.popNext sleep).2
    let p := el1.macrotasks.objs.length
    (∀ q, q ∈ res.macrotasks.items ↔ q ∈ el1.macrotasks.items ∨ q = p) ∧
    p ∉ el1.macrotasks.items ∧
    res.macrotasks.Len = el1.macrotasks.Len + 1 ∧
    res.macrotasks.objs.length = el1.macrotasks.objs.length + 1 ∧
    (res.macrotasks.deref p).Callback = Callback.repeatFunc cb id d ∧
    (res.macrotasks.deref p).Time = el1.clock + d ∧
    res.intervals.get id = some p := by
  intro el1 res p
  have i3 : ((el.popNext sleep).1.log
      (Event.fired (el.popNext sleep).2 (el.popNext sleep).1.clock)).Inv :=
    (popNext_inv sleep h.inv hne).of_eq rfl rfl rfl
  have i4 : el1.Inv := (Script.run_evo sleep cb _ i3).1
  obtain ⟨q, hq⟩ := Option.isSome_iff_exists.1 hreg
  have hcall := Callback.call_repeatFunc_some cb id d _ q hret hq
  have hp := heap.Push_pushed i4.wf i4.heap (Callback.repeatFunc cb id d) (el1.clock + d)
  have hm : res.macrotasks = heap.Push
      (el1.macrotasks.alloc (Callback.repeatFunc cb id d) (el1.clock + d)).1
      (el1.macrotasks.alloc (Callback.repeatFunc cb id d) (el1.clock + d)).2 := by
    show ((el.popNext sleep).1.fire (el.popNext sleep).2).macrotasks = _
    rw [fire_macrotasks, htask, hcall]
  have hi : res.intervals = el1.intervals.set id el1.macrotasks.objs.length := by
    show ((el.popNext sleep).1.fire (el.popNext sleep).2).intervals = _
    rw [fire_intervals, htask, hcall]
    rfl
  rw [hm, hi]
  refine ⟨hp.mem, ?_, hp.len, hp.objs, hp.newCb, hp.newTime, ?_⟩
  · intro hmem
    exact Nat.lt_irrefl _ (i4.wf.bound _ hmem)
  · rw [TimerMap.get_set, if_pos rfl]

end GoJS

namespace GoJS
open EventLoop TaskQueue

namespace EventLoop

theorem ClearTimeout_microtasks (el : EventLoop) (id : Int) :
    (el.ClearTimeout id).microtasks = el.microtasks := by
  unfold ClearTimeout
  split
  · simp only; split_ifs <;> rfl
  · rfl

theorem ClearInterval_microtasks (el : EventLoop) (id : Int) :
    (el.ClearInterval id).microtasks = el.microtasks := by
  unfold ClearInterval
  split
  · simp only; split_ifs <;> rfl
  · rfl

end EventLoop

namespace EventLoop

theorem processMicrotasks_selfQueue : ∀ (fuel : Nat) (el : EventLoop),
    el.funcs = [selfQueue] → el.microtasks = [selfQueue] → el.processMicrotasks fuel = none := by
  intro fuel
  induction fuel with
  | zero => intro el _ _; rfl
  | succ fuel ih =>
    intro el hf hm
    unfold processMicrotasks
    rw [hm]
    have hrun : selfQueue.run
        { el with microtasks := [], trace := el.trace ++ [Event.micro selfQueue] } =
        (({ el with microtasks := [], trace := el.trace ++ [Event.micro selfQueue] } :
          EventLoop).QueueMicrotask selfQueue, true) := by
      show Script.run (Script.queueMicrotaskVar 0 Script.ret) _ = _
      simp only [Script.run, EventLoop.func, hf]
      rfl
    simp only [hrun, if_true]
    exact ih _ hf rfl

/-- The drain of the microtask queue need not come to an end: when the queue holds a
function that enqueues itself, `processMicrotasks` does not return, whatever the fuel. -/
theorem processMicrotasks_need_not_return (fuel : Nat) :
    selfQueueLoop.processMicrotasks fuel = none :=
  processMicrotasks_selfQueue fuel selfQueueLoop rfl rfl

end EventLoop
end GoJS

namespace GoJS
open EventLoop TaskQueue

theorem Reachable.afterRun {sleep : Int → Int → Int} {el : EventLoop} (h : Reachable sleep el)
    (fuel n : Nat) : Reachable sleep (el.afterRun sleep fuel n) := by
  unfold EventLoop.afterRun
  cases hr : el.Run sleep fuel n with
  | none => exact h
  | some r => exact h.step (Step.run el fuel n r hr)

theorem Steps.to_afterRun (sleep : Int → Int → Int) (el : EventLoop) (fuel n : Nat) :
    Steps sleep el (el.afterRun sleep fuel n) := by
  unfold EventLoop.afterRun
  cases hr : el.Run sleep fuel n with
  | none => exact Relation.ReflTransGen.refl
  | some r => exact Relation.ReflTransGen.single (Step.run el fuel n r hr)

theorem exactSleep_ok : SleepOK exactSleep := fun _ _ => le_refl _

theorem threeEqualTimers_reachable : Reachable exactSleep threeEqualTimers :=
  (((Reachable.new exactSleep 0).step (Step.setTimeout _ _ _)).step
    (Step.setTimeout _ _ _)).step (Step.setTimeout _ _ _)

theorem threeTimers_reachable : Reachable exactSleep threeTimers :=
  (((Reachable.new exactSleep 0).step (Step.setTimeout _ _ _)).step
    (Step.setTimeout _ _ _)).step (Step.setTimeout _ _ _)

theorem intervalLoop_reachable : Reachable exactSleep intervalLoop :=
  (Reachable.new exactSleep 0).step (Step.setInterval _ _ _)

/-- C2, witness: on a new loop with three timeouts of 7, 3 and 5 ns, the tasks 0, 1 and 2,
the first pop takes the task 1, due at 3, and leaves the tasks 0 and 2, due at 7 and 5. -/
theorem popped_task_is_earliest_witness :
    Reachable exactSleep threeTimers ∧ threeTimers.macrotasks.Len ≠ 0 ∧
    threeTimers.macrotasks.objs.map (fun t => t.Time) = [7, 3, 5] ∧
    (threeTimers.popNext exactSleep).2 = 1 ∧
    (threeTimers.popNext exactSleep).1.macrotasks.items = [2, 0] ∧
    (∀ q, q ∈ (threeTimers.popNext exactSleep).1.macrotasks.items ↔
      q ∈ threeTimers.macrotasks.items ∧ q ≠ (threeTimers.popNext exactSleep).2) ∧
    ∀ q ∈ threeTimers.macrotasks.items,
      (threeTimers.macrotasks.deref (threeTimers.popNext exactSleep).2).Time ≤
        (threeTimers.macrotasks.deref q).Time :=
  ⟨threeTimers_reachable, by decide, by decide, by decide, by decide,
    (popped_task_is_earliest exactSleep threeTimers threeTimers_reachable (by decide)).2.1,
    (popped_task_is_earliest exactSleep threeTimers threeTimers_reachable
      (by decide)).2.2.2.2.1⟩

/-- C3, witness of the amended statement: two timeouts due at 5 on a new loop, the second
one set 2 ns later with delay 3, are popped first and second. -/
theorem equal_due_times_two_tasks_fifo_witness :
    Reachable exactSleep (NewEventLoop 0) ∧ (NewEventLoop 0).macrotasks.Len = 0 ∧
    (NewEventLoop 0).clock + 5 = (NewEventLoop 0).clock + (2 : Nat) + 3 ∧
    (twoEqualTimers.popNext exactSleep).2 = 0 ∧
    ((twoEqualTimers.popNext exactSleep).1.popNext exactSleep).2 = 1 :=
  ⟨Reachable.new exactSleep 0, rfl, by decide,
    (equal_due_times_two_tasks_fifo exactSleep (NewEventLoop 0) (Reachable.new exactSleep 0) rfl
      Script.ret Script.ret 5 3 2 (by decide)).2⟩

/-- C8, witness: a timeout set on a new loop and cleared at once is not in the queue. -/
theorem clearTimeout_before_pop_witness :
    Reachable exactSleep (NewEventLoop 0) ∧
    (NewEventLoop 0).macrotasks.objs.length ∈
      ((NewEventLoop 0).SetTimeout (Script.emit 1 Script.ret) 5).1.macrotasks.items ∧
    (NewEventLoop 0).macrotasks.objs.length ∉
      (((NewEventLoop 0).SetTimeout (Script.emit 1 Script.ret) 5).1.ClearTimeout
        ((NewEventLoop 0).SetTimeout (Script.emit 1 Script.ret) 5).2).macrotasks.items :=
  ⟨Reachable.new exactSleep 0, by decide,
    (clearTimeout_before_pop_prevents_firing exactSleep (NewEventLoop 0)
      (Reachable.new exactSleep 0) (Script.emit 1 Script.ret) 5 _ Relation.ReflTransGen.refl
      (by decide)).2.2.1⟩

/-- C9, witness: a timeout of 5 ns set at clock 0 on a new loop that then runs until idle
fires at a clock reading of at least 5. -/
theorem timeout_never_fires_early_witness :
    SleepOK exactSleep ∧ Reachable exactSleep (NewEventLoop 0) ∧ (0 : Int) ≤ 5 ∧
    ∀ t, Event.fired (NewEventLoop 0).macrotasks.objs.length t ∈
        (((NewEventLoop 0).SetTimeout (Script.emit 1 Script.ret) 5).1.afterRun exactSleep 10
          10).trace →
      (NewEventLoop 0).clock + 5 ≤ t :=
  ⟨exactSleep_ok, Reachable.new exactSleep 0, by decide,
    (timeout_never_fires_early exactSleep exactSleep_ok (NewEventLoop 0)
      (Reachable.new exactSleep 0) (Script.emit 1 Script.ret) 5 (by decide) _
      (Steps.to_afterRun exactSleep _ 10 10)).2⟩

/-- C10, witness: the first firing of the interval of `intervalLoop` registers a new task,
the task 1, for the id 1. -/
theorem interval_reschedules_witness :
    Reachable exactSleep intervalLoop ∧ intervalLoop.macrotasks.Len ≠ 0 ∧
    ((intervalLoop.popNext exactSleep).1.fire (intervalLoop.popNext exactSleep).2).intervals.get 1
      = some 1 :=
  ⟨intervalLoop_reachable, by decide,
    (interval_reschedules_after_firing exactSleep intervalLoop intervalLoop_reachable
      (by decide) (Script.emit 1 Script.ret) 1 5 rfl rfl rfl).2.2.2.2.2.2⟩

end GoJS

namespace GoJS
open TaskQueue

theorem Callback.isRepeat_inj {c : Callback} {id id' : Int} (h : c.isRepeat id = true)
    (h' : c.isRepeat id' = true) : id = id' := by
  cases c with
  | plain _ => simp [Callback.isRepeat] at h
  | repeatFunc _ i _ =>
    simp only [Callback.isRepeat, decide_eq_true_eq] at h h'
    rw [← h, ← h']

theorem Callback.isRepeat_of_isPlain {c : Callback} (h : c.isPlain = true) (id : Int) :
    c.isRepeat id = false := by
  cases c with
  | plain _ => rfl
  | repeatFunc _ _ _ => simp [Callback.isPlain] at h

namespace EventLoop

theorem Reg.noQueued_new {a : EventLoop} (hr : a.Reg) {id : Int} (h : a.timerID ≤ id) :
    NoQueued id a := by
  intro p hp
  by_contra hc
  have := hr.ilt id p (hr.queued p hp id (by simpa using hc))
  omega

theorem Reg.noQueued_of_none {a : EventLoop} (hr : a.Reg) {id : Int}
    (h : a.intervals.get id = none) : NoQueued id a := by
  intro p hp
  by_contra hc
  have := hr.queued p hp id (by simpa using hc)
  rw [h] at this
  cases this

/-- A state obtained by pushing one newly allocated task and registering it. -/
theorem add_flow {a b : EventLoop} (h : a.Inv) (hr : a.Reg) (c : Callback) (t : Int)
    (hq : b.macrotasks = heap.Push (a.macrotasks.alloc c t).1 (a.macrotasks.alloc c t).2)
    (hid : a.timerID ≤ b.timerID) (htr : b.trace = a.trace)
    (hreg : (c.isPlain = true ∧ b.timers = a.timers.set a.timerID a.macrotasks.objs.length ∧
        b.intervals = a.intervals ∧ a.timerID < b.timerID) ∨
      (∃ id, c.isRepeat id = true ∧ b.timers = a.timers ∧
        b.intervals = a.intervals.set id a.macrotasks.objs.length ∧ id < b.timerID ∧
        NoQueued id a ∧ (id < a.timerID → a.intervals.get id ≠ none))) :
    b.Reg ∧ Flow a b := by
  have hp := heap.Push_pushed h.wf h.heap c t
  rw [← hq] at hp
  have hcb : ∀ p, p < a.macrotasks.objs.length → b.cbOf p = a.cbOf p := hp.cb
  have hnew : b.cbOf a.macrotasks.objs.length = c := hp.newCb
  have htb : ∀ id p, a.timers.get id = some p → p < a.macrotasks.objs.length :=
    fun id p hg => h.timers _ (TimerMap.mem_of_get hg)
  have hib : ∀ id p, a.intervals.get id = some p → p < a.macrotasks.objs.length :=
    fun id p hg => h.intervals _ (TimerMap.mem_of_get hg)
  have hdrop : b.trace.drop a.trace.length = [] := by rw [htr]; simp
  rcases hreg with ⟨hc, ht, hi, hlt⟩ | ⟨id0, hc, ht, hi, hlt, hnq, hsome⟩
  · -- a timeout
    have hgetT : ∀ id p, b.timers.get id = some p →
        (id = a.timerID ∧ p = a.macrotasks.objs.length) ∨
        (id ≠ a.timerID ∧ a.timers.get id = some p) := by
      intro id p hg
      rw [ht, TimerMap.get_set] at hg
      by_cases e : id = a.timerID
      · rw [if_pos e] at hg; cases hg; exact Or.inl ⟨e, rfl⟩
      · rw [if_neg e] at hg; exact Or.inr ⟨e, hg⟩
    refine ⟨⟨?_, ?_, ?_, ?_, ?_, ?_⟩, ⟨?_, ?_, ?_, ?_, ?_⟩⟩
    · intro id p hg
      rcases hgetT id p hg with ⟨_, rfl⟩ | ⟨_, hg'⟩
      · rw [hnew]; exact hc
      · rw [hcb p (htb id p hg')]; exact hr.tplain id p hg'
    · intro id p hg
      rw [hi] at hg
      rw [hcb p (hib id p hg)]; exact hr.irep id p hg
    · intro id p hg
      rcases hgetT id p hg with ⟨rfl, _⟩ | ⟨_, hg'⟩
      · exact hlt
      · have := hr.tlt id p hg'; omega
    · intro id p hg
      rw [hi] at hg
      have := hr.ilt id p hg; omega
    · intro id id' p hg hg'
      rcases hgetT id p hg with ⟨rfl, rfl⟩ | ⟨_, h1⟩
      · rcases hgetT id' _ hg' with ⟨rfl, _⟩ | ⟨_, h2⟩
        · rfl
        · have := htb id' _ h2; omega
      · rcases hgetT id' p hg' with ⟨rfl, rfl⟩ | ⟨_, h2⟩
        · have := htb id _ h1; omega
        · exact hr.tinj id id' p h1 h2
    · intro p hpm id hrep
      rw [hi]
      rcases (hp.mem p).1 hpm with hm | rfl
      · rw [hcb p (h.wf.bound p hm)] at hrep
        exact hr.queued p hm id hrep
      · rw [hnew, Callback.isRepeat_of_isPlain hc] at hrep
        cases hrep
    · intro id p hpl hg
      rcases hgetT id p hg with ⟨_, rfl⟩ | ⟨_, hg'⟩
      · omega
      · exact hg'
    · intro id p _ hg
      rw [hi] at hg; exact hg
    · intro p hpm
      exact Or.inl ((hp.mem p).2 (Or.inl hpm))
    · intro id _ hg
      rw [hi]; exact hg
    · intro id _ hnq _
      refine ⟨?_, by rw [hdrop]; intro e he; cases he⟩
      intro p hpm
      rcases (hp.mem p).1 hpm with hm | rfl
      · rw [hcb p (h.wf.bound p hm)]; exact hnq p hm
      · rw [hnew]; exact Callback.isRepeat_of_isPlain hc id
  · -- a task of the interval `id0`
    have hgetI : ∀ id p, b.intervals.get id = some p →
        (id = id0 ∧ p = a.macrotasks.objs.length) ∨
        (id ≠ id0 ∧ a.intervals.get id = some p) := by
      intro id p hg
      rw [hi, TimerMap.get_set] at hg
      by_cases e : id = id0
      · rw [if_pos e] at hg; cases hg; exact Or.inl ⟨e, rfl⟩
      · rw [if_neg e] at hg; exact Or.inr ⟨e, hg⟩
    refine ⟨⟨?_, ?_, ?_, ?_, ?_, ?_⟩, ⟨?_, ?_, ?_, ?_, ?_⟩⟩
    · intro id p hg
      rw [ht] at hg
      rw [hcb p (htb id p hg)]; exact hr.tplain id p hg
    · intro id p hg
      rcases hgetI id p hg with ⟨rfl, rfl⟩ | ⟨_, hg'⟩
      · rw [hnew]; exact hc
      · rw [hcb p (hib id p hg')]; exact hr.irep id p hg'
    · intro id p hg
      rw [ht] at hg
      have := hr.tlt id p hg; omega
    · intro id p hg
      rcases hgetI id p hg with ⟨rfl, _⟩ | ⟨_, hg'⟩
      · exact hlt
      · have := hr.ilt id p hg'; omega
    · intro id id' p hg hg'
      rw [ht] at hg hg'
      exact hr.tinj id id' p hg hg'
    · intro p hpm id hrep
      rcases (hp.mem p).1 hpm with hm | rfl
      · rw [hcb p (h.wf.bound p hm)] at hrep
        have hne : id ≠ id0 := by
          rintro rfl
          rw [hnq p hm] at hrep
          cases hrep
        rw [hi, TimerMap.get_set, if_neg hne]
        exact hr.queued p hm id hrep
      · rw [hnew] at hrep
        have := Callback.isRepeat_inj hrep hc
        rw [hi, TimerMap.get_set, if_pos this]
    · intro id p _ hg
      rw [ht] at hg; exact hg
    · intro id p hpl hg
      rcases hgetI id p hg with ⟨_, rfl⟩ | ⟨_, hg'⟩
      · omega
      · exact hg'
    · intro p hpm
      exact Or.inl ((hp.mem p).2 (Or.inl hpm))
    · intro id hlt' hg
      have hne : id ≠ id0 := by
        rintro rfl
        exact hsome hlt' hg
      rw [hi, TimerMap.get_set, if_neg hne]; exact hg
    · intro id hlt' hnq' hg
      refine ⟨?_, by rw [hdrop]; intro e he; cases he⟩
      intro p hpm
      rcases (hp.mem p).1 hpm with hm | rfl
      · rw [hcb p (h.wf.bound p hm)]; exact hnq' p hm
      · rw [hnew]
        by_contra hcon
        have := Callback.isRepeat_inj (by simpa using hcon) hc
        subst this
        exact hsome hlt' hg

end EventLoop
end GoJS

namespace GoJS
open TaskQueue
namespace EventLoop

/-- A state obtained by taking at most one task, `p`, out of the queue: by a pop that is
recorded together with the call, or by the clearing of its id; or by dropping the
registration of a task `p` that is not queued; or by adding events that are not about
macrotasks. -/
theorem take_flow {a b : EventLoop} (h : a.Inv) (hr : a.Reg) (p : Nat) (evs : List Event)
    (hmem : ∀ q, q ∈ b.macrotasks.items ↔ q ∈ a.macrotasks.items ∧ q ≠ p)
    (hobjs : b.macrotasks.objs.length = a.macrotasks.objs.length)
    (hcb : ∀ q, b.cbOf q = a.cbOf q)
    (hid : b.timerID = a.timerID) (htr : b.trace = a.trace ++ evs)
    (hevs : ∀ e ∈ evs, ∀ q, e.task? = some q → q = p ∧ p ∈ a.macrotasks.items)
    (hreg : (b.timers = a.timers ∧ b.intervals = a.intervals ∧
        (p ∈ a.macrotasks.items → ∃ t, Event.fired p t ∈ evs)) ∨
      (∃ id, b.timers = a.timers.delete id ∧ a.timers.get id = some p ∧
        b.intervals = a.intervals) ∨
      (∃ id, b.intervals = a.intervals.delete id ∧ a.intervals.get id = some p ∧
        b.timers = a.timers)) :
    b.Reg ∧ Flow a b := by
  have hdrop : b.trace.drop a.trace.length = evs := by rw [htr, List.drop_left]
  have hgetT : ∀ id q, b.timers.get id = some q → a.timers.get id = some q := by
    intro id q hg
    rcases hreg with ⟨ht, _, _⟩ | ⟨id0, ht, _, _⟩ | ⟨id0, _, _, ht⟩
    · rw [ht] at hg; exact hg
    · rw [ht, TimerMap.get_delete] at hg
      by_cases e : id = id0
      · rw [if_pos e] at hg; cases hg
      · rw [if_neg e] at hg; exact hg
    · rw [ht] at hg; exact hg
  have hgetI : ∀ id q, b.intervals.get id = some q → a.intervals.get id = some q := by
    intro id q hg
    rcases hreg with ⟨_, hi, _⟩ | ⟨id0, _, _, hi⟩ | ⟨id0, hi, _, _⟩
    · rw [hi] at hg; exact hg
    · rw [hi] at hg; exact hg
    · rw [hi, TimerMap.get_delete] at hg
      by_cases e : id = id0
      · rw [if_pos e] at hg; cases hg
      · rw [if_neg e] at hg; exact hg
  have hnone : ∀ id, a.intervals.get id = none → b.intervals.get id = none := by
    intro id hg
    cases hb : b.intervals.get id with
    | none => rfl
    | some q => rw [hgetI id q hb] at hg; cases hg
  refine ⟨⟨?_, ?_, ?_, ?_, ?_, ?_⟩, ⟨?_, ?_, ?_, ?_, ?_⟩⟩
  · intro id q hg
    rw [hcb]; exact hr.tplain id q (hgetT id q hg)
  · intro id q hg
    rw [hcb]; exact hr.irep id q (hgetI id q hg)
  · intro id q hg
    rw [hid]; exact hr.tlt id q (hgetT id q hg)
  · intro id q hg
    rw [hid]; exact hr.ilt id q (hgetI id q hg)
  · intro id id' q hg hg'
    exact hr.tinj id id' q (hgetT id q hg) (hgetT id' q hg')
  · intro q hqm id hrep
    obtain ⟨hqa, hqp⟩ := (hmem q).1 hqm
    rw [hcb] at hrep
    have hga := hr.queued q hqa id hrep
    rcases hreg with ⟨_, hi, _⟩ | ⟨id0, _, _, hi⟩ | ⟨id0, hi, hg0, _⟩
    · rw [hi]; exact hga
    · rw [hi]; exact hga
    · rw [hi, TimerMap.get_delete]
      by_cases e : id = id0
      · subst e
        rw [hga] at hg0
        cases hg0
        exact absurd rfl hqp
      · rw [if_neg e]; exact hga
  · intro id q _ hg
    exact hgetT id q hg
  · intro id q _ hg
    exact hgetI id q hg
  · intro q hqa
    by_cases e : q = p
    · subst e
      right
      rcases hreg with ⟨_, _, hf⟩ | ⟨id0, ht, hg0, hi⟩ | ⟨id0, hi, hg0, ht⟩
      · left; rw [hdrop]; exact hf hqa
      · right
        intro id
        refine ⟨?_, ?_⟩
        · intro hg
          have hga := hgetT id q hg
          have := hr.tinj id id0 q hga hg0
          subst this
          rw [ht, TimerMap.get_delete, if_pos rfl] at hg
          cases hg
        · intro hg
          have h1 := hr.irep id q (hgetI id q hg)
          have h2 := Callback.isRepeat_of_isPlain (hr.tplain id0 q hg0) id
          rw [h1] at h2
          cases h2
      · right
        intro id
        refine ⟨?_, ?_⟩
        · intro hg
          have h1 := Callback.isRepeat_of_isPlain (hr.tplain id q (hgetT id q hg)) id0
          rw [hr.irep id0 q hg0] at h1
          cases h1
        · intro hg
          have hga := hgetI id q hg
          have := Callback.isRepeat_inj (hr.irep id q hga) (hr.irep id0 q hg0)
          subst this
          rw [hi, TimerMap.get_delete, if_pos rfl] at hg
          cases hg
    · exact Or.inl ((hmem q).2 ⟨hqa, e⟩)
  · intro id _ hg
    exact hnone id hg
  · intro id _ hnq _
    refine ⟨?_, ?_⟩
    · intro q hqm
      rw [hcb]
      exact hnq q ((hmem q).1 hqm).1
    · rw [hdrop]
      intro e he q hq
      obtain ⟨rfl, hpa⟩ := hevs e he q hq
      refine ⟨by rw [hobjs]; exact h.wf.bound _ hpa, ?_⟩
      rw [hcb]
      exact hnq _ hpa

/-- A step that leaves the queue, the timer maps and the id counter alone and records
nothing about macrotasks. -/
theorem same_flow {a b : EventLoop} (h : a.Inv) (hr : a.Reg) (evs : List Event)
    (hq : b.macrotasks = a.macrotasks) (hid : b.timerID = a.timerID) (ht : b.timers = a.timers)
    (hi : b.intervals = a.intervals) (htr : b.trace = a.trace ++ evs)
    (hevs : ∀ e ∈ evs, e.task? = none) : b.Reg ∧ Flow a b := by
  refine take_flow h hr a.macrotasks.objs.length evs ?_ (by rw [hq]) (fun q => by rw [cbOf, cbOf, hq])
    hid htr ?_ (Or.inl ⟨ht, hi, ?_⟩)
  · intro q
    rw [hq]
    constructor
    · intro hm
      exact ⟨hm, fun e => by have := h.wf.bound q hm; omega⟩
    · exact fun hm => hm.1
  · intro e he q hq'
    rw [hevs e he] at hq'
    cases hq'
  · intro hm
    have := h.wf.bound _ hm
    omega

theorem Flow.flow_refl {a : EventLoop} (h : a.Inv) (hr : a.Reg) : Flow a a :=
  (same_flow h hr [] rfl rfl rfl rfl (by simp) (by simp)).2

theorem Flow.flow_trans {sleep : Int → Int → Int} {a b c : EventLoop} (ha : a.Inv)
    (x1 : Adv sleep a b) (x2 : Adv sleep b c) (f1 : Flow a b) (f2 : Flow b c) : Flow a c := by
  obtain ⟨n1, hn1⟩ := x1.hist
  obtain ⟨n2, hn2⟩ := x2.hist
  have d1 : b.trace.drop a.trace.length = n1 := by rw [hn1.trace, List.drop_left]
  have d2 : c.trace.drop b.trace.length = n2 := by rw [hn2.trace, List.drop_left]
  have d3 : c.trace.drop a.trace.length = n1 ++ n2 := by
    rw [hn2.trace, hn1.trace, List.append_assoc, List.drop_left]
  have hobjs := x1.objs
  refine ⟨?_, ?_, ?_, ?_, ?_⟩
  · intro id p hp hg
    exact f1.backT id p hp (f2.backT id p (by omega) hg)
  · intro id p hp hg
    exact f1.backI id p hp (f2.backI id p (by omega) hg)
  · intro p hpa
    have hpl := ha.wf.bound p hpa
    rcases f1.left p hpa with hb | ⟨t, ht⟩ | hu
    · rcases f2.left p hb with hc | ⟨t, ht⟩ | hu
      · exact Or.inl hc
      · right; left
        rw [d2] at ht
        rw [d3]
        exact ⟨t, List.mem_append_right _ ht⟩
      · exact Or.inr (Or.inr hu)
    · right; left
      rw [d1] at ht
      rw [d3]
      exact ⟨t, List.mem_append_left _ ht⟩
    · right; right
      intro id
      exact ⟨fun hg => (hu id).1 (f2.backT id p (by omega) hg),
        fun hg => (hu id).2 (f2.backI id p (by omega) hg)⟩
  · intro id hlt hg
    exact f2.gone id (lt_of_lt_of_le hlt x1.timerID) (f1.gone id hlt hg)
  · intro id hlt hnq hg
    obtain ⟨q1, e1⟩ := f1.quiet id hlt hnq hg
    obtain ⟨q2, e2⟩ := f2.quiet id (lt_of_lt_of_le hlt x1.timerID) q1 (f1.gone id hlt hg)
    refine ⟨q2, ?_⟩
    rw [d3]
    intro e he p hp
    rcases List.mem_append.1 he with he | he
    · rw [d1] at e1
      obtain ⟨hb, hc⟩ := e1 e he p hp
      refine ⟨lt_of_lt_of_le hb x2.objs, ?_⟩
      have : c.cbOf p = b.cbOf p := x2.cb p hb
      rw [this]; exact hc
    · rw [d2] at e2
      exact e2 e he p hp

theorem Calm.calm_refl (a : EventLoop) : Calm a a := fun _ _ _ h => h

theorem Calm.calm_trans {sleep : Int → Int → Int} {a b c : EventLoop} (x1 : Adv sleep a b)
    (c1 : Calm a b) (c2 : Calm b c) : Calm a c :=
  fun id p hlt hg => c1 id p hlt (c2 id p (lt_of_lt_of_le hlt x1.timerID) hg)

theorem Calm.calm_of_eq {a b : EventLoop} (hi : b.intervals = a.intervals) : Calm a b :=
  fun _ _ _ hg => by rw [hi] at hg; exact hg

theorem log_emit_flow {a : EventLoop} (h : a.Inv) (hr : a.Reg) (n : Nat) :
    (a.log (Event.emit n)).Reg ∧ Flow a (a.log (Event.emit n)) ∧ Calm a (a.log (Event.emit n)) := by
  obtain ⟨r, f⟩ := @same_flow a (a.log (Event.emit n)) h hr [Event.emit n] rfl rfl rfl rfl rfl
    (by simp [Event.task?])
  exact ⟨r, f, Calm.calm_of_eq rfl⟩

theorem QueueMicrotask_flow {a : EventLoop} (h : a.Inv) (hr : a.Reg) (fn : Script) :
    (a.QueueMicrotask fn).Reg ∧ Flow a (a.QueueMicrotask fn) ∧ Calm a (a.QueueMicrotask fn) := by
  obtain ⟨r, f⟩ := @same_flow a (a.QueueMicrotask fn) h hr [Event.queued fn] rfl rfl rfl rfl
    rfl (by simp [Event.task?])
  exact ⟨r, f, Calm.calm_of_eq rfl⟩

theorem work_flow {a : EventLoop} (h : a.Inv) (hr : a.Reg) (c : Int) :
    ({ a with clock := c } : EventLoop).Reg ∧ Flow a { a with clock := c } ∧
      Calm a { a with clock := c } := by
  obtain ⟨r, f⟩ := @same_flow a ({ a with clock := c }) h hr [] rfl rfl rfl rfl (by simp)
    (by simp)
  exact ⟨r, f, Calm.calm_of_eq rfl⟩

theorem SetTimeout_flow {a : EventLoop} (h : a.Inv) (hr : a.Reg) (callback : Script)
    (delay : Int) :
    (a.SetTimeout callback delay).1.Reg ∧ Flow a (a.SetTimeout callback delay).1 ∧
      Calm a (a.SetTimeout callback delay).1 := by
  obtain ⟨r, f⟩ := @add_flow a ((a.SetTimeout callback delay).1) h hr (Callback.plain callback)
    (a.clock + delay) rfl (by show a.timerID ≤ a.timerID + 1; omega) rfl
    (Or.inl ⟨rfl, rfl, rfl, by show a.timerID < a.timerID + 1; omega⟩)
  exact ⟨r, f, Calm.calm_of_eq rfl⟩

theorem SetInterval_flow {a : EventLoop} (h : a.Inv) (hr : a.Reg) (callback : Script)
    (delay : Int) :
    (a.SetInterval callback delay).1.Reg ∧ Flow a (a.SetInterval callback delay).1 ∧
      Calm a (a.SetInterval callback delay).1 := by
  obtain ⟨r, f⟩ := @add_flow a ((a.SetInterval callback delay).1) h hr
    (Callback.repeatFunc callback a.timerID delay)
    (a.clock + delay) rfl (by show a.timerID ≤ a.timerID + 1; omega) rfl
    (Or.inr ⟨a.timerID, by simp [Callback.isRepeat], rfl, rfl,
      by show a.timerID < a.timerID + 1; omega, hr.noQueued_new (le_refl _),
      fun hlt => absurd hlt (lt_irrefl _)⟩)
  refine ⟨r, f, ?_⟩
  intro id p hlt hg
  have : (a.SetInterval callback delay).1.intervals =
      a.intervals.set a.timerID a.macrotasks.objs.length := rfl
  rw [this, TimerMap.get_set, if_neg (by omega)] at hg
  exact hg

theorem ClearTimeout_flow {a : EventLoop} (h : a.Inv) (hr : a.Reg) (id : Int) :
    (a.ClearTimeout id).Reg ∧ Flow a (a.ClearTimeout id) ∧ Calm a (a.ClearTimeout id) := by
  cases hg : a.timers.get id with
  | none => rw [ClearTimeout_none hg]; exact ⟨hr, Flow.flow_refl h hr, Calm.calm_refl a⟩
  | some task =>
    have hv : task < a.macrotasks.objs.length := h.timers _ (TimerMap.mem_of_get hg)
    by_cases hi : 0 ≤ (a.macrotasks.deref task).Index
    · rw [ClearTimeout_queued hg hi]
      have hmem := ((h.wf.index_pos hv).1).1 hi
      obtain ⟨hlt, hptr⟩ := (h.wf.index_pos hv).2 hmem
      obtain ⟨hrem, hres⟩ := heap.Remove_spec h.wf h.heap _ hlt
      rw [hres, hptr] at hrem
      obtain ⟨r, f⟩ := @take_flow a ({ a with
          macrotasks := (heap.Remove a.macrotasks (a.macrotasks.deref task).Index.toNat).1
          pendingTasks := a.pendingTasks - 1
          timers := a.timers.delete id }) h hr task [] hrem.mem hrem.objs hrem.cb rfl (by simp)
        (by simp) (Or.inr (Or.inl ⟨id, rfl, hg, rfl⟩))
      exact ⟨r, f, Calm.calm_of_eq rfl⟩
    · rw [ClearTimeout_gone hg hi]
      have hmem : task ∉ a.macrotasks.items := fun hm => hi (((h.wf.index_pos hv).1).2 hm)
      obtain ⟨r, f⟩ := @take_flow a ({ a with timers := a.timers.delete id }) h hr task []
        (fun q => ⟨fun hm => ⟨hm, fun e => hmem (e ▸ hm)⟩, fun hm => hm.1⟩) rfl (fun _ => rfl)
        rfl (by simp) (by simp) (Or.inr (Or.inl ⟨id, rfl, hg, rfl⟩))
      exact ⟨r, f, Calm.calm_of_eq rfl⟩

theorem ClearInterval_flow {a : EventLoop} (h : a.Inv) (hr : a.Reg) (id : Int) :
    (a.ClearInterval id).Reg ∧ Flow a (a.ClearInterval id) ∧ Calm a (a.ClearInterval id) := by
  have hcalm : ∀ b : EventLoop, b.intervals = a.intervals.delete id → Calm a b := by
    intro b hb id' p _ hg'
    rw [hb, TimerMap.get_delete] at hg'
    by_cases e : id' = id
    · rw [if_pos e] at hg'; cases hg'
    · rw [if_neg e] at hg'; exact hg'
  cases hg : a.intervals.get id with
  | none => rw [ClearInterval_none hg]; exact ⟨hr, Flow.flow_refl h hr, Calm.calm_refl a⟩
  | some task =>
    have hv : task < a.macrotasks.objs.length := h.intervals _ (TimerMap.mem_of_get hg)
    by_cases hi : 0 ≤ (a.macrotasks.deref task).Index
    · rw [ClearInterval_queued hg hi]
      have hmem := ((h.wf.index_pos hv).1).1 hi
      obtain ⟨hlt, hptr⟩ := (h.wf.index_pos hv).2 hmem
      obtain ⟨hrem, hres⟩ := heap.Remove_spec h.wf h.heap _ hlt
      rw [hres, hptr] at hrem
      obtain ⟨r, f⟩ := @take_flow a ({ a with
          macrotasks := (heap.Remove a.macrotasks (a.macrotasks.deref task).Index.toNat).1
          pendingTasks := a.pendingTasks - 1
          intervals := a.intervals.delete id }) h hr task [] hrem.mem hrem.objs hrem.cb rfl
        (by simp) (by simp) (Or.inr (Or.inr ⟨id, rfl, hg, rfl⟩))
      exact ⟨r, f, hcalm _ rfl⟩
    · rw [ClearInterval_gone hg hi]
      have hmem : task ∉ a.macrotasks.items := fun hm => hi (((h.wf.index_pos hv).1).2 hm)
      obtain ⟨r, f⟩ := @take_flow a ({ a with intervals := a.intervals.delete id }) h hr task []
        (fun q => ⟨fun hm => ⟨hm, fun e => hmem (e ▸ hm)⟩, fun hm => hm.1⟩) rfl (fun _ => rfl)
        rfl (by simp) (by simp) (Or.inr (Or.inr ⟨id, rfl, hg, rfl⟩))
      exact ⟨r, f, hcalm _ rfl⟩

end EventLoop

open EventLoop in
theorem Script.run_flow (sleep : Int → Int → Int) (s : Script) :
    ∀ a : EventLoop, a.Inv → a.Reg → (s.run a).1.Reg ∧ Flow a (s.run a).1 ∧ Calm a (s.run a).1 := by
  induction s with
  | ret => intro a h hr; exact ⟨hr, Flow.flow_refl h hr, Calm.calm_refl a⟩
  | raise => intro a h hr; exact ⟨hr, Flow.flow_refl h hr, Calm.calm_refl a⟩
  | emit n k ih =>
    intro a h hr
    obtain ⟨h1, a1⟩ := log_emit_evo sleep h n
    obtain ⟨r1, f1, c1⟩ := log_emit_flow h hr n
    obtain ⟨_, a2⟩ := Script.run_evo sleep k _ h1
    obtain ⟨r2, f2, c2⟩ := ih _ h1 r1
    exact ⟨r2, Flow.flow_trans h a1 a2 f1 f2, Calm.calm_trans a1 c1 c2⟩
  | work dt k ih =>
    intro a h hr
    obtain ⟨h1, a1⟩ := work_evo sleep h (a.clock + dt)
    obtain ⟨r1, f1, c1⟩ := work_flow h hr (a.clock + dt)
    obtain ⟨_, a2⟩ := Script.run_evo sleep k _ h1
    obtain ⟨r2, f2, c2⟩ := ih _ h1 r1
    exact ⟨r2, Flow.flow_trans h a1 a2 f1 f2, Calm.calm_trans a1 c1 c2⟩
  | queueMicrotask fn k _ ih =>
    intro a h hr
    obtain ⟨h1, a1⟩ := QueueMicrotask_evo sleep h fn
    obtain ⟨r1, f1, c1⟩ := QueueMicrotask_flow h hr fn
    obtain ⟨_, a2⟩ := Script.run_evo sleep k _ h1
    obtain ⟨r2, f2, c2⟩ := ih _ h1 r1
    exact ⟨r2, Flow.flow_trans h a1 a2 f1 f2, Calm.calm_trans a1 c1 c2⟩
  | setTimeout fn delay k _ ih =>
    intro a h hr
    obtain ⟨h1, a1⟩ := SetTimeout_evo sleep h fn delay
    obtain ⟨r1, f1, c1⟩ := SetTimeout_flow h hr fn delay
    obtain ⟨_, a2⟩ := Script.run_evo sleep (k (a.SetTimeout fn delay).2) _ h1
    obtain ⟨r2, f2, c2⟩ := ih _ _ h1 r1
    exact ⟨r2, Flow.flow_trans h a1 a2 f1 f2, Calm.calm_trans a1 c1 c2⟩
  | clearTimeout id k ih =>
    intro a h hr
    obtain ⟨h1, a1⟩ := ClearTimeout_evo sleep h id
    obtain ⟨r1, f1, c1⟩ := ClearTimeout_flow h hr id
    obtain ⟨_, a2⟩ := Script.run_evo sleep k _ h1
    obtain ⟨r2, f2, c2⟩ := ih _ h1 r1
    exact ⟨r2, Flow.flow_trans h a1 a2 f1 f2, Calm.calm_trans a1 c1 c2⟩
  | setInterval fn delay k _ ih =>
    intro a h hr
    obtain ⟨h1, a1⟩ := SetInterval_evo sleep h fn delay
    obtain ⟨r1, f1, c1⟩ := SetInterval_flow h hr fn delay
    obtain ⟨_, a2⟩ := Script.run_evo sleep (k (a.SetInterval fn delay).2) _ h1
    obtain ⟨r2, f2, c2⟩ := ih _ _ h1 r1
    exact ⟨r2, Flow.flow_trans h a1 a2 f1 f2, Calm.calm_trans a1 c1 c2⟩
  | clearInterval id k ih =>
    intro a h hr
    obtain ⟨h1, a1⟩ := ClearInterval_evo sleep h id
    obtain ⟨r1, f1, c1⟩ := ClearInterval_flow h hr id
    obtain ⟨_, a2⟩ := Script.run_evo sleep k _ h1
    obtain ⟨r2, f2, c2⟩ := ih _ h1 r1
    exact ⟨r2, Flow.flow_trans h a1 a2 f1 f2, Calm.calm_trans a1 c1 c2⟩
  | queueMicrotaskVar f k ih =>
    intro a h hr
    obtain ⟨h1, a1⟩ := QueueMicrotask_evo sleep h (a.func f)
    obtain ⟨r1, f1, c1⟩ := QueueMicrotask_flow h hr (a.func f)
    obtain ⟨_, a2⟩ := Script.run_evo sleep k _ h1
    obtain ⟨r2, f2, c2⟩ := ih _ h1 r1
    exact ⟨r2, Flow.flow_trans h a1 a2 f1 f2, Calm.calm_trans a1 c1 c2⟩
  | setTimeoutVar f delay k ih =>
    intro a h hr
    obtain ⟨h1, a1⟩ := SetTimeout_evo sleep h (a.func f) delay
    obtain ⟨r1, f1, c1⟩ := SetTimeout_flow h hr (a.func f) delay
    obtain ⟨_, a2⟩ := Script.run_evo sleep (k (a.SetTimeout (a.func f) delay).2) _ h1
    obtain ⟨r2, f2, c2⟩ := ih _ _ h1 r1
    exact ⟨r2, Flow.flow_trans h a1 a2 f1 f2, Calm.calm_trans a1 c1 c2⟩

end GoJS

namespace GoJS
open EventLoop TaskQueue

/-- The call of the callback of a task that was popped: `p` is the task, it is not in the
queue any more, and if it is a task of an interval then it is the one registered. -/
theorem Callback.call_flow (sleep : Int → Int → Int) (cb : Callback) (a : EventLoop)
    (h : a.Inv) (hr : a.Reg) (p : Nat) (hp : p < a.macrotasks.objs.length)
    (hnot : p ∉ a.macrotasks.items)
    (hreg : ∀ id, cb.isRepeat id = true → a.intervals.get id = some p) :
    (cb.call a).1.Reg ∧ Flow a (cb.call a).1 := by
  cases cb with
  | plain body =>
    obtain ⟨r, f, _⟩ := Script.run_flow sleep body a h hr
    exact ⟨r, f⟩
  | repeatFunc callback id delay =>
    obtain ⟨h1, a1⟩ := Script.run_evo sleep callback a h
    obtain ⟨r1, f1, c1⟩ := Script.run_flow sleep callback a h hr
    unfold Callback.call
    simp only
    by_cases hret : (callback.run a).2 = true
    · rw [if_pos hret]
      cases hg : (callback.run a).1.intervals.get id with
      | none => exact ⟨r1, f1⟩
      | some q =>
        simp only
        have hga : a.intervals.get id = some p := hreg id (by simp [Callback.isRepeat])
        have hq : q = p := by
          have := c1 id q (hr.ilt id p hga) hg
          rw [hga] at this
          cases this
          rfl
        have hnq : NoQueued id (callback.run a).1 := by
          intro p1 hp1
          by_contra hc
          have hg1 := r1.queued p1 hp1 id (by simpa using hc)
          rw [hg] at hg1
          cases hg1
          rw [hq] at hp1
          rcases a1.items p hp1 with hm | hm
          · exact hnot hm
          · omega
        have hlt : id < (callback.run a).1.timerID := r1.ilt id q hg
        refine ⟨And.left (add_flow h1 r1 (Callback.repeatFunc callback id delay)
            ((callback.run a).1.clock + delay) rfl (le_refl _) rfl ?_),
          Flow.flow_trans h a1 (And.right (push_evo sleep h1 (Callback.repeatFunc callback id delay)
            ((callback.run a).1.clock + delay) rfl (le_refl _) (Or.inl rfl) (Or.inr ⟨id, rfl⟩)
            rfl rfl)) f1
          (And.right (add_flow h1 r1 (Callback.repeatFunc callback id delay)
            ((callback.run a).1.clock + delay) rfl (le_refl _) rfl ?_))⟩
        · exact Or.inr ⟨id, by simp [Callback.isRepeat], rfl, rfl, hlt, hnq,
            fun _ => by rw [hg]; exact fun e => by cases e⟩
        · exact Or.inr ⟨id, by simp [Callback.isRepeat], rfl, rfl, hlt, hnq,
            fun _ => by rw [hg]; exact fun e => by cases e⟩
    · rw [if_neg hret]
      exact ⟨r1, f1⟩

namespace EventLoop

/-- The part of a pass of `Run` from the pop to the call of the callback. -/
theorem pop_flow {a b : EventLoop} (h : a.Inv) (hr : a.Reg)
    (hlen : a.macrotasks.Len ≠ 0) (t : Int)
    (hq : b.macrotasks = (heap.Pop a.macrotasks).1) (hid : b.timerID = a.timerID)
    (ht : b.timers = a.timers) (hi : b.intervals = a.intervals)
    (htr : b.trace = a.trace ++
      [Event.popped (heap.Pop a.macrotasks).2, Event.fired (heap.Pop a.macrotasks).2 t]) :
    (b.Reg ∧ Flow a b) ∧ (heap.Pop a.macrotasks).2 ∈ a.macrotasks.items ∧
      (heap.Pop a.macrotasks).2 ∉ b.macrotasks.items ∧
      b.cbOf (heap.Pop a.macrotasks).2 = a.cbOf (heap.Pop a.macrotasks).2 := by
  obtain ⟨hrem, hres⟩ := heap.Pop_spec h.wf h.heap (Nat.pos_of_ne_zero hlen)
  rw [← hq] at hrem
  have hin : (heap.Pop a.macrotasks).2 ∈ a.macrotasks.items := by
    rw [hres]; exact ptr_mem _ (Nat.pos_of_ne_zero hlen)
  refine ⟨?_, hin, fun hm => ((hrem.mem _).1 hm).2 rfl, hrem.cb _⟩
  refine take_flow h hr (heap.Pop a.macrotasks).2 _ hrem.mem hrem.objs hrem.cb hid htr ?_
    (Or.inl ⟨ht, hi, fun _ => ⟨t, by simp⟩⟩)
  intro e he q hq'
  simp only [List.mem_cons, List.mem_singleton, List.not_mem_nil, or_false] at he
  rcases he with rfl | rfl
  · simp only [Event.task?, Option.some.injEq] at hq'
    exact ⟨hq'.symm, hin⟩
  · simp only [Event.task?, Option.some.injEq] at hq'
    exact ⟨hq'.symm, hin⟩

theorem popNext_log_flow (sleep : Int → Int → Int) {a : EventLoop} (h : a.Inv) (hr : a.Reg)
    (hlen : a.macrotasks.Len ≠ 0) :
    (((a.popNext sleep).1.log (Event.fired (a.popNext sleep).2 (a.popNext sleep).1.clock)).Reg ∧
      Flow a ((a.popNext sleep).1.log
        (Event.fired (a.popNext sleep).2 (a.popNext sleep).1.clock))) ∧
    (a.popNext sleep).2 ∈ a.macrotasks.items ∧
    (a.popNext sleep).2 ∉ ((a.popNext sleep).1.log
        (Event.fired (a.popNext sleep).2 (a.popNext sleep).1.clock)).macrotasks.items ∧
    ((a.popNext sleep).1.log
        (Event.fired (a.popNext sleep).2 (a.popNext sleep).1.clock)).cbOf (a.popNext sleep).2 =
      a.cbOf (a.popNext sleep).2 := by
  refine pop_flow h hr hlen (a.popNext sleep).1.clock ?_ ?_ ?_ ?_ ?_
  · unfold popNext log; simp only; split_ifs <;> rfl
  · unfold popNext log; simp only; split_ifs <;> rfl
  · unfold popNext log; simp only; split_ifs <;> rfl
  · unfold popNext log; simp only; split_ifs <;> rfl
  · unfold popNext log; simp only; split_ifs <;> simp

theorem popNext_fire_flow (sleep : Int → Int → Int) {a : EventLoop} (h : a.Inv) (hr : a.Reg)
    (hlen : a.macrotasks.Len ≠ 0) (hmicro : a.microtasks = []) :
    ((a.popNext sleep).1.fire (a.popNext sleep).2).Reg ∧
      Flow a ((a.popNext sleep).1.fire (a.popNext sleep).2) := by
  obtain ⟨i3, a3⟩ := popNext_log_evo sleep h hlen hmicro
  obtain ⟨⟨r3, f3⟩, hin, hout, hcb⟩ := popNext_log_flow sleep h hr hlen
  have hi3 : ((a.popNext sleep).1.log
      (Event.fired (a.popNext sleep).2 (a.popNext sleep).1.clock)).intervals = a.intervals := by
    show (a.popNext sleep).1.intervals = _
    exact popNext_intervals sleep a
  have hcb2 : ((a.popNext sleep).1.macrotasks.deref (a.popNext sleep).2).Callback =
      a.cbOf (a.popNext sleep).2 := hcb
  obtain ⟨i4, a4⟩ := Callback.call_evo sleep
    (((a.popNext sleep).1.macrotasks.deref (a.popNext sleep).2).Callback) _ i3
  obtain ⟨r4, f4⟩ := Callback.call_flow sleep
    (((a.popNext sleep).1.macrotasks.deref (a.popNext sleep).2).Callback) _ i3 r3
    (a.popNext sleep).2 (lt_of_lt_of_le (h.wf.bound _ hin) a3.objs) hout
    (by
      intro id hrep
      rw [hi3]
      rw [hcb2] at hrep
      exact hr.queued _ hin id hrep)
  have f5 := Flow.flow_trans h a3 a4 f3 f4
  unfold fire
  simp only
  split_ifs
  · exact ⟨r4, f5⟩
  · exact ⟨And.left (same_flow i4 r4 [] rfl rfl rfl rfl (by simp) (by simp)),
      Flow.flow_trans h (a3.trans a4) (Adv.of_fields sleep rfl rfl rfl rfl rfl) f5
        (And.right (same_flow i4 r4 [] rfl rfl rfl rfl (by simp) (by simp)))⟩

theorem micro_begin_flow {a : EventLoop} (h : a.Inv) (hr : a.Reg) (task : Script)
    (rest : List Script) :
    ({ a with microtasks := rest, trace := a.trace ++ [Event.micro task] } : EventLoop).Reg ∧
      Flow a { a with microtasks := rest, trace := a.trace ++ [Event.micro task] } :=
  same_flow h hr [Event.micro task] rfl rfl rfl rfl rfl (by simp [Event.task?])

theorem processMicrotasks_flow (sleep : Int → Int → Int) : ∀ (fuel : Nat) (a : EventLoop)
    (r : EventLoop × Bool), a.Inv → a.Reg → a.processMicrotasks fuel = some r →
    r.1.Reg ∧ Flow a r.1 := by
  intro fuel
  induction fuel with
  | zero => intro a r _ _ h; simp [processMicrotasks] at h
  | succ fuel ih =>
    intro a r h hreg hr
    unfold processMicrotasks at hr
    cases hm : a.microtasks with
    | nil =>
      rw [hm] at hr
      simp only [Option.some.injEq] at hr
      subst hr
      exact ⟨hreg, Flow.flow_refl h hreg⟩
    | cons task rest =>
      rw [hm] at hr
      simp only at hr
      obtain ⟨h0, a0⟩ := micro_begin_evo sleep h task rest hm
      obtain ⟨r0, f0⟩ := micro_begin_flow h hreg task rest
      obtain ⟨h1, a1⟩ := Script.run_evo sleep task _ h0
      obtain ⟨r1, f1, _⟩ := Script.run_flow sleep task _ h0 r0
      have f01 := Flow.flow_trans h a0 a1 f0 f1
      by_cases hok : (task.run
          { a with microtasks := rest, trace := a.trace ++ [Event.micro task] }).2 = true
      · rw [if_pos hok] at hr
        obtain ⟨_, a2, _⟩ := processMicrotasks_evo sleep fuel _ r h1 hr
        obtain ⟨r2, f2⟩ := ih _ r h1 r1 hr
        exact ⟨r2, Flow.flow_trans h (a0.trans a1) a2 f01 f2⟩
      · rw [if_neg hok] at hr
        simp only [Option.some.injEq] at hr
        subst hr
        exact ⟨r1, f01⟩

theorem runPass_flow (sleep : Int → Int → Int) (fuel : Nat) (a : EventLoop)
    (r : EventLoop × Pass) (h : a.Inv) (hreg : a.Reg) (hr : a.runPass sleep fuel = some r) :
    r.1.Reg ∧ Flow a r.1 := by
  unfold runPass at hr
  cases h1 : a.processMicrotasks fuel with
  | none => rw [h1] at hr; simp at hr
  | some r1 =>
    obtain ⟨el1, ok1⟩ := r1
    obtain ⟨i1, a1, m1⟩ := processMicrotasks_evo sleep fuel a _ h h1
    obtain ⟨g1, f1⟩ := processMicrotasks_flow sleep fuel a _ h hreg h1
    rw [h1] at hr
    cases ok1 with
    | false =>
      simp only [Option.some.injEq] at hr
      subst hr
      exact ⟨g1, f1⟩
    | true =>
      simp only at hr
      by_cases hlen : el1.macrotasks.Len = 0
      · rw [if_pos hlen] at hr
        simp only [Option.some.injEq] at hr
        subst hr
        exact ⟨g1, f1⟩
      · rw [if_neg hlen] at hr
        obtain ⟨i5, a5⟩ := popNext_fire_evo sleep i1 hlen (m1 rfl)
        obtain ⟨g5, f5⟩ := popNext_fire_flow sleep i1 g1 hlen (m1 rfl)
        cases h6 : ((el1.popNext sleep).1.fire (el1.popNext sleep).2).processMicrotasks fuel with
        | none => rw [h6] at hr; simp at hr
        | some r6 =>
          obtain ⟨el6, ok6⟩ := r6
          obtain ⟨i6, a6, _⟩ := processMicrotasks_evo sleep fuel _ _ i5 h6
          obtain ⟨g6, f6⟩ := processMicrotasks_flow sleep fuel _ _ i5 g5 h6
          rw [h6] at hr
          have hfin : r.1 = el6 := by
            cases ok6
            · injection hr with hr; rw [← hr]
            · injection hr with hr; rw [← hr]
          rw [hfin]
          exact ⟨g6, Flow.flow_trans h (a1.trans a5) a6 (Flow.flow_trans h a1 a5 f1 f5) f6⟩

theorem runLoop_flow (sleep : Int → Int → Int) (fuel : Nat) : ∀ (n : Nat) (a : EventLoop)
    (r : EventLoop × Pass), a.Inv → a.Reg → runLoop sleep fuel n a = some r →
    r.1.Reg ∧ Flow a r.1 := by
  intro n
  induction n with
  | zero =>
    intro a r h hreg hr
    simp only [runLoop, Option.some.injEq] at hr
    subst hr
    exact ⟨hreg, Flow.flow_refl h hreg⟩
  | succ n ih =>
    intro a r h hreg hr
    unfold runLoop at hr
    cases h1 : a.runPass sleep fuel with
    | none => rw [h1] at hr; simp at hr
    | some r1 =>
      obtain ⟨el1, p1⟩ := r1
      obtain ⟨i1, a1⟩ := runPass_evo sleep fuel a _ h h1
      obtain ⟨g1, f1⟩ := runPass_flow sleep fuel a _ h hreg h1
      rw [h1] at hr
      cases p1 with
      | again =>
        obtain ⟨_, a2⟩ := runLoop_evo sleep fuel n el1 r i1 hr
        obtain ⟨g2, f2⟩ := ih el1 r i1 g1 hr
        exact ⟨g2, Flow.flow_trans h a1 a2 f1 f2⟩
      | stop => injection hr with hr; rw [← hr]; exact ⟨g1, f1⟩
      | raised => injection hr with hr; rw [← hr]; exact ⟨g1, f1⟩

theorem Run_flow (sleep : Int → Int → Int) (fuel n : Nat) (a : EventLoop)
    (r : EventLoop × Bool) (h : a.Inv) (hreg : a.Reg) (hr : a.Run sleep fuel n = some r) :
    r.1.Reg ∧ Flow a r.1 := by
  unfold Run at hr
  have i0 : ({ a with running := true } : EventLoop).Inv := h.of_eq rfl rfl rfl
  have a0 : Adv sleep a { a with running := true } := Adv.of_fields sleep rfl rfl rfl rfl rfl
  obtain ⟨g0, f0⟩ := @same_flow a { a with running := true } h hreg [] rfl rfl rfl rfl
    (by simp) (by simp)
  cases h1 : runLoop sleep fuel n { a with running := true } with
  | none => rw [h1] at hr; simp at hr
  | some r1 =>
    obtain ⟨el1, p1⟩ := r1
    obtain ⟨i1, a1⟩ := runLoop_evo sleep fuel n _ _ i0 h1
    obtain ⟨g1, f1⟩ := runLoop_flow sleep fuel n _ _ i0 g0 h1
    obtain ⟨g2, f2⟩ := @same_flow el1 { el1 with running := false } i1 g1 [] rfl rfl rfl rfl
      (by simp) (by simp)
    have fin : Flow a { el1 with running := false } :=
      Flow.flow_trans h (a0.trans a1) (Adv.of_fields sleep rfl rfl rfl rfl rfl)
        (Flow.flow_trans h a0 a1 f0 f1) f2
    rw [h1] at hr
    cases p1 with
    | again => simp at hr
    | stop => injection hr with hr; rw [← hr]; exact ⟨g2, fin⟩
    | raised => injection hr with hr; rw [← hr]; exact ⟨g2, fin⟩

theorem NewEventLoop_reg (now : Int) : (NewEventLoop now).Reg := by
  refine ⟨?_, ?_, ?_, ?_, ?_, ?_⟩ <;> intros <;> simp_all [NewEventLoop, TimerMap.get]

end EventLoop

theorem Step.flow {sleep : Int → Int → Int} {a b : EventLoop} (h : a.Inv) (hr : a.Reg)
    (hs : Step sleep a b) : b.Reg ∧ Flow a b := by
  cases hs with
  | queueMicrotask fn => exact ⟨(QueueMicrotask_flow h hr fn).1, (QueueMicrotask_flow h hr fn).2.1⟩
  | setTimeout cb d => exact ⟨(SetTimeout_flow h hr cb d).1, (SetTimeout_flow h hr cb d).2.1⟩
  | clearTimeout id => exact ⟨(ClearTimeout_flow h hr id).1, (ClearTimeout_flow h hr id).2.1⟩
  | setInterval cb d => exact ⟨(SetInterval_flow h hr cb d).1, (SetInterval_flow h hr cb d).2.1⟩
  | clearInterval id => exact ⟨(ClearInterval_flow h hr id).1, (ClearInterval_flow h hr id).2.1⟩
  | script s => exact ⟨(Script.run_flow sleep s a h hr).1, (Script.run_flow sleep s a h hr).2.1⟩
  | tick dt => exact ⟨(work_flow h hr _).1, (work_flow h hr _).2.1⟩
  | define fn =>
    exact @same_flow a (a.define fn) h hr [] rfl rfl rfl rfl (by simp [EventLoop.define])
      (by intro e he; cases he)
  | processMicrotasks fuel r hr' => exact processMicrotasks_flow sleep fuel _ r h hr hr'
  | runPass fuel r hr' => exact runPass_flow sleep fuel _ r h hr hr'
  | run fuel n r hr' => exact Run_flow sleep fuel n _ r h hr hr'
  | beginMacrotask hm hlen => exact (popNext_log_flow sleep h hr hlen).1
  | beginMicrotask task rest hm => exact micro_begin_flow h hr task rest

theorem Steps.flows {sleep : Int → Int → Int} {a b : EventLoop} (h : a.Inv) (hr : a.Reg)
    (hs : Steps sleep a b) : b.Reg ∧ Flow a b := by
  induction hs with
  | refl => exact ⟨hr, Flow.flow_refl h hr⟩
  | tail hs1 hstep ih =>
    obtain ⟨i1, a1⟩ := Steps.evos h hs1
    obtain ⟨_, a2⟩ := hstep.evo i1
    obtain ⟨r2, f2⟩ := hstep.flow i1 ih.1
    exact ⟨r2, Flow.flow_trans h a1 a2 ih.2 f2⟩

theorem Reachable.reg {sleep : Int → Int → Int} {el : EventLoop} (h : Reachable sleep el) :
    el.Reg := by
  obtain ⟨now, hs⟩ := h
  exact (hs.flows (NewEventLoop_inv now) (NewEventLoop_reg now)).1

end GoJS

namespace GoJS
open EventLoop TaskQueue

namespace EventLoop

theorem ClearInterval_get_self (a : EventLoop) (id : Int) :
    (a.ClearInterval id).intervals.get id = none := by
  cases hg : a.intervals.get id with
  | none => rw [ClearInterval_none hg]; exact hg
  | some task =>
    by_cases hi : 0 ≤ (a.macrotasks.deref task).Index
    · rw [ClearInterval_queued hg hi]
      show (a.intervals.delete id).get id = none
      rw [TimerMap.get_delete, if_pos rfl]
    · rw [ClearInterval_gone hg hi]
      show (a.intervals.delete id).get id = none
      rw [TimerMap.get_delete, if_pos rfl]

end EventLoop

open EventLoop in
/-- A body that calls `ClearInterval(id)` leaves `id` unregistered. -/
theorem Script.run_clears (sleep : Int → Int → Int) (id : Int) (s : Script) :
    ∀ a : EventLoop, a.Inv → a.Reg → id < a.timerID → s.clearsInterval id a = true →
      (s.run a).1.intervals.get id = none := by
  induction s with
  | ret => intro a _ _ _ hc; simp [Script.clearsInterval] at hc
  | raise => intro a _ _ _ hc; simp [Script.clearsInterval] at hc
  | emit n k ih =>
    intro a h hr hlt hc
    obtain ⟨h1, a1⟩ := log_emit_evo sleep h n
    exact ih _ h1 (log_emit_flow h hr n).1 (lt_of_lt_of_le hlt a1.timerID) hc
  | work dt k ih =>
    intro a h hr hlt hc
    obtain ⟨h1, a1⟩ := work_evo sleep h (a.clock + dt)
    exact ih _ h1 (work_flow h hr _).1 (lt_of_lt_of_le hlt a1.timerID) hc
  | queueMicrotask fn k _ ih =>
    intro a h hr hlt hc
    obtain ⟨h1, a1⟩ := QueueMicrotask_evo sleep h fn
    exact ih _ h1 (QueueMicrotask_flow h hr fn).1 (lt_of_lt_of_le hlt a1.timerID) hc
  | setTimeout fn delay k _ ih =>
    intro a h hr hlt hc
    obtain ⟨h1, a1⟩ := SetTimeout_evo sleep h fn delay
    exact ih _ _ h1 (SetTimeout_flow h hr fn delay).1 (lt_of_lt_of_le hlt a1.timerID) hc
  | clearTimeout id' k ih =>
    intro a h hr hlt hc
    obtain ⟨h1, a1⟩ := ClearTimeout_evo sleep h id'
    exact ih _ h1 (ClearTimeout_flow h hr id').1 (lt_of_lt_of_le hlt a1.timerID) hc
  | setInterval fn delay k _ ih =>
    intro a h hr hlt hc
    obtain ⟨h1, a1⟩ := SetInterval_evo sleep h fn delay
    exact ih _ _ h1 (SetInterval_flow h hr fn delay).1 (lt_of_lt_of_le hlt a1.timerID) hc
  | clearInterval id' k ih =>
    intro a h hr hlt hc
    obtain ⟨h1, a1⟩ := ClearInterval_evo sleep h id'
    obtain ⟨r1, _, _⟩ := ClearInterval_flow h hr id'
    have hlt1 := lt_of_lt_of_le hlt a1.timerID
    simp only [Script.clearsInterval, Bool.or_eq_true, decide_eq_true_eq] at hc
    by_cases e : id' = id
    · subst e
      exact (Script.run_flow sleep k _ h1 r1).2.1.gone _ hlt1 (ClearInterval_get_self a _)
    · rcases hc with hc | hc
      · exact absurd hc e
      · exact ih _ h1 r1 hlt1 hc
  | queueMicrotaskVar f k ih =>
    intro a h hr hlt hc
    obtain ⟨h1, a1⟩ := QueueMicrotask_evo sleep h (a.func f)
    exact ih _ h1 (QueueMicrotask_flow h hr (a.func f)).1 (lt_of_lt_of_le hlt a1.timerID) hc
  | setTimeoutVar f delay k ih =>
    intro a h hr hlt hc
    obtain ⟨h1, a1⟩ := SetTimeout_evo sleep h (a.func f) delay
    exact ih _ _ h1 (SetTimeout_flow h hr (a.func f) delay).1 (lt_of_lt_of_le hlt a1.timerID) hc

/-- C11: an interval whose callback clears it does not fire again.  In any state of a loop
in which `Run` pops a task whose callback is the repeating function built by
`SetInterval(cb, d)` for `id`, let `cb` call `ClearInterval(id)` during its execution.
Then the call by `Run` leaves the macrotask queue as `cb` left it, so no task is pushed
after `cb`; `id` is not registered and no task of the interval is in the queue; and
whatever is done with the loop afterwards, `id` stays unregistered, no task of the
interval gets into the queue, and `Run` neither pops nor calls a task of the interval. -/
theorem clearInterval_in_callback_stops_interval (sleep : Int → Int → Int) (el : EventLoop)
    (h : Reachable sleep el) (hmicro : el.microtasks = []) (hne : el.macrotasks.Len ≠ 0)
    (cb : Script) (id d : Int)
    (htask : ((el.popNext sleep).1.macrotasks.deref (el.popNext sleep).2).Callback =
      Callback.repeatFunc cb id d)
    (hclear : cb.clearsInterval id ((el.popNext sleep).1.log
      (Event.fired (el.popNext sleep).2 (el.popNext sleep).1.clock)) = true) :
    let el1 := (cb.run ((el.popNext sleep).1.log
      (Event.fired (el.popNext sleep).2 (el.popNext sleep).1.clock))).1
    let res := (el.popNext sleep).1.fire (el.popNext sleep).2
    res.macrotasks = el1.macrotasks ∧
    res.intervals.get id = none ∧
    (∀ p ∈ res.macrotasks.items, (res.cbOf p).isRepeat id = false) ∧
    ∀ el', Steps sleep res el' →
      el'.intervals.get id = none ∧
      (∀ p ∈ el'.macrotasks.items, (el'.cbOf p).isRepeat id = false) ∧
      ∀ e ∈ el'.trace.drop res.trace.length, ∀ p, e.task? = some p →
        (el'.cbOf p).isRepeat id = false := by
  intro el1 res
  have i0 := h.inv
  have r0 := h.reg
  obtain ⟨i3, a3⟩ := popNext_log_evo sleep i0 hne hmicro
  obtain ⟨⟨r3, _⟩, hin, _, hcb⟩ := popNext_log_flow sleep i0 r0 hne
  have hcb2 : el.cbOf (el.popNext sleep).2 = Callback.repeatFunc cb id d := by
    rw [← hcb]; exact htask
  have hreg0 : el.intervals.get id = some (el.popNext sleep).2 :=
    r0.queued _ hin id (by rw [hcb2]; simp [Callback.isRepeat])
  have hlt0 : id < el.timerID := r0.ilt _ _ hreg0
  have hlt3 := lt_of_lt_of_le hlt0 a3.timerID
  have hnone : el1.intervals.get id = none := Script.run_clears sleep id cb _ i3 r3 hlt3 hclear
  have hcall : ((Callback.repeatFunc cb id d).call ((el.popNext sleep).1.log
      (Event.fired (el.popNext sleep).2 (el.popNext sleep).1.clock))).1 = el1 := by
    unfold Callback.call
    simp only
    split_ifs
    · rw [hnone]
    · rfl
  have hm : res.macrotasks = el1.macrotasks := by
    show ((el.popNext sleep).1.fire (el.popNext sleep).2).macrotasks = _
    rw [fire_macrotasks, htask, hcall]
  have hi : res.intervals = el1.intervals := by
    show ((el.popNext sleep).1.fire (el.popNext sleep).2).intervals = _
    rw [fire_intervals, htask, hcall]
  obtain ⟨i5, a5⟩ := popNext_fire_evo sleep i0 hne hmicro
  obtain ⟨r5, _⟩ := popNext_fire_flow sleep i0 r0 hne hmicro
  have hres : res.intervals.get id = none := by rw [hi]; exact hnone
  have hlt5 : id < res.timerID := lt_of_lt_of_le hlt0 a5.timerID
  refine ⟨hm, hres, r5.noQueued_of_none hres, ?_⟩
  intro el' hs
  obtain ⟨_, f⟩ := Steps.flows i5 r5 hs
  obtain ⟨q1, q2⟩ := f.quiet id hlt5 (r5.noQueued_of_none hres) hres
  exact ⟨f.gone id hlt5 hres, q1, fun e he p hp => (q2 e he p hp).2⟩

theorem selfClearingLoop_reachable : Reachable exactSleep selfClearingLoop :=
  (Reachable.new exactSleep 0).step (Step.setInterval _ _ _)

/-- C11, witness: the interval 1 of `selfClearingLoop` is not registered after its first
firing, and the queue is empty. -/
theorem clearInterval_in_callback_witness :
    Reachable exactSleep selfClearingLoop ∧ selfClearingLoop.microtasks = [] ∧
    selfClearingLoop.macrotasks.Len ≠ 0 ∧
    ((selfClearingLoop.popNext exactSleep).1.fire
      (selfClearingLoop.popNext exactSleep).2).intervals.get 1 = none ∧
    ((selfClearingLoop.popNext exactSleep).1.fire
      (selfClearingLoop.popNext exactSleep).2).macrotasks.Len = 0 :=
  ⟨selfClearingLoop_reachable, rfl, by decide,
    (clearInterval_in_callback_stops_interval exactSleep selfClearingLoop
      selfClearingLoop_reachable rfl (by decide) (Script.clearInterval 1 Script.ret) 1 5 rfl
      rfl).2.1, by decide⟩

end GoJS

namespace GoJS
open EventLoop TaskQueue

namespace EventLoop

end EventLoop

end GoJS

namespace GoJS
open EventLoop TaskQueue

namespace EventLoop

theorem Quiet.quiet_refl (a : EventLoop) : Quiet a a := fun _ he _ _ => he

theorem Quiet.quiet_trans {a b c : EventLoop} (h1 : Quiet a b) (h2 : Quiet b c) : Quiet a c :=
  fun e he p hp => h1 e (h2 e he p hp) p hp

theorem Quiet.of_trace {a b : EventLoop} (h : b.trace = a.trace) : Quiet a b :=
  fun e he _ _ => by rw [h] at he; exact he

theorem Quiet.of_event {a b : EventLoop} (ev : Event) (hev : ev.task? = none)
    (h : b.trace = a.trace ++ [ev]) : Quiet a b := by
  intro e he p hp
  rw [h] at he
  rcases List.mem_append.1 he with he | he
  · exact he
  · rw [List.mem_singleton] at he
    rw [he, hev] at hp
    cases hp

theorem ClearTimeout_trace (a : EventLoop) (id : Int) : (a.ClearTimeout id).trace = a.trace := by
  unfold ClearTimeout
  cases a.timers.get id with
  | none => rfl
  | some task => simp only; split_ifs <;> rfl

theorem ClearInterval_trace (a : EventLoop) (id : Int) :
    (a.ClearInterval id).trace = a.trace := by
  unfold ClearInterval
  cases a.intervals.get id with
  | none => rfl
  | some task => simp only; split_ifs <;> rfl

theorem Gone.of_adv {sleep : Int → Int → Int} {a b : EventLoop} (hg : a.Gone)
    (adv : Adv sleep a b)
    (ht : ∀ e ∈ b.trace, ∀ p, e.task? = some p →
      e ∈ a.trace ∨ (p < b.macrotasks.objs.length ∧ p ∉ b.macrotasks.items)) : b.Gone := by
  intro e he p hp
  rcases ht e he p hp with h | h
  · obtain ⟨h1, h2⟩ := hg e h p hp
    refine ⟨lt_of_lt_of_le h1 adv.objs, fun hm => ?_⟩
    rcases adv.items p hm with h3 | h3
    · exact h2 h3
    · omega
  · exact h

theorem Gone.of_quiet {sleep : Int → Int → Int} {a b : EventLoop} (hg : a.Gone)
    (adv : Adv sleep a b) (hq : Quiet a b) : b.Gone :=
  hg.of_adv adv (fun e he p hp => Or.inl (hq e he p hp))

end EventLoop

open EventLoop in
theorem Script.run_quiet (s : Script) : ∀ a : EventLoop, Quiet a (s.run a).1 := by
  induction s with
  | ret => intro a; exact Quiet.quiet_refl a
  | raise => intro a; exact Quiet.quiet_refl a
  | emit n k ih =>
    intro a
    exact (Quiet.of_event (Event.emit n) rfl rfl).quiet_trans (ih (a.log (Event.emit n)))
  | work dt k ih =>
    intro a
    exact (Quiet.of_trace rfl).quiet_trans (ih { a with clock := a.clock + dt })
  | queueMicrotask fn k _ ih =>
    intro a
    exact (Quiet.of_event (Event.queued fn) rfl rfl).quiet_trans (ih (a.QueueMicrotask fn))
  | setTimeout fn delay k _ ih =>
    intro a
    exact (Quiet.of_trace rfl).quiet_trans (ih _ (a.SetTimeout fn delay).1)
  | clearTimeout id k ih =>
    intro a
    exact (Quiet.of_trace (ClearTimeout_trace a id)).quiet_trans (ih (a.ClearTimeout id))
  | setInterval fn delay k _ ih =>
    intro a
    exact (Quiet.of_trace rfl).quiet_trans (ih _ (a.SetInterval fn delay).1)
  | clearInterval id k ih =>
    intro a
    exact (Quiet.of_trace (ClearInterval_trace a id)).quiet_trans (ih (a.ClearInterval id))
  | queueMicrotaskVar f k ih =>
    intro a
    exact (Quiet.of_event (Event.queued (a.func f)) rfl rfl).quiet_trans
      (ih (a.QueueMicrotask (a.func f)))
  | setTimeoutVar f delay k ih =>
    intro a
    exact (Quiet.of_trace rfl).quiet_trans (ih _ (a.SetTimeout (a.func f) delay).1)

open EventLoop in
theorem Callback.call_quiet (cb : Callback) (a : EventLoop) : Quiet a (cb.call a).1 := by
  cases cb with
  | plain body => exact Script.run_quiet body a
  | repeatFunc callback id delay =>
    have h1 := Script.run_quiet callback a
    unfold Callback.call
    simp only
    by_cases hr : (callback.run a).2 = true
    · rw [if_pos hr]
      cases hg : (callback.run a).1.intervals.get id with
      | none => exact h1
      | some q => exact h1.quiet_trans (Quiet.of_trace rfl)
    · rw [if_neg hr]
      exact h1

namespace EventLoop

theorem processMicrotasks_quiet : ∀ (fuel : Nat) (a : EventLoop) (r : EventLoop × Bool),
    a.processMicrotasks fuel = some r → Quiet a r.1 := by
  intro fuel
  induction fuel with
  | zero => intro a r h; simp [processMicrotasks] at h
  | succ fuel ih =>
    intro a r hr
    unfold processMicrotasks at hr
    cases hm : a.microtasks with
    | nil =>
      rw [hm] at hr
      simp only [Option.some.injEq] at hr
      subst hr
      exact Quiet.quiet_refl a
    | cons task rest =>
      rw [hm] at hr
      simp only at hr
      have q0 : Quiet a { a with microtasks := rest, trace := a.trace ++ [Event.micro task] } :=
        Quiet.of_event (Event.micro task) rfl rfl
      have q1 := Script.run_quiet task
        { a with microtasks := rest, trace := a.trace ++ [Event.micro task] }
      by_cases hok : (task.run
          { a with microtasks := rest, trace := a.trace ++ [Event.micro task] }).2 = true
      · rw [if_pos hok] at hr
        exact (q0.quiet_trans q1).quiet_trans (ih _ r hr)
      · rw [if_neg hok] at hr
        simp only [Option.some.injEq] at hr
        subst hr
        exact q0.quiet_trans q1

theorem processMicrotasks_gone (sleep : Int → Int → Int) (fuel : Nat) (a : EventLoop)
    (r : EventLoop × Bool) (h : a.Inv) (hg : a.Gone) (hr : a.processMicrotasks fuel = some r) :
    r.1.Gone :=
  hg.of_quiet (processMicrotasks_evo sleep fuel a r h hr).2.1 (processMicrotasks_quiet fuel a r hr)

/-- The pop, the wait and the record of the call in a pass of `Run`: the popped task is
out of the queue. -/
theorem popNext_log_gone (sleep : Int → Int → Int) {a : EventLoop} (h : a.Inv) (hg : a.Gone)
    (hlen : a.macrotasks.Len ≠ 0) (hmicro : a.microtasks = []) :
    ((a.popNext sleep).1.log
      (Event.fired (a.popNext sleep).2 (a.popNext sleep).1.clock)).Gone := by
  obtain ⟨_, adv⟩ := popNext_log_evo sleep h hlen hmicro
  obtain ⟨hrem, hres⟩ := heap.Pop_spec h.wf h.heap (Nat.pos_of_ne_zero hlen)
  have hin : (heap.Pop a.macrotasks).2 ∈ a.macrotasks.items := by
    rw [hres]; exact ptr_mem _ (Nat.pos_of_ne_zero hlen)
  have htr : ((a.popNext sleep).1.log
      (Event.fired (a.popNext sleep).2 (a.popNext sleep).1.clock)).trace =
      a.trace ++ [Event.popped (heap.Pop a.macrotasks).2,
        Event.fired (heap.Pop a.macrotasks).2 (a.popNext sleep).1.clock] := by
    unfold popNext log; simp only; split_ifs <;> simp
  have hmac : ((a.popNext sleep).1.log
      (Event.fired (a.popNext sleep).2 (a.popNext sleep).1.clock)).macrotasks =
      (heap.Pop a.macrotasks).1 := popNext_macrotasks sleep a
  have hout : (heap.Pop a.macrotasks).2 < (heap.Pop a.macrotasks).1.objs.length ∧
      (heap.Pop a.macrotasks).2 ∉ (heap.Pop a.macrotasks).1.items :=
    ⟨by rw [hrem.objs]; exact h.wf.bound _ hin, fun hm => ((hrem.mem _).1 hm).2 rfl⟩
  refine hg.of_adv adv ?_
  intro e he p hp
  rw [htr] at he
  rcases List.mem_append.1 he with he | he
  · exact Or.inl he
  · right
    rw [hmac]
    simp only [List.mem_cons, List.mem_singleton, List.not_mem_nil, or_false] at he
    rcases he with rfl | rfl
    · simp only [Event.task?, Option.some.injEq] at hp
      subst hp; exact hout
    · simp only [Event.task?, Option.some.injEq] at hp
      subst hp; exact hout

theorem popNext_fire_gone (sleep : Int → Int → Int) {a : EventLoop} (h : a.Inv) (hg : a.Gone)
    (hlen : a.macrotasks.Len ≠ 0) (hmicro : a.microtasks = []) :
    ((a.popNext sleep).1.fire (a.popNext sleep).2).Gone := by
  obtain ⟨i3, _⟩ := popNext_log_evo sleep h hlen hmicro
  have g3 := popNext_log_gone sleep h hg hlen hmicro
  obtain ⟨_, a4⟩ := Callback.call_evo sleep
    (((a.popNext sleep).1.macrotasks.deref (a.popNext sleep).2).Callback) _ i3
  have g4 := g3.of_quiet a4 (Callback.call_quiet _ _)
  unfold fire
  simp only
  split_ifs
  · exact g4
  · exact g4

theorem runPass_gone (sleep : Int → Int → Int) (fuel : Nat) (a : EventLoop)
    (r : EventLoop × Pass) (h : a.Inv) (hg : a.Gone) (hr : a.runPass sleep fuel = some r) :
    r.1.Gone := by
  unfold runPass at hr
  cases h1 : a.processMicrotasks fuel with
  | none => rw [h1] at hr; simp at hr
  | some r1 =>
    obtain ⟨el1, ok1⟩ := r1
    obtain ⟨i1, _, m1⟩ := processMicrotasks_evo sleep fuel a _ h h1
    have g1 := processMicrotasks_gone sleep fuel a _ h hg h1
    rw [h1] at hr
    cases ok1 with
    | false =>
      simp only [Option.some.injEq] at hr
      subst hr
      exact g1
    | true =>
      simp only at hr
      by_cases hlen : el1.macrotasks.Len = 0
      · rw [if_pos hlen] at hr
        simp only [Option.some.injEq] at hr
        subst hr
        exact g1
      · rw [if_neg hlen] at hr
        obtain ⟨i5, _⟩ := popNext_fire_evo sleep i1 hlen (m1 rfl)
        have g5 := popNext_fire_gone sleep i1 g1 hlen (m1 rfl)
        cases h6 : ((el1.popNext sleep).1.fire (el1.popNext sleep).2).processMicrotasks fuel with
        | none => rw [h6] at hr; simp at hr
        | some r6 =>
          obtain ⟨el6, ok6⟩ := r6
          have g6 := processMicrotasks_gone sleep fuel _ _ i5 g5 h6
          rw [h6] at hr
          have hfin : r.1 = el6 := by
            cases ok6
            · injection hr with hr; rw [← hr]
            · injection hr with hr; rw [← hr]
          rw [hfin]
          exact g6

theorem runLoop_gone (sleep : Int → Int → Int) (fuel : Nat) : ∀ (n : Nat) (a : EventLoop)
    (r : EventLoop × Pass), a.Inv → a.Gone → runLoop sleep fuel n a = some r → r.1.Gone := by
  intro n
  induction n with
  | zero =>
    intro a r _ hg hr
    simp only [runLoop, Option.some.injEq] at hr
    subst hr
    exact hg
  | succ n ih =>
    intro a r h hg hr
    unfold runLoop at hr
    cases h1 : a.runPass sleep fuel with
    | none => rw [h1] at hr; simp at hr
    | some r1 =>
      obtain ⟨el1, p1⟩ := r1
      obtain ⟨i1, _⟩ := runPass_evo sleep fuel a _ h h1
      have g1 := runPass_gone sleep fuel a _ h hg h1
      rw [h1] at hr
      cases p1 with
      | again => exact ih el1 r i1 g1 hr
      | stop => injection hr with hr; rw [← hr]; exact g1
      | raised => injection hr with hr; rw [← hr]; exact g1

theorem Run_gone (sleep : Int → Int → Int) (fuel n : Nat) (a : EventLoop)
    (r : EventLoop × Bool) (h : a.Inv) (hg : a.Gone) (hr : a.Run sleep fuel n = some r) :
    r.1.Gone := by
  unfold Run at hr
  have i0 : ({ a with running := true } : EventLoop).Inv := h.of_eq rfl rfl rfl
  have g0 : ({ a with running := true } : EventLoop).Gone := hg
  cases h1 : runLoop sleep fuel n { a with running := true } with
  | none => rw [h1] at hr; simp at hr
  | some r1 =>
    obtain ⟨el1, p1⟩ := r1
    have g1 := runLoop_gone sleep fuel n _ _ i0 g0 h1
    rw [h1] at hr
    cases p1 with
    | again => simp at hr
    | stop => injection hr with hr; rw [← hr]; exact g1
    | raised => injection hr with hr; rw [← hr]; exact g1

theorem NewEventLoop_gone (now : Int) : (NewEventLoop now).Gone := by
  intro e he
  simp [NewEventLoop] at he

end EventLoop

theorem Step.step_gone {sleep : Int → Int → Int} {a b : EventLoop} (h : a.Inv) (hg : a.Gone)
    (hs : Step sleep a b) : b.Gone := by
  have adv := (hs.evo h).2
  cases hs with
  | queueMicrotask fn => exact hg.of_quiet adv (Quiet.of_event (Event.queued fn) rfl rfl)
  | setTimeout cb d => exact hg.of_quiet adv (Quiet.of_trace rfl)
  | clearTimeout id => exact hg.of_quiet adv (Quiet.of_trace (ClearTimeout_trace a id))
  | setInterval cb d => exact hg.of_quiet adv (Quiet.of_trace rfl)
  | clearInterval id => exact hg.of_quiet adv (Quiet.of_trace (ClearInterval_trace a id))
  | script s => exact hg.of_quiet adv (Script.run_quiet s a)
  | tick dt => exact hg.of_quiet adv (Quiet.of_trace rfl)
  | define fn => exact hg.of_quiet adv (Quiet.of_trace rfl)
  | processMicrotasks fuel r hr => exact processMicrotasks_gone sleep fuel _ r h hg hr
  | runPass fuel r hr => exact runPass_gone sleep fuel _ r h hg hr
  | run fuel n r hr => exact Run_gone sleep fuel n _ r h hg hr
  | beginMacrotask hm hlen => exact popNext_log_gone sleep h hg hlen hm
  | beginMicrotask task rest hm => exact hg.of_quiet adv (Quiet.of_event (Event.micro task) rfl rfl)

theorem Steps.gones {sleep : Int → Int → Int} {a b : EventLoop} (h : a.Inv) (hg : a.Gone)
    (hs : Steps sleep a b) : b.Inv ∧ b.Gone := by
  induction hs with
  | refl => exact ⟨h, hg⟩
  | tail _ hstep ih => exact ⟨(hstep.evo ih.1).1, hstep.step_gone ih.1 ih.2⟩

theorem Reachable.gone {sleep : Int → Int → Int} {el : EventLoop} (h : Reachable sleep el) :
    el.Gone := by
  obtain ⟨now, hs⟩ := h
  exact (hs.gones (NewEventLoop_inv now) (NewEventLoop_gone now)).2

end GoJS

namespace GoJS
open EventLoop TaskQueue

/-- C24: `setTimeout`, `setInterval`, `setImmediate` and `queueMicrotask`, called with no
argument or with a first argument that is not callable, throw and return the event loop as
it was: the same timer id is the next to be issued, the same macrotasks and the same
microtasks are queued. -/
theorem globals_reject_missing_or_uncallable_callback (loop : EventLoop) (arguments : List Arg)
    (h : firstIsFunction arguments = false) :
    ((setupGlobals.setTimeout loop arguments).1 = loop ∧
      (setupGlobals.setTimeout loop arguments).2.isThrown = true) ∧
    ((setupGlobals.setInterval loop arguments).1 = loop ∧
      (setupGlobals.setInterval loop arguments).2.isThrown = true) ∧
    ((setupGlobals.setImmediate loop arguments).1 = loop ∧
      (setupGlobals.setImmediate loop arguments).2.isThrown = true) ∧
    ((setupGlobals.queueMicrotask loop arguments).1 = loop ∧
      (setupGlobals.queueMicrotask loop arguments).2.isThrown = true) := by
  cases arguments with
  | nil => exact ⟨⟨rfl, rfl⟩, ⟨rfl, rfl⟩, ⟨rfl, rfl⟩, ⟨rfl, rfl⟩⟩
  | cons a rest =>
    cases a with
    | function body => simp [firstIsFunction] at h
    | value n => exact ⟨⟨rfl, rfl⟩, ⟨rfl, rfl⟩, ⟨rfl, rfl⟩, ⟨rfl, rfl⟩⟩

/-- C24, witness: `setTimeout(5)` on a new loop throws, the next timer id is still 1 and
both queues are still empty; `setTimeout` with a function takes the id 1. -/
theorem globals_reject_uncallable_witness :
    firstIsFunction [Arg.value 5] = false ∧
    (setupGlobals.setTimeout (NewEventLoop 0) [Arg.value 5]).1.timerID = 1 ∧
    (setupGlobals.setTimeout (NewEventLoop 0) [Arg.value 5]).1.macrotasks.Len = 0 ∧
    (setupGlobals.setTimeout (NewEventLoop 0) [Arg.value 5]).1.microtasks.length = 0 ∧
    (setupGlobals.setTimeout (NewEventLoop 0) [Arg.value 5]).2 =
      Completion.thrown "setTimeout first argument must be a function" ∧
    (setupGlobals.setTimeout (NewEventLoop 0) [Arg.function Script.ret]).1.timerID = 2 :=
  ⟨rfl,
    by rw [(globals_reject_missing_or_uncallable_callback (NewEventLoop 0) [Arg.value 5] rfl).1.1]
       rfl,
    by decide, by decide, by decide, by decide⟩

end GoJS

namespace GoJS
open EventLoop TaskQueue

namespace EventLoop

theorem Stale.stale_refl (a : EventLoop) : Stale a a :=
  ⟨le_refl _, fun _ _ h => h, fun _ _ h => h⟩

theorem Stale.stale_trans {a b c : EventLoop} (h1 : Stale a b) (h2 : Stale b c) : Stale a c :=
  ⟨le_trans h1.timerID h2.timerID,
    fun id hlt hn => h2.timers id (lt_of_lt_of_le hlt h1.timerID) (h1.timers id hlt hn),
    fun id hlt hn => h2.intervals id (lt_of_lt_of_le hlt h1.timerID) (h1.intervals id hlt hn)⟩

theorem Stale.stale_of_fields {a b : EventLoop} (hid : b.timerID = a.timerID)
    (ht : b.timers = a.timers) (hi : b.intervals = a.intervals) : Stale a b :=
  ⟨by rw [hid], fun _ _ h => by rw [ht]; exact h, fun _ _ h => by rw [hi]; exact h⟩

theorem SetTimeout_stale (a : EventLoop) (callback : Script) (delay : Int) :
    Stale a (a.SetTimeout callback delay).1 := by
  refine ⟨by show a.timerID ≤ a.timerID + 1; omega, ?_, fun _ _ h => h⟩
  intro id hlt hn
  show (a.timers.set a.timerID _).get id = none
  rw [TimerMap.get_set, if_neg (by omega)]
  exact hn

theorem SetInterval_stale (a : EventLoop) (callback : Script) (delay : Int) :
    Stale a (a.SetInterval callback delay).1 := by
  refine ⟨by show a.timerID ≤ a.timerID + 1; omega, fun _ _ h => h, ?_⟩
  intro id hlt hn
  show (a.intervals.set a.timerID _).get id = none
  rw [TimerMap.get_set, if_neg (by omega)]
  exact hn

theorem ClearTimeout_stale (a : EventLoop) (id : Int) : Stale a (a.ClearTimeout id) := by
  cases hg : a.timers.get id with
  | none => rw [ClearTimeout_none hg]; exact Stale.stale_refl a
  | some task =>
    have hd : ∀ id', a.timers.get id' = none → (a.timers.delete id).get id' = none := by
      intro id' hn
      rw [TimerMap.get_delete]
      split_ifs
      · rfl
      · exact hn
    by_cases hi : 0 ≤ (a.macrotasks.deref task).Index
    · rw [ClearTimeout_queued hg hi]
      exact ⟨le_refl _, fun id' _ hn => hd id' hn, fun _ _ h => h⟩
    · rw [ClearTimeout_gone hg hi]
      exact ⟨le_refl _, fun id' _ hn => hd id' hn, fun _ _ h => h⟩

theorem ClearInterval_stale (a : EventLoop) (id : Int) : Stale a (a.ClearInterval id) := by
  cases hg : a.intervals.get id with
  | none => rw [ClearInterval_none hg]; exact Stale.stale_refl a
  | some task =>
    have hd : ∀ id', a.intervals.get id' = none → (a.intervals.delete id).get id' = none := by
      intro id' hn
      rw [TimerMap.get_delete]
      split_ifs
      · rfl
      · exact hn
    by_cases hi : 0 ≤ (a.macrotasks.deref task).Index
    · rw [ClearInterval_queued hg hi]
      exact ⟨le_refl _, fun _ _ h => h, fun id' _ hn => hd id' hn⟩
    · rw [ClearInterval_gone hg hi]
      exact ⟨le_refl _, fun _ _ h => h, fun id' _ hn => hd id' hn⟩

end EventLoop

open EventLoop in
theorem Script.run_stale (s : Script) : ∀ a : EventLoop, Stale a (s.run a).1 := by
  induction s with
  | ret => intro a; exact Stale.stale_refl a
  | raise => intro a; exact Stale.stale_refl a
  | emit n k ih =>
    intro a
    have h0 : Stale a (a.log (Event.emit n)) := Stale.stale_of_fields rfl rfl rfl
    exact h0.stale_trans (ih (a.log (Event.emit n)))
  | work dt k ih =>
    intro a
    have h0 : Stale a { a with clock := a.clock + dt } := Stale.stale_of_fields rfl rfl rfl
    exact h0.stale_trans (ih { a with clock := a.clock + dt })
  | queueMicrotask fn k _ ih =>
    intro a
    have h0 : Stale a (a.QueueMicrotask fn) := Stale.stale_of_fields rfl rfl rfl
    exact h0.stale_trans (ih (a.QueueMicrotask fn))
  | setTimeout fn delay k _ ih =>
    intro a
    exact (SetTimeout_stale a fn delay).stale_trans (ih _ (a.SetTimeout fn delay).1)
  | clearTimeout id k ih =>
    intro a
    exact (ClearTimeout_stale a id).stale_trans (ih (a.ClearTimeout id))
  | setInterval fn delay k _ ih =>
    intro a
    exact (SetInterval_stale a fn delay).stale_trans (ih _ (a.SetInterval fn delay).1)
  | clearInterval id k ih =>
    intro a
    exact (ClearInterval_stale a id).stale_trans (ih (a.ClearInterval id))
  | queueMicrotaskVar f k ih =>
    intro a
    have h0 : Stale a (a.QueueMicrotask (a.func f)) := Stale.stale_of_fields rfl rfl rfl
    exact h0.stale_trans (ih (a.QueueMicrotask (a.func f)))
  | setTimeoutVar f delay k ih =>
    intro a
    exact (SetTimeout_stale a (a.func f) delay).stale_trans
      (ih _ (a.SetTimeout (a.func f) delay).1)

open EventLoop in
theorem Callback.call_stale (cb : Callback) (a : EventLoop) : Stale a (cb.call a).1 := by
  cases cb with
  | plain body => exact Script.run_stale body a
  | repeatFunc callback id delay =>
    have h1 := Script.run_stale callback a
    unfold Callback.call
    simp only
    by_cases hr : (callback.run a).2 = true
    · rw [if_pos hr]
      cases hg : (callback.run a).1.intervals.get id with
      | none => exact h1
      | some q =>
        refine h1.stale_trans ⟨le_refl _, fun _ _ h => h, ?_⟩
        intro id' _ hn
        show ((callback.run a).1.intervals.set id _).get id' = none
        rw [TimerMap.get_set]
        split_ifs with e
        · rw [e, hg] at hn; cases hn
        · exact hn
    · rw [if_neg hr]
      exact h1

namespace EventLoop

theorem processMicrotasks_stale : ∀ (fuel : Nat) (a : EventLoop) (r : EventLoop × Bool),
    a.processMicrotasks fuel = some r → Stale a r.1 := by
  intro fuel
  induction fuel with
  | zero => intro a r h; simp [processMicrotasks] at h
  | succ fuel ih =>
    intro a r hr
    unfold processMicrotasks at hr
    cases hm : a.microtasks with
    | nil =>
      rw [hm] at hr
      simp only [Option.some.injEq] at hr
      subst hr
      exact Stale.stale_refl a
    | cons task rest =>
      rw [hm] at hr
      simp only at hr
      have q0 : Stale a { a with microtasks := rest, trace := a.trace ++ [Event.micro task] } :=
        Stale.stale_of_fields rfl rfl rfl
      have q1 := Script.run_stale task
        { a with microtasks := rest, trace := a.trace ++ [Event.micro task] }
      by_cases hok : (task.run
          { a with microtasks := rest, trace := a.trace ++ [Event.micro task] }).2 = true
      · rw [if_pos hok] at hr
        exact (q0.stale_trans q1).stale_trans (ih _ r hr)
      · rw [if_neg hok] at hr
        simp only [Option.some.injEq] at hr
        subst hr
        exact q0.stale_trans q1

theorem popNext_log_stale (sleep : Int → Int → Int) (a : EventLoop) :
    Stale a ((a.popNext sleep).1.log
      (Event.fired (a.popNext sleep).2 (a.popNext sleep).1.clock)) := by
  refine Stale.stale_of_fields ?_ ?_ ?_
  · unfold popNext log; simp only; split_ifs <;> rfl
  · unfold popNext log; simp only; split_ifs <;> rfl
  · unfold popNext log; simp only; split_ifs <;> rfl

theorem popNext_fire_stale (sleep : Int → Int → Int) (a : EventLoop) :
    Stale a ((a.popNext sleep).1.fire (a.popNext sleep).2) := by
  have s3 := popNext_log_stale sleep a
  have s4 := Callback.call_stale
    (((a.popNext sleep).1.macrotasks.deref (a.popNext sleep).2).Callback)
    ((a.popNext sleep).1.log (Event.fired (a.popNext sleep).2 (a.popNext sleep).1.clock))
  unfold fire
  simp only
  split_ifs
  · exact s3.stale_trans s4
  · exact (s3.stale_trans s4).stale_trans (Stale.stale_of_fields rfl rfl rfl)

theorem runPass_stale (sleep : Int → Int → Int) (fuel : Nat) (a : EventLoop)
    (r : EventLoop × Pass) (hr : a.runPass sleep fuel = some r) : Stale a r.1 := by
  unfold runPass at hr
  cases h1 : a.processMicrotasks fuel with
  | none => rw [h1] at hr; simp at hr
  | some r1 =>
    obtain ⟨el1, ok1⟩ := r1
    have s1 := processMicrotasks_stale fuel a _ h1
    rw [h1] at hr
    cases ok1 with
    | false =>
      simp only [Option.some.injEq] at hr
      subst hr
      exact s1
    | true =>
      simp only at hr
      by_cases hlen : el1.macrotasks.Len = 0
      · rw [if_pos hlen] at hr
        simp only [Option.some.injEq] at hr
        subst hr
        exact s1
      · rw [if_neg hlen] at hr
        have s5 := popNext_fire_stale sleep el1
        cases h6 : ((el1.popNext sleep).1.fire (el1.popNext sleep).2).processMicrotasks fuel with
        | none => rw [h6] at hr; simp at hr
        | some r6 =>
          obtain ⟨el6, ok6⟩ := r6
          have s6 := processMicrotasks_stale fuel _ _ h6
          rw [h6] at hr
          have hfin : r.1 = el6 := by
            cases ok6
            · injection hr with hr; rw [← hr]
            · injection hr with hr; rw [← hr]
          rw [hfin]
          exact (s1.stale_trans s5).stale_trans s6

theorem runLoop_stale (sleep : Int → Int → Int) (fuel : Nat) : ∀ (n : Nat) (a : EventLoop)
    (r : EventLoop × Pass), runLoop sleep fuel n a = some r → Stale a r.1 := by
  intro n
  induction n with
  | zero =>
    intro a r hr
    simp only [runLoop, Option.some.injEq] at hr
    subst hr
    exact Stale.stale_refl a
  | succ n ih =>
    intro a r hr
    unfold runLoop at hr
    cases h1 : a.runPass sleep fuel with
    | none => rw [h1] at hr; simp at hr
    | some r1 =>
      obtain ⟨el1, p1⟩ := r1
      have s1 := runPass_stale sleep fuel a _ h1
      rw [h1] at hr
      cases p1 with
      | again => exact s1.stale_trans (ih el1 r hr)
      | stop => injection hr with hr; rw [← hr]; exact s1
      | raised => injection hr with hr; rw [← hr]; exact s1

theorem Run_stale (sleep : Int → Int → Int) (fuel n : Nat) (a : EventLoop)
    (r : EventLoop × Bool) (hr : a.Run sleep fuel n = some r) : Stale a r.1 := by
  unfold Run at hr
  have s0 : Stale a { a with running := true } := Stale.stale_of_fields rfl rfl rfl
  cases h1 : runLoop sleep fuel n { a with running := true } with
  | none => rw [h1] at hr; simp at hr
  | some r1 =>
    obtain ⟨el1, p1⟩ := r1
    have s1 := runLoop_stale sleep fuel n _ _ h1
    rw [h1] at hr
    cases p1 with
    | again => simp at hr
    | stop =>
      injection hr with hr; rw [← hr]
      exact (s0.stale_trans s1).stale_trans (Stale.stale_of_fields rfl rfl rfl)
    | raised =>
      injection hr with hr; rw [← hr]
      exact (s0.stale_trans s1).stale_trans (Stale.stale_of_fields rfl rfl rfl)

end EventLoop

theorem Step.stale {sleep : Int → Int → Int} {a b : EventLoop} (hs : Step sleep a b) :
    Stale a b := by
  cases hs with
  | queueMicrotask fn => exact Stale.stale_of_fields rfl rfl rfl
  | setTimeout cb d => exact SetTimeout_stale a cb d
  | clearTimeout id => exact ClearTimeout_stale a id
  | setInterval cb d => exact SetInterval_stale a cb d
  | clearInterval id => exact ClearInterval_stale a id
  | script s => exact Script.run_stale s a
  | tick dt => exact Stale.stale_of_fields rfl rfl rfl
  | define fn => exact Stale.stale_of_fields rfl rfl rfl
  | processMicrotasks fuel r hr => exact processMicrotasks_stale fuel _ r hr
  | runPass fuel r hr => exact runPass_stale sleep fuel _ r hr
  | run fuel n r hr => exact Run_stale sleep fuel n _ r hr
  | beginMacrotask hm hlen => exact popNext_log_stale sleep a
  | beginMicrotask task rest hm => exact Stale.stale_of_fields rfl rfl rfl

theorem Steps.stales {sleep : Int → Int → Int} {a b : EventLoop} (hs : Steps sleep a b) :
    Stale a b := by
  induction hs with
  | refl => exact Stale.stale_refl a
  | tail _ hstep ih => exact ih.stale_trans hstep.stale

/-- In a reachable state no id below 1 is registered. -/
theorem Reachable.positive {sleep : Int → Int → Int} {el : EventLoop} (h : Reachable sleep el)
    (id : Int) (hid : id < 1) : el.timers.get id = none ∧ el.intervals.get id = none := by
  obtain ⟨now, hs⟩ := h
  exact ⟨hs.stales.timers id hid rfl, hs.stales.intervals id hid rfl⟩

end GoJS

namespace GoJS
open EventLoop TaskQueue

namespace TaskQueue

theorem Removed.of_Remove {tq : TaskQueue} (h : tq.WF) (hh : HeapOn tq tq.Len) {p : Nat}
    (hp : p ∈ tq.items) : Removed tq (heap.Remove tq (tq.deref p).Index.toNat).1 p := by
  obtain ⟨hlt, hptr⟩ := (h.index_pos (h.bound p hp)).2 hp
  obtain ⟨hrem, hres⟩ := heap.Remove_spec h hh _ hlt
  rw [hres, hptr] at hrem
  exact hrem

theorem Removed.perm {a b : TaskQueue} {p : Nat} (hr : Removed a b p) (ha : a.WF) :
    b.items.Perm (a.items.erase p) := by
  rw [List.perm_ext_iff_of_nodup hr.wf.nodup (ha.nodup.erase p)]
  intro q
  rw [hr.mem q, ha.nodup.mem_erase_iff]
  exact And.comm

end TaskQueue

namespace EventLoop

theorem ClearTimeout_get_self (a : EventLoop) (id : Int) :
    (a.ClearTimeout id).timers.get id = none := by
  cases hg : a.timers.get id with
  | none => rw [ClearTimeout_none hg]; exact hg
  | some task =>
    by_cases hi : 0 ≤ (a.macrotasks.deref task).Index
    · rw [ClearTimeout_queued hg hi]
      show (a.timers.delete id).get id = none
      rw [TimerMap.get_delete, if_pos rfl]
    · rw [ClearTimeout_gone hg hi]
      show (a.timers.delete id).get id = none
      rw [TimerMap.get_delete, if_pos rfl]

theorem ClearTimeout_timerID (a : EventLoop) (id : Int) :
    (a.ClearTimeout id).timerID = a.timerID := by
  unfold ClearTimeout
  cases a.timers.get id with
  | none => rfl
  | some task => simp only; split_ifs <;> rfl

theorem ClearInterval_timerID (a : EventLoop) (id : Int) :
    (a.ClearInterval id).timerID = a.timerID := by
  unfold ClearInterval
  cases a.intervals.get id with
  | none => rfl
  | some task => simp only; split_ifs <;> rfl

/-- What `ClearTimeout` does when the task of the id is not in the queue. -/
theorem ClearTimeout_unqueued {a : EventLoop} (h : a.Inv) (id : Int)
    (hs : ∀ p, a.timers.get id = some p → p ∉ a.macrotasks.items) :
    (a.ClearTimeout id).macrotasks = a.macrotasks ∧
    (a.ClearTimeout id).microtasks = a.microtasks ∧
    (a.ClearTimeout id).intervals = a.intervals ∧
    (∀ id', id' ≠ id → (a.ClearTimeout id).timers.get id' = a.timers.get id') ∧
    (a.ClearTimeout id).timers.get id = none ∧
    (a.ClearTimeout id).pendingTasks = a.pendingTasks ∧
    (a.ClearTimeout id).timerID = a.timerID ∧
    (∀ p, a.timers.get id = some p → (a.macrotasks.deref p).Index = -1) := by
  cases hg : a.timers.get id with
  | none =>
    rw [ClearTimeout_none hg]
    exact ⟨rfl, rfl, rfl, fun _ _ => rfl, hg, rfl, rfl, fun p hp => by cases hp⟩
  | some task =>
    have hv : task < a.macrotasks.objs.length := h.timers _ (TimerMap.mem_of_get hg)
    have hout := h.wf.out task hv (hs task hg)
    have hi : ¬ 0 ≤ (a.macrotasks.deref task).Index := by rw [hout]; decide
    rw [ClearTimeout_gone hg hi]
    refine ⟨rfl, rfl, rfl, ?_, ?_, rfl, rfl, ?_⟩
    · intro id' hne
      show (a.timers.delete id).get id' = _
      rw [TimerMap.get_delete, if_neg hne]
    · show (a.timers.delete id).get id = none
      rw [TimerMap.get_delete, if_pos rfl]
    · intro p hp
      cases hp
      exact hout

/-- What `ClearInterval` does when the task of the id is not in the queue. -/
theorem ClearInterval_unqueued {a : EventLoop} (h : a.Inv) (id : Int)
    (hs : ∀ p, a.intervals.get id = some p → p ∉ a.macrotasks.items) :
    (a.ClearInterval id).macrotasks = a.macrotasks ∧
    (a.ClearInterval id).microtasks = a.microtasks ∧
    (a.ClearInterval id).timers = a.timers ∧
    (∀ id', id' ≠ id → (a.ClearInterval id).intervals.get id' = a.intervals.get id') ∧
    (a.ClearInterval id).intervals.get id = none ∧
    (a.ClearInterval id).pendingTasks = a.pendingTasks ∧
    (a.ClearInterval id).timerID = a.timerID ∧
    (∀ p, a.intervals.get id = some p → (a.macrotasks.deref p).Index = -1) := by
  cases hg : a.intervals.get id with
  | none =>
    rw [ClearInterval_none hg]
    exact ⟨rfl, rfl, rfl, fun _ _ => rfl, hg, rfl, rfl, fun p hp => by cases hp⟩
  | some task =>
    have hv : task < a.macrotasks.objs.length := h.intervals _ (TimerMap.mem_of_get hg)
    have hout := h.wf.out task hv (hs task hg)
    have hi : ¬ 0 ≤ (a.macrotasks.deref task).Index := by rw [hout]; decide
    rw [ClearInterval_gone hg hi]
    refine ⟨rfl, rfl, rfl, ?_, ?_, rfl, rfl, ?_⟩
    · intro id' hne
      show (a.intervals.delete id).get id' = _
      rw [TimerMap.get_delete, if_neg hne]
    · show (a.intervals.delete id).get id = none
      rw [TimerMap.get_delete, if_pos rfl]
    · intro p hp
      cases hp
      exact hout

/-- What `ClearTimeout` does when the task of the id is in the queue. -/
theorem ClearTimeout_taken {a : EventLoop} (h : a.Inv) {id : Int} {p : Nat}
    (hg : a.timers.get id = some p) (hq : p ∈ a.macrotasks.items) :
    Removed a.macrotasks (a.ClearTimeout id).macrotasks p ∧
    (a.ClearTimeout id).timers = a.timers.delete id ∧
    (a.ClearTimeout id).intervals = a.intervals ∧
    (a.ClearTimeout id).microtasks = a.microtasks ∧
    (a.ClearTimeout id).pendingTasks = a.pendingTasks - 1 := by
  have hi : 0 ≤ (a.macrotasks.deref p).Index :=
    ((h.wf.index_pos (h.wf.bound p hq)).1).2 hq
  rw [ClearTimeout_queued hg hi]
  exact ⟨Removed.of_Remove h.wf h.heap hq, rfl, rfl, rfl, rfl⟩

/-- What `ClearInterval` does when the task of the id is in the queue. -/
theorem ClearInterval_taken {a : EventLoop} (h : a.Inv) {id : Int} {p : Nat}
    (hg : a.intervals.get id = some p) (hq : p ∈ a.macrotasks.items) :
    Removed a.macrotasks (a.ClearInterval id).macrotasks p ∧
    (a.ClearInterval id).intervals = a.intervals.delete id ∧
    (a.ClearInterval id).timers = a.timers ∧
    (a.ClearInterval id).microtasks = a.microtasks ∧
    (a.ClearInterval id).pendingTasks = a.pendingTasks - 1 := by
  have hi : 0 ≤ (a.macrotasks.deref p).Index :=
    ((h.wf.index_pos (h.wf.bound p hq)).1).2 hq
  rw [ClearInterval_queued hg hi]
  exact ⟨Removed.of_Remove h.wf h.heap hq, rfl, rfl, rfl, rfl⟩

end EventLoop

theorem TimerCall.run_timerID (c : TimerCall) (el : EventLoop) :
    (c.run el).1.timerID = if c.issues then el.timerID + 1 else el.timerID := by
  cases c with
  | setTimeout callback delay => rfl
  | setInterval callback delay => rfl
  | clearTimeout id => exact ClearTimeout_timerID el id
  | clearInterval id => exact ClearInterval_timerID el id

theorem TimerCall.run_id (c : TimerCall) (el : EventLoop) :
    (c.run el).2 = if c.issues then some el.timerID else none := by
  cases c <;> rfl

theorem issuedBy_eq : ∀ (calls : List TimerCall) (el : EventLoop),
    issuedBy calls el =
      (List.range (calls.countP TimerCall.issues)).map (fun i : Nat => el.timerID + (i : Int)) := by
  intro calls
  induction calls with
  | nil => intro el; rfl
  | cons c cs ih =>
    intro el
    unfold issuedBy
    rw [TimerCall.run_id, ih, TimerCall.run_timerID, List.countP_cons]
    by_cases hc : c.issues = true
    · rw [if_pos hc, if_pos hc, if_pos hc]
      simp only
      rw [List.range_succ_eq_map, List.map_cons, List.map_map]
      refine congrArg₂ _ (by simp) (List.map_congr_left ?_)
      intro i _
      simp only [Function.comp, Nat.cast_succ]
      omega
    · rw [if_neg hc, if_neg hc, if_neg hc]
      simp

theorem StaleTimeout.timeout_unqueued {sleep : Int → Int → Int} {el : EventLoop} {id : Int}
    (h : Reachable sleep el) (hs : StaleTimeout sleep el id) :
    ∀ p, el.timers.get id = some p → p ∉ el.macrotasks.items := by
  intro p hp
  rcases hs with (hlt | hge) | ⟨el0, hlt, hst⟩ | ⟨q, e, hq, he, ht⟩
  · rw [(h.positive id hlt).1] at hp; cases hp
  · have := h.reg.tlt id p hp
    omega
  · have hn := hst.stales.timers id (by rw [ClearTimeout_timerID]; exact hlt)
      (ClearTimeout_get_self el0 id)
    rw [hn] at hp; cases hp
  · rw [hq] at hp
    cases hp
    exact (h.gone e he _ ht).2

theorem StaleInterval.interval_unqueued {sleep : Int → Int → Int} {el : EventLoop} {id : Int}
    (h : Reachable sleep el) (hs : StaleInterval sleep el id) :
    ∀ p, el.intervals.get id = some p → p ∉ el.macrotasks.items := by
  intro p hp
  rcases hs with (hlt | hge) | ⟨el0, hlt, hst⟩ | ⟨q, e, hq, he, ht⟩
  · rw [(h.positive id hlt).2] at hp; cases hp
  · have := h.reg.ilt id p hp
    omega
  · have hn := hst.stales.intervals id (by rw [ClearInterval_timerID]; exact hlt)
      (ClearInterval_get_self el0 id)
    rw [hn] at hp; cases hp
  · rw [hq] at hp
    cases hp
    exact (h.gone e he _ ht).2

theorem firedTimeoutLoop_reachable : Reachable exactSleep firedTimeoutLoop :=
  ((Reachable.new exactSleep 0).step (Step.setTimeout _ _ _)).afterRun 10 10

theorem firedTimeoutLoop_stale : StaleTimeout exactSleep firedTimeoutLoop 1 := by
  unfold StaleTimeout
  exact Or.inr (Or.inr ⟨0, Event.popped 0, by decide, List.Mem.head _, rfl⟩)

/-- C23: in every reachable state, `ClearTimeout(id)` for an id that is stale as a timeout
id (never issued, already cleared, or its task already popped or called) leaves the
macrotask queue (the slice and the task objects), the microtask queue, the intervals, the
counters and the registration of every other id as they were; `heap.Remove` is not called,
since the task registered under the id, if there is one, has `Index = -1`; afterwards the
id is unregistered.  The same holds for `ClearInterval(id)` and an id that is stale as an
interval id. -/
theorem stale_clear_changes_nothing_else (sleep : Int → Int → Int) (el : EventLoop)
    (h : Reachable sleep el) (id : Int) :
    (StaleTimeout sleep el id →
      (el.ClearTimeout id).macrotasks = el.macrotasks ∧
      (el.ClearTimeout id).microtasks = el.microtasks ∧
      (el.ClearTimeout id).intervals = el.intervals ∧
      (∀ id', id' ≠ id → (el.ClearTimeout id).timers.get id' = el.timers.get id') ∧
      (el.ClearTimeout id).timers.get id = none ∧
      (el.ClearTimeout id).pendingTasks = el.pendingTasks ∧
      (el.ClearTimeout id).timerID = el.timerID ∧
      (∀ p, el.timers.get id = some p → (el.macrotasks.deref p).Index = -1)) ∧
    (StaleInterval sleep el id →
      (el.ClearInterval id).macrotasks = el.macrotasks ∧
      (el.ClearInterval id).microtasks = el.microtasks ∧
      (el.ClearInterval id).timers = el.timers ∧
      (∀ id', id' ≠ id → (el.ClearInterval id).intervals.get id' = el.intervals.get id') ∧
      (el.ClearInterval id).intervals.get id = none ∧
      (el.ClearInterval id).pendingTasks = el.pendingTasks ∧
      (el.ClearInterval id).timerID = el.timerID ∧
      (∀ p, el.intervals.get id = some p → (el.macrotasks.deref p).Index = -1)) :=
  ⟨fun hs => ClearTimeout_unqueued h.inv id (hs.timeout_unqueued h),
    fun hs => ClearInterval_unqueued h.inv id (hs.interval_unqueued h)⟩

/-- C23, witness: on the loop whose only timeout, of id 1, has fired, the id 1 is stale as a
timeout id (its task was popped) and as an interval id (cleared as an interval on the new
loop); `ClearTimeout(1)` unregisters it and leaves the queue and the counter of pending
tasks as they were. -/
theorem stale_clear_witness :
    Reachable exactSleep firedTimeoutLoop ∧ StaleTimeout exactSleep firedTimeoutLoop 1 ∧
    firedTimeoutLoop.timers.get 1 = some 0 ∧
    (firedTimeoutLoop.ClearTimeout 1).macrotasks = firedTimeoutLoop.macrotasks ∧
    (firedTimeoutLoop.ClearTimeout 1).timers.get 1 = none ∧
    (firedTimeoutLoop.ClearTimeout 1).pendingTasks = firedTimeoutLoop.pendingTasks :=
  ⟨firedTimeoutLoop_reachable, firedTimeoutLoop_stale, by decide,
    ((stale_clear_changes_nothing_else exactSleep firedTimeoutLoop firedTimeoutLoop_reachable
      1).1 firedTimeoutLoop_stale).1,
    ((stale_clear_changes_nothing_else exactSleep firedTimeoutLoop firedTimeoutLoop_reachable
      1).1 firedTimeoutLoop_stale).2.2.2.2.1,
    ((stale_clear_changes_nothing_else exactSleep firedTimeoutLoop firedTimeoutLoop_reachable
      1).1 firedTimeoutLoop_stale).2.2.2.2.2.1⟩

/-- C25: the ids of timers are issued in strictly increasing order.  A call of `SetTimeout`
or `SetInterval` returns the counter `timerID`; if after such a call the loop is used in
any way (further calls, clears, runs of the loop) and `SetTimeout` or `SetInterval` is
called again, the second id is greater than the first.  The ids returned by a sequence of
calls of the four timer methods are `timerID`, `timerID + 1`, ... without gap, and on a new
loop `timerID` is 1. -/
theorem timer_ids_strictly_increase (sleep : Int → Int → Int) (el : EventLoop)
    (first second : TimerCall) (hf : first.issues = true) (hn : second.issues = true)
    (el' : EventLoop) (hs : Steps sleep (first.run el).1 el') :
    (first.run el).2 = some el.timerID ∧ (second.run el').2 = some el'.timerID ∧
    el.timerID < el'.timerID ∧
    (∀ (calls : List TimerCall) (e0 : EventLoop), issuedBy calls e0 =
      (List.range (calls.countP TimerCall.issues)).map (fun i : Nat => e0.timerID + (i : Int))) ∧
    (∀ now, (NewEventLoop now).timerID = 1) := by
  refine ⟨by rw [TimerCall.run_id, if_pos hf], by rw [TimerCall.run_id, if_pos hn], ?_,
    issuedBy_eq, fun _ => rfl⟩
  have h1 := hs.stales.timerID
  rw [TimerCall.run_timerID, if_pos hf] at h1
  omega

/-- C25, witness: on a new loop a timeout gets the id 1 and, after a clear of that id, an
interval gets the id 2; a timeout, a clear, an interval and a timeout get 1, 2 and 3. -/
theorem timer_ids_strictly_increase_witness :
    (TimerCall.setTimeout Script.ret 5).issues = true ∧
    (TimerCall.setInterval Script.ret 5).issues = true ∧
    Steps exactSleep ((TimerCall.setTimeout Script.ret 5).run (NewEventLoop 0)).1
      (((TimerCall.setTimeout Script.ret 5).run (NewEventLoop 0)).1.ClearTimeout 1) ∧
    ((TimerCall.setTimeout Script.ret 5).run (NewEventLoop 0)).2 = some 1 ∧
    ((TimerCall.setInterval Script.ret 5).run
      (((TimerCall.setTimeout Script.ret 5).run (NewEventLoop 0)).1.ClearTimeout 1)).2 = some 2 ∧
    issuedBy [TimerCall.setTimeout Script.ret 5, TimerCall.clearTimeout 1,
      TimerCall.setInterval Script.ret 5, TimerCall.setTimeout Script.ret 0] (NewEventLoop 0)
      = [1, 2, 3] :=
  ⟨rfl, rfl, Relation.ReflTransGen.single (Step.clearTimeout _ 1),
    (timer_ids_strictly_increase exactSleep (NewEventLoop 0) (TimerCall.setTimeout Script.ret 5)
      (TimerCall.setInterval Script.ret 5) rfl rfl _
      (Relation.ReflTransGen.single (Step.clearTimeout _ 1))).1,
    by decide, by decide⟩

/-- C29: in every reachable state, for an id registered in `timers` for a task that is in
the macrotask queue, `ClearTimeout(id)` takes exactly that task out: the slice of the queue
is a permutation of the old slice without the task, the queue is a well-formed min-heap by
due time, no task object changes its due time or callback, the id is unregistered, every
other id keeps its registration, and the intervals and the microtasks are as before.  The
same holds for `ClearInterval(id)` and an id registered in `intervals`. -/
theorem clear_removes_exactly_the_queued_task (sleep : Int → Int → Int) (el : EventLoop)
    (h : Reachable sleep el) (id : Int) (p : Nat) (hq : p ∈ el.macrotasks.items) :
    (el.timers.get id = some p →
      (el.ClearTimeout id).macrotasks.items.Perm (el.macrotasks.items.erase p) ∧
      (el.ClearTimeout id).macrotasks.WF ∧
      HeapOn (el.ClearTimeout id).macrotasks (el.ClearTimeout id).macrotasks.Len ∧
      (∀ q, ((el.ClearTimeout id).macrotasks.deref q).Time = (el.macrotasks.deref q).Time ∧
        ((el.ClearTimeout id).macrotasks.deref q).Callback = (el.macrotasks.deref q).Callback) ∧
      (el.ClearTimeout id).timers.get id = none ∧
      (∀ id', id' ≠ id → (el.ClearTimeout id).timers.get id' = el.timers.get id') ∧
      (el.ClearTimeout id).intervals = el.intervals ∧
      (el.ClearTimeout id).microtasks = el.microtasks) ∧
    (el.intervals.get id = some p →
      (el.ClearInterval id).macrotasks.items.Perm (el.macrotasks.items.erase p) ∧
      (el.ClearInterval id).macrotasks.WF ∧
      HeapOn (el.ClearInterval id).macrotasks (el.ClearInterval id).macrotasks.Len ∧
      (∀ q, ((el.ClearInterval id).macrotasks.deref q).Time = (el.macrotasks.deref q).Time ∧
        ((el.ClearInterval id).macrotasks.deref q).Callback =
          (el.macrotasks.deref q).Callback) ∧
      (el.ClearInterval id).intervals.get id = none ∧
      (∀ id', id' ≠ id → (el.ClearInterval id).intervals.get id' = el.intervals.get id') ∧
      (el.ClearInterval id).timers = el.timers ∧
      (el.ClearInterval id).microtasks = el.microtasks) := by
  have hi := h.inv
  constructor
  · intro hg
    obtain ⟨hrem, ht, hiv, hm, _⟩ := ClearTimeout_taken hi hg hq
    refine ⟨hrem.perm hi.wf, hrem.wf, hrem.heap, fun q => ⟨hrem.time q, hrem.cb q⟩,
      ClearTimeout_get_self el id, ?_, hiv, hm⟩
    intro id' hne
    rw [ht, TimerMap.get_delete, if_neg hne]
  · intro hg
    obtain ⟨hrem, ht, hiv, hm, _⟩ := ClearInterval_taken hi hg hq
    refine ⟨hrem.perm hi.wf, hrem.wf, hrem.heap, fun q => ⟨hrem.time q, hrem.cb q⟩,
      ClearInterval_get_self el id, ?_, hiv, hm⟩
    intro id' hne
    rw [ht, TimerMap.get_delete, if_neg hne]

/-- C29, witness: on the loop with the three timeouts 1, 2, 3 (tasks 0, 1, 2),
`ClearTimeout(2)` leaves the tasks 0 and 2 in the queue and the ids 1 and 3 registered. -/
theorem clear_removes_queued_task_witness :
    Reachable exactSleep threeEqualTimers ∧ 1 ∈ threeEqualTimers.macrotasks.items ∧
    threeEqualTimers.timers.get 2 = some 1 ∧
    (threeEqualTimers.ClearTimeout 2).macrotasks.items.Perm
      (threeEqualTimers.macrotasks.items.erase 1) ∧
    (threeEqualTimers.ClearTimeout 2).macrotasks.items = [0, 2] ∧
    (threeEqualTimers.ClearTimeout 2).timers.get 1 = some 0 ∧
    (threeEqualTimers.ClearTimeout 2).timers.get 2 = none ∧
    (threeEqualTimers.ClearTimeout 2).timers.get 3 = some 2 :=
  ⟨threeEqualTimers_reachable, by decide, by decide,
    ((clear_removes_exactly_the_queued_task exactSleep threeEqualTimers
      threeEqualTimers_reachable 2 1 (by decide)).1 (by decide)).1,
    by decide, by decide, by decide, by decide⟩

/-- C30: in every reachable state each task in the macrotask queue has its position as
`Index`, and every task object outside the queue has `Index = -1`: the tasks that `Run`
popped or called, the task of an id after `ClearTimeout` or `ClearInterval` of that id,
and, in every later state, every task that was outside the queue. -/
theorem task_index_is_queue_position (sleep : Int → Int → Int) (el : EventLoop)
    (h : Reachable sleep el) :
    (∀ i, i < el.macrotasks.Len → (el.macrotasks.deref (el.macrotasks.ptr i)).Index = i) ∧
    (∀ p, p < el.macrotasks.objs.length → p ∉ el.macrotasks.items →
      (el.macrotasks.deref p).Index = -1) ∧
    (∀ e ∈ el.trace, ∀ p, e.task? = some p → (el.macrotasks.deref p).Index = -1) ∧
    (∀ id p, el.timers.get id = some p →
      ((el.ClearTimeout id).macrotasks.deref p).Index = -1) ∧
    (∀ id p, el.intervals.get id = some p →
      ((el.ClearInterval id).macrotasks.deref p).Index = -1) ∧
    (∀ el', Steps sleep el el' → ∀ p, p < el.macrotasks.objs.length →
      p ∉ el.macrotasks.items → (el'.macrotasks.deref p).Index = -1) := by
  have hi := h.inv
  have later : ∀ el', Steps sleep el el' → ∀ p, p < el.macrotasks.objs.length →
      p ∉ el.macrotasks.items → (el'.macrotasks.deref p).Index = -1 := by
    intro el' hs p hp hout
    obtain ⟨i2, a2⟩ := hs.evos hi
    refine i2.wf.out p (lt_of_lt_of_le hp a2.objs) (fun hm => ?_)
    rcases a2.items p hm with h1 | h1
    · exact hout h1
    · omega
  refine ⟨hi.wf.index, hi.wf.out, ?_, ?_, ?_, later⟩
  · intro e he p hp
    obtain ⟨h1, h2⟩ := h.gone e he p hp
    exact hi.wf.out p h1 h2
  · intro id p hg
    have hv : p < el.macrotasks.objs.length := hi.timers _ (TimerMap.mem_of_get hg)
    by_cases hq : p ∈ el.macrotasks.items
    · obtain ⟨hrem, _⟩ := ClearTimeout_taken hi hg hq
      exact hrem.wf.out p (by rw [hrem.objs]; exact hv) (fun hm => ((hrem.mem p).1 hm).2 rfl)
    · rw [(ClearTimeout_unqueued hi id (fun q hq' => by rw [hg] at hq'; cases hq'; exact hq)).1]
      exact hi.wf.out p hv hq
  · intro id p hg
    have hv : p < el.macrotasks.objs.length := hi.intervals _ (TimerMap.mem_of_get hg)
    by_cases hq : p ∈ el.macrotasks.items
    · obtain ⟨hrem, _⟩ := ClearInterval_taken hi hg hq
      exact hrem.wf.out p (by rw [hrem.objs]; exact hv) (fun hm => ((hrem.mem p).1 hm).2 rfl)
    · rw [(ClearInterval_unqueued hi id (fun q hq' => by rw [hg] at hq'; cases hq'; exact hq)).1]
      exact hi.wf.out p hv hq

/-- C30, witness: on the loop with three timeouts the tasks at the positions 0, 1, 2 have
the indices 0, 1, 2, and after `ClearTimeout(2)` the task 1 has the index -1. -/
theorem task_index_is_queue_position_witness :
    Reachable exactSleep threeEqualTimers ∧
    (∀ i, i < threeEqualTimers.macrotasks.Len →
      (threeEqualTimers.macrotasks.deref (threeEqualTimers.macrotasks.ptr i)).Index = i) ∧
    ((threeEqualTimers.ClearTimeout 2).macrotasks.deref 1).Index = -1 :=
  ⟨threeEqualTimers_reachable,
    (task_index_is_queue_position exactSleep threeEqualTimers threeEqualTimers_reachable).1,
    by decide⟩

end GoJS

namespace GoJS

/-- When the callback of an interval raises, `repeatFunc` is left before it pushes a task:
the call is the call of the callback and nothing more. -/
theorem Callback.call_repeatFunc_raise (callback : Script) (id delay : Int) (el : EventLoop)
    (h : (callback.run el).2 = false) :
    (Callback.repeatFunc callback id delay).call el = callback.run el := by
  simp [Callback.call, h]

namespace EventLoop

theorem processMicrotasks_drained : ∀ (fuel : Nat) (a b : EventLoop),
    a.processMicrotasks fuel = some (b, true) → b.microtasks = [] := by
  intro fuel
  induction fuel with
  | zero => intro a b h; simp [processMicrotasks] at h
  | succ fuel ih =>
    intro a b h
    unfold processMicrotasks at h
    cases hm : a.microtasks with
    | nil =>
      rw [hm] at h
      simp only [Option.some.injEq, Prod.mk.injEq] at h
      rw [← h.1]
      exact hm
    | cons task rest =>
      rw [hm] at h
      simp only at h
      by_cases hr : (task.run { a with microtasks := rest, trace := a.trace ++ [Event.micro task] }).2 = true
      · rw [if_pos hr] at h
        exact ih _ _ h
      · rw [if_neg hr] at h
        simp at h

end EventLoop

/-- When `Eval` returns a value the microtask queue is empty. -/
theorem Runtime.Eval_value_drained (fuel : Nat) (el el1 : EventLoop) (code : Script)
    (h : Runtime.Eval fuel el code = some (el1, EvalResult.value)) : el1.microtasks = [] := by
  unfold Runtime.Eval at h
  dsimp only at h
  by_cases hr : (code.run el).2 = false
  · rw [if_pos hr] at h
    simp at h
  · rw [if_neg hr] at h
    cases hp : (code.run el).1.processMicrotasks fuel with
    | none => rw [hp] at h; simp at h
    | some r =>
      obtain ⟨el2, b⟩ := r
      rw [hp] at h
      cases b with
      | true =>
        simp only [Option.some.injEq, Prod.mk.injEq, and_true] at h
        rw [← h]
        exact EventLoop.processMicrotasks_drained _ _ _ hp
      | false => simp at h

/-- When the line ends in an error `Eval` returns at once: the loop is as the line left
it. -/
theorem Runtime.Eval_error (fuel : Nat) (el : EventLoop) (code : Script)
    (h : (code.run el).2 = false) :
    Runtime.Eval fuel el code = some ((code.run el).1, EvalResult.error) := by
  simp [Runtime.Eval, h]

/-- C31, failing input: `SetInterval` at time 0 with the delay 5 for a callback that emits
7 and raises, then `Run`.  The task 0 is called once, at time 5; `repeatFunc` is left by
the panic before it pushes a task, so that `Run` finds the queue empty and returns: the
callback ran once, no second task object was allocated, and the id 1 is still registered,
for the task 0 that is in no queue, with `pendingTasks` still 1.  With a callback that
emits 7 and returns the loop is still going after three passes, with the marks 7, 7, 7 and
the fourth task queued for the time 20. -/
theorem interval_not_rescheduled_after_raise :
    raisingIntervalLoop.intervals.get 1 = some 0 ∧
    raisingIntervalLoop.macrotasks.items = [0] ∧
    (EventLoop.Run exactSleep 10 10 raisingIntervalLoop).map
      (fun r => (r.2, poppedOf r.1.trace, emittedOf r.1.trace, r.1.clock)) =
        some (true, [0], [7], 5) ∧
    (EventLoop.Run exactSleep 10 10 raisingIntervalLoop).map
      (fun r => (r.1.macrotasks.items, r.1.macrotasks.objs.length, r.1.intervals.get 1,
        r.1.pendingTasks)) = some ([], 1, some 0, 1) ∧
    (EventLoop.runLoop exactSleep 10 3 returningIntervalLoop).map
      (fun r => (r.2, poppedOf r.1.trace, emittedOf r.1.trace, r.1.macrotasks.items,
        r.1.macrotasks.objs.map (fun t => t.Time))) =
        some (EventLoop.Pass.again, [0, 1, 2], [7, 7, 7], [3], [5, 10, 15, 20]) := by
  refine ⟨by decide, by decide, by decide, by decide, by decide⟩

/-- C32, failing input: the line `queueMicrotask(() => console.log(1)); throw ...` on a new
runtime.  `RunString` returns the error and `Eval` returns it before the call of
`processMicrotasks`: the microtask is still in the queue and has not run.  It runs at the
end of the next line that returns a value.  For the same line without the `throw`, `Eval`
returns a value and the queue is empty, the microtask having run. -/
theorem eval_error_leaves_microtasks_queued :
    (∀ fuel, (Runtime.Eval fuel (NewEventLoop 0) throwingLine).map
      (fun r => (r.2, r.1.microtasks.length, emittedOf r.1.trace)) =
        some (EvalResult.error, 1, [])) ∧
    (Runtime.Eval 5 (throwingLine.run (NewEventLoop 0)).1 Script.ret).map
      (fun r => (r.2, r.1.microtasks.length, emittedOf r.1.trace)) =
        some (EvalResult.value, 0, [1]) ∧
    (Runtime.Eval 5 (NewEventLoop 0) returningLine).map
      (fun r => (r.2, r.1.microtasks.length, emittedOf r.1.trace)) =
        some (EvalResult.value, 0, [1]) := by
  refine ⟨fun _ => rfl, by decide, by decide⟩

end GoJS

namespace GoJS
open EventLoop TaskQueue

namespace TaskQueue

@[simp] theorem setCallback_length (tq : TaskQueue) (p : Nat) (cb : Callback) :
    (tq.setCallback p cb).objs.length = tq.objs.length := by
  simp [setCallback]

end TaskQueue

namespace heap

end heap

namespace EventLoop

end EventLoop

namespace EventLoop

end EventLoop

end GoJS

namespace GoJS
open EventLoop TaskQueue

namespace EventLoop

end EventLoop

end GoJS

namespace GoJS
namespace JS

/-- C4, failing input: `let r; const p = new Promise(resolve => { r = resolve })` followed
by `r(o)`, where reading `o.then` calls `r(1)` and yields something that is not a
function.  The promise is settled twice: its value is first `1` and then `o`. -/
theorem settled_value_overwritten_by_reentrant_getter :
    (exec 10 (World.init [reentrantGetter])
      (Code.construct (some (fun _ _ => Code.ret Value.undefined))
        (fun _ => Code.call (Fn.native (Native.resolveFn 0)) (Value.object 0) Code.ret))).map
      (fun r => (r.1.writes, (r.1.get 0)._value)) =
    some ([(0, PromiseState.FULFILLED, Value.num 1), (0, PromiseState.FULFILLED, Value.object 0)],
      Value.object 0) := by
  rfl

namespace World

@[simp] theorem get_alloc_new (w : World) : w.alloc.1.get w.promises.length =
    ⟨PromiseState.PENDING, Value.undefined, []⟩ := by
  simp [alloc, get, List.getD_eq_getElem?_getD]

@[simp] theorem alloc_addr (w : World) : w.alloc.2 = w.promises.length := rfl

@[simp] theorem alloc_promises_length (w : World) : w.alloc.1.promises.length = w.promises.length + 1 := by
  simp [alloc]

@[simp] theorem alloc_microtasks (w : World) : w.alloc.1.microtasks = w.microtasks := rfl

@[simp] theorem alloc_objects (w : World) : w.alloc.1.objects = w.objects := rfl

theorem get_alloc_old (w : World) (p : Nat) (h : p < w.promises.length) :
    w.alloc.1.get p = w.get p := by
  simp [alloc, get, List.getD_eq_getElem?_getD, List.getElem?_append_left h]

theorem get_modify (w : World) (p q : Nat) (f : PromiseObj → PromiseObj) :
    (w.modify p f).get q =
      if p = q ∧ q < w.promises.length then f (w.get q) else w.get q := by
  unfold get modify
  simp only [List.getD_eq_getElem?_getD, List.getElem?_modify]
  by_cases hq : q < w.promises.length
  · by_cases hp : p = q
    · subst hp; simp [hq]
    · simp [hp, hq]
  · have : w.promises[q]? = none := List.getElem?_eq_none (by omega)
    simp [this, hq]

@[simp] theorem modify_length (w : World) (p : Nat) (f : PromiseObj → PromiseObj) :
    (w.modify p f).promises.length = w.promises.length := by
  simp [modify]

@[simp] theorem modify_microtasks (w : World) (p : Nat) (f : PromiseObj → PromiseObj) :
    (w.modify p f).microtasks = w.microtasks := rfl

@[simp] theorem modify_objects (w : World) (p : Nat) (f : PromiseObj → PromiseObj) :
    (w.modify p f).objects = w.objects := rfl

end World

theorem getD_modify_self {α : Type} (l : List α) (f : α → α) (p : Nat) (d : α)
    (h : p < l.length) : (l.modify f p).getD p d = f (l.getD p d) := by
  simp [List.getD_eq_getElem?_getD, List.getElem?_modify, List.getElem?_eq_getElem h]

theorem getD_modify_ne {α : Type} (l : List α) (f : α → α) (p q : Nat) (d : α) (h : p ≠ q) :
    (l.modify f p).getD q d = l.getD q d := by
  simp only [List.getD_eq_getElem?_getD, List.getElem?_modify, h, if_false]
  cases l[q]? <;> rfl

/-- What `settle` does to a promise that exists. -/
theorem Promise.settle_spec (w : World) (p : Nat) (s : PromiseState) (v : Value)
    (hs : s ≠ PromiseState.PENDING) (hp : p < w.promises.length) :
    ((Promise.settle w p s v).get p) = ⟨s, v, []⟩ ∧
    (Promise.settle w p s v).microtasks = w.microtasks ++ (w.get p)._handlers.map (fun h => (p, h)) ∧
    (Promise.settle w p s v).promises.length = w.promises.length ∧
    (Promise.settle w p s v).objects = w.objects ∧
    ∀ q, q ≠ p → (Promise.settle w p s v).get q = w.get q := by
  have e1 : (w.promises.modify (fun o => { o with _state := s, _value := v }) p).getD p default
      = ⟨s, v, (w.promises.getD p default)._handlers⟩ := getD_modify_self _ _ _ _ hp
  simp only [Promise.settle, Promise._executeHandlers, World.get, World.modify, e1, hs, if_false]
  refine ⟨?_, trivial, ?_, trivial, ?_⟩
  · rw [getD_modify_self _ _ _ _ (by simpa using hp), e1]
  · simp
  · intro q hq
    rw [getD_modify_ne _ _ _ _ _ (fun e => hq e.symm), getD_modify_ne _ _ _ _ _ (fun e => hq e.symm)]

/-- Resolving a pending promise with a value that is not thenable fulfils it. -/
theorem Promise._resolve_nonThenable (fuel : Nat) (w : World) (p : Nat) (v : Value)
    (hv : NonThenable w v) (hp : (w.get p)._state = PromiseState.PENDING) :
    Promise._resolve (fuel + 2) w p v = some (Promise.settle w p PromiseState.FULFILLED v) := by
  unfold Promise._resolve
  simp only [hp, ne_eq, not_true_eq_false, if_false]
  cases v with
  | promise q => exact absurd hv (by simp [NonThenable])
  | object o =>
    obtain ⟨⟨r, hg⟩, hm⟩ := hv
    simp only [Value.isPromise, hg, hm]
    simp [exec]
  | _ => simp [Value.isPromise]

theorem NonThenable.congr {w w' : World} {v : Value} (h : NonThenable w v)
    (ho : w'.objects = w.objects) : NonThenable w' v := by
  cases v <;> simp_all [NonThenable]

theorem exec_ret (fuel : Nat) (w : World) (v : Value) :
    exec (fuel + 1) w (Code.ret v) = some (w, .ok v) := by
  simp [exec]

/-- What `_executeHandlers` does to a settled promise that exists. -/
theorem Promise._executeHandlers_spec (w : World) (p : Nat)
    (hs : (w.get p)._state ≠ PromiseState.PENDING) (hp : p < w.promises.length) :
    (Promise._executeHandlers w p).microtasks =
      w.microtasks ++ (w.get p)._handlers.map (fun h => (p, h)) ∧
    (Promise._executeHandlers w p).get p = { w.get p with _handlers := [] } ∧
    (∀ q, q ≠ p → (Promise._executeHandlers w p).get q = w.get q) ∧
    (Promise._executeHandlers w p).promises.length = w.promises.length ∧
    (Promise._executeHandlers w p).objects = w.objects := by
  unfold Promise._executeHandlers
  rw [if_neg hs]
  refine ⟨rfl, ?_, ?_, ?_, rfl⟩
  · simp only [World.get, World.modify]
    rw [getD_modify_self _ _ _ _ hp]
  · intro q hq
    simp only [World.get, World.modify]
    rw [getD_modify_ne _ _ _ _ _ (fun e => hq e.symm)]
  · simp [World.modify]

/-- What `then` does on a settled promise that exists: the reaction is queued at once. -/
theorem Promise.then_settled (w : World) (p : Nat) (onFulfilled onRejected : Option Fn)
    (hs : (w.get p)._state ≠ PromiseState.PENDING) (hp : p < w.promises.length) :
    (Promise.then_ w p onFulfilled onRejected).2 = w.promises.length ∧
    (Promise.then_ w p onFulfilled onRejected).1.microtasks =
      w.microtasks ++ ((w.get p)._handlers ++ [Handler.mk onFulfilled onRejected
        (Fn.native (Native.resolveFn w.promises.length))
        (Fn.native (Native.rejectFn w.promises.length))]).map (fun h => (p, h)) ∧
    (Promise.then_ w p onFulfilled onRejected).1.get p = { w.get p with _handlers := [] } ∧
    (Promise.then_ w p onFulfilled onRejected).1.get w.promises.length =
      ⟨PromiseState.PENDING, Value.undefined, []⟩ ∧
    (Promise.then_ w p onFulfilled onRejected).1.promises.length = w.promises.length + 1 ∧
    (Promise.then_ w p onFulfilled onRejected).1.objects = w.objects := by
  have hg : (w.alloc.1.modify p (fun o => { o with _handlers := o._handlers ++
      [⟨onFulfilled, onRejected, Fn.native (Native.resolveFn w.alloc.2),
        Fn.native (Native.rejectFn w.alloc.2)⟩] })).get p =
      { w.get p with _handlers := (w.get p)._handlers ++ [⟨onFulfilled, onRejected,
        Fn.native (Native.resolveFn w.promises.length),
        Fn.native (Native.rejectFn w.promises.length)⟩] } := by
    rw [World.get_modify]
    simp only [World.alloc_promises_length, show p < w.promises.length + 1 by omega, and_self, if_true]
    rw [World.get_alloc_old w p hp]
    rfl
  obtain ⟨e1, e2, e3, e4, e5⟩ := Promise._executeHandlers_spec
    (w.alloc.1.modify p (fun o => { o with _handlers := o._handlers ++
      [⟨onFulfilled, onRejected, Fn.native (Native.resolveFn w.alloc.2),
        Fn.native (Native.rejectFn w.alloc.2)⟩] })) p (by rw [hg]; exact hs) (by simp; omega)
  refine ⟨rfl, ?_, ?_, ?_, ?_, ?_⟩
  · show (Promise._executeHandlers _ p).microtasks = _
    rw [e1, hg]
    rfl
  · show (Promise._executeHandlers _ p).get p = _
    rw [e2, hg]
  · show (Promise._executeHandlers _ p).get _ = _
    rw [e3 _ (by omega), World.get_modify]
    simp only [show ¬ p = w.promises.length by omega, false_and, if_false]
    exact World.get_alloc_new w
  · show (Promise._executeHandlers _ p).promises.length = _
    rw [e4]; simp
  · show (Promise._executeHandlers _ p).objects = _
    rw [e5]; rfl

end JS
end GoJS

namespace GoJS
namespace JS

end JS
end GoJS

namespace GoJS
namespace JS

theorem Promise.settle_ctxs (w : World) (p : Nat) (s : PromiseState) (v : Value) :
    (Promise.settle w p s v).ctxs = w.ctxs ∧ (Promise.settle w p s v).called = w.called := by
  unfold Promise.settle Promise._executeHandlers
  simp only
  split_ifs <;> exact ⟨rfl, rfl⟩

theorem Frame.frame_refl {r : Nat} {w : World} (h : (w.get r)._handlers = []) : Frame r w w :=
  ⟨rfl, rfl, fun _ _ => rfl, h, fun _ => rfl, rfl⟩

/-- What `_reject` does to a promise without handlers. -/
theorem Promise._reject_frame (w : World) (p : Nat) (e : Value) (hp : p < w.promises.length)
    (hh : (w.get p)._handlers = []) :
    Frame p w (Promise._reject w p e) ∧ (Promise._reject w p e).ctxs = w.ctxs ∧
      ((w.get p)._state = PromiseState.PENDING →
        (Promise._reject w p e).get p = ⟨PromiseState.REJECTED, e, []⟩) := by
  unfold Promise._reject
  by_cases hs : (w.get p)._state = PromiseState.PENDING
  · rw [if_neg (by simpa using hs)]
    obtain ⟨s1, s2, s3, s4, s5⟩ := Promise.settle_spec w p PromiseState.REJECTED e (by decide) hp
    refine ⟨⟨?_, s3, s5, by rw [s1], fun h => absurd hs h, s4⟩, (Promise.settle_ctxs _ _ _ _).1,
      fun _ => s1⟩
    rw [s2, hh]; simp
  · rw [if_pos hs]
    exact ⟨Frame.frame_refl hh, rfl, fun h => absurd h hs⟩

/-- What `_resolve` with a value that is not thenable does to a promise without handlers. -/
theorem Promise._resolve_frame (fuel : Nat) (w : World) (p : Nat) (v : Value)
    (hv : NonThenable w v) (hp : p < w.promises.length) (hh : (w.get p)._handlers = []) :
    ∃ w1, Promise._resolve (fuel + 2) w p v = some w1 ∧ Frame p w w1 ∧ w1.ctxs = w.ctxs ∧
      ((w.get p)._state = PromiseState.PENDING → w1.get p = ⟨PromiseState.FULFILLED, v, []⟩) := by
  by_cases hs : (w.get p)._state = PromiseState.PENDING
  · refine ⟨_, Promise._resolve_nonThenable fuel w p v hv hs, ?_⟩
    obtain ⟨s1, s2, s3, s4, s5⟩ := Promise.settle_spec w p PromiseState.FULFILLED v (by decide) hp
    refine ⟨⟨?_, s3, s5, by rw [s1], fun h => absurd hs h, s4⟩, (Promise.settle_ctxs _ _ _ _).1,
      fun _ => s1⟩
    rw [s2, hh]; simp
  · refine ⟨w, ?_, Frame.frame_refl hh, rfl, fun h => absurd h hs⟩
    unfold Promise._resolve
    rw [if_pos hs]

end JS
end GoJS

namespace GoJS
namespace JS

theorem Wired.settle {H : Nat → Fn × Fn} {r : Nat} {qs ds queue : List Nat} {w : World}
    (hw : Wired H r qs ds queue w) (p : Nat) (hp : p ∈ qs) (s : PromiseState)
    (hs : s ≠ PromiseState.PENDING) (v : Value) (hpend : (w.get p)._state = PromiseState.PENDING) :
    Wired H r qs ds (queue ++ indicesOf qs p) (Promise.settle w p s v) ∧
    (Promise.settle w p s v).get p = ⟨s, v, []⟩ ∧
    (∀ q, q ≠ p → (Promise.settle w p s v).get q = w.get q) ∧
    (Promise.settle w p s v).ctxs = w.ctxs ∧
    (Promise.settle w p s v).objects = w.objects := by
  obtain ⟨s1, s2, s3, s4, s5⟩ := Promise.settle_spec w p s v hs (hw.qbound p hp)
  refine ⟨⟨hw.len, ?_, ?_, ?_, ?_, ?_, ?_, ?_, ?_, hw.dq, ?_, ?_, hw.rq, hw.rd⟩, s1, s5,
    (Promise.settle_ctxs _ _ _ _).1, s4⟩
  · rw [s2, hw.micro, hw.waiting p hp, if_pos hpend, List.map_append, List.map_map]
    congr 1
    apply List.map_congr_left
    intro i hi
    have := (List.mem_filter.1 hi).2
    simp only [decide_eq_true_eq] at this
    show (p, hnd H ds i) = (qs.getD i 0, hnd H ds i)
    rw [this]
  · refine List.Nodup.append hw.qnodup ((List.nodup_range _).filter _) ?_
    intro i hi1 hi2
    have := (List.mem_filter.1 hi2).2
    simp only [decide_eq_true_eq] at this
    have h1 := hw.qsettled i hi1
    rw [this] at h1
    exact h1 hpend
  · intro i hi
    rcases List.mem_append.1 hi with h | h
    · exact hw.qlt i h
    · exact List.mem_range.1 (List.mem_filter.1 h).1
  · intro i hi
    rcases List.mem_append.1 hi with h | h
    · have h1 := hw.qsettled i h
      by_cases e : qs.getD i 0 = p
      · rw [e] at h1; exact absurd hpend h1
      · rw [s5 _ e]; exact h1
    · have := (List.mem_filter.1 h).2
      simp only [decide_eq_true_eq] at this
      rw [this, s1]
      exact hs
  · intro p' hp'
    by_cases e : p' = p
    · subst e
      rw [s1]
      simp [hs]
    · rw [s5 _ e]
      exact hw.waiting p' hp'
  · intro p' hp'; rw [s3]; exact hw.qbound p' hp'
  · intro d hd; rw [s3]; exact hw.dbound d hd
  · intro d hd
    have : d ≠ p := fun e => hw.dq d hd (e ▸ hp)
    rw [s5 _ this]; exact hw.dhandlers d hd
  · rw [s3]; exact hw.rbound
  · have : r ≠ p := fun e => hw.rq (e ▸ hp)
    rw [s5 _ this]; exact hw.rhandlers

/-- The call of the `resolve` function of a promise on which reactions are registered,
with a value that is not thenable. -/
theorem Wired.fulfil {H : Nat → Fn × Fn} {r : Nat} {qs ds queue : List Nat} {w : World}
    (hw : Wired H r qs ds queue w) (fuel : Nat) (p : Nat) (hp : p ∈ qs) (v : Value)
    (hv : NonThenable w v) :
    ∃ w1, Act.run (fuel + 3) w (Act.fulfil p v) = some w1 ∧
      Wired H r qs ds
        (if (w.get p)._state = PromiseState.PENDING then queue ++ indicesOf qs p else queue) w1 ∧
      (∀ q, q ≠ p → w1.get q = w.get q) ∧ w1.ctxs = w.ctxs ∧ w1.objects = w.objects ∧
      w1.get p = (if (w.get p)._state = PromiseState.PENDING then
        ⟨PromiseState.FULFILLED, v, []⟩ else w.get p) := by
  by_cases hs : (w.get p)._state = PromiseState.PENDING
  · have h1 := Promise._resolve_nonThenable fuel w p v hv hs
    obtain ⟨a1, a2, a3, a4, a5⟩ := hw.settle p hp PromiseState.FULFILLED (by decide) v hs
    refine ⟨_, ?_, by rw [if_pos hs]; exact a1, a3, a4, a5, by rw [if_pos hs]; exact a2⟩
    simp [Act.run, call, h1]
  · refine ⟨w, ?_, by rw [if_neg hs]; exact hw, fun _ _ => rfl, rfl, rfl, by rw [if_neg hs]⟩
    have : Promise._resolve (fuel + 2) w p v = some w := by
      unfold Promise._resolve
      rw [if_pos hs]
    simp [Act.run, call, this]

/-- The call of the `reject` function of a promise on which reactions are registered. -/
theorem Wired.reject {H : Nat → Fn × Fn} {r : Nat} {qs ds queue : List Nat} {w : World}
    (hw : Wired H r qs ds queue w) (fuel : Nat) (p : Nat) (hp : p ∈ qs) (e : Value) :
    ∃ w1, Act.run (fuel + 3) w (Act.reject p e) = some w1 ∧
      Wired H r qs ds
        (if (w.get p)._state = PromiseState.PENDING then queue ++ indicesOf qs p else queue) w1 ∧
      (∀ q, q ≠ p → w1.get q = w.get q) ∧ w1.ctxs = w.ctxs ∧ w1.objects = w.objects ∧
      w1.get p = (if (w.get p)._state = PromiseState.PENDING then
        ⟨PromiseState.REJECTED, e, []⟩ else w.get p) := by
  by_cases hs : (w.get p)._state = PromiseState.PENDING
  · have h1 : Promise._reject w p e = Promise.settle w p PromiseState.REJECTED e := by
      unfold Promise._reject
      rw [if_neg (by simpa using hs)]
    obtain ⟨a1, a2, a3, a4, a5⟩ := hw.settle p hp PromiseState.REJECTED (by decide) e hs
    refine ⟨_, ?_, by rw [if_pos hs]; exact a1, a3, a4, a5, by rw [if_pos hs]; exact a2⟩
    simp [Act.run, call, h1]
  · refine ⟨w, ?_, by rw [if_neg hs]; exact hw, fun _ _ => rfl, rfl, rfl, by rw [if_neg hs]⟩
    have : Promise._reject w p e = w := by
      unfold Promise._reject
      rw [if_pos hs]
    simp [Act.run, call, this]

/-- The settling of an input does not touch the reactions that have run. -/
theorem reacted_settle {qs queue : List Nat} {w w1 : World} (p : Nat) (x : PromiseObj)
    (hother : ∀ q, q ≠ p → w1.get q = w.get q)
    (hp : w1.get p = (if (w.get p)._state = PromiseState.PENDING then x else w.get p)) :
    (∀ j, reacted qs
        (if (w.get p)._state = PromiseState.PENDING then queue ++ indicesOf qs p else queue) w1 j ↔
      reacted qs queue w j) ∧
    (∀ j, reacted qs queue w j → w1.get (qs.getD j 0) = w.get (qs.getD j 0)) ∧
    (∀ q, (w.get q)._state ≠ PromiseState.PENDING → w1.get q = w.get q) := by
  have hkeep : ∀ q, (w.get q)._state ≠ PromiseState.PENDING → w1.get q = w.get q := by
    intro q hq
    by_cases e : q = p
    · subst e
      rw [hp, if_neg hq]
    · exact hother q e
  refine ⟨?_, fun j hj => hkeep _ hj.2.2, hkeep⟩
  intro j
  by_cases hs : (w.get p)._state = PromiseState.PENDING
  · rw [if_pos hs]
    by_cases e : qs.getD j 0 = p
    · constructor
      · rintro ⟨h1, h2, _⟩
        exact absurd (List.mem_append_right _ (List.mem_filter.2
          ⟨List.mem_range.2 h1, by simpa using e⟩)) h2
      · rintro ⟨_, _, h3⟩
        rw [e] at h3
        exact absurd hs h3
    · have hnot : j ∉ indicesOf qs p := by
        intro hm
        have := (List.mem_filter.1 hm).2
        simp only [decide_eq_true_eq] at this
        exact e this
      unfold reacted
      rw [hother _ e]
      simp [hnot]
  · rw [if_neg hs]
    unfold reacted
    by_cases e : qs.getD j 0 = p
    · rw [e, hp, if_neg hs]
    · rw [hother _ e]

/-- The run of the first reaction in the queue, for handlers that return `undefined` and
touch no promise but the result promise. -/
theorem Wired.react {H : Nat → Fn × Fn} {r : Nat} {qs ds : List Nat} {i : Nat} {queue : List Nat}
    {w : World} (hw : Wired H r qs ds (i :: queue) w) (fuel : Nat) (w1 : World)
    (hcall : call (fuel + 3) { w with microtasks := w.microtasks.tail }
      (if (w.get (qs.getD i 0))._state = PromiseState.FULFILLED then (H i).1 else (H i).2)
      (w.get (qs.getD i 0))._value = some (w1, .ok Value.undefined))
    (hframe : Frame r { w with microtasks := w.microtasks.tail } w1) :
    ∃ w2, Act.run (fuel + 3) w Act.react = some w2 ∧ Wired H r qs ds queue w2 ∧
      (∀ q ∈ qs, w2.get q = w.get q) ∧ w2.ctxs = w1.ctxs ∧ w2.get r = w1.get r ∧
      w2.objects = w.objects ∧
      (∀ j, reacted qs queue w2 j ↔ reacted qs (i :: queue) w j ∨ j = i) := by
  have hm : w.microtasks = (qs.getD i 0, hnd H ds i) :: queue.map (fun i => (qs.getD i 0, hnd H ds i)) := by
    rw [hw.micro]; rfl
  have hil : i < qs.length := hw.qlt i (List.mem_cons_self _ _)
  have hid : ds.getD i 0 ∈ ds := by
    rw [List.getD_eq_getElem _ _ (by rw [hw.len]; exact hil)]
    exact List.getElem_mem _
  have hiq : qs.getD i 0 ∈ qs := by
    rw [List.getD_eq_getElem _ _ hil]
    exact List.getElem_mem _
  have hdr : ds.getD i 0 ≠ r := fun e => hw.rd (e ▸ hid)
  have hst := hw.qsettled i (List.mem_cons_self _ _)
  have htail : w.microtasks.tail = queue.map (fun i => (qs.getD i 0, hnd H ds i)) := by
    rw [hm]; rfl
  -- the derived promise is resolved with `undefined`
  have hd1 : ds.getD i 0 < w1.promises.length := by
    rw [hframe.len]; exact hw.dbound _ hid
  have hd2 : (w1.get (ds.getD i 0))._handlers = [] := by
    rw [hframe.other _ hdr]; exact hw.dhandlers _ hid
  obtain ⟨w2, e2, f2, c2, _⟩ := Promise._resolve_frame fuel w1 (ds.getD i 0) Value.undefined
    trivial hd1 hd2
  have hc2 : call (fuel + 3) w1 (Fn.native (Native.resolveFn (ds.getD i 0))) Value.undefined =
      some (w2, .ok Value.undefined) := by
    rw [call]
    simp only [e2, Option.map_some']
  have hrun : Act.run (fuel + 3) w Act.react = some w2 := by
    simp only [Act.run, hm]
    rw [htail] at hcall
    unfold runReaction
    have hget : ({ w with microtasks := queue.map (fun i => (qs.getD i 0, hnd H ds i)) } :
        World).get (qs.getD i 0) = w.get (qs.getD i 0) := rfl
    rw [hget]
    generalize ({ w with microtasks := queue.map (fun i => (qs.getD i 0, hnd H ds i)) } :
        World) = wr at hcall
    cases hs : (w.get (qs.getD i 0))._state with
    | PENDING => exact absurd hs hst
    | FULFILLED =>
      rw [hs] at hcall
      simp only [if_true] at hcall
      simp only [hnd, hcall, hc2]
    | REJECTED =>
      rw [hs] at hcall
      simp only [show ¬ PromiseState.REJECTED = PromiseState.FULFILLED by decide, if_false] at hcall
      simp only [hnd, hcall, hc2]
  have hget2 : ∀ q, q ≠ r → q ≠ ds.getD i 0 → w2.get q = w.get q := by
    intro q h1 h2
    rw [f2.other q h2, hframe.other q h1]
    rfl
  have hrec : ∀ q ∈ qs, w2.get q = w.get q :=
    fun q hq => hget2 _ (fun e => hw.rq (e ▸ hq)) (fun e => hw.dq _ hid (e ▸ hq))
  refine ⟨w2, hrun, ⟨hw.len, ?_, (List.nodup_cons.1 hw.qnodup).2,
    fun j hj => hw.qlt j (List.mem_cons_of_mem _ hj), ?_, ?_, ?_, ?_, ?_, hw.dq, ?_, ?_, hw.rq,
    hw.rd⟩, ?_, c2, f2.other r (fun e => hdr e.symm), ?_, ?_⟩
  · rw [f2.micro, hframe.micro]
    exact htail
  · intro j hj
    have hjq : qs.getD j 0 ∈ qs := by
      rw [List.getD_eq_getElem _ _ (hw.qlt j (List.mem_cons_of_mem _ hj))]
      exact List.getElem_mem _
    rw [hget2 _ (fun e => hw.rq (e ▸ hjq)) (fun e => hw.dq _ hid (e ▸ hjq))]
    exact hw.qsettled j (List.mem_cons_of_mem _ hj)
  · intro p hp
    rw [hget2 _ (fun e => hw.rq (e ▸ hp)) (fun e => hw.dq _ hid (e ▸ hp))]
    exact hw.waiting p hp
  · intro p hp; rw [f2.len, hframe.len]; exact hw.qbound p hp
  · intro d hd; rw [f2.len, hframe.len]; exact hw.dbound d hd
  · intro d hd
    by_cases e : d = ds.getD i 0
    · rw [e]; exact f2.handlers
    · rw [hget2 _ (fun e' => hw.rd (e' ▸ hd)) e]
      exact hw.dhandlers d hd
  · rw [f2.len, hframe.len]; exact hw.rbound
  · rw [f2.other r (fun e => hdr e.symm)]
    exact hframe.handlers
  · intro q hq
    exact hget2 _ (fun e => hw.rq (e ▸ hq)) (fun e => hw.dq _ hid (e ▸ hq))
  · rw [f2.objects, hframe.objects]
  · intro j
    unfold reacted
    by_cases hj : j < qs.length
    · rw [hrec _ (by rw [List.getD_eq_getElem _ _ hj]; exact List.getElem_mem _)]
      by_cases e : j = i
      · subst e
        exact ⟨fun _ => Or.inr rfl, fun _ => ⟨hj, (List.nodup_cons.1 hw.qnodup).1, hst⟩⟩
      · constructor
        · rintro ⟨h1, h2, h3⟩
          refine Or.inl ⟨h1, fun hm => ?_, h3⟩
          rcases List.mem_cons.1 hm with h | h
          · exact e h
          · exact h2 h
        · rintro (⟨h1, h2, h3⟩ | h)
          · exact ⟨h1, fun hm => h2 (List.mem_cons_of_mem _ hm), h3⟩
          · exact absurd h e
    · simp only [hj, false_and, false_or, false_iff]
      intro e
      exact hj (e ▸ hil)

/-- With an empty queue of microtasks the action `react` does nothing. -/
theorem Act.react_nil (fuel : Nat) (w : World) (h : w.microtasks = []) :
    Act.run fuel w Act.react = some w := by
  simp [Act.run, h]

end JS
end GoJS

namespace GoJS
namespace JS

theorem getD_append_lt {α : Type} (l l' : List α) (d : α) {i : Nat} (h : i < l.length) :
    (l ++ l').getD i d = l.getD i d := by
  simp [List.getD_eq_getElem?_getD, List.getElem?_append_left h]

theorem getD_append_len {α : Type} (l : List α) (x d : α) : (l ++ [x]).getD l.length d = x := by
  simp [List.getD_eq_getElem?_getD]

theorem getD_mem {α : Type} (l : List α) (d : α) {i : Nat} (h : i < l.length) :
    l.getD i d ∈ l := by
  rw [List.getD_eq_getElem _ _ h]
  exact List.getElem_mem _

theorem exists_getD_of_mem {α : Type} {l : List α} {x : α} (d : α) (h : x ∈ l) :
    ∃ i, i < l.length ∧ l.getD i d = x := by
  obtain ⟨i, hi, rfl⟩ := List.getElem_of_mem h
  exact ⟨i, hi, List.getD_eq_getElem _ _ hi⟩

theorem hnd_append (H : Nat → Fn × Fn) (ds : List Nat) (d : Nat) {i : Nat} (h : i < ds.length) :
    hnd H (ds ++ [d]) i = hnd H ds i := by
  unfold hnd
  rw [getD_append_lt _ _ _ h]

theorem hnd_append_len (H : Nat → Fn × Fn) (ds : List Nat) (d : Nat) :
    hnd H (ds ++ [d]) ds.length = ⟨some (H ds.length).1, some (H ds.length).2,
      Fn.native (Native.resolveFn d), Fn.native (Native.rejectFn d)⟩ := by
  unfold hnd
  rw [getD_append_len]

theorem filter_range_append (qs : List Nat) (q p : Nat) :
    (List.range (qs ++ [q]).length).filter (fun i => decide ((qs ++ [q]).getD i 0 = p)) =
      (List.range qs.length).filter (fun i => decide (qs.getD i 0 = p)) ++
        (if q = p then [qs.length] else []) := by
  rw [List.length_append, List.length_singleton, List.range_succ, List.filter_append]
  congr 1
  · apply List.filter_congr
    intro i hi
    rw [getD_append_lt _ _ _ (List.mem_range.1 hi)]
  · rw [List.filter_singleton, getD_append_len]
    by_cases e : q = p <;> simp [e]

/-- What `then` does on a promise that exists. -/
theorem Promise.then_spec (w : World) (p : Nat) (onFulfilled onRejected : Option Fn)
    (hp : p < w.promises.length) :
    (Promise.then_ w p onFulfilled onRejected).2 = w.promises.length ∧
    (Promise.then_ w p onFulfilled onRejected).1.promises.length = w.promises.length + 1 ∧
    (Promise.then_ w p onFulfilled onRejected).1.get w.promises.length =
      ⟨PromiseState.PENDING, Value.undefined, []⟩ ∧
    (∀ q, q ≠ p → q < w.promises.length →
      (Promise.then_ w p onFulfilled onRejected).1.get q = w.get q) ∧
    (Promise.then_ w p onFulfilled onRejected).1.objects = w.objects ∧
    (Promise.then_ w p onFulfilled onRejected).1.ctxs = w.ctxs ∧
    ((w.get p)._state = PromiseState.PENDING →
      (Promise.then_ w p onFulfilled onRejected).1.microtasks = w.microtasks ∧
      (Promise.then_ w p onFulfilled onRejected).1.get p =
        { w.get p with _handlers := (w.get p)._handlers ++ [Handler.mk onFulfilled onRejected
          (Fn.native (Native.resolveFn w.promises.length))
          (Fn.native (Native.rejectFn w.promises.length))] }) ∧
    ((w.get p)._state ≠ PromiseState.PENDING →
      (Promise.then_ w p onFulfilled onRejected).1.microtasks =
        w.microtasks ++ ((w.get p)._handlers ++ [Handler.mk onFulfilled onRejected
          (Fn.native (Native.resolveFn w.promises.length))
          (Fn.native (Native.rejectFn w.promises.length))]).map (fun h => (p, h)) ∧
      (Promise.then_ w p onFulfilled onRejected).1.get p = { w.get p with _handlers := [] }) := by
  have hg : (w.alloc.1.modify p (fun o => { o with _handlers := o._handlers ++
      [⟨onFulfilled, onRejected, Fn.native (Native.resolveFn w.alloc.2),
        Fn.native (Native.rejectFn w.alloc.2)⟩] })).get p =
      { w.get p with _handlers := (w.get p)._handlers ++ [⟨onFulfilled, onRejected,
        Fn.native (Native.resolveFn w.promises.length),
        Fn.native (Native.rejectFn w.promises.length)⟩] } := by
    rw [World.get_modify]
    simp only [World.alloc_promises_length, show p < w.promises.length + 1 by omega, and_self, if_true]
    rw [World.get_alloc_old w p hp]
    rfl
  have hother : ∀ q, q ≠ p → (w.alloc.1.modify p (fun o => { o with _handlers := o._handlers ++
      [⟨onFulfilled, onRejected, Fn.native (Native.resolveFn w.alloc.2),
        Fn.native (Native.rejectFn w.alloc.2)⟩] })).get q = w.alloc.1.get q := by
    intro q hq
    rw [World.get_modify, if_neg (fun h => hq h.1.symm)]
  generalize hw1 : w.alloc.1.modify p (fun o => { o with _handlers := o._handlers ++
      [⟨onFulfilled, onRejected, Fn.native (Native.resolveFn w.alloc.2),
        Fn.native (Native.rejectFn w.alloc.2)⟩] }) = w1 at hg hother
  have hlen : w1.promises.length = w.promises.length + 1 := by rw [← hw1]; simp
  have hobj : w1.objects = w.objects := by rw [← hw1]; rfl
  have hctx : w1.ctxs = w.ctxs := by rw [← hw1]; rfl
  have hmic : w1.microtasks = w.microtasks := by rw [← hw1]; rfl
  have hthen : Promise.then_ w p onFulfilled onRejected =
      (Promise._executeHandlers w1 p, w.promises.length) := by
    rw [← hw1]; rfl
  rw [hthen]
  simp only
  by_cases hs : (w.get p)._state = PromiseState.PENDING
  · have hex : Promise._executeHandlers w1 p = w1 := by
      unfold Promise._executeHandlers
      rw [if_pos (by rw [hg]; exact hs)]
    rw [hex]
    refine ⟨trivial, hlen, ?_, ?_, hobj, hctx, fun _ => ⟨hmic, hg⟩, fun h => absurd hs h⟩
    · rw [hother _ (by omega)]; exact World.get_alloc_new w
    · intro q hq hql
      rw [hother q hq, World.get_alloc_old w q hql]
  · obtain ⟨e1, e2, e3, e4, e5⟩ := Promise._executeHandlers_spec w1 p (by rw [hg]; exact hs)
      (by omega)
    have hctx2 : (Promise._executeHandlers w1 p).ctxs = w1.ctxs := by
      unfold Promise._executeHandlers
      split_ifs <;> rfl
    refine ⟨trivial, by rw [e4, hlen], ?_, ?_, by rw [e5, hobj], by rw [hctx2, hctx],
      fun h => absurd h hs, fun _ => ⟨?_, ?_⟩⟩
    · rw [e3 _ (by omega), hother _ (by omega)]; exact World.get_alloc_new w
    · intro q hq hql
      rw [e3 q hq, hother q hq, World.get_alloc_old w q hql]
    · rw [e1, hg, hmic]
    · rw [e2, hg]

/-- The registration of the reaction of the next index on the promise `q`. -/
theorem Wired.then_ {H : Nat → Fn × Fn} {r : Nat} {qs ds queue : List Nat} {w : World}
    (hw : Wired H r qs ds queue w) (q : Nat)
    (hq : q ∈ qs ∨ (q < w.promises.length ∧ q ∉ ds ∧ q ≠ r ∧ (w.get q)._handlers = [])) :
    (Promise.then_ w q (some (H qs.length).1) (some (H qs.length).2)).2 = w.promises.length ∧
    Wired H r (qs ++ [q]) (ds ++ [w.promises.length])
      (if (w.get q)._state = PromiseState.PENDING then queue else queue ++ [qs.length])
      (Promise.then_ w q (some (H qs.length).1) (some (H qs.length).2)).1 ∧
    (∀ p, p < w.promises.length →
      ((Promise.then_ w q (some (H qs.length).1) (some (H qs.length).2)).1.get p)._state =
        (w.get p)._state ∧
      ((Promise.then_ w q (some (H qs.length).1) (some (H qs.length).2)).1.get p)._value =
        (w.get p)._value) ∧
    (∀ p, p < w.promises.length → p ≠ q →
      (Promise.then_ w q (some (H qs.length).1) (some (H qs.length).2)).1.get p = w.get p) ∧
    (Promise.then_ w q (some (H qs.length).1) (some (H qs.length).2)).1.ctxs = w.ctxs ∧
    (Promise.then_ w q (some (H qs.length).1) (some (H qs.length).2)).1.objects = w.objects ∧
    (Promise.then_ w q (some (H qs.length).1) (some (H qs.length).2)).1.promises.length =
      w.promises.length + 1 := by
  have hql : q < w.promises.length := by
    rcases hq with h | h
    · exact hw.qbound q h
    · exact h.1
  have hqd : q ∉ ds := by
    rcases hq with h | h
    · exact fun hd => hw.dq q hd h
    · exact h.2.1
  have hqr : q ≠ r := by
    rcases hq with h | h
    · exact fun e => hw.rq (e ▸ h)
    · exact h.2.2.1
  have hqh : (w.get q)._handlers =
      if (w.get q)._state = PromiseState.PENDING then
        ((List.range qs.length).filter (fun i => decide (qs.getD i 0 = q))).map (hnd H ds)
      else [] := by
    by_cases hmem : q ∈ qs
    · exact hw.waiting q hmem
    · have hh : (w.get q)._handlers = [] := by
        rcases hq with h | h
        · exact absurd h hmem
        · exact h.2.2.2
      have : (List.range qs.length).filter (fun i => decide (qs.getD i 0 = q)) = [] := by
        rw [List.filter_eq_nil_iff]
        intro i hi
        simp only [decide_eq_true_eq]
        intro e
        exact hmem (e ▸ getD_mem qs 0 (List.mem_range.1 hi))
      rw [hh, this]
      simp
  obtain ⟨t1, t2, t3, t4, t5, t6, t7, t8⟩ := Promise.then_spec w q (some (H qs.length).1)
    (some (H qs.length).2) hql
  generalize Promise.then_ w q (some (H qs.length).1) (some (H qs.length).2) = t
    at t1 t2 t3 t4 t5 t6 t7 t8 ⊢
  have hnew : hnd H (ds ++ [w.promises.length]) qs.length = ⟨some (H qs.length).1,
      some (H qs.length).2, Fn.native (Native.resolveFn w.promises.length),
      Fn.native (Native.rejectFn w.promises.length)⟩ := by
    rw [← hw.len]
    have := hnd_append_len H ds w.promises.length
    rw [this, hw.len]
  have hold : ∀ i, i < qs.length → hnd H (ds ++ [w.promises.length]) i = hnd H ds i :=
    fun i hi => hnd_append H ds _ (by rw [hw.len]; exact hi)
  have hstate : ∀ p, p < w.promises.length →
      (t.1.get p)._state = (w.get p)._state ∧ (t.1.get p)._value = (w.get p)._value := by
    intro p hp
    by_cases e : p = q
    · subst e
      by_cases hs : (w.get p)._state = PromiseState.PENDING
      · rw [(t7 hs).2]; exact ⟨rfl, rfl⟩
      · rw [(t8 hs).2]; exact ⟨rfl, rfl⟩
    · rw [t4 p e hp]; exact ⟨rfl, rfl⟩
  have hmapq : ∀ l : List Nat, (∀ i ∈ l, i < qs.length) →
      l.map (fun i => ((qs ++ [q]).getD i 0, hnd H (ds ++ [w.promises.length]) i)) =
        l.map (fun i => (qs.getD i 0, hnd H ds i)) := by
    intro l hl
    apply List.map_congr_left
    intro i hi
    rw [getD_append_lt _ _ _ (hl i hi), hold i (hl i hi)]
  have hmaph : ∀ l : List Nat, (∀ i ∈ l, i < qs.length) →
      l.map (hnd H (ds ++ [w.promises.length])) = l.map (hnd H ds) := by
    intro l hl
    apply List.map_congr_left
    intro i hi
    exact hold i (hl i hi)
  have hfl : ∀ p, ∀ i ∈ (List.range qs.length).filter (fun i => decide (qs.getD i 0 = p)),
      i < qs.length := fun p i hi => List.mem_range.1 (List.mem_filter.1 hi).1
  refine ⟨t1, ⟨?_, ?_, ?_, ?_, ?_, ?_, ?_, ?_, ?_, ?_, ?_, ?_, ?_, ?_⟩, hstate,
    fun p hp hne => t4 p hne hp, t6, t5, t2⟩
  · simp [hw.len]
  · by_cases hs : (w.get q)._state = PromiseState.PENDING
    · rw [if_pos hs, (t7 hs).1, hw.micro, hmapq queue hw.qlt]
    · rw [if_neg hs, (t8 hs).1, hqh, if_neg hs, hw.micro]
      simp only [List.map_append, List.nil_append, List.map_cons, List.map_nil]
      rw [hmapq queue hw.qlt, getD_append_len, hnew]
  · by_cases hs : (w.get q)._state = PromiseState.PENDING
    · rw [if_pos hs]; exact hw.qnodup
    · rw [if_neg hs]
      refine List.Nodup.append hw.qnodup (List.nodup_singleton _) ?_
      intro i hi1 hi2
      rw [List.mem_singleton] at hi2
      have := hw.qlt i hi1
      omega
  · intro i hi
    rw [List.length_append, List.length_singleton]
    by_cases hs : (w.get q)._state = PromiseState.PENDING
    · rw [if_pos hs] at hi
      have := hw.qlt i hi; omega
    · rw [if_neg hs] at hi
      rcases List.mem_append.1 hi with h | h
      · have := hw.qlt i h; omega
      · rw [List.mem_singleton] at h; omega
  · intro i hi
    have hcase : (i ∈ queue) ∨ (i = qs.length ∧ (w.get q)._state ≠ PromiseState.PENDING) := by
      by_cases hs : (w.get q)._state = PromiseState.PENDING
      · rw [if_pos hs] at hi; exact Or.inl hi
      · rw [if_neg hs] at hi
        rcases List.mem_append.1 hi with h | h
        · exact Or.inl h
        · rw [List.mem_singleton] at h; exact Or.inr ⟨h, hs⟩
    rcases hcase with h | ⟨h, hs⟩
    · rw [getD_append_lt _ _ _ (hw.qlt i h),
        (hstate _ (hw.qbound _ (getD_mem qs 0 (hw.qlt i h)))).1]
      exact hw.qsettled i h
    · rw [h, getD_append_len, (hstate q hql).1]
      exact hs
  · intro p hp
    rw [filter_range_append, List.map_append, hmaph _ (hfl p), (hstate p (by
      rcases List.mem_append.1 hp with h | h
      · exact hw.qbound p h
      · rw [List.mem_singleton] at h; rw [h]; exact hql)).1]
    by_cases e : p = q
    · subst e
      by_cases hs : (w.get p)._state = PromiseState.PENDING
      · rw [(t7 hs).2, if_pos hs, if_pos rfl]
        simp only [List.map_cons, List.map_nil]
        rw [hqh, if_pos hs, hnew]
      · rw [(t8 hs).2, if_neg hs]
    · have hpq : p ∈ qs := by
        rcases List.mem_append.1 hp with h | h
        · exact h
        · rw [List.mem_singleton] at h; exact absurd h e
      have hnil : (if q = p then [qs.length] else []) = ([] : List Nat) :=
        if_neg (fun h => e h.symm)
      rw [t4 p e (hw.qbound p hpq), hnil]
      simp only [List.map_nil, List.append_nil]
      exact hw.waiting p hpq
  · intro p hp
    rw [t2]
    rcases List.mem_append.1 hp with h | h
    · have := hw.qbound p h; omega
    · rw [List.mem_singleton] at h; omega
  · intro d hd
    rw [t2]
    rcases List.mem_append.1 hd with h | h
    · have := hw.dbound d h; omega
    · rw [List.mem_singleton] at h; omega
  · intro d hd
    rcases List.mem_append.1 hd with h | h
    · rw [t4 d (fun e => hqd (e ▸ h)) (hw.dbound d h)]
      exact hw.dhandlers d h
    · rw [List.mem_singleton] at h
      rw [h, t3]
  · intro d hd hdq
    rcases List.mem_append.1 hd with h | h
    · rcases List.mem_append.1 hdq with h' | h'
      · exact hw.dq d h h'
      · rw [List.mem_singleton] at h'; exact hqd (h' ▸ h)
    · rw [List.mem_singleton] at h
      rcases List.mem_append.1 hdq with h' | h'
      · have := hw.qbound d h'; omega
      · rw [List.mem_singleton] at h'; omega
  · rw [t2]; have := hw.rbound; omega
  · rw [t4 r (fun e => hqr e.symm) hw.rbound]; exact hw.rhandlers
  · intro h
    rcases List.mem_append.1 h with h' | h'
    · exact hw.rq h'
    · rw [List.mem_singleton] at h'; exact hqr h'.symm
  · intro h
    rcases List.mem_append.1 h with h' | h'
    · exact hw.rd h'
    · rw [List.mem_singleton] at h'; have := hw.rbound; omega

end JS
end GoJS

namespace GoJS
namespace JS

theorem NonThenable.not_promise {w : World} {v : Value} (h : NonThenable w v) (p : Nat) :
    v ≠ Value.promise p := by
  intro e
  rw [e] at h
  exact h

/-- `Promise.resolve` of a value that is not thenable makes a promise fulfilled with it. -/
theorem Promise.resolve_plain (fuel : Nat) (w : World) (v : Value) (hv : NonThenable w v) :
    Promise.resolve (fuel + 3) w v =
      some (Promise.settle w.alloc.1 w.promises.length PromiseState.FULFILLED v,
        w.promises.length) := by
  have h1 : Promise._resolve (fuel + 2) w.alloc.1 w.promises.length v =
      some (Promise.settle w.alloc.1 w.promises.length PromiseState.FULFILLED v) :=
    Promise._resolve_nonThenable fuel _ _ v (hv.congr rfl) (by simp)
  cases v with
  | promise p => exact absurd hv (by simp [NonThenable])
  | _ => simp only [Promise.resolve, World.alloc_addr, h1]

theorem Wired.resolve_input {H : Nat → Fn × Fn} {r : Nat} {qs ds queue : List Nat} {w : World}
    (hw : Wired H r qs ds queue w) (v : Value) :
    Wired H r qs ds queue (Promise.settle w.alloc.1 w.promises.length PromiseState.FULFILLED v) ∧
    (Promise.settle w.alloc.1 w.promises.length PromiseState.FULFILLED v).promises.length =
      w.promises.length + 1 ∧
    (Promise.settle w.alloc.1 w.promises.length PromiseState.FULFILLED v).get w.promises.length =
      ⟨PromiseState.FULFILLED, v, []⟩ ∧
    (∀ p, p < w.promises.length →
      (Promise.settle w.alloc.1 w.promises.length PromiseState.FULFILLED v).get p = w.get p) ∧
    (Promise.settle w.alloc.1 w.promises.length PromiseState.FULFILLED v).ctxs = w.ctxs ∧
    (Promise.settle w.alloc.1 w.promises.length PromiseState.FULFILLED v).objects = w.objects := by
  obtain ⟨s1, s2, s3, s4, s5⟩ := Promise.settle_spec w.alloc.1 w.promises.length
    PromiseState.FULFILLED v (by decide) (by simp)
  have hc := (Promise.settle_ctxs w.alloc.1 w.promises.length PromiseState.FULFILLED v).1
  generalize Promise.settle w.alloc.1 w.promises.length PromiseState.FULFILLED v = w1
    at s1 s2 s3 s4 s5 hc ⊢
  simp only [World.get_alloc_new, List.map_nil, List.append_nil, World.alloc_microtasks,
    World.alloc_promises_length, World.alloc_objects] at s2 s3 s4
  have hget : ∀ p, p < w.promises.length → w1.get p = w.get p := by
    intro p hp
    rw [s5 p (by omega), World.get_alloc_old w p hp]
  refine ⟨⟨hw.len, by rw [s2]; exact hw.micro, hw.qnodup, hw.qlt, ?_, ?_, ?_, ?_, ?_, hw.dq, ?_, ?_,
    hw.rq, hw.rd⟩, s3, s1, hget, hc, s4⟩
  · intro i hi
    rw [hget _ (hw.qbound _ (getD_mem qs 0 (hw.qlt i hi)))]
    exact hw.qsettled i hi
  · intro p hp
    rw [hget p (hw.qbound p hp)]
    exact hw.waiting p hp
  · intro p hp; rw [s3]; have := hw.qbound p hp; omega
  · intro d hd; rw [s3]; have := hw.dbound d hd; omega
  · intro d hd; rw [hget d (hw.dbound d hd)]; exact hw.dhandlers d hd
  · rw [s3]; have := hw.rbound; omega
  · rw [hget r hw.rbound]; exact hw.rhandlers

/-- The loop `promises.forEach` of a combinator registers one reaction per input. -/
theorem forEach_built (H : Nat → Fn × Fn) (r : Nat) (winit : World) :
    ∀ (rest : List Value) (fuel : Nat) (pre : List Value) (qs ds queue : List Nat) (w : World),
    Built H r winit pre qs ds queue w →
    (∀ v ∈ rest, (∀ p, v = Value.promise p → p < r ∧ (winit.get p)._handlers = []) ∧
      ((∀ p, v ≠ Value.promise p) → NonThenable winit v)) →
    ∃ w' qs' ds' queue',
      forEach (fuel + rest.length + 4) w rest pre.length (fun i => (some (H i).1, some (H i).2)) =
        some w' ∧
      Built H r winit (pre ++ rest) qs' ds' queue' w' := by
  intro rest
  induction rest with
  | nil =>
    intro fuel pre qs ds queue w hb _
    refine ⟨w, qs, ds, queue, ?_, by rw [List.append_nil]; exact hb⟩
    simp [forEach]
  | cons v rest ih =>
    intro fuel pre qs ds queue w hb hin
    have hlenq : qs.length = pre.length := hb.sourced.1
    have hv := hin v (List.mem_cons_self _ _)
    have hrest : ∀ v' ∈ rest, (∀ p, v' = Value.promise p → p < r ∧ (winit.get p)._handlers = []) ∧
        ((∀ p, v' ≠ Value.promise p) → NonThenable winit v') :=
      fun v' hv' => hin v' (List.mem_cons_of_mem _ hv')
    have hfuel : fuel + (v :: rest).length + 4 = (fuel + rest.length + 4) + 1 := by
      simp only [List.length_cons]; omega
    -- the promise on which the reaction is registered, and the world in which it is
    have hres : ∃ w1 q, Promise.resolve (fuel + rest.length + 4) w v = some (w1, q) ∧
        Built H r winit pre qs ds queue w1 ∧
        (q ∈ qs ∨ (q < w1.promises.length ∧ q ∉ ds ∧ q ≠ r ∧ (w1.get q)._handlers = [])) ∧
        (v = Value.promise q ∨ ((∀ p, v ≠ Value.promise p) ∧
          (w1.get q)._state = PromiseState.FULFILLED ∧ (w1.get q)._value = v)) := by
      by_cases hp : ∃ p, v = Value.promise p
      · obtain ⟨p, rfl⟩ := hp
        obtain ⟨hpr, hph⟩ := hv.1 p rfl
        refine ⟨w, p, by simp [Promise.resolve], hb, ?_, Or.inl rfl⟩
        by_cases hm : p ∈ qs
        · exact Or.inl hm
        · refine Or.inr ⟨lt_trans hpr hb.wired.rbound, fun hd => ?_, fun e => ?_, ?_⟩
          · have := hb.dgt p hd; omega
          · omega
          · rw [hb.fresh p hpr hm]; exact hph
      · push_neg at hp
        have hnt : NonThenable w v := (hv.2 hp).congr hb.objects
        obtain ⟨a1, a2, a3, a4, a5, a6⟩ := hb.wired.resolve_input v
        have hrl := hb.wired.rbound
        refine ⟨_, w.promises.length, ?_, ⟨a1, ?_, ?_, ?_, by rw [a6]; exact hb.objects,
          by rw [a5]; exact hb.ctxs, by rw [a4 r hrl]; exact hb.result, ?_, hb.dgt⟩, ?_,
          Or.inr ⟨hp, by rw [a3], by rw [a3]⟩⟩
        · have := Promise.resolve_plain (fuel + rest.length + 1) w v hnt
          exact this
        · refine ⟨hb.sourced.1, fun i hi => ?_⟩
          have hq := hb.wired.qbound _ (getD_mem qs 0 (by rw [hlenq]; exact hi))
          rcases hb.sourced.2 i hi with h | h
          · exact Or.inl h
          · exact Or.inr ⟨h.1, by rw [a4 _ hq]; exact h.2.1, by rw [a4 _ hq]; exact h.2.2⟩
        · intro p hp' hm
          rw [a4 p (by omega)]; exact hb.fresh p hp' hm
        · intro p hp'
          rw [a4 p (by omega)]; exact hb.state p hp'
        · intro i hi hs
          rw [a4 _ (hb.wired.qbound _ (getD_mem qs 0 hi))] at hs
          exact hb.unreacted i hi hs
        · refine Or.inr ⟨by rw [a2]; omega, fun hd => ?_, by omega, by rw [a3]⟩
          have := hb.wired.dbound _ hd; omega
    obtain ⟨w1, q, hr1, hb1, hq, hsrc⟩ := hres
    obtain ⟨t1, t2, t3, t4, t5, t6, t7⟩ := hb1.wired.then_ q hq
    have hql : q < w1.promises.length := by
      rcases hq with h | h
      · exact hb1.wired.qbound q h
      · exact h.1
    have hb2 : Built H r winit (pre ++ [v]) (qs ++ [q]) (ds ++ [w1.promises.length])
        (if (w1.get q)._state = PromiseState.PENDING then queue else queue ++ [qs.length])
        (Promise.then_ w1 q (some (H qs.length).1) (some (H qs.length).2)).1 := by
      have hrl := hb1.wired.rbound
      refine ⟨t2, ⟨by simp [hlenq], ?_⟩, ?_, ?_, by rw [t6]; exact hb1.objects,
        by rw [t5]; exact hb1.ctxs, ?_, ?_, ?_⟩
      · intro i hi
        rw [List.length_append, List.length_singleton] at hi
        by_cases hlt : i < pre.length
        · have hq' := hb1.wired.qbound _ (getD_mem qs 0 (by rw [hlenq]; exact hlt))
          rw [getD_append_lt _ _ _ hlt, getD_append_lt _ _ _ (by rw [hlenq]; exact hlt)]
          rcases hb1.sourced.2 i hlt with h | h
          · exact Or.inl h
          · exact Or.inr ⟨h.1, by rw [(t3 _ hq').1]; exact h.2.1, by rw [(t3 _ hq').2]; exact h.2.2⟩
        · have hi' : i = pre.length := by omega
          rw [hi', getD_append_len, ← hlenq, getD_append_len]
          rcases hsrc with h | h
          · exact Or.inl h
          · exact Or.inr ⟨h.1, by rw [(t3 _ hql).1]; exact h.2.1, by rw [(t3 _ hql).2]; exact h.2.2⟩
      · intro p hp hm
        have hne : p ≠ q := fun e => hm (by rw [e]; simp)
        rw [t4 p (by omega) hne]
        exact hb1.fresh p hp (fun h => hm (List.mem_append_left _ h))
      · intro p hp
        rw [(t3 p (by omega)).1, (t3 p (by omega)).2]
        exact hb1.state p hp
      · have hne : r ≠ q := by
          rcases hq with h | h
          · exact fun e => hb1.wired.rq (e ▸ h)
          · exact fun e => h.2.2.1 e.symm
        rw [t4 r hrl hne]; exact hb1.result
      · intro i hi hs
        rw [List.length_append, List.length_singleton] at hi
        by_cases hlt : i < qs.length
        · rw [getD_append_lt _ _ _ hlt,
            (t3 _ (hb1.wired.qbound _ (getD_mem qs 0 hlt))).1] at hs
          have := hb1.unreacted i hlt hs
          split_ifs
          · exact this
          · exact List.mem_append_left _ this
        · have hi' : i = qs.length := by omega
          rw [hi', getD_append_len, (t3 _ hql).1] at hs
          rw [if_neg hs, hi']
          simp
      · intro d hd
        rcases List.mem_append.1 hd with h | h
        · exact hb1.dgt d h
        · rw [List.mem_singleton] at h; omega
    obtain ⟨w', qs', ds', queue', e', hb'⟩ := ih fuel (pre ++ [v]) _ _ _ _ hb2 hrest
    refine ⟨w', qs', ds', queue', ?_, by rw [List.append_cons]; exact hb'⟩
    rw [hfuel, forEach]
    simp only [hr1]
    rw [List.length_append, List.length_singleton] at e'
    rw [← hlenq] at e' ⊢
    exact e'

end JS
end GoJS

namespace GoJS
namespace JS

theorem filter_length_flip (f g : Nat → Bool) (i : Nat) : ∀ n, i < n → f i = false → g i = true →
    (∀ j, j ≠ i → g j = f j) →
    ((List.range n).filter g).length = ((List.range n).filter f).length + 1 := by
  intro n
  induction n with
  | zero => intro h; omega
  | succ n ih =>
    intro hi hf hg hsame
    rw [List.range_succ, List.filter_append, List.filter_append, List.length_append,
      List.length_append]
    by_cases e : i = n
    · subst e
      have : (List.range i).filter g = (List.range i).filter f :=
        List.filter_congr (fun j hj => hsame j (by have := List.mem_range.1 hj; omega))
      rw [this]
      simp [hf, hg]
    · rw [ih (by omega) hf hg hsame]
      have : g n = f n := hsame n (fun h => e h.symm)
      simp only [List.filter_singleton, this]
      omega

theorem filter_length_lt (f : Nat → Bool) (i n : Nat) (hi : i < n) (hf : f i = false) :
    ((List.range n).filter f).length < n := by
  have h := filter_length_flip f (fun j => if j = i then true else f j) i n hi hf (by simp)
    (fun j hj => by simp [hj])
  have h2 := List.length_filter_le (fun j => if j = i then true else f j) (List.range n)
  rw [List.length_range] at h2
  omega

theorem getD_set_self {α : Type} (l : List α) (i : Nat) (x d : α) (h : i < l.length) :
    (l.set i x).getD i d = x := by
  simp [List.getD_eq_getElem?_getD, List.getElem?_set, h]

theorem getD_set_ne {α : Type} (l : List α) (i j : Nat) (x d : α) (h : i ≠ j) :
    (l.set i x).getD j d = l.getD j d := by
  simp [List.getD_eq_getElem?_getD, List.getElem?_set, h]

/-- The handler `(value) => { results[index] = value; remaining--; ... }` of `Promise.all`. -/
theorem call_allFulfilled (fuel : Nat) (w : World) (ctx i r : Nat) (arg : Value)
    (ht : (w.ctxs.getD ctx default).target = r) (hr : r < w.promises.length)
    (hh : (w.get r)._handlers = []) :
    ∃ w1, call (fuel + 3) w (Fn.native (Native.allFulfilled ctx i)) arg =
        some (w1, .ok Value.undefined) ∧ Frame r w w1 ∧
      w1.ctxs = w.ctxs.set ctx ⟨(w.ctxs.getD ctx default).remaining - 1,
        (w.ctxs.getD ctx default).results.set i arg, r⟩ ∧
      ((w.ctxs.getD ctx default).remaining - 1 = 0 → (w.get r)._state = PromiseState.PENDING →
        w1.get r = ⟨PromiseState.FULFILLED,
          Value.array ((w.ctxs.getD ctx default).results.set i arg), []⟩) ∧
      ((w.ctxs.getD ctx default).remaining - 1 ≠ 0 → w1.get r = w.get r) := by
  subst ht
  rw [call]
  simp only
  by_cases h0 : (w.ctxs.getD ctx default).remaining - 1 = 0
  · rw [if_pos h0]
    obtain ⟨w1, e1, f1, c1, g1⟩ := Promise._resolve_frame fuel
      ({ w with ctxs := w.ctxs.set ctx ⟨(w.ctxs.getD ctx default).remaining - 1,
        (w.ctxs.getD ctx default).results.set i arg, (w.ctxs.getD ctx default).target⟩ } : World)
      (w.ctxs.getD ctx default).target
      (Value.array ((w.ctxs.getD ctx default).results.set i arg)) trivial hr hh
    rw [e1]
    refine ⟨w1, rfl, ⟨f1.micro, f1.len, f1.other, f1.handlers, f1.keep, f1.objects⟩, c1,
      fun _ hp => g1 hp, fun h => absurd h0 h⟩
  · rw [if_neg h0]
    exact ⟨_, rfl, ⟨rfl, rfl, fun _ _ => rfl, hh, fun _ => rfl, rfl⟩, rfl, fun h => absurd h h0,
      fun _ => rfl⟩

/-- The handler `(error) => { reject(error) }` of `Promise.all`. -/
theorem call_allRejected (fuel : Nat) (w : World) (r : Nat) (arg : Value)
    (hr : r < w.promises.length) (hh : (w.get r)._handlers = []) :
    ∃ w1, call (fuel + 3) w (Fn.native (Native.allRejected r)) arg =
        some (w1, .ok Value.undefined) ∧ Frame r w w1 ∧ w1.ctxs = w.ctxs ∧
      ((w.get r)._state = PromiseState.PENDING →
        w1.get r = ⟨PromiseState.REJECTED, arg, []⟩) := by
  obtain ⟨f, c, g⟩ := Promise._reject_frame w r arg hr hh
  exact ⟨_, by rw [call], f, c, g⟩

theorem Sourced.of_records {vs : List Value} {qs : List Nat} {w w1 : World}
    (h : Sourced vs qs w)
    (hkeep : ∀ q, q ∈ qs → (w.get q)._state ≠ PromiseState.PENDING → w1.get q = w.get q) :
    Sourced vs qs w1 := by
  refine ⟨h.1, fun i hi => ?_⟩
  rcases h.2 i hi with h1 | ⟨h1, h2, h3⟩
  · exact Or.inl h1
  · have := hkeep (qs.getD i 0) (getD_mem qs 0 (by rw [h.1]; exact hi)) (by rw [h2]; decide)
    exact Or.inr ⟨h1, by rw [this]; exact h2, by rw [this]; exact h3⟩

/-- The state and the value of the input of index `i` are those of the promise on which
its reaction is registered. -/
theorem Sourced.inputState {vs : List Value} {qs : List Nat} {w : World} (h : Sourced vs qs w)
    (i : Nat) (hi : i < vs.length) :
    inputState w (vs.getD i Value.undefined) =
      ((w.get (qs.getD i 0))._state, (w.get (qs.getD i 0))._value) := by
  rcases h.2 i hi with h1 | ⟨h1, h2, h3⟩
  · rw [h1]; rfl
  · rw [h2, h3]
    cases hv : vs.getD i Value.undefined with
    | promise p => exact absurd hv (h1 p)
    | _ => rfl

/-- An input that is a promise has its reactions registered on itself. -/
theorem Sourced.mem {vs : List Value} {qs : List Nat} {w : World} (h : Sourced vs qs w)
    {p : Nat} (hp : Value.promise p ∈ vs) : p ∈ qs := by
  obtain ⟨i, hi, e⟩ := exists_getD_of_mem Value.undefined hp
  rcases h.2 i hi with h1 | ⟨h1, _⟩
  · rw [e] at h1
    injection h1 with h1
    rw [h1]
    exact getD_mem qs 0 (by rw [h.1]; exact hi)
  · exact absurd e (h1 p)

/-- A step that settles an input keeps the state of `Promise.all`. -/
theorem AllInv.of_settle {vs : List Value} {ctx r : Nat} {qs ds queue queue1 : List Nat}
    {w w1 : World} (h : AllInv vs ctx r qs ds queue w)
    (hw : Wired (allHandlers ctx r) r qs ds queue1 w1)
    (hreact : ∀ j, reacted qs queue1 w1 j ↔ reacted qs queue w j)
    (hkeep : ∀ q, (w.get q)._state ≠ PromiseState.PENDING → w1.get q = w.get q)
    (hctx : w1.ctxs = w.ctxs) (hr : w1.get r = w.get r) :
    AllInv vs ctx r qs ds queue1 w1 ∧ (NoRejection qs queue1 w1 ↔ NoRejection qs queue w) := by
  have hrec : ∀ j, reacted qs queue w j → w1.get (qs.getD j 0) = w.get (qs.getD j 0) :=
    fun j hj => hkeep _ hj.2.2
  have hran : ∀ j, ranFulfilled qs queue1 w1 j = ranFulfilled qs queue w j := by
    intro j
    unfold ranFulfilled
    apply decide_eq_decide.2
    constructor
    · rintro ⟨h1, h2⟩
      have h3 := (hreact j).1 h1
      exact ⟨h3, by rw [← hrec j h3]; exact h2⟩
    · rintro ⟨h1, h2⟩
      exact ⟨(hreact j).2 h1, by rw [hrec j h1]; exact h2⟩
  have hno : NoRejection qs queue1 w1 ↔ NoRejection qs queue w := by
    constructor
    · intro hn j hj
      have := hn j ((hreact j).2 hj)
      rw [hrec j hj] at this
      exact this
    · intro hn j hj
      have h3 := (hreact j).1 hj
      rw [hrec j h3]
      exact hn j h3
  refine ⟨⟨hw, h.sourced.of_records (fun q _ => hkeep q), by rw [hctx]; exact h.ctxlt, by rw [hctx]; exact h.target,
    by rw [hctx]; exact h.rlen, ?_, ?_, ?_, ?_⟩, hno⟩
  · rw [hctx, h.count, List.filter_congr (fun j _ => hran j)]
  · intro i hi hri
    rw [hran i] at hri
    have hre : reacted qs queue w i := (of_decide_eq_true hri).1
    rw [hctx, hrec i hre]
    exact h.filled i hi hri
  · intro hn
    rw [hctx, hr]
    exact h.outcome (hno.1 hn)
  · intro hn
    rw [hr]
    exact h.rejected (fun h' => hn (hno.2 h'))

end JS
end GoJS

namespace GoJS
namespace JS

theorem firstRejected_nil : firstRejected [] = none := rfl

theorem Act.entry_react_cons (w : World) (p : Nat) (h : Handler) (rest : List (Nat × Handler))
    (hm : w.microtasks = (p, h) :: rest) :
    Act.entry w Act.react = [((w.get p)._state, (w.get p)._value)] := by
  simp [Act.entry, hm]

theorem Act.entry_react_nil (w : World) (hm : w.microtasks = []) : Act.entry w Act.react = [] := by
  simp [Act.entry, hm]

/-- One action on a world in which `Promise.all` has been called. -/
theorem AllInv.all_step {vs : List Value} {ctx r : Nat} {qs ds queue : List Nat} {w : World}
    (h : AllInv vs ctx r qs ds queue w) (fuel : Nat) (a : Act) (ha : a.Admissible w vs) :
    ∃ w1 queue1, a.run (fuel + 3) w = some w1 ∧ AllInv vs ctx r qs ds queue1 w1 ∧
      w1.objects = w.objects ∧
      ((w.get r)._state ≠ PromiseState.PENDING → w1.get r = w.get r) ∧
      (NoRejection qs queue w →
        (firstRejected (a.entry w) = none ∧ NoRejection qs queue1 w1) ∨
        (∃ e, firstRejected (a.entry w) = some e ∧
          w1.get r = ⟨PromiseState.REJECTED, e, []⟩)) ∧
      (∀ q, q ∈ qs → (w.get q)._state ≠ PromiseState.PENDING → w1.get q = w.get q) ∧
      (a = Act.react → w1.microtasks.length = w.microtasks.length - 1) := by
  have hn : qs.length = vs.length := h.sourced.1
  cases a with
  | fulfil p v =>
    have hp : p ∈ qs := h.sourced.mem ha.1
    have hpr : r ≠ p := fun e => h.wired.rq (e ▸ hp)
    obtain ⟨w1, e1, hw1, ho, hc, hobj, hgp⟩ := h.wired.fulfil fuel p hp v ha.2
    obtain ⟨k1, _, k3⟩ := @reacted_settle qs queue w w1 p _ ho hgp
    obtain ⟨i1, i2⟩ := h.of_settle hw1 k1 k3 hc (ho r hpr)
    exact ⟨w1, _, e1, i1, hobj, fun _ => ho r hpr, fun hno => Or.inl ⟨rfl, i2.2 hno⟩,
      fun q _ hq => k3 q hq, fun hc => (by cases hc)⟩
  | reject p e =>
    have hp : p ∈ qs := h.sourced.mem ha
    have hpr : r ≠ p := fun e => h.wired.rq (e ▸ hp)
    obtain ⟨w1, e1, hw1, ho, hc, hobj, hgp⟩ := h.wired.reject fuel p hp e
    obtain ⟨k1, _, k3⟩ := @reacted_settle qs queue w w1 p _ ho hgp
    obtain ⟨i1, i2⟩ := h.of_settle hw1 k1 k3 hc (ho r hpr)
    exact ⟨w1, _, e1, i1, hobj, fun _ => ho r hpr, fun hno => Or.inl ⟨rfl, i2.2 hno⟩,
      fun q _ hq => k3 q hq, fun hc => (by cases hc)⟩
  | react =>
    cases queue with
    | nil =>
      have hm : w.microtasks = [] := by rw [h.wired.micro]; rfl
      exact ⟨w, [], Act.react_nil _ w hm, h, rfl, fun _ => rfl,
        fun hno => Or.inl ⟨by rw [Act.entry_react_nil w hm]; rfl, hno⟩, fun _ _ _ => rfl,
        fun _ => by rw [hm]; rfl⟩
    | cons i queue =>
      have hm : w.microtasks = (qs.getD i 0, hnd (allHandlers ctx r) ds i) ::
          queue.map (fun i => (qs.getD i 0, hnd (allHandlers ctx r) ds i)) := by
        rw [h.wired.micro]; rfl
      have hil : i < qs.length := h.wired.qlt i (List.mem_cons_self _ _)
      have hiv : i < vs.length := by rw [← hn]; exact hil
      have hst := h.wired.qsettled i (List.mem_cons_self _ _)
      have hnotin : i ∉ queue := (List.nodup_cons.1 h.wired.qnodup).1
      have hentry := Act.entry_react_cons w _ _ _ hm
      have hf : ranFulfilled qs (i :: queue) w i = false := by
        unfold ranFulfilled reacted
        simp
      have hcntlt := filter_length_lt (ranFulfilled qs (i :: queue) w) i vs.length hiv hf
      have hrem : (w.ctxs.getD ctx default).remaining ≠ 0 := by
        rw [h.count]; omega
      by_cases hs : (w.get (qs.getD i 0))._state = PromiseState.FULFILLED
      · -- the reaction of a fulfilled input
        obtain ⟨w1, hc1, f1, c1, g1, g2⟩ := call_allFulfilled fuel
          { w with microtasks := w.microtasks.tail } ctx i r (w.get (qs.getD i 0))._value
          h.target h.wired.rbound h.wired.rhandlers
        obtain ⟨w2, hrun, hw2, hrec, hctx2, hr2, hobj2, hreact⟩ := h.wired.react fuel w1
          (by rw [if_pos hs]; exact hc1) f1
        have hgetc : w2.ctxs.getD ctx default =
            ⟨(w.ctxs.getD ctx default).remaining - 1,
              (w.ctxs.getD ctx default).results.set i (w.get (qs.getD i 0))._value, r⟩ := by
          rw [hctx2, c1]
          exact getD_set_self _ _ _ _ h.ctxlt
        have hrecj : ∀ j, j < qs.length → w2.get (qs.getD j 0) = w.get (qs.getD j 0) :=
          fun j hj => hrec _ (getD_mem qs 0 hj)
        have hg : ranFulfilled qs queue w2 i = true := by
          unfold ranFulfilled
          rw [hrecj i hil]
          exact decide_eq_true ⟨(hreact i).2 (Or.inr rfl), hs⟩
        have hsame : ∀ j, j ≠ i → ranFulfilled qs queue w2 j = ranFulfilled qs (i :: queue) w j := by
          intro j hj
          unfold ranFulfilled
          apply decide_eq_decide.2
          constructor
          · rintro ⟨h1, h2⟩
            rcases (hreact j).1 h1 with h3 | h3
            · exact ⟨h3, by rw [← hrecj j h3.1]; exact h2⟩
            · exact absurd h3 hj
          · rintro ⟨h1, h2⟩
            exact ⟨(hreact j).2 (Or.inl h1), by rw [hrecj j h1.1]; exact h2⟩
        have hcnt := filter_length_flip (ranFulfilled qs (i :: queue) w)
          (ranFulfilled qs queue w2) i vs.length hiv hf hg hsame
        have hno1 : NoRejection qs queue w2 → NoRejection qs (i :: queue) w := by
          intro hno j hj
          have := hno j ((hreact j).2 (Or.inl hj))
          rw [hrecj j hj.1] at this
          exact this
        have hno2 : NoRejection qs (i :: queue) w → NoRejection qs queue w2 := by
          intro hno j hj
          rw [hrecj j hj.1]
          rcases (hreact j).1 hj with h3 | h3
          · exact hno j h3
          · rw [h3]; exact hs
        have hkeep : (w.get r)._state ≠ PromiseState.PENDING → w2.get r = w.get r := by
          intro hp
          rw [hr2]
          exact f1.keep hp
        have hpend : NoRejection qs (i :: queue) w → (w.get r)._state = PromiseState.PENDING :=
          fun hno => (h.outcome hno).1 hrem
        refine ⟨w2, queue, hrun, ⟨hw2, h.sourced.of_records (fun q hq _ => hrec q hq), ?_, ?_, ?_,
          ?_, ?_, ?_, ?_⟩, hobj2, hkeep, fun hno => Or.inl ⟨?_, hno2 hno⟩,
          fun q hq _ => hrec q hq, fun _ => by rw [hw2.micro, hm]; simp⟩
        · rw [hctx2, c1, List.length_set]; exact h.ctxlt
        · rw [hgetc]
        · rw [hgetc]
          simp only [List.length_set]
          exact h.rlen
        · rw [hgetc]
          simp only
          rw [h.count, hcnt]
          push_cast
          ring
        · intro j hj hrj
          rw [hgetc]
          simp only
          by_cases e : j = i
          · subst e
            rw [getD_set_self _ _ _ _ (by rw [h.rlen]; exact hiv), hrecj j hil]
          · rw [getD_set_ne _ _ _ _ _ (Ne.symm e), hrecj j (by rw [hn]; exact hj)]
            exact h.filled j hj (by rw [← hsame j e]; exact hrj)
        · intro hno'
          have hp := hpend (hno1 hno')
          rw [hgetc]
          simp only
          constructor
          · intro hne
            rw [hr2, g2 hne]
            exact hp
          · intro h0
            rw [hr2, g1 h0 hp]
            exact ⟨rfl, rfl⟩
        · intro hno'
          have hnot : ¬ NoRejection qs (i :: queue) w := fun h' => hno' (hno2 h')
          have hrej := h.rejected hnot
          rw [hkeep (by rw [hrej]; decide)]
          exact hrej
        · rw [hentry, hs]
          rfl
      · -- the reaction of a rejected input
        have hsR : (w.get (qs.getD i 0))._state = PromiseState.REJECTED := by
          cases hc : (w.get (qs.getD i 0))._state with
          | PENDING => exact absurd hc hst
          | FULFILLED => exact absurd hc hs
          | REJECTED => rfl
        obtain ⟨w1, hc1, f1, c1, g1⟩ := call_allRejected fuel
          { w with microtasks := w.microtasks.tail } r (w.get (qs.getD i 0))._value
          h.wired.rbound h.wired.rhandlers
        obtain ⟨w2, hrun, hw2, hrec, hctx2, hr2, hobj2, hreact⟩ := h.wired.react fuel w1
          (by rw [if_neg hs]; exact hc1) f1
        have hctx : w2.ctxs = w.ctxs := by rw [hctx2, c1]
        have hrecj : ∀ j, j < qs.length → w2.get (qs.getD j 0) = w.get (qs.getD j 0) :=
          fun j hj => hrec _ (getD_mem qs 0 hj)
        have hsame : ∀ j, ranFulfilled qs queue w2 j = ranFulfilled qs (i :: queue) w j := by
          intro j
          by_cases hj : j = i
          · subst hj
            rw [hf]
            unfold ranFulfilled
            rw [hrecj j hil, hsR]
            simp
          · unfold ranFulfilled
            apply decide_eq_decide.2
            constructor
            · rintro ⟨h1, h2⟩
              rcases (hreact j).1 h1 with h3 | h3
              · exact ⟨h3, by rw [← hrecj j h3.1]; exact h2⟩
              · exact absurd h3 hj
            · rintro ⟨h1, h2⟩
              exact ⟨(hreact j).2 (Or.inl h1), by rw [hrecj j h1.1]; exact h2⟩
        have hnot' : ¬ NoRejection qs queue w2 := by
          intro hno
          have := hno i ((hreact i).2 (Or.inr rfl))
          rw [hrecj i hil, hsR] at this
          cases this
        have hkeep : (w.get r)._state ≠ PromiseState.PENDING → w2.get r = w.get r := by
          intro hp
          rw [hr2]
          exact f1.keep hp
        have hpend : NoRejection qs (i :: queue) w → (w.get r)._state = PromiseState.PENDING :=
          fun hno => (h.outcome hno).1 hrem
        refine ⟨w2, queue, hrun, ⟨hw2, h.sourced.of_records (fun q hq _ => hrec q hq), ?_, ?_, ?_,
          ?_, ?_, ?_, ?_⟩, hobj2, hkeep, fun hno => Or.inr ⟨(w.get (qs.getD i 0))._value, ?_, ?_⟩,
          fun q hq _ => hrec q hq, fun _ => by rw [hw2.micro, hm]; simp⟩
        · rw [hctx]; exact h.ctxlt
        · rw [hctx]; exact h.target
        · rw [hctx]; exact h.rlen
        · rw [hctx, h.count, List.filter_congr (fun j _ => hsame j)]
        · intro j hj hrj
          rw [hctx, hrecj j (by rw [hn]; exact hj)]
          exact h.filled j hj (by rw [← hsame j]; exact hrj)
        · intro hno'
          exact absurd hno' hnot'
        · intro _
          by_cases hno : NoRejection qs (i :: queue) w
          · rw [hr2, g1 (hpend hno)]
          · have hrej := h.rejected hno
            rw [hkeep (by rw [hrej]; decide)]
            exact hrej
        · rw [hentry, hsR]
          rfl
        · rw [hr2, g1 (hpend hno)]

end JS
end GoJS

namespace GoJS
namespace JS

theorem firstRejected_append (l1 l2 : List (PromiseState × Value)) :
    firstRejected (l1 ++ l2) =
      match firstRejected l1 with
      | some e => some e
      | none => firstRejected l2 := by
  unfold firstRejected
  rw [List.find?_append]
  cases List.find? (fun e => decide (e.1 = PromiseState.REJECTED)) l1 <;> rfl

theorem Act.Admissible.of_objects {w w0 : World} {vs : List Value} {a : Act}
    (h : a.Admissible w0 vs) (ho : w.objects = w0.objects) : a.Admissible w vs := by
  cases a with
  | fulfil p v => exact ⟨h.1, h.2.congr ho⟩
  | reject p e => exact h
  | react => trivial

theorem runActs_cons (fuel : Nat) (w w1 : World) (a : Act) (rest : List Act)
    (h : a.run fuel w = some w1) :
    runActs fuel w (a :: rest) = (runActs fuel w1 rest).map (fun r => (r.1, a.entry w ++ r.2)) := by
  rw [runActs]
  simp only [h]

/-- Any sequence of actions on a world in which `Promise.all` has been called. -/
theorem AllInv.runs {vs : List Value} {ctx r : Nat} {qs ds : List Nat} (fuel : Nat) (w0 : World) :
    ∀ (acts : List Act) (queue : List Nat) (w : World),
    AllInv vs ctx r qs ds queue w → w.objects = w0.objects → (∀ a ∈ acts, a.Admissible w0 vs) →
    ∃ w' log queue', runActs (fuel + 3) w acts = some (w', log) ∧
      AllInv vs ctx r qs ds queue' w' ∧ w'.objects = w0.objects ∧
      ((w.get r)._state ≠ PromiseState.PENDING → w'.get r = w.get r) ∧
      (NoRejection qs queue w →
        (firstRejected log = none → NoRejection qs queue' w') ∧
        (∀ e, firstRejected log = some e → w'.get r = ⟨PromiseState.REJECTED, e, []⟩)) ∧
      (∀ q, q ∈ qs → (w.get q)._state ≠ PromiseState.PENDING → w'.get q = w.get q) := by
  intro acts
  induction acts with
  | nil =>
    intro queue w h ho _
    exact ⟨w, [], queue, rfl, h, ho, fun _ => rfl,
      fun hno => ⟨fun _ => hno, fun e he => by cases he⟩, fun _ _ _ => rfl⟩
  | cons a rest ih =>
    intro queue w h ho hadm
    obtain ⟨w1, queue1, e1, h1, o1, k1, c1, r1, _⟩ := h.all_step fuel a
      ((hadm a (List.mem_cons_self _ _)).of_objects ho)
    obtain ⟨w', log, queue', e2, h2, o2, k2, c2, r2⟩ := ih queue1 w1 h1 (by rw [o1, ho])
      (fun a' ha' => hadm a' (List.mem_cons_of_mem _ ha'))
    refine ⟨w', a.entry w ++ log, queue', ?_, h2, o2, ?_, ?_, ?_⟩
    · rw [runActs_cons _ _ _ _ _ e1, e2]
      rfl
    · intro hp
      rw [k2 (by rw [k1 hp]; exact hp), k1 hp]
    · intro hno
      rw [firstRejected_append]
      rcases c1 hno with ⟨hnone, hno1⟩ | ⟨e, hsome, hrej⟩
      · rw [hnone]
        exact c2 hno1
      · rw [hsome]
        refine ⟨fun hc => (by cases hc), fun e' he' => ?_⟩
        injection he' with he'
        have hnp : (w1.get r)._state ≠ PromiseState.PENDING := by
          rw [hrej]
          exact fun hc => (by cases hc)
        rw [k2 hnp, hrej, he']
    · intro q hq hs
      rw [r2 q hq (by rw [r1 q hq hs]; exact hs), r1 q hq hs]

/-- The microtasks of a world in which `Promise.all` has been called can be run until
none is left; the inputs that have settled are not touched. -/
theorem AllInv.drain {vs : List Value} {ctx r : Nat} {qs ds : List Nat} (fuel : Nat) :
    ∀ (n : Nat) (queue : List Nat) (w : World),
    AllInv vs ctx r qs ds queue w → w.microtasks.length = n →
    ∃ w' log queue', runActs (fuel + 3) w (List.replicate n Act.react) = some (w', log) ∧
      AllInv vs ctx r qs ds queue' w' ∧ w'.microtasks = [] ∧
      (∀ q, q ∈ qs → (w.get q)._state ≠ PromiseState.PENDING → w'.get q = w.get q) := by
  intro n
  induction n with
  | zero =>
    intro queue w h hn
    exact ⟨w, [], queue, rfl, h, List.eq_nil_of_length_eq_zero hn, fun _ _ _ => rfl⟩
  | succ n ih =>
    intro queue w h hn
    obtain ⟨w1, queue1, e1, h1, _, _, _, r1, m1⟩ := h.all_step fuel Act.react trivial
    obtain ⟨w', log, queue', e2, h2, m2, r2⟩ := ih queue1 w1 h1 (by rw [m1 rfl, hn]; rfl)
    refine ⟨w', Act.react.entry w ++ log, queue', ?_, h2, m2, ?_⟩
    · rw [List.replicate_succ, runActs_cons _ _ _ _ _ e1, e2]
      rfl
    · intro q hq hs
      rw [r2 q hq (by rw [r1 q hq hs]; exact hs), r1 q hq hs]

theorem InputOK.promise {w : World} {p : Nat} (h : InputOK w (Value.promise p)) :
    p < w.promises.length ∧ (w.get p)._handlers = [] := h

theorem InputOK.nonThenable {w : World} {v : Value} (h : InputOK w v)
    (hv : ∀ p, v ≠ Value.promise p) : NonThenable w v := by
  cases v with
  | promise p => exact absurd rfl (hv p)
  | _ => exact h

/-- The inputs of a combinator, seen from the world in which its loop starts: `w1` is `w`
with the result promise allocated and possibly a variable added. -/
theorem inputs_ok {w w1 : World} {vs : List Value} (hin : ∀ v ∈ vs, InputOK w v)
    (hget : ∀ p, p < w.promises.length → w1.get p = w.get p) (ho : w1.objects = w.objects) :
    ∀ v ∈ vs, (∀ p, v = Value.promise p → p < w.promises.length ∧ (w1.get p)._handlers = []) ∧
      ((∀ p, v ≠ Value.promise p) → NonThenable w1 v) := by
  intro v hv
  refine ⟨fun p hp => ?_, fun hnp => ((hin v hv).nonThenable hnp).congr ho⟩
  subst hp
  have := (hin _ hv).promise
  exact ⟨this.1, by rw [hget p this.1]; exact this.2⟩

/-- The start of the loop of a combinator: nothing is registered. -/
theorem Built.start (H : Nat → Fn × Fn) (r : Nat) (w1 : World) (hm : w1.microtasks = [])
    (hr : r < w1.promises.length) (hh : (w1.get r)._handlers = []) :
    Built H r w1 [] [] [] [] w1 := by
  refine ⟨⟨rfl, by rw [hm]; rfl, List.nodup_nil, ?_, ?_, ?_, ?_, ?_, ?_, ?_, hr, hh, ?_, ?_⟩,
    ⟨rfl, ?_⟩, fun _ _ _ => rfl, fun _ _ => ⟨rfl, rfl⟩, rfl, rfl, rfl, ?_, ?_⟩
  all_goals first
    | (intro i hi; simp at hi)
    | simp

/-- When the loop of a combinator is over, no reaction has run. -/
theorem Built.not_reacted {H : Nat → Fn × Fn} {r : Nat} {winit : World} {pre : List Value}
    {qs ds queue : List Nat} {w : World} (h : Built H r winit pre qs ds queue w) (i : Nat) :
    ¬ reacted qs queue w i :=
  fun ⟨h1, h2, h3⟩ => h2 (h.unreacted i h1 h3)

theorem getD_append_ctx (l : List Ctx) (c : Ctx) : (l ++ [c]).getD l.length default = c :=
  getD_append_len l c default

/-- What `Promise.all` does on a non-empty array of inputs: the result promise is
allocated, pending, and one reaction per input is registered. -/
theorem Promise.all_spec (fuel : Nat) (w : World) (vs : List Value) (hne : vs ≠ [])
    (hin : ∀ v ∈ vs, InputOK w v) (hm : w.microtasks = []) :
    ∃ w0 qs ds queue,
      Promise.all (fuel + vs.length + 5) w (Value.array vs) = some (w0, w.promises.length) ∧
      AllInv vs w.ctxs.length w.promises.length qs ds queue w0 ∧ w0.objects = w.objects ∧
      (∀ i, ¬ reacted qs queue w0 i) ∧
      (w0.get w.promises.length)._state = PromiseState.PENDING := by
  have hlen : vs.length ≠ 0 := fun h => hne (List.eq_nil_of_length_eq_zero h)
  have hget : ∀ p, p < w.promises.length →
      ({ w.alloc.1 with ctxs := w.alloc.1.ctxs ++
        [⟨vs.length, List.replicate vs.length Value.undefined, w.alloc.2⟩] } : World).get p =
        w.get p := fun p hp => World.get_alloc_old w p hp
  have hstart := Built.start (allHandlers w.ctxs.length w.promises.length) w.promises.length
    ({ w.alloc.1 with ctxs := w.alloc.1.ctxs ++
      [⟨vs.length, List.replicate vs.length Value.undefined, w.alloc.2⟩] } : World) hm
    (by show w.promises.length < w.alloc.1.promises.length; simp)
    (by show (w.alloc.1.get w.promises.length)._handlers = []; rw [World.get_alloc_new])
  obtain ⟨w0, qs, ds, queue, e0, hb⟩ := forEach_built
    (allHandlers w.ctxs.length w.promises.length) w.promises.length _ vs fuel [] [] [] [] _ hstart
    (inputs_ok hin hget rfl)
  rw [List.nil_append] at hb
  have hctx : w0.ctxs.getD w.ctxs.length default =
      ⟨vs.length, List.replicate vs.length Value.undefined, w.promises.length⟩ := by
    rw [hb.ctxs]
    exact getD_append_ctx _ _
  have hnr : ∀ i, ¬ reacted qs queue w0 i := hb.not_reacted
  have hran : ∀ i, ranFulfilled qs queue w0 i = false := by
    intro i
    unfold ranFulfilled
    exact decide_eq_false (fun h => hnr i h.1)
  have hr0 : (w0.get w.promises.length)._state = PromiseState.PENDING := by
    rw [hb.result]
    show (w.alloc.1.get w.promises.length)._state = _
    rw [World.get_alloc_new]
  refine ⟨w0, qs, ds, queue, ?_, ⟨hb.wired, hb.sourced, ?_, ?_, ?_, ?_, ?_, ?_, ?_⟩, hb.objects, hnr,
    hr0⟩
  · have hf : fuel + vs.length + 5 = (fuel + vs.length + 4) + 1 := rfl
    rw [hf, Promise.all]
    simp only [hlen, if_false]
    have e0' : forEach (fuel + vs.length + 4)
        ({ w.alloc.1 with ctxs := w.alloc.1.ctxs ++
          [⟨vs.length, List.replicate vs.length Value.undefined, w.alloc.2⟩] } : World) vs 0
        (fun index => (some (Fn.native (Native.allFulfilled w.alloc.1.ctxs.length index)),
          some (Fn.native (Native.allRejected w.alloc.2)))) = some w0 := e0
    rw [e0']
    rfl
  · rw [hb.ctxs]
    show w.ctxs.length < (w.ctxs ++ [_]).length
    simp
  · rw [hctx]
  · rw [hctx]; simp
  · rw [hctx]
    have : (List.range vs.length).filter (ranFulfilled qs queue w0) = [] :=
      List.filter_eq_nil_iff.2 (fun i _ => by rw [hran i]; simp)
    rw [this]
    simp
  · intro i _ hi
    rw [hran i] at hi
    cases hi
  · intro _
    rw [hctx]
    refine ⟨fun _ => hr0, fun h0 => ?_⟩
    simp only at h0
    exact absurd (by exact_mod_cast h0) hlen
  · intro hno
    exact absurd (fun i hi => absurd hi (hnr i)) hno

end JS
end GoJS

namespace GoJS
namespace JS

theorem eq_map_of_getD (l vs : List Value) (f : Value → Value) (hl : l.length = vs.length)
    (h : ∀ i, i < vs.length → l.getD i Value.undefined = f (vs.getD i Value.undefined)) :
    l = vs.map f := by
  apply List.ext_getElem (by rw [hl, List.length_map])
  intro i h1 h2
  have hi : i < vs.length := by rw [← hl]; exact h1
  have := h i hi
  rw [List.getD_eq_getElem _ _ h1, List.getD_eq_getElem _ _ hi] at this
  rw [this, List.getElem_map]

/-- An input that has settled keeps its state and value as long as the promises on which
the reactions are registered keep theirs. -/
theorem inputState_kept {w w1 : World} {vs : List Value} {qs : List Nat} (hs : Sourced vs qs w)
    (hkeep : ∀ q, q ∈ qs → (w.get q)._state ≠ PromiseState.PENDING → w1.get q = w.get q)
    (v : Value) (hv : v ∈ vs) (hset : (inputState w v).1 ≠ PromiseState.PENDING) :
    inputState w1 v = inputState w v := by
  cases v with
  | promise p =>
    have := hkeep p (hs.mem hv) hset
    show ((w1.get p)._state, (w1.get p)._value) = _
    rw [this]
    rfl
  | _ => rfl

theorem AllInv.queue_nil {vs : List Value} {ctx r : Nat} {qs ds queue : List Nat} {w : World}
    (h : AllInv vs ctx r qs ds queue w) (hm : w.microtasks = []) : queue = [] := by
  have := h.wired.micro
  rw [hm] at this
  exact List.map_eq_nil_iff.1 this.symm

/-- Once every fulfilment has been seen, every reaction has run on a fulfilled promise. -/
theorem AllInv.all_ran {vs : List Value} {ctx r : Nat} {qs ds queue : List Nat} {w : World}
    (h : AllInv vs ctx r qs ds queue w) (h0 : (w.ctxs.getD ctx default).remaining = 0) :
    ∀ i, i < vs.length → ranFulfilled qs queue w i = true := by
  have hc := h.count
  rw [h0] at hc
  have hlen : ((List.range vs.length).filter (ranFulfilled qs queue w)).length =
      (List.range vs.length).length := by
    rw [List.length_range]
    omega
  intro i hi
  exact (List.filter_length_eq_length.1 hlen) i (List.mem_range.2 hi)

/-- The result of `Promise.all` is fulfilled only when every input is, and then with the
array of their values in the order of the inputs. -/
theorem AllInv.when_fulfilled {vs : List Value} {ctx r : Nat} {qs ds queue : List Nat}
    {w : World} (h : AllInv vs ctx r qs ds queue w)
    (hf : (w.get r)._state = PromiseState.FULFILLED) :
    (∀ v ∈ vs, (inputState w v).1 = PromiseState.FULFILLED) ∧
    (w.get r)._value = Value.array (vs.map (fun v => (inputState w v).2)) := by
  by_cases hno : NoRejection qs queue w
  · obtain ⟨o1, o2⟩ := h.outcome hno
    by_cases h0 : (w.ctxs.getD ctx default).remaining = 0
    · have hran := h.all_ran h0
      have hst : ∀ i, i < vs.length →
          (w.get (qs.getD i 0))._state = PromiseState.FULFILLED := by
        intro i hi
        have := hran i hi
        unfold ranFulfilled at this
        exact (of_decide_eq_true this).2
      refine ⟨fun v hv => ?_, ?_⟩
      · obtain ⟨i, hi, e⟩ := exists_getD_of_mem Value.undefined hv
        rw [← e, h.sourced.inputState i hi]
        exact hst i hi
      · rw [(o2 h0).2]
        congr 1
        refine eq_map_of_getD _ _ _ h.rlen (fun i hi => ?_)
        rw [h.filled i hi (hran i hi), h.sourced.inputState i hi]
    · rw [o1 h0] at hf
      cases hf
  · rw [h.rejected hno] at hf
    cases hf

/-- The result of `Promise.all` is rejected only when an input is. -/
theorem AllInv.when_rejected {vs : List Value} {ctx r : Nat} {qs ds queue : List Nat}
    {w : World} (h : AllInv vs ctx r qs ds queue w)
    (hr : (w.get r)._state = PromiseState.REJECTED) :
    ∃ v ∈ vs, (inputState w v).1 = PromiseState.REJECTED := by
  have hno : ¬ NoRejection qs queue w := by
    intro hno
    obtain ⟨o1, o2⟩ := h.outcome hno
    by_cases h0 : (w.ctxs.getD ctx default).remaining = 0
    · rw [(o2 h0).1] at hr
      cases hr
    · rw [o1 h0] at hr
      cases hr
  unfold NoRejection at hno
  push_neg at hno
  obtain ⟨i, hre, hnf⟩ := hno
  have hi : i < vs.length := by rw [← h.sourced.1]; exact hre.1
  refine ⟨vs.getD i Value.undefined, getD_mem vs Value.undefined hi, ?_⟩
  rw [h.sourced.inputState i hi]
  show (w.get (qs.getD i 0))._state = PromiseState.REJECTED
  have hp := hre.2.2
  cases hs : (w.get (qs.getD i 0))._state with
  | PENDING => exact absurd hs hp
  | FULFILLED => exact absurd hs hnf
  | REJECTED => rfl

/-- With no microtask left, the reaction of every settled input has run. -/
theorem AllInv.reacted_of_drained {vs : List Value} {ctx r : Nat} {qs ds queue : List Nat}
    {w : World} (h : AllInv vs ctx r qs ds queue w) (hm : w.microtasks = []) (i : Nat)
    (hi : i < vs.length) (hs : (inputState w (vs.getD i Value.undefined)).1 ≠
      PromiseState.PENDING) : reacted qs queue w i := by
  refine ⟨by rw [h.sourced.1]; exact hi, by rw [h.queue_nil hm]; simp, ?_⟩
  rw [h.sourced.inputState i hi] at hs
  exact hs

/-- When every input is fulfilled and no microtask is left, the result is fulfilled. -/
theorem AllInv.fulfilled_of_drained {vs : List Value} {ctx r : Nat} {qs ds queue : List Nat}
    {w : World} (h : AllInv vs ctx r qs ds queue w)
    (hall : ∀ v ∈ vs, (inputState w v).1 = PromiseState.FULFILLED) (hm : w.microtasks = []) :
    (w.get r)._state = PromiseState.FULFILLED := by
  have hst : ∀ i, i < vs.length → (w.get (qs.getD i 0))._state = PromiseState.FULFILLED := by
    intro i hi
    have := hall _ (getD_mem vs Value.undefined hi)
    rw [h.sourced.inputState i hi] at this
    exact this
  have hno : NoRejection qs queue w := by
    intro i hre
    exact hst i (by rw [← h.sourced.1]; exact hre.1)
  have hran : ∀ i ∈ List.range vs.length, ranFulfilled qs queue w i = true := by
    intro i hi
    have hi := List.mem_range.1 hi
    unfold ranFulfilled
    refine decide_eq_true ⟨h.reacted_of_drained hm i hi ?_, hst i hi⟩
    rw [hall _ (getD_mem vs Value.undefined hi)]
    decide
  have hlen := List.filter_length_eq_length.2 hran
  have hc := h.count
  rw [hlen, List.length_range] at hc
  exact ((h.outcome hno).2 (by rw [hc]; omega)).1

/-- When no reaction has run on a rejected promise and no microtask is left, no input is
rejected. -/
theorem AllInv.none_rejected_of_drained {vs : List Value} {ctx r : Nat} {qs ds queue : List Nat}
    {w : World} (h : AllInv vs ctx r qs ds queue w) (hno : NoRejection qs queue w)
    (hm : w.microtasks = []) : ∀ v ∈ vs, (inputState w v).1 ≠ PromiseState.REJECTED := by
  intro v hv hr
  obtain ⟨i, hi, e⟩ := exists_getD_of_mem Value.undefined hv
  have hre := h.reacted_of_drained hm i hi (by rw [e, hr]; decide)
  have := hno i hre
  rw [← e, h.sourced.inputState i hi] at hr
  rw [this] at hr
  cases hr

end JS
end GoJS

namespace GoJS
namespace JS

/-- C13: `Promise.all` on a non-empty array of inputs (promises on which nothing is
registered yet, or values that are not thenable) returns a pending promise `r`.  After any
sequence of settlements of the inputs and of microtask runs: if `r` is fulfilled then every
input is fulfilled and the value of `r` is the array of the values of the inputs, in the
order of the inputs; if `r` is rejected then some input is rejected; and once every input
is fulfilled, running the microtasks that are left fulfils `r` with that array. -/
theorem all_fulfils_in_input_order (fuel : Nat) (w : World) (vs : List Value) (hne : vs ≠ [])
    (hin : ∀ v ∈ vs, InputOK w v) (hm : w.microtasks = []) :
    ∃ w0, Promise.all (fuel + vs.length + 5) w (Value.array vs) = some (w0, w.promises.length) ∧
      (w0.get w.promises.length)._state = PromiseState.PENDING ∧
      ∀ acts : List Act, (∀ a ∈ acts, a.Admissible w vs) →
        ∃ w1 log, runActs (fuel + 3) w0 acts = some (w1, log) ∧
          ((w1.get w.promises.length)._state = PromiseState.FULFILLED →
            (∀ v ∈ vs, (inputState w1 v).1 = PromiseState.FULFILLED) ∧
            (w1.get w.promises.length)._value =
              Value.array (vs.map (fun v => (inputState w1 v).2))) ∧
          ((w1.get w.promises.length)._state = PromiseState.REJECTED →
            ∃ v ∈ vs, (inputState w1 v).1 = PromiseState.REJECTED) ∧
          ((∀ v ∈ vs, (inputState w1 v).1 = PromiseState.FULFILLED) →
            ∃ w2 log2,
              runActs (fuel + 3) w1 (List.replicate w1.microtasks.length Act.react) =
                some (w2, log2) ∧
              w2.microtasks = [] ∧
              (w2.get w.promises.length)._state = PromiseState.FULFILLED ∧
              (w2.get w.promises.length)._value =
                Value.array (vs.map (fun v => (inputState w1 v).2))) := by
  obtain ⟨w0, qs, ds, queue, e0, h0, ho, _, hp⟩ := Promise.all_spec fuel w vs hne hin hm
  refine ⟨w0, e0, hp, fun acts hadm => ?_⟩
  obtain ⟨w1, log, queue1, e1, h1, _, _, _, _⟩ := h0.runs fuel w acts queue w0 ho hadm
  refine ⟨w1, log, e1, h1.when_fulfilled, h1.when_rejected, fun hall => ?_⟩
  obtain ⟨w2, log2, queue2, e2, h2, m2, k2⟩ := h1.drain fuel _ queue1 w1 rfl
  have hsame : ∀ v ∈ vs, inputState w2 v = inputState w1 v := fun v hv =>
    inputState_kept h1.sourced k2 v hv (by rw [hall v hv]; decide)
  have hall2 : ∀ v ∈ vs, (inputState w2 v).1 = PromiseState.FULFILLED := fun v hv => by
    rw [hsame v hv]; exact hall v hv
  have hf := h2.fulfilled_of_drained hall2 m2
  refine ⟨w2, log2, e2, m2, hf, ?_⟩
  rw [(h2.when_fulfilled hf).2]
  congr 1
  exact List.map_congr_left (fun v hv => by rw [hsame v hv])

/-- C13, witness: `Promise.all([p0, p1])` on two pending promises, of which `p1` is
fulfilled with 2 before `p0` is fulfilled with 1, is fulfilled with `[1, 2]`. -/
theorem all_fulfils_in_input_order_witness :
    [Value.promise 0, Value.promise 1] ≠ [] ∧
    (∀ v ∈ [Value.promise 0, Value.promise 1], InputOK twoPending v) ∧
    twoPending.microtasks = [] ∧
    (∃ w0, Promise.all (0 + 2 + 5) twoPending (Value.array [Value.promise 0, Value.promise 1]) =
        some (w0, 2) ∧
      (w0.get 2)._state = PromiseState.PENDING ∧
      ∃ w1 log, runActs (0 + 3) w0 [Act.fulfil 1 (Value.num 2), Act.fulfil 0 (Value.num 1),
          Act.react, Act.react] = some (w1, log) ∧
        (w1.get 2)._state = PromiseState.FULFILLED ∧
        (w1.get 2)._value = Value.array [Value.num 1, Value.num 2]) := by
  have hin : ∀ v ∈ [Value.promise 0, Value.promise 1], InputOK twoPending v := by
    intro v hv
    simp only [List.mem_cons, List.mem_singleton, List.not_mem_nil, or_false] at hv
    rcases hv with rfl | rfl
    · exact ⟨by decide, rfl⟩
    · exact ⟨by decide, rfl⟩
  refine ⟨by simp, hin, rfl, ?_⟩
  obtain ⟨w0, e0, hp, hacts⟩ := all_fulfils_in_input_order 0 twoPending
    [Value.promise 0, Value.promise 1] (by simp) hin rfl
  refine ⟨w0, e0, hp, ?_⟩
  have e0' : w0 = ((Promise.all (0 + 2 + 5) twoPending
      (Value.array [Value.promise 0, Value.promise 1])).map (fun r => r.1)).getD twoPending := by
    rw [show ([Value.promise 0, Value.promise 1] : List Value).length = 2 from rfl] at e0
    rw [e0]
    rfl
  subst e0'
  exact ⟨_, _, rfl, rfl, rfl⟩

/-- C14: after `Promise.all` on a non-empty array of inputs, and any sequence of
settlements of the inputs and of microtask runs with the record `log` of the reactions that
ran: if a reaction has run on a rejected input, the result promise is rejected with the
reason of the first such reaction; if none has, the result is not rejected; whatever
happens afterwards, a result that has settled stays as it is; and when an input is
rejected, running the microtasks that are left rejects the result with the reason of the
first rejection reaction of the whole run. -/
theorem all_rejects_with_first_rejection (fuel : Nat) (w : World) (vs : List Value)
    (hne : vs ≠ []) (hin : ∀ v ∈ vs, InputOK w v) (hm : w.microtasks = []) :
    ∃ w0, Promise.all (fuel + vs.length + 5) w (Value.array vs) = some (w0, w.promises.length) ∧
      ∀ acts : List Act, (∀ a ∈ acts, a.Admissible w vs) →
        ∃ w1 log, runActs (fuel + 3) w0 acts = some (w1, log) ∧
          (∀ e, firstRejected log = some e →
            w1.get w.promises.length = ⟨PromiseState.REJECTED, e, []⟩) ∧
          (firstRejected log = none →
            (w1.get w.promises.length)._state ≠ PromiseState.REJECTED) ∧
          (∀ more : List Act, (∀ a ∈ more, a.Admissible w vs) →
            ∃ w2 log2, runActs (fuel + 3) w1 more = some (w2, log2) ∧
              ((w1.get w.promises.length)._state ≠ PromiseState.PENDING →
                w2.get w.promises.length = w1.get w.promises.length)) ∧
          ((∃ v ∈ vs, (inputState w1 v).1 = PromiseState.REJECTED) →
            ∃ w2 log2 e,
              runActs (fuel + 3) w1 (List.replicate w1.microtasks.length Act.react) =
                some (w2, log2) ∧
              w2.microtasks = [] ∧ firstRejected (log ++ log2) = some e ∧
              w2.get w.promises.length = ⟨PromiseState.REJECTED, e, []⟩) := by
  obtain ⟨w0, qs, ds, queue, e0, h0, ho, hnr, hp⟩ := Promise.all_spec fuel w vs hne hin hm
  refine ⟨w0, e0, fun acts hadm => ?_⟩
  have hno0 : NoRejection qs queue w0 := fun i hi => absurd hi (hnr i)
  obtain ⟨w1, log, queue1, e1, h1, ho1, _, c1, _⟩ := h0.runs fuel w acts queue w0 ho hadm
  obtain ⟨c1a, c1b⟩ := c1 hno0
  refine ⟨w1, log, e1, c1b, fun hnone hr => ?_, fun more hmore => ?_, fun hrej => ?_⟩
  · obtain ⟨o1, o2⟩ := h1.outcome (c1a hnone)
    by_cases hz : (w1.ctxs.getD w.ctxs.length default).remaining = 0
    · rw [(o2 hz).1] at hr
      cases hr
    · rw [o1 hz] at hr
      cases hr
  · obtain ⟨w2, log2, _, e2, _, _, k2, _⟩ := h1.runs fuel w more queue1 w1 ho1 hmore
    exact ⟨w2, log2, e2, k2⟩
  · obtain ⟨v, hv, hvr⟩ := hrej
    obtain ⟨w2, log2, queue2, e2, h2, m2, k2⟩ := h1.drain fuel _ queue1 w1 rfl
    have hv2 : (inputState w2 v).1 = PromiseState.REJECTED := by
      rw [inputState_kept h1.sourced k2 v hv (by rw [hvr]; decide)]
      exact hvr
    obtain ⟨w2', log2', queue2', e2', h2', _, k2', c2, _⟩ := h1.runs fuel w
      (List.replicate w1.microtasks.length Act.react) queue1 w1 ho1
      (fun a ha => by rw [List.eq_of_mem_replicate ha]; trivial)
    rw [e2] at e2'
    injection e2' with e2'
    injection e2' with hw hl
    subst hw
    subst hl
    cases hfr : firstRejected log with
    | some e =>
      refine ⟨w2, log2, e, e2, m2, by rw [firstRejected_append, hfr], ?_⟩
      have := c1b e hfr
      rw [k2' (by rw [this]; exact fun hc => (by cases hc)), this]
    | none =>
      obtain ⟨c2a, c2b⟩ := c2 (c1a hfr)
      cases hfr2 : firstRejected log2 with
      | some e =>
        exact ⟨w2, log2, e, e2, m2, by rw [firstRejected_append, hfr]; exact hfr2, c2b e hfr2⟩
      | none =>
        exact absurd hv2 (h2'.none_rejected_of_drained (c2a hfr2) m2 v hv)

/-- C14, witness: `Promise.all([p0, p1])` on two pending promises, of which `p1` is rejected
with 2 before `p0` is rejected with 1, is rejected with 2. -/
theorem all_rejects_with_first_rejection_witness :
    [Value.promise 0, Value.promise 1] ≠ [] ∧
    (∀ v ∈ [Value.promise 0, Value.promise 1], InputOK twoPending v) ∧
    twoPending.microtasks = [] ∧
    (∃ w0, Promise.all (0 + 2 + 5) twoPending (Value.array [Value.promise 0, Value.promise 1]) =
        some (w0, 2) ∧
      ∃ w1 log, runActs (0 + 3) w0 [Act.reject 1 (Value.num 2), Act.reject 0 (Value.num 1),
          Act.react, Act.react] = some (w1, log) ∧
        firstRejected log = some (Value.num 2) ∧
        w1.get 2 = ⟨PromiseState.REJECTED, Value.num 2, []⟩) := by
  have hin : ∀ v ∈ [Value.promise 0, Value.promise 1], InputOK twoPending v := by
    intro v hv
    simp only [List.mem_cons, List.mem_singleton, List.not_mem_nil, or_false] at hv
    rcases hv with rfl | rfl
    · exact ⟨by decide, rfl⟩
    · exact ⟨by decide, rfl⟩
  refine ⟨by simp, hin, rfl, ?_⟩
  obtain ⟨w0, e0, hacts⟩ := all_rejects_with_first_rejection 0 twoPending
    [Value.promise 0, Value.promise 1] (by simp) hin rfl
  refine ⟨w0, e0, ?_⟩
  obtain ⟨w1, log, e1, hfirst, _⟩ := hacts [Act.reject 1 (Value.num 2),
    Act.reject 0 (Value.num 1), Act.react, Act.react] (by
      intro a ha
      simp only [List.mem_cons, List.mem_singleton, List.not_mem_nil, or_false] at ha
      rcases ha with rfl | rfl | rfl | rfl
      · exact List.mem_cons_of_mem _ (List.mem_cons_self _ _)
      · exact List.mem_cons_self _ _
      · trivial
      · trivial)
  have e0' : w0 = ((Promise.all (0 + 2 + 5) twoPending
      (Value.array [Value.promise 0, Value.promise 1])).map (fun r => r.1)).getD twoPending := by
    rw [show ([Value.promise 0, Value.promise 1] : List Value).length = 2 from rfl] at e0
    rw [e0]
    rfl
  subst e0'
  have hlog : firstRejected log = some (Value.num 2) := by
    have hl : log = ((runActs (0 + 3) (((Promise.all (0 + 2 + 5) twoPending
        (Value.array [Value.promise 0, Value.promise 1])).map (fun r => r.1)).getD twoPending)
        [Act.reject 1 (Value.num 2),
        Act.reject 0 (Value.num 1), Act.react, Act.react]).map (fun r => r.2)).getD [] := by
      rw [e1]
      rfl
    rw [hl]
    rfl
  exact ⟨w1, log, e1, hlog, hfirst _ hlog⟩

end JS
end GoJS

namespace GoJS
namespace JS

end JS
end GoJS

namespace GoJS
namespace JS

end JS
end GoJS

namespace GoJS
namespace JS

/-- The handlers `(value) => { results[index] = {status: 'fulfilled', value}; remaining--;
... }` and `(reason) => { results[index] = {status: 'rejected', reason}; remaining--; ... }`
of `Promise.allSettled`. -/
theorem call_settled (fuel : Nat) (w : World) (ctx i r : Nat) (arg : Value) (flag : Bool)
    (ht : (w.ctxs.getD ctx default).target = r) (hr : r < w.promises.length)
    (hh : (w.get r)._handlers = []) :
    ∃ w1, call (fuel + 3) w
        (if flag = true then Fn.native (Native.settledFulfilled ctx i)
          else Fn.native (Native.settledRejected ctx i)) arg =
        some (w1, .ok Value.undefined) ∧ Frame r w w1 ∧
      w1.ctxs = w.ctxs.set ctx ⟨(w.ctxs.getD ctx default).remaining - 1,
        (w.ctxs.getD ctx default).results.set i (Value.settled flag arg), r⟩ ∧
      ((w.ctxs.getD ctx default).remaining - 1 = 0 → (w.get r)._state = PromiseState.PENDING →
        w1.get r = ⟨PromiseState.FULFILLED,
          Value.array ((w.ctxs.getD ctx default).results.set i (Value.settled flag arg)), []⟩) ∧
      ((w.ctxs.getD ctx default).remaining - 1 ≠ 0 → w1.get r = w.get r) := by
  subst ht
  cases flag
  · rw [if_neg (by decide), call]
    simp only
    by_cases h0 : (w.ctxs.getD ctx default).remaining - 1 = 0
    · rw [if_pos h0]
      obtain ⟨w1, e1, f1, c1, g1⟩ := Promise._resolve_frame fuel
        ({ w with ctxs := w.ctxs.set ctx ⟨(w.ctxs.getD ctx default).remaining - 1,
          (w.ctxs.getD ctx default).results.set i (Value.settled false arg),
          (w.ctxs.getD ctx default).target⟩ } : World)
        (w.ctxs.getD ctx default).target
        (Value.array ((w.ctxs.getD ctx default).results.set i (Value.settled false arg)))
        trivial hr hh
      rw [e1]
      refine ⟨w1, rfl, ⟨f1.micro, f1.len, f1.other, f1.handlers, f1.keep, f1.objects⟩, c1,
        fun _ hp => g1 hp, fun h => absurd h0 h⟩
    · rw [if_neg h0]
      exact ⟨_, rfl, ⟨rfl, rfl, fun _ _ => rfl, hh, fun _ => rfl, rfl⟩, rfl,
        fun h => absurd h h0, fun _ => rfl⟩
  · rw [if_pos rfl, call]
    simp only
    by_cases h0 : (w.ctxs.getD ctx default).remaining - 1 = 0
    · rw [if_pos h0]
      obtain ⟨w1, e1, f1, c1, g1⟩ := Promise._resolve_frame fuel
        ({ w with ctxs := w.ctxs.set ctx ⟨(w.ctxs.getD ctx default).remaining - 1,
          (w.ctxs.getD ctx default).results.set i (Value.settled true arg),
          (w.ctxs.getD ctx default).target⟩ } : World)
        (w.ctxs.getD ctx default).target
        (Value.array ((w.ctxs.getD ctx default).results.set i (Value.settled true arg)))
        trivial hr hh
      rw [e1]
      refine ⟨w1, rfl, ⟨f1.micro, f1.len, f1.other, f1.handlers, f1.keep, f1.objects⟩, c1,
        fun _ hp => g1 hp, fun h => absurd h0 h⟩
    · rw [if_neg h0]
      exact ⟨_, rfl, ⟨rfl, rfl, fun _ _ => rfl, hh, fun _ => rfl, rfl⟩, rfl,
        fun h => absurd h h0, fun _ => rfl⟩

/-- A step that settles an input keeps the state of `Promise.allSettled`. -/
theorem SettledInv.settled_of_settle {vs : List Value} {ctx r : Nat} {qs ds queue queue1 : List Nat}
    {w w1 : World} (h : SettledInv vs ctx r qs ds queue w)
    (hw : Wired (settledHandlers ctx) r qs ds queue1 w1)
    (hreact : ∀ j, reacted qs queue1 w1 j ↔ reacted qs queue w j)
    (hkeep : ∀ q, (w.get q)._state ≠ PromiseState.PENDING → w1.get q = w.get q)
    (hctx : w1.ctxs = w.ctxs) (hr : w1.get r = w.get r) :
    SettledInv vs ctx r qs ds queue1 w1 := by
  have hrec : ∀ j, reacted qs queue w j → w1.get (qs.getD j 0) = w.get (qs.getD j 0) :=
    fun j hj => hkeep _ hj.2.2
  have hran : ∀ j, ran qs queue1 w1 j = ran qs queue w j := by
    intro j
    unfold ran
    exact decide_eq_decide.2 (hreact j)
  refine ⟨hw, h.sourced.of_records (fun q _ => hkeep q), by rw [hctx]; exact h.ctxlt,
    by rw [hctx]; exact h.target, by rw [hctx]; exact h.rlen, ?_, ?_, ?_⟩
  · rw [hctx, h.count, List.filter_congr (fun j _ => hran j)]
  · intro i hi hri
    have hre := (hreact i).1 hri
    rw [hctx, hrec i hre]
    exact h.filled i hi hre
  · rw [hctx, hr]
    exact h.outcome

/-- One action on a world in which `Promise.allSettled` has been called. -/
theorem SettledInv.settled_step {vs : List Value} {ctx r : Nat} {qs ds queue : List Nat} {w : World}
    (h : SettledInv vs ctx r qs ds queue w) (fuel : Nat) (a : Act) (ha : a.Admissible w vs) :
    ∃ w1 queue1, a.run (fuel + 3) w = some w1 ∧ SettledInv vs ctx r qs ds queue1 w1 ∧
      w1.objects = w.objects ∧
      ((w.get r)._state ≠ PromiseState.PENDING → w1.get r = w.get r) ∧
      (∀ q, q ∈ qs → (w.get q)._state ≠ PromiseState.PENDING → w1.get q = w.get q) ∧
      (a = Act.react → w1.microtasks.length = w.microtasks.length - 1) := by
  have hn : qs.length = vs.length := h.sourced.1
  cases a with
  | fulfil p v =>
    have hp : p ∈ qs := h.sourced.mem ha.1
    have hpr : r ≠ p := fun e => h.wired.rq (e ▸ hp)
    obtain ⟨w1, e1, hw1, ho, hc, hobj, hgp⟩ := h.wired.fulfil fuel p hp v ha.2
    obtain ⟨k1, _, k3⟩ := @reacted_settle qs queue w w1 p _ ho hgp
    exact ⟨w1, _, e1, h.settled_of_settle hw1 k1 k3 hc (ho r hpr), hobj, fun _ => ho r hpr,
      fun q _ hq => k3 q hq, fun hc => (by cases hc)⟩
  | reject p e =>
    have hp : p ∈ qs := h.sourced.mem ha
    have hpr : r ≠ p := fun e => h.wired.rq (e ▸ hp)
    obtain ⟨w1, e1, hw1, ho, hc, hobj, hgp⟩ := h.wired.reject fuel p hp e
    obtain ⟨k1, _, k3⟩ := @reacted_settle qs queue w w1 p _ ho hgp
    exact ⟨w1, _, e1, h.settled_of_settle hw1 k1 k3 hc (ho r hpr), hobj, fun _ => ho r hpr,
      fun q _ hq => k3 q hq, fun hc => (by cases hc)⟩
  | react =>
    cases queue with
    | nil =>
      have hm : w.microtasks = [] := by rw [h.wired.micro]; rfl
      exact ⟨w, [], Act.react_nil _ w hm, h, rfl, fun _ => rfl, fun _ _ _ => rfl,
        fun _ => by rw [hm]; rfl⟩
    | cons i queue =>
      have hm : w.microtasks = (qs.getD i 0, hnd (settledHandlers ctx) ds i) ::
          queue.map (fun i => (qs.getD i 0, hnd (settledHandlers ctx) ds i)) := by
        rw [h.wired.micro]; rfl
      have hil : i < qs.length := h.wired.qlt i (List.mem_cons_self _ _)
      have hiv : i < vs.length := by rw [← hn]; exact hil
      have hst := h.wired.qsettled i (List.mem_cons_self _ _)
      have hnotin : i ∉ queue := (List.nodup_cons.1 h.wired.qnodup).1
      have hf : ran qs (i :: queue) w i = false := by
        unfold ran reacted
        simp
      have hcntlt := filter_length_lt (ran qs (i :: queue) w) i vs.length hiv hf
      have hrem : (w.ctxs.getD ctx default).remaining ≠ 0 := by
        rw [h.count]; omega
      obtain ⟨w1, hc1, f1, c1, g1, g2⟩ := call_settled fuel
        { w with microtasks := w.microtasks.tail } ctx i r (w.get (qs.getD i 0))._value
        (decide ((w.get (qs.getD i 0))._state = PromiseState.FULFILLED))
        h.target h.wired.rbound h.wired.rhandlers
      have hc1' : call (fuel + 3) { w with microtasks := w.microtasks.tail }
          (if (w.get (qs.getD i 0))._state = PromiseState.FULFILLED
            then (settledHandlers ctx i).1 else (settledHandlers ctx i).2)
          (w.get (qs.getD i 0))._value = some (w1, .ok Value.undefined) := by
        rw [← hc1]
        by_cases hs : (w.get (qs.getD i 0))._state = PromiseState.FULFILLED
        · rw [if_pos hs, if_pos (decide_eq_true hs)]
          rfl
        · rw [if_neg hs, if_neg (by simpa using hs)]
          rfl
      obtain ⟨w2, hrun, hw2, hrec, hctx2, hr2, hobj2, hreact⟩ := h.wired.react fuel w1 hc1' f1
      have hgetc : w2.ctxs.getD ctx default =
          ⟨(w.ctxs.getD ctx default).remaining - 1,
            (w.ctxs.getD ctx default).results.set i
              (descriptor ((w.get (qs.getD i 0))._state, (w.get (qs.getD i 0))._value)), r⟩ := by
        rw [hctx2, c1]
        exact getD_set_self _ _ _ _ h.ctxlt
      have hrecj : ∀ j, j < qs.length → w2.get (qs.getD j 0) = w.get (qs.getD j 0) :=
        fun j hj => hrec _ (getD_mem qs 0 hj)
      have hg : ran qs queue w2 i = true := by
        unfold ran
        exact decide_eq_true ((hreact i).2 (Or.inr rfl))
      have hsame : ∀ j, j ≠ i → ran qs queue w2 j = ran qs (i :: queue) w j := by
        intro j hj
        unfold ran
        apply decide_eq_decide.2
        constructor
        · intro h1
          rcases (hreact j).1 h1 with h3 | h3
          · exact h3
          · exact absurd h3 hj
        · intro h1
          exact (hreact j).2 (Or.inl h1)
      have hcnt := filter_length_flip (ran qs (i :: queue) w) (ran qs queue w2) i vs.length hiv
        hf hg hsame
      have hkeep : (w.get r)._state ≠ PromiseState.PENDING → w2.get r = w.get r := by
        intro hp
        rw [hr2]
        exact f1.keep hp
      have hpend : (w.get r)._state = PromiseState.PENDING := h.outcome.1 hrem
      refine ⟨w2, queue, hrun, ⟨hw2, h.sourced.of_records (fun q hq _ => hrec q hq), ?_, ?_, ?_,
        ?_, ?_, ?_⟩, hobj2, hkeep, fun q hq _ => hrec q hq,
        fun _ => by rw [hw2.micro, hm]; simp⟩
      · rw [hctx2, c1, List.length_set]; exact h.ctxlt
      · rw [hgetc]
      · rw [hgetc]
        simp only [List.length_set]
        exact h.rlen
      · rw [hgetc]
        simp only
        rw [h.count, hcnt]
        push_cast
        ring
      · intro j hj hrj
        rw [hgetc]
        simp only
        by_cases e : j = i
        · subst e
          rw [getD_set_self _ _ _ _ (by rw [h.rlen]; exact hiv), hrecj j hil]
        · rw [getD_set_ne _ _ _ _ _ (Ne.symm e), hrecj j (by rw [hn]; exact hj)]
          rcases (hreact j).1 hrj with h3 | h3
          · exact h.filled j hj h3
          · exact absurd h3 e
      · rw [hgetc]
        simp only
        constructor
        · intro hne
          rw [hr2, g2 hne]
          exact hpend
        · intro h0
          rw [hr2, g1 h0 hpend]
          exact ⟨rfl, rfl⟩

/-- Any sequence of actions on a world in which `Promise.allSettled` has been called. -/
theorem SettledInv.settled_runs {vs : List Value} {ctx r : Nat} {qs ds : List Nat} (fuel : Nat)
    (w0 : World) :
    ∀ (acts : List Act) (queue : List Nat) (w : World),
    SettledInv vs ctx r qs ds queue w → w.objects = w0.objects →
    (∀ a ∈ acts, a.Admissible w0 vs) →
    ∃ w' log queue', runActs (fuel + 3) w acts = some (w', log) ∧
      SettledInv vs ctx r qs ds queue' w' ∧ w'.objects = w0.objects := by
  intro acts
  induction acts with
  | nil =>
    intro queue w h ho _
    exact ⟨w, [], queue, rfl, h, ho⟩
  | cons a rest ih =>
    intro queue w h ho hadm
    obtain ⟨w1, queue1, e1, h1, o1, _, _, _⟩ := h.settled_step fuel a
      ((hadm a (List.mem_cons_self _ _)).of_objects ho)
    obtain ⟨w', log, queue', e2, h2, o2⟩ := ih queue1 w1 h1 (by rw [o1, ho])
      (fun a' ha' => hadm a' (List.mem_cons_of_mem _ ha'))
    refine ⟨w', a.entry w ++ log, queue', ?_, h2, o2⟩
    rw [runActs_cons _ _ _ _ _ e1, e2]
    rfl

/-- The microtasks of a world in which `Promise.allSettled` has been called can be run
until none is left; the inputs that have settled are not touched. -/
theorem SettledInv.settled_drain {vs : List Value} {ctx r : Nat} {qs ds : List Nat} (fuel : Nat) :
    ∀ (n : Nat) (queue : List Nat) (w : World),
    SettledInv vs ctx r qs ds queue w → w.microtasks.length = n →
    ∃ w' log queue', runActs (fuel + 3) w (List.replicate n Act.react) = some (w', log) ∧
      SettledInv vs ctx r qs ds queue' w' ∧ w'.microtasks = [] ∧
      (∀ q, q ∈ qs → (w.get q)._state ≠ PromiseState.PENDING → w'.get q = w.get q) := by
  intro n
  induction n with
  | zero =>
    intro queue w h hn
    exact ⟨w, [], queue, rfl, h, List.eq_nil_of_length_eq_zero hn, fun _ _ _ => rfl⟩
  | succ n ih =>
    intro queue w h hn
    obtain ⟨w1, queue1, e1, h1, _, _, r1, m1⟩ := h.settled_step fuel Act.react trivial
    obtain ⟨w', log, queue', e2, h2, m2, r2⟩ := ih queue1 w1 h1 (by rw [m1 rfl, hn]; rfl)
    refine ⟨w', Act.react.entry w ++ log, queue', ?_, h2, m2, ?_⟩
    · rw [List.replicate_succ, runActs_cons _ _ _ _ _ e1, e2]
      rfl
    · intro q hq hs
      rw [r2 q hq (by rw [r1 q hq hs]; exact hs), r1 q hq hs]

/-- The result of `Promise.allSettled` is fulfilled only when every input has settled, and
then with the array of their descriptors in the order of the inputs. -/
theorem SettledInv.settled_when_fulfilled {vs : List Value} {ctx r : Nat} {qs ds queue : List Nat}
    {w : World} (h : SettledInv vs ctx r qs ds queue w)
    (hf : (w.get r)._state = PromiseState.FULFILLED) :
    (∀ v ∈ vs, (inputState w v).1 ≠ PromiseState.PENDING) ∧
    (w.get r)._value = Value.array (vs.map (fun v => descriptor (inputState w v))) := by
  obtain ⟨o1, o2⟩ := h.outcome
  by_cases h0 : (w.ctxs.getD ctx default).remaining = 0
  · have hc := h.count
    rw [h0] at hc
    have hlen : ((List.range vs.length).filter (ran qs queue w)).length =
        (List.range vs.length).length := by
      rw [List.length_range]
      omega
    have hran : ∀ i, i < vs.length → reacted qs queue w i := by
      intro i hi
      have := (List.filter_length_eq_length.1 hlen) i (List.mem_range.2 hi)
      unfold ran at this
      exact of_decide_eq_true this
    refine ⟨fun v hv => ?_, ?_⟩
    · obtain ⟨i, hi, e⟩ := exists_getD_of_mem Value.undefined hv
      rw [← e, h.sourced.inputState i hi]
      exact (hran i hi).2.2
    · rw [(o2 h0).2]
      congr 1
      refine eq_map_of_getD _ _ _ h.rlen (fun i hi => ?_)
      rw [h.filled i hi (hran i hi), h.sourced.inputState i hi]
  · rw [o1 h0] at hf
    cases hf

/-- The result of `Promise.allSettled` is never rejected. -/
theorem SettledInv.not_rejected {vs : List Value} {ctx r : Nat} {qs ds queue : List Nat}
    {w : World} (h : SettledInv vs ctx r qs ds queue w) :
    (w.get r)._state ≠ PromiseState.REJECTED := by
  intro hr
  by_cases h0 : (w.ctxs.getD ctx default).remaining = 0
  · rw [(h.outcome.2 h0).1] at hr
    cases hr
  · rw [h.outcome.1 h0] at hr
    cases hr

/-- When every input has settled and no microtask is left, the result is fulfilled. -/
theorem SettledInv.settled_fulfilled_of_drained {vs : List Value} {ctx r : Nat} {qs ds queue : List Nat}
    {w : World} (h : SettledInv vs ctx r qs ds queue w)
    (hall : ∀ v ∈ vs, (inputState w v).1 ≠ PromiseState.PENDING) (hm : w.microtasks = []) :
    (w.get r)._state = PromiseState.FULFILLED := by
  have hq : queue = [] := by
    have := h.wired.micro
    rw [hm] at this
    exact List.map_eq_nil_iff.1 this.symm
  have hran : ∀ i ∈ List.range vs.length, ran qs queue w i = true := by
    intro i hi
    have hi := List.mem_range.1 hi
    unfold ran
    refine decide_eq_true ⟨by rw [h.sourced.1]; exact hi, by rw [hq]; simp, ?_⟩
    have := hall _ (getD_mem vs Value.undefined hi)
    rw [h.sourced.inputState i hi] at this
    exact this
  have hlen := List.filter_length_eq_length.2 hran
  have hc := h.count
  rw [hlen, List.length_range] at hc
  exact (h.outcome.2 (by rw [hc]; omega)).1

/-- Actions that only run microtasks do nothing when the queue is empty. -/
theorem runActs_idle (fuel : Nat) (w : World) (hm : w.microtasks = []) :
    ∀ acts : List Act, (∀ a ∈ acts, a = Act.react) → runActs fuel w acts = some (w, []) := by
  intro acts
  induction acts with
  | nil => intro _; rfl
  | cons a rest ih =>
    intro h
    have ha := h a (List.mem_cons_self _ _)
    subst ha
    rw [runActs_cons _ _ _ _ _ (Act.react_nil fuel w hm),
      ih (fun a ha => h a (List.mem_cons_of_mem _ ha)), Act.entry_react_nil w hm]
    rfl

/-- What `Promise.allSettled` does on a non-empty array of inputs: the result promise is
allocated, pending, and one reaction per input is registered. -/
theorem Promise.allSettled_spec (fuel : Nat) (w : World) (vs : List Value) (hne : vs ≠ [])
    (hin : ∀ v ∈ vs, InputOK w v) (hm : w.microtasks = []) :
    ∃ w0 qs ds queue,
      Promise.allSettled (fuel + vs.length + 5) w (Value.array vs) =
        some (w0, w.promises.length) ∧
      SettledInv vs w.ctxs.length w.promises.length qs ds queue w0 ∧ w0.objects = w.objects ∧
      (w0.get w.promises.length)._state = PromiseState.PENDING := by
  have hlen : vs.length ≠ 0 := fun h => hne (List.eq_nil_of_length_eq_zero h)
  have hget : ∀ p, p < w.promises.length →
      ({ w.alloc.1 with ctxs := w.alloc.1.ctxs ++
        [⟨vs.length, List.replicate vs.length Value.undefined, w.alloc.2⟩] } : World).get p =
        w.get p := fun p hp => World.get_alloc_old w p hp
  have hstart := Built.start (settledHandlers w.ctxs.length) w.promises.length
    ({ w.alloc.1 with ctxs := w.alloc.1.ctxs ++
      [⟨vs.length, List.replicate vs.length Value.undefined, w.alloc.2⟩] } : World) hm
    (by show w.promises.length < w.alloc.1.promises.length; simp)
    (by show (w.alloc.1.get w.promises.length)._handlers = []; rw [World.get_alloc_new])
  obtain ⟨w0, qs, ds, queue, e0, hb⟩ := forEach_built
    (settledHandlers w.ctxs.length) w.promises.length _ vs fuel [] [] [] [] _ hstart
    (inputs_ok hin hget rfl)
  rw [List.nil_append] at hb
  have hctx : w0.ctxs.getD w.ctxs.length default =
      ⟨vs.length, List.replicate vs.length Value.undefined, w.promises.length⟩ := by
    rw [hb.ctxs]
    exact getD_append_ctx _ _
  have hnr : ∀ i, ¬ reacted qs queue w0 i := hb.not_reacted
  have hran : ∀ i, ran qs queue w0 i = false := by
    intro i
    unfold ran
    exact decide_eq_false (hnr i)
  have hr0 : (w0.get w.promises.length)._state = PromiseState.PENDING := by
    rw [hb.result]
    show (w.alloc.1.get w.promises.length)._state = _
    rw [World.get_alloc_new]
  refine ⟨w0, qs, ds, queue, ?_, ⟨hb.wired, hb.sourced, ?_, ?_, ?_, ?_, ?_, ?_⟩, hb.objects, hr0⟩
  · have hf : fuel + vs.length + 5 = (fuel + vs.length + 4) + 1 := rfl
    rw [hf, Promise.allSettled]
    simp only [hlen, if_false]
    have e0' : forEach (fuel + vs.length + 4)
        ({ w.alloc.1 with ctxs := w.alloc.1.ctxs ++
          [⟨vs.length, List.replicate vs.length Value.undefined, w.alloc.2⟩] } : World) vs 0
        (fun index => (some (Fn.native (Native.settledFulfilled w.alloc.1.ctxs.length index)),
          some (Fn.native (Native.settledRejected w.alloc.1.ctxs.length index)))) = some w0 := e0
    rw [e0']
    rfl
  · rw [hb.ctxs]
    show w.ctxs.length < (w.ctxs ++ [_]).length
    simp
  · rw [hctx]
  · rw [hctx]; simp
  · rw [hctx]
    have : (List.range vs.length).filter (ran qs queue w0) = [] :=
      List.filter_eq_nil_iff.2 (fun i _ => by rw [hran i]; simp)
    rw [this]
    simp
  · intro i _ hi
    exact absurd hi (hnr i)
  · rw [hctx]
    refine ⟨fun _ => hr0, fun h0 => ?_⟩
    simp only at h0
    exact absurd (by exact_mod_cast h0) hlen

/-- What `Promise.allSettled` does on the empty array: the result promise is fulfilled with
the empty array at once. -/
theorem Promise.allSettled_nil (fuel : Nat) (w : World) (hm : w.microtasks = []) :
    ∃ w0, Promise.allSettled (fuel + 5) w (Value.array []) = some (w0, w.promises.length) ∧
      w0.microtasks = [] ∧
      w0.get w.promises.length = ⟨PromiseState.FULFILLED, Value.array [], []⟩ := by
  obtain ⟨w1, e1, f1, _, g1⟩ := Promise._resolve_frame (fuel + 2) w.alloc.1 w.alloc.2
    (Value.array []) trivial (by show w.promises.length < w.alloc.1.promises.length; simp)
    (by show (w.alloc.1.get w.promises.length)._handlers = []; rw [World.get_alloc_new])
  refine ⟨w1, ?_, by rw [f1.micro]; exact hm, g1 (by
    show (w.alloc.1.get w.promises.length)._state = _
    rw [World.get_alloc_new])⟩
  have hf : fuel + 5 = (fuel + 2 + 2) + 1 := rfl
  rw [hf, Promise.allSettled]
  simp only [List.length_nil, if_true, e1]
  rfl

end JS
end GoJS

namespace GoJS
namespace JS

/-- C16: `Promise.allSettled` on an array of inputs (promises on which nothing is
registered yet, or values that are not thenable) returns a promise `r`.  After any sequence
of settlements of the inputs and of microtask runs: `r` is not rejected; if `r` is fulfilled
then every input has settled and the value of `r` is the array of the descriptors of the
inputs, in the order of the inputs, `{status: 'fulfilled', value}` for a fulfilled and
`{status: 'rejected', reason}` for a rejected input; and once every input has settled,
running the microtasks that are left fulfils `r` with that array. -/
theorem allSettled_never_rejects_and_describes_inputs (fuel : Nat) (w : World)
    (vs : List Value) (hin : ∀ v ∈ vs, InputOK w v) (hm : w.microtasks = []) :
    ∃ w0, Promise.allSettled (fuel + vs.length + 5) w (Value.array vs) =
        some (w0, w.promises.length) ∧
      ∀ acts : List Act, (∀ a ∈ acts, a.Admissible w vs) →
        ∃ w1 log, runActs (fuel + 3) w0 acts = some (w1, log) ∧
          (w1.get w.promises.length)._state ≠ PromiseState.REJECTED ∧
          ((w1.get w.promises.length)._state = PromiseState.FULFILLED →
            (∀ v ∈ vs, (inputState w1 v).1 ≠ PromiseState.PENDING) ∧
            (w1.get w.promises.length)._value =
              Value.array (vs.map (fun v => descriptor (inputState w1 v)))) ∧
          ((∀ v ∈ vs, (inputState w1 v).1 ≠ PromiseState.PENDING) →
            ∃ w2 log2,
              runActs (fuel + 3) w1 (List.replicate w1.microtasks.length Act.react) =
                some (w2, log2) ∧
              w2.microtasks = [] ∧
              (w2.get w.promises.length)._state = PromiseState.FULFILLED ∧
              (w2.get w.promises.length)._value =
                Value.array (vs.map (fun v => descriptor (inputState w1 v)))) := by
  by_cases hne : vs = []
  · subst hne
    obtain ⟨w0, e0, m0, g0⟩ := Promise.allSettled_nil fuel w hm
    refine ⟨w0, e0, fun acts hadm => ?_⟩
    have hreact : ∀ a ∈ acts, a = Act.react := by
      intro a ha
      have := hadm a ha
      cases a with
      | fulfil p v => exact absurd this.1 (List.not_mem_nil _)
      | reject p e => exact absurd this (List.not_mem_nil _)
      | react => rfl
    refine ⟨w0, [], runActs_idle _ w0 m0 acts hreact, by rw [g0]; exact fun hc => (by cases hc),
      fun _ => ⟨fun v hv => absurd hv (List.not_mem_nil _), by rw [g0]; rfl⟩, fun _ => ?_⟩
    refine ⟨w0, [], ?_, m0, by rw [g0], by rw [g0]; rfl⟩
    rw [m0]
    rfl
  · obtain ⟨w0, qs, ds, queue, e0, h0, ho, _⟩ := Promise.allSettled_spec fuel w vs hne hin hm
    refine ⟨w0, e0, fun acts hadm => ?_⟩
    obtain ⟨w1, log, queue1, e1, h1, _⟩ := h0.settled_runs fuel w acts queue w0 ho hadm
    refine ⟨w1, log, e1, h1.not_rejected, h1.settled_when_fulfilled, fun hall => ?_⟩
    obtain ⟨w2, log2, queue2, e2, h2, m2, k2⟩ := h1.settled_drain fuel _ queue1 w1 rfl
    have hsame : ∀ v ∈ vs, inputState w2 v = inputState w1 v := fun v hv =>
      inputState_kept h1.sourced k2 v hv (hall v hv)
    have hall2 : ∀ v ∈ vs, (inputState w2 v).1 ≠ PromiseState.PENDING := fun v hv => by
      rw [hsame v hv]; exact hall v hv
    have hf := h2.settled_fulfilled_of_drained hall2 m2
    refine ⟨w2, log2, e2, m2, hf, ?_⟩
    rw [(h2.settled_when_fulfilled hf).2]
    congr 1
    exact List.map_congr_left (fun v hv => by rw [hsame v hv])

/-- C16, witness: `Promise.allSettled([p0, p1])` on two pending promises, of which `p1` is
rejected with 2 before `p0` is fulfilled with 1, is fulfilled with
`[{status: 'fulfilled', value: 1}, {status: 'rejected', reason: 2}]`. -/
theorem allSettled_describes_inputs_witness :
    (∀ v ∈ [Value.promise 0, Value.promise 1], InputOK twoPending v) ∧
    twoPending.microtasks = [] ∧
    (∃ w0, Promise.allSettled (0 + 2 + 5) twoPending
        (Value.array [Value.promise 0, Value.promise 1]) = some (w0, 2) ∧
      ∃ w1 log, runActs (0 + 3) w0 [Act.reject 1 (Value.num 2), Act.fulfil 0 (Value.num 1),
          Act.react, Act.react] = some (w1, log) ∧
        (w1.get 2)._state = PromiseState.FULFILLED ∧
        (w1.get 2)._value = Value.array [Value.settled true (Value.num 1),
          Value.settled false (Value.num 2)]) := by
  have hin : ∀ v ∈ [Value.promise 0, Value.promise 1], InputOK twoPending v := by
    intro v hv
    simp only [List.mem_cons, List.mem_singleton, List.not_mem_nil, or_false] at hv
    rcases hv with rfl | rfl
    · exact ⟨by decide, rfl⟩
    · exact ⟨by decide, rfl⟩
  refine ⟨hin, rfl, ?_⟩
  obtain ⟨w0, e0, _⟩ := allSettled_never_rejects_and_describes_inputs 0 twoPending
    [Value.promise 0, Value.promise 1] hin rfl
  refine ⟨w0, e0, ?_⟩
  have e0' : w0 = ((Promise.allSettled (0 + 2 + 5) twoPending
      (Value.array [Value.promise 0, Value.promise 1])).map (fun r => r.1)).getD twoPending := by
    rw [show ([Value.promise 0, Value.promise 1] : List Value).length = 2 from rfl] at e0
    rw [e0]
    rfl
  subst e0'
  exact ⟨_, _, rfl, rfl, rfl⟩

end JS
end GoJS

namespace GoJS
namespace JS

theorem Promise.then_called (w : World) (p : Nat) (f g : Option Fn) :
    (Promise.then_ w p f g).1.called = w.called := by
  unfold Promise.then_ Promise._executeHandlers
  simp only
  split_ifs <;> rfl

/-- What `settle` does to a promise that exists, in full. -/
theorem Promise.settle_full (w : World) (p : Nat) (s : PromiseState) (v : Value)
    (hs : s ≠ PromiseState.PENDING) (hp : p < w.promises.length) :
    ((Promise.settle w p s v).get p) = ⟨s, v, []⟩ ∧
    (Promise.settle w p s v).microtasks = w.microtasks ++ (w.get p)._handlers.map (fun h => (p, h)) ∧
    (Promise.settle w p s v).promises.length = w.promises.length ∧
    (Promise.settle w p s v).objects = w.objects ∧
    (∀ q, q ≠ p → (Promise.settle w p s v).get q = w.get q) ∧
    (Promise.settle w p s v).called = w.called := by
  obtain ⟨s1, s2, s3, s4, s5⟩ := Promise.settle_spec w p s v hs hp
  exact ⟨s1, s2, s3, s4, s5, (Promise.settle_ctxs w p s v).2⟩

theorem Promise._reject_pending (w : World) (p : Nat) (e : Value)
    (hp : (w.get p)._state = PromiseState.PENDING) :
    Promise._reject w p e = Promise.settle w p PromiseState.REJECTED e := by
  unfold Promise._reject
  rw [if_neg (by simpa using hp)]

end JS
end GoJS

namespace GoJS
namespace JS

end JS
end GoJS

namespace GoJS
namespace JS

end JS
end GoJS

namespace GoJS
namespace JS

theorem processMicrotasks_empty (fuel : Nat) (w : World) (hm : w.microtasks = []) :
    processMicrotasks (fuel + 1) w = some w := by
  rw [processMicrotasks]
  simp only [hm]

end JS
end GoJS

namespace GoJS
namespace JS

theorem FlagsKept.same_flags (w : World) : FlagsKept w w := ⟨le_refl _, fun _ h => h⟩

theorem FlagsKept.of_called {w w1 : World} (h : w1.called = w.called) : FlagsKept w w1 := by
  unfold FlagsKept
  rw [h]
  exact ⟨le_refl _, fun _ h => h⟩

theorem FlagsKept.then {w w1 w2 : World} (h1 : FlagsKept w w1) (h2 : FlagsKept w1 w2) :
    FlagsKept w w2 :=
  ⟨le_trans h1.1 h2.1, fun c hc => h2.2 c (h1.2 c hc)⟩

theorem FlagsKept.after {w w1 w2 : World} (k : FlagsKept w1 w2) (h : w1.called = w.called) :
    FlagsKept w w2 :=
  (FlagsKept.of_called h).then k

theorem FlagsKept.push_flag (w : World) :
    FlagsKept w ({ w with called := w.called ++ [false] } : World) := by
  refine ⟨by simp, fun c hc => ?_⟩
  have hlt : c < w.called.length := by
    by_contra hge
    rw [List.getD_eq_default _ _ (by omega)] at hc
    cases hc
  show (w.called ++ [false]).getD c false = true
  rw [getD_append_lt _ _ _ hlt]
  exact hc

theorem FlagsKept.set (w : World) (c : Nat) :
    FlagsKept w ({ w with called := w.called.set c true } : World) := by
  refine ⟨by simp, fun c' hc => ?_⟩
  show (w.called.set c true).getD c' false = true
  by_cases e : c = c'
  · subst e
    have hlt : c < w.called.length := by
      by_contra hge
      rw [List.getD_eq_default _ _ (by omega)] at hc
      cases hc
    exact getD_set_self _ _ _ _ hlt
  · rw [getD_set_ne _ _ _ _ _ e]
    exact hc

theorem Promise._reject_called (w : World) (p : Nat) (e : Value) :
    (Promise._reject w p e).called = w.called := by
  unfold Promise._reject
  split_ifs
  · rfl
  · exact (Promise.settle_ctxs w p _ e).2

theorem keptAt_zero : KeptAt 0 := by
  refine ⟨?_, ?_, ?_, ?_, ?_, ?_, ?_, ?_⟩
  · intro w p v w1 h
    simp [Promise._resolve] at h
  · intro w v r h
    simp [Promise.resolve] at h
  · intro w f a r h
    simp [call] at h
  · intro w vs i H w1 h
    simp [forEach] at h
  · intro w v r h
    simp [Promise.all] at h
  · intro w v r h
    simp [Promise.race] at h
  · intro w v r h
    simp [Promise.allSettled] at h
  · intro w code r h
    simp [exec] at h

end JS
end GoJS

namespace GoJS
namespace JS

theorem kept_res (fuel : Nat) (ih : KeptAt fuel) :
    ∀ w p v w1, Promise._resolve (fuel + 1) w p v = some w1 → FlagsKept w w1 := by
  intro w p v w1 h
  unfold Promise._resolve at h
  split_ifs at h with h1 h2
  · injection h with h
    subst h
    exact FlagsKept.same_flags w
  · injection h with h
    subst h
    exact FlagsKept.of_called (Promise._reject_called _ _ _)
  · split at h
    · injection h with h
      subst h
      exact (FlagsKept.push_flag w).then (FlagsKept.of_called (Promise.then_called _ _ _ _))
    · split at h
      · cases h
      · rename_i wa e hx
        injection h with h
        subst h
        exact (ih.exec _ _ _ hx).then (FlagsKept.of_called (Promise._reject_called _ _ _))
      · rename_i wa r hx
        have k1 : FlagsKept w wa := ih.exec _ _ _ hx
        split at h
        · rename_i body hb
          dsimp only at h
          split at h
          · cases h
          · rename_i wb e hy
            have k2 : FlagsKept wa wb := (FlagsKept.push_flag wa).then (ih.exec _ _ _ hy)
            split_ifs at h
            · injection h with h
              subst h
              exact k1.then k2
            · injection h with h
              subst h
              exact (k1.then k2).then (FlagsKept.of_called (Promise._reject_called _ _ _))
          · rename_i wb r' hy
            have k2 : FlagsKept wa wb := (FlagsKept.push_flag wa).then (ih.exec _ _ _ hy)
            injection h with h
            subst h
            exact k1.then k2
        · injection h with h
          subst h
          exact k1.then (FlagsKept.of_called (Promise.settle_ctxs _ _ _ _).2)
    · injection h with h
      subst h
      exact FlagsKept.of_called (Promise.settle_ctxs _ _ _ _).2

theorem kept_resolve (fuel : Nat) (ih : KeptAt fuel) :
    ∀ w v r, Promise.resolve (fuel + 1) w v = some r → FlagsKept w r.1 := by
  intro w v r h
  unfold Promise.resolve at h
  split at h
  · injection h with h
    subst h
    exact FlagsKept.same_flags w
  · dsimp only at h
    split at h
    · cases h
    · rename_i w1 hx
      injection h with h
      subst h
      exact (ih.res _ _ _ _ hx).after rfl

end JS
end GoJS

namespace GoJS
namespace JS

theorem kept_of_map {w : World} {o : Option World} {r : World × Outcome} {out : Outcome}
    (h : o.map (fun w1 => (w1, out)) = some r) (hk : ∀ w1, o = some w1 → FlagsKept w w1) :
    FlagsKept w r.1 := by
  obtain ⟨w1, hw, rfl⟩ := Option.map_eq_some'.1 h
  exact hk w1 hw

theorem kept_counted (fuel : Nat) (ih : KeptAt fuel) (w : World) (ctx : Nat) (c1 : Ctx)
    (r : World × Outcome)
    (h : (if c1.remaining = 0 then
        (Promise._resolve fuel ({ w with ctxs := w.ctxs.set ctx c1 } : World) c1.target
          (Value.array c1.results)).map (fun w2 => (w2, (.ok Value.undefined : Outcome)))
      else some (({ w with ctxs := w.ctxs.set ctx c1 } : World), .ok Value.undefined)) = some r) :
    FlagsKept w r.1 := by
  split_ifs at h
  · exact kept_of_map h (fun w1 hw => (ih.res _ _ _ _ hw).after rfl)
  · injection h with h
    subst h
    exact FlagsKept.of_called rfl

theorem kept_finally (fuel : Nat) (ih : KeptAt fuel) (w : World) (onFinally : Option Fn)
    (tail : Fn) (r : World × Outcome)
    (h : (match onFinally with
      | none => some (w, (.error (Value.error "onFinally is not a function") : Outcome))
      | some g =>
        match call fuel w g Value.undefined with
        | none => none
        | some (w1, .error e) => some (w1, .error e)
        | some (w1, .ok r) =>
          match Promise.resolve fuel w1 r with
          | none => none
          | some (w2, q) =>
            some ((Promise.then_ w2 q (some tail) none).1,
              .ok (Value.promise (Promise.then_ w2 q (some tail) none).2))) = some r) :
    FlagsKept w r.1 := by
  split at h
  · injection h with h
    subst h
    exact FlagsKept.same_flags w
  · split at h
    · cases h
    · rename_i w1 e hx
      injection h with h
      subst h
      exact ih.call _ _ _ _ hx
    · rename_i w1 r1 hx
      split at h
      · cases h
      · rename_i w2 q hy
        injection h with h
        subst h
        exact ((ih.call _ _ _ _ hx).then (ih.resolve _ _ _ hy)).then
          (FlagsKept.of_called (Promise.then_called _ _ _ _))

theorem kept_call (fuel : Nat) (ih : KeptAt fuel) :
    ∀ w f a r, call (fuel + 1) w f a = some r → FlagsKept w r.1 := by
  intro w f a r h
  unfold call at h
  split at h
  · exact kept_of_map h (fun w1 hw => ih.res _ _ _ _ hw)
  · injection h with h
    subst h
    exact FlagsKept.of_called (Promise._reject_called _ _ _)
  · split_ifs at h
    · injection h with h
      subst h
      exact FlagsKept.same_flags w
    · exact kept_of_map h (fun w1 hw => (FlagsKept.set w _).then (ih.res _ _ _ _ hw))
  · split_ifs at h
    · injection h with h
      subst h
      exact FlagsKept.same_flags w
    · injection h with h
      subst h
      exact (FlagsKept.set w _).then (FlagsKept.of_called (Promise._reject_called _ _ _))
  · injection h with h
    subst h
    exact FlagsKept.same_flags w
  · injection h with h
    subst h
    exact FlagsKept.same_flags w
  · exact kept_counted fuel ih w _ _ r h
  · injection h with h
    subst h
    exact FlagsKept.of_called (Promise._reject_called _ _ _)
  · exact kept_counted fuel ih w _ _ r h
  · exact kept_counted fuel ih w _ _ r h
  · exact ih.exec _ _ _ h
  · exact kept_finally fuel ih w _ _ r h
  · exact kept_finally fuel ih w _ _ r h

theorem kept_forEach (fuel : Nat) (ih : KeptAt fuel) :
    ∀ w vs i H w1, forEach (fuel + 1) w vs i H = some w1 → FlagsKept w w1 := by
  intro w vs i H w1 h
  cases vs with
  | nil =>
    rw [forEach] at h
    injection h with h
    subst h
    exact FlagsKept.same_flags w
  | cons v rest =>
    rw [forEach] at h
    split at h
    · cases h
    · rename_i wa q hx
      exact ((ih.resolve _ _ _ hx).then (FlagsKept.of_called (Promise.then_called _ _ _ _))).then
        (ih.forEach _ _ _ _ _ h)

end JS
end GoJS

namespace GoJS
namespace JS

theorem kept_of_map_pair {w : World} {o : Option World} {r : World × Nat} {q : Nat}
    (h : o.map (fun w1 => (w1, q)) = some r) (hk : ∀ w1, o = some w1 → FlagsKept w w1) :
    FlagsKept w r.1 := by
  obtain ⟨w1, hw, rfl⟩ := Option.map_eq_some'.1 h
  exact hk w1 hw

theorem kept_all (fuel : Nat) (ih : KeptAt fuel) :
    ∀ w v r, Promise.all (fuel + 1) w v = some r → FlagsKept w r.1 := by
  intro w v r h
  unfold Promise.all at h
  dsimp only at h
  split at h
  · split_ifs at h
    · exact kept_of_map_pair h (fun w1 hw => (ih.res _ _ _ _ hw).after rfl)
    · exact kept_of_map_pair h (fun w1 hw => (ih.forEach _ _ _ _ _ hw).after rfl)
  · injection h with h
    subst h
    exact FlagsKept.of_called (Promise._reject_called _ _ _)

theorem kept_race (fuel : Nat) (ih : KeptAt fuel) :
    ∀ w v r, Promise.race (fuel + 1) w v = some r → FlagsKept w r.1 := by
  intro w v r h
  unfold Promise.race at h
  dsimp only at h
  split at h
  · exact kept_of_map_pair h (fun w1 hw => (ih.forEach _ _ _ _ _ hw).after rfl)
  · injection h with h
    subst h
    exact FlagsKept.of_called (Promise._reject_called _ _ _)

theorem kept_allSettled (fuel : Nat) (ih : KeptAt fuel) :
    ∀ w v r, Promise.allSettled (fuel + 1) w v = some r → FlagsKept w r.1 := by
  intro w v r h
  unfold Promise.allSettled at h
  dsimp only at h
  split at h
  · split_ifs at h
    · exact kept_of_map_pair h (fun w1 hw => (ih.res _ _ _ _ hw).after rfl)
    · exact kept_of_map_pair h (fun w1 hw => (ih.forEach _ _ _ _ _ hw).after rfl)
  · exact kept_of_map_pair h (fun w1 hw => (ih.res _ _ _ _ hw).after rfl)

theorem kept_exec (fuel : Nat) (ih : KeptAt fuel) :
    ∀ w code r, exec (fuel + 1) w code = some r → FlagsKept w r.1 := by
  intro w code r h
  unfold exec at h
  split at h
  · injection h with h
    subst h
    exact FlagsKept.same_flags w
  · injection h with h
    subst h
    exact FlagsKept.same_flags w
  · split at h
    · cases h
    · rename_i w1 e hx
      injection h with h
      subst h
      exact ih.call _ _ _ _ hx
    · rename_i w1 r1 hx
      exact (ih.call _ _ _ _ hx).then (ih.exec _ _ _ h)
  · split at h
    · injection h with h
      subst h
      exact FlagsKept.same_flags w
    · dsimp only at h
      split at h
      · cases h
      · rename_i body w1 e hx
        exact ((ih.exec _ _ _ hx).after rfl).then
          ((ih.exec _ _ _ h).after (Promise._reject_called _ _ _))
      · rename_i body w1 r1 hx
        exact ((ih.exec _ _ _ hx).after rfl).then (ih.exec _ _ _ h)
  · exact (FlagsKept.of_called (Promise.then_called _ _ _ _)).then (ih.exec _ _ _ h)
  · exact (FlagsKept.of_called (Promise.then_called _ _ _ _)).then (ih.exec _ _ _ h)
  · exact (FlagsKept.of_called (Promise.then_called _ _ _ _)).then (ih.exec _ _ _ h)
  · split at h
    · cases h
    · rename_i w1 q hx
      exact (ih.resolve _ _ _ hx).then (ih.exec _ _ _ h)
  · exact (ih.exec _ _ _ h).after (Promise._reject_called _ _ _)
  · split at h
    · cases h
    · rename_i w1 q hx
      exact (ih.all _ _ _ hx).then (ih.exec _ _ _ h)
  · split at h
    · cases h
    · rename_i w1 q hx
      exact (ih.race _ _ _ hx).then (ih.exec _ _ _ h)
  · split at h
    · cases h
    · rename_i w1 q hx
      exact (ih.allSettled _ _ _ hx).then (ih.exec _ _ _ h)
  · split at h
    · cases h
    · rename_i w1 hx
      exact (ih.res _ _ _ _ hx).then (ih.exec _ _ _ h)
  · exact (FlagsKept.of_called (Promise._reject_called _ _ _)).then (ih.exec _ _ _ h)

/-- Nothing that the promise engine or user code does removes a `called` variable or
resets one that is set. -/
theorem keptAt (fuel : Nat) : KeptAt fuel := by
  induction fuel with
  | zero => exact keptAt_zero
  | succ n ih =>
    exact ⟨kept_res n ih, kept_resolve n ih, kept_call n ih, kept_forEach n ih, kept_all n ih,
      kept_race n ih, kept_allSettled n ih, kept_exec n ih⟩

theorem kept_runReaction (fuel : Nat) (w : World) (p : Nat) (h : Handler) (w1 : World)
    (hr : runReaction fuel w p h = some w1) : FlagsKept w w1 := by
  have ih := keptAt fuel
  have hmap : ∀ (x : World) (f : Fn) (a : Value),
      (call fuel x f a).map (fun r => r.1) = some w1 → FlagsKept x w1 := by
    intro x f a hx
    obtain ⟨r, hr1, rfl⟩ := Option.map_eq_some'.1 hx
    exact ih.call _ _ _ _ hr1
  have hbody : ∀ (f : Fn),
      (match call fuel w f (w.get p)._value with
        | none => none
        | some (w1, .ok result) =>
          match call fuel w1 h.resolve result with
          | none => none
          | some (w2, .ok _) => some w2
          | some (w2, .error e) => (call fuel w2 h.reject e).map (fun r => r.1)
        | some (w1, .error e) => (call fuel w1 h.reject e).map (fun r => r.1)) = some w1 →
      FlagsKept w w1 := by
    intro f hf
    split at hf
    · cases hf
    · rename_i wa res hx
      have k1 := ih.call _ _ _ _ hx
      split at hf
      · cases hf
      · rename_i wb _ hy
        injection hf with hf
        subst hf
        exact k1.then (ih.call _ _ _ _ hy)
      · rename_i wb e hy
        exact (k1.then (ih.call _ _ _ _ hy)).then (hmap _ _ _ hf)
    · rename_i wa e hx
      exact (ih.call _ _ _ _ hx).then (hmap _ _ _ hf)
  unfold runReaction at hr
  split at hr
  · split at hr
    · exact hbody _ hr
    · exact hmap _ _ _ hr
  · split at hr
    · exact hbody _ hr
    · exact hmap _ _ _ hr
  · injection hr with hr
    subst hr
    exact FlagsKept.same_flags w

theorem kept_processMicrotasks : ∀ (fuel : Nat) (w w1 : World),
    processMicrotasks fuel w = some w1 → FlagsKept w w1 := by
  intro fuel
  induction fuel with
  | zero =>
    intro w w1 h
    simp [processMicrotasks] at h
  | succ n ih =>
    intro w w1 h
    rw [processMicrotasks] at h
    split at h
    · injection h with h
      subst h
      exact FlagsKept.same_flags w
    · split at h
      · cases h
      · rename_i wa hx
        exact ((kept_runReaction _ _ _ _ _ hx).after rfl).then (ih _ _ h)

end JS
end GoJS

namespace GoJS
namespace JS

theorem After.kept {w w1 : World} (h : After w w1) : FlagsKept w w1 := by
  induction h with
  | refl => exact FlagsKept.same_flags _
  | exec fuel code r _ hx ih => exact ih.then ((keptAt fuel).exec _ _ _ hx)
  | call fuel f a r _ hx ih => exact ih.then ((keptAt fuel).call _ _ _ _ hx)
  | micro fuel w2 _ hx ih => exact ih.then (kept_processMicrotasks _ _ _ hx)

/-- A call of one of the two callbacks of an adoption leaves the variable `called` set. -/
theorem guard_sets_flag (p c : Nat) (x : World) (f : Fn) (a : Value) (fuel : Nat)
    (r : World × Outcome) (hc : c < x.called.length)
    (hf : f = Fn.native (Native.adoptResolve p c) ∨ f = Fn.native (Native.adoptReject p c))
    (h : call fuel x f a = some r) : r.1.called.getD c false = true := by
  have hset : (({ x with called := x.called.set c true } : World)).called.getD c false = true :=
    getD_set_self _ _ _ _ hc
  cases fuel with
  | zero => simp [call] at h
  | succ n =>
    rcases hf with rfl | rfl
    · rw [call] at h
      split_ifs at h with hflag
      · injection h with h
        subst h
        exact hflag
      · obtain ⟨w2, hw, rfl⟩ := Option.map_eq_some'.1 h
        exact ((keptAt n).res _ _ _ _ hw).2 c hset
    · rw [call] at h
      split_ifs at h with hflag
      · injection h with h
        subst h
        exact hflag
      · injection h with h
        subst h
        show (Promise._reject _ p a).called.getD c false = true
        rw [Promise._reject_called]
        exact hset

/-- C18: let the pending promise `p` be resolved with a thenable `o` whose `then` member
can be read and is a function `body`; `c` is the new variable `called`, and the two
callbacks refer to it.  Then the resolution is the call of `body` with the two callbacks:
when that call ends with `called` set, the resolution ends in the world that `body` left,
whether `body` raised an error or not, and only when it ends with `called` unset does
an error reject `p`.  The first call of a callback sets `called` and is `p._resolve` or
`p._reject` of the argument.  And after a call of either callback, whatever happens next,
`called` remains set and every call of either callback returns at once and leaves the world
as it is. -/
theorem thenable_callbacks_first_call_only (fuel : Nat) (w w1 : World) (p o : Nat) (r0 : Value)
    (body : Native → Native → Code) (hpend : (w.get p)._state = PromiseState.PENDING)
    (hget : exec fuel w (w.objects.getD o default).getter = some (w1, .ok r0))
    (hmem : (w.objects.getD o default).member = some body) :
    (∀ w3 out, exec fuel ({ w1 with called := w1.called ++ [false] } : World)
        (body (Native.adoptResolve p w1.called.length) (Native.adoptReject p w1.called.length)) =
        some (w3, out) →
      (w3.called.getD w1.called.length false = true →
        Promise._resolve (fuel + 1) w p (Value.object o) = some w3) ∧
      (w3.called.getD w1.called.length false = false →
        (∀ e, out = .error e →
          Promise._resolve (fuel + 1) w p (Value.object o) = some (Promise._reject w3 p e)) ∧
        (∀ r, out = .ok r → Promise._resolve (fuel + 1) w p (Value.object o) = some w3))) ∧
    (∀ (x : World) (a : Value) (fuel1 : Nat), x.called.getD w1.called.length false = false →
      call (fuel1 + 1) x (Fn.native (Native.adoptResolve p w1.called.length)) a =
        (Promise._resolve fuel1
          ({ x with called := x.called.set w1.called.length true } : World) p a).map
          (fun w2 => (w2, .ok Value.undefined)) ∧
      call (fuel1 + 1) x (Fn.native (Native.adoptReject p w1.called.length)) a =
        some (Promise._reject ({ x with called := x.called.set w1.called.length true } : World)
          p a, .ok Value.undefined)) ∧
    (∀ (x : World) (f : Fn) (a : Value) (fuel1 : Nat) (r1 : World × Outcome),
      w1.called.length < x.called.length →
      (f = Fn.native (Native.adoptResolve p w1.called.length) ∨
        f = Fn.native (Native.adoptReject p w1.called.length)) →
      call fuel1 x f a = some r1 →
      ∀ y, After r1.1 y →
        y.called.getD w1.called.length false = true ∧
        ∀ (fuel2 : Nat) (b : Value),
          call (fuel2 + 1) y (Fn.native (Native.adoptResolve p w1.called.length)) b =
            some (y, .ok Value.undefined) ∧
          call (fuel2 + 1) y (Fn.native (Native.adoptReject p w1.called.length)) b =
            some (y, .ok Value.undefined)) := by
  refine ⟨fun w3 out hx => ?_, fun x a fuel1 hflag => ?_, fun x f a fuel1 r1 hlt hf hcall y hy => ?_⟩
  · have hres : Promise._resolve (fuel + 1) w p (Value.object o) =
        match out with
        | .error e =>
          if w3.called.getD w1.called.length false = true then some w3
          else some (Promise._reject w3 p e)
        | .ok _ => some w3 := by
      unfold Promise._resolve
      simp only [hpend, ne_eq, not_true_eq_false, if_false, Value.isPromise, Bool.false_eq_true,
        hget, hmem, hx]
      cases out <;> rfl
    refine ⟨fun hflag => ?_, fun hflag => ⟨fun e he => ?_, fun r he => ?_⟩⟩
    · rw [hres]
      cases out with
      | error e => simp only [hflag, if_true]
      | ok r => rfl
    · subst he
      rw [hres]
      simp only [hflag, Bool.false_eq_true, if_false]
    · subst he
      rw [hres]
  · constructor
    · rw [call]
      simp only [hflag, Bool.false_eq_true, if_false]
    · rw [call]
      simp only [hflag, Bool.false_eq_true, if_false]
  · have hflag : y.called.getD w1.called.length false = true :=
      hy.kept.2 _ (guard_sets_flag p _ x f a fuel1 r1 hlt hf hcall)
    refine ⟨hflag, fun fuel2 b => ⟨?_, ?_⟩⟩
    · rw [call]
      simp only [hflag, if_true]
    · rw [call]
      simp only [hflag, if_true]

/-- C18, witness: the pending promise 0 of `onePending` is resolved with a thenable whose
`then` calls `resolve(1)`, then `reject(2)`, and then throws 3: the promise is fulfilled
with 1, by the one assignment in the history. -/
theorem thenable_callbacks_first_call_only_witness :
    (onePending.get 0)._state = PromiseState.PENDING ∧
    exec 5 onePending (onePending.objects.getD 0 default).getter =
      some (onePending, .ok Value.undefined) ∧
    exec 5 onePendingThen
      (Code.call (Fn.native (Native.adoptResolve 0 0)) (Value.num 1) (fun _ =>
        Code.call (Fn.native (Native.adoptReject 0 0)) (Value.num 2)
          (fun _ => Code.raise (Value.num 3)))) = some (afterDoubleCall, .error (Value.num 3)) ∧
    afterDoubleCall.called.getD 0 false = true ∧
    Promise._resolve (5 + 1) onePending 0 (Value.object 0) = some afterDoubleCall ∧
    afterDoubleCall.get 0 = ⟨PromiseState.FULFILLED, Value.num 1, []⟩ :=
  ⟨rfl, rfl, rfl, rfl,
    ((thenable_callbacks_first_call_only 5 onePending onePending 0 0 Value.undefined
      (fun rs rj =>
        Code.call (Fn.native rs) (Value.num 1) (fun _ =>
          Code.call (Fn.native rj) (Value.num 2) (fun _ => Code.raise (Value.num 3))))
      rfl rfl rfl).1 afterDoubleCall (.error (Value.num 3)) rfl).1 rfl, rfl⟩

end JS
end GoJS

namespace GoJS
namespace JS

theorem Promise.settle_writes (w : World) (p : Nat) (s : PromiseState) (v : Value) :
    (Promise.settle w p s v).writes = w.writes ++ [(p, s, v)] := by
  unfold Promise.settle Promise._executeHandlers
  simp only
  split_ifs <;> rfl

/-- C19: the call of the `resolve` function of a pending promise `p` with `p` itself
returns, and what it does is `p._reject` of the error `Cannot resolve promise with itself`:
afterwards `p` is rejected with that error; the one assignment to a state made is that
rejection, so `p` is not fulfilled; no promise has been made and nothing is registered on
`p`, so `then` was not called, and no callbacks of an adoption have been made; only the
reactions that were registered on `p` are queued; and no other promise is touched. -/
theorem self_resolution_rejects (fuel : Nat) (w : World) (p : Nat) (hp : p < w.promises.length)
    (hs : (w.get p)._state = PromiseState.PENDING) :
    ∃ w1, call (fuel + 2) w (Fn.native (Native.resolveFn p)) (Value.promise p) =
        some (w1, .ok Value.undefined) ∧
      w1 = Promise._reject w p selfResolutionError ∧
      w1.get p = ⟨PromiseState.REJECTED, selfResolutionError, []⟩ ∧
      w1.writes = w.writes ++ [(p, PromiseState.REJECTED, selfResolutionError)] ∧
      w1.promises.length = w.promises.length ∧ w1.called = w.called ∧
      w1.microtasks = w.microtasks ++ (w.get p)._handlers.map (fun h => (p, h)) ∧
      (∀ q, q ≠ p → w1.get q = w.get q) := by
  have hrej := Promise._reject_pending w p selfResolutionError hs
  obtain ⟨a1, a2, a3, _, a5, a6⟩ := Promise.settle_full w p PromiseState.REJECTED
    selfResolutionError (by decide) hp
  refine ⟨_, ?_, rfl, by rw [hrej]; exact a1, by rw [hrej]; exact Promise.settle_writes _ _ _ _,
    by rw [hrej]; exact a3, by rw [hrej]; exact a6, by rw [hrej]; exact a2,
    by rw [hrej]; exact a5⟩
  rw [call, Promise._resolve]
  simp only [hs, ne_eq, not_true_eq_false, if_false, Value.isPromise, beq_self_eq_true, if_true,
    Option.map_some']
  rfl

/-- C19, witness: the pending promise 0 of `twoPending` resolved with itself is rejected. -/
theorem self_resolution_rejects_witness :
    0 < twoPending.promises.length ∧ (twoPending.get 0)._state = PromiseState.PENDING ∧
    ∃ w1, call (0 + 2) twoPending (Fn.native (Native.resolveFn 0)) (Value.promise 0) =
        some (w1, .ok Value.undefined) ∧
      w1.get 0 = ⟨PromiseState.REJECTED, selfResolutionError, []⟩ ∧
      w1.promises.length = 2 := by
  obtain ⟨w1, h1, _, h3, _, h5, _⟩ := self_resolution_rejects 0 twoPending 0 (by decide) rfl
  exact ⟨by decide, rfl, w1, h1, h3, h5⟩

end JS
end GoJS

namespace GoJS
namespace JS

theorem Waiting.of_get {w w1 : World} : ∀ (ls : List (Option Fn × Option Fn)) (n : Nat),
    Waiting w n ls → (∀ q, n ≤ q → w1.get q = w.get q) → Waiting w1 n ls := by
  intro ls
  induction ls with
  | nil =>
    intro n h hq
    show w1.get n = _
    rw [hq n (le_refl _)]
    exact h
  | cons l ls ih =>
    intro n h hq
    refine ⟨?_, ih (n + 1) h.2 (fun q hle => hq q (by omega))⟩
    rw [hq n (le_refl _)]
    exact h.1

/-- The chain built on a pending promise that is the last one allocated. -/
theorem thenChain_pending : ∀ (ls : List (Option Fn × Option Fn)) (w : World) (n : Nat),
    w.promises.length = n + 1 → w.get n = ⟨PromiseState.PENDING, Value.undefined, []⟩ →
    (thenChain w n ls).2 = n + ls.length ∧
    (thenChain w n ls).1.promises.length = n + ls.length + 1 ∧
    Waiting (thenChain w n ls).1 n ls ∧
    (thenChain w n ls).1.microtasks = w.microtasks ∧
    (∀ q, q < n → (thenChain w n ls).1.get q = w.get q) ∧
    (thenChain w n ls).1.objects = w.objects := by
  intro ls
  induction ls with
  | nil =>
    intro w n hlen hn
    exact ⟨rfl, hlen, hn, rfl, fun _ _ => rfl, rfl⟩
  | cons l ls ih =>
    intro w n hlen hn
    obtain ⟨t1, t2, t3, t4, t5, _, t7, _⟩ := Promise.then_spec w n l.1 l.2 (by omega)
    obtain ⟨t7a, t7b⟩ := t7 (by rw [hn])
    rw [hlen] at t1 t2 t3
    obtain ⟨i1, i2, i3, i4, i5, i6⟩ := ih (Promise.then_ w n l.1 l.2).1 (n + 1) t2 t3
    have hunf : thenChain w n (l :: ls) = thenChain (Promise.then_ w n l.1 l.2).1 (n + 1) ls := by
      rw [thenChain, t1]
    rw [hunf]
    refine ⟨by rw [i1, List.length_cons]; omega, by rw [i2, List.length_cons]; omega,
      ⟨?_, i3⟩, by rw [i4, t7a], ?_, by rw [i6, t5]⟩
    · rw [i5 n (by omega), t7b, hn, hlen]
      rfl
    · intro q hq
      rw [i5 q (by omega), t4 q (by omega) (by omega)]

/-- The chain built on a rejected promise with nothing registered, in a world with no
microtask queued. -/
theorem thenChain_rejected (w : World) (p : Nat) (r : Value) (l : Option Fn × Option Fn)
    (ls : List (Option Fn × Option Fn)) (hp : p < w.promises.length)
    (hget : w.get p = ⟨PromiseState.REJECTED, r, []⟩) (hm : w.microtasks = []) :
    Armed (thenChain w p (l :: ls)).1 r p w.promises.length l ls ∧
    (thenChain w p (l :: ls)).2 = w.promises.length + ls.length ∧
    (thenChain w p (l :: ls)).1.objects = w.objects ∧
    (∀ q, q < w.promises.length → (thenChain w p (l :: ls)).1.get q = w.get q) := by
  obtain ⟨t1, t2, t3, t4, t5, _, _, t8⟩ := Promise.then_spec w p l.1 l.2 hp
  obtain ⟨t8a, t8b⟩ := t8 (by rw [hget]; intro hc; cases hc)
  obtain ⟨i1, i2, i3, i4, i5, i6⟩ := thenChain_pending ls (Promise.then_ w p l.1 l.2).1
    w.promises.length t2 t3
  have hunf : thenChain w p (l :: ls) =
      thenChain (Promise.then_ w p l.1 l.2).1 w.promises.length ls := by
    rw [thenChain, t1]
  rw [hunf]
  have hold : ∀ q, q < w.promises.length →
      (thenChain (Promise.then_ w p l.1 l.2).1 w.promises.length ls).1.get q = w.get q := by
    intro q hq
    rw [i5 q hq]
    by_cases e : q = p
    · rw [e, t8b, hget]
    · exact t4 q e hq
  refine ⟨⟨?_, ?_, hp, i3, i2⟩, i1, by rw [i6, t5], hold⟩
  · rw [i4, t8a, hm, hget]
    rfl
  · rw [hold p hp, hget]

/-- The reaction of a link without a rejection handler rejects the next promise. -/
theorem Armed.pass_on {w : World} {r : Value} {a n : Nat} {f : Option Fn}
    {ls : List (Option Fn × Option Fn)} (h : Armed w r a n (f, none) ls) :
    (∀ F, processMicrotasks (F + 2) w =
      processMicrotasks (F + 1)
        (Promise.settle { w with microtasks := [] } n PromiseState.REJECTED r)) ∧
    (Promise.settle { w with microtasks := [] } n PromiseState.REJECTED r).get n =
      ⟨PromiseState.REJECTED, r, []⟩ ∧
    (Promise.settle { w with microtasks := [] } n PromiseState.REJECTED r).microtasks =
      (w.get n)._handlers.map (fun x => (n, x)) ∧
    (Promise.settle { w with microtasks := [] } n PromiseState.REJECTED r).promises.length =
      w.promises.length ∧
    (Promise.settle { w with microtasks := [] } n PromiseState.REJECTED r).objects = w.objects ∧
    (∀ q, q ≠ n →
      (Promise.settle { w with microtasks := [] } n PromiseState.REJECTED r).get q = w.get q) := by
  have hn : n < w.promises.length := by rw [h.len]; omega
  have hpend : (w.get n)._state = PromiseState.PENDING := by
    cases ls with
    | nil => have := h.wait; rw [show w.get n = _ from this]
    | cons l ls => have := h.wait.1; rw [this]
  obtain ⟨s1, s2, s3, s4, s5⟩ := Promise.settle_spec ({ w with microtasks := [] } : World) n
    PromiseState.REJECTED r (by decide) hn
  refine ⟨?_, s1, ?_, s3, s4, s5⟩
  · intro F
    have hsrc : (({ w with microtasks := [] } : World).get a)._state = PromiseState.REJECTED := by
      show (w.get a)._state = _
      rw [h.src]
    have hval : (({ w with microtasks := [] } : World).get a)._value = r := by
      show (w.get a)._value = _
      rw [h.src]
    have hreact : runReaction (F + 1) ({ w with microtasks := [] } : World) a
        (thenHandler (f, none) n) =
        some (Promise.settle { w with microtasks := [] } n PromiseState.REJECTED r) := by
      unfold runReaction
      simp only [hsrc, thenHandler, hval]
      rw [call]
      simp only [Option.map_some']
      rw [Promise._reject_pending ({ w with microtasks := [] } : World) n r hpend]
    rw [processMicrotasks]
    simp only [h.queue, hreact]
  · rw [s2]
    rfl

/-- A rejection passes through every link without a rejection handler and arrives at the
first link `lc` behind them. -/
theorem Armed.run {r : Value} {lc : Option Fn × Option Fn} : ∀ (fs : List (Option Fn))
    (w : World) (a n : Nat) (f : Option Fn),
    Armed w r a n (f, none) (fs.map (fun g => (g, none)) ++ [lc]) →
    ∃ w1, (∀ F, processMicrotasks (F + fs.length + 2) w = processMicrotasks (F + 1) w1) ∧
      Armed w1 r (n + fs.length) (n + fs.length + 1) lc [] ∧
      (∀ i, i ≤ fs.length → w1.get (n + i) = ⟨PromiseState.REJECTED, r, []⟩) ∧
      w1.objects = w.objects ∧ (∀ q, q < n → w1.get q = w.get q) := by
  intro fs
  induction fs with
  | nil =>
    intro w a n f h
    obtain ⟨e1, e2, e3, e4, e5, e6⟩ := h.pass_on
    have hw := h.wait
    simp only [List.map_nil, List.nil_append] at hw
    obtain ⟨hw1, hw2⟩ := hw
    refine ⟨_, fun F => e1 F, ⟨?_, e2, by omega, ?_, ?_⟩, ?_, e5, fun q hq => e6 q (by omega)⟩
    · rw [e3, hw1]
      rfl
    · show (Promise.settle _ n PromiseState.REJECTED r).get (n + 1) = _
      rw [e6 _ (by omega)]
      exact hw2
    · rw [e4, h.len]
      simp
    · intro i hi
      have : i = 0 := by simpa using hi
      subst this
      exact e2
  | cons g fs ih =>
    intro w a n f h
    obtain ⟨e1, e2, e3, e4, e5, e6⟩ := h.pass_on
    have hw := h.wait
    simp only [List.map_cons, List.cons_append] at hw
    obtain ⟨hw1, hw2⟩ := hw
    have harm : Armed (Promise.settle { w with microtasks := [] } n PromiseState.REJECTED r) r n
        (n + 1) (g, none) (fs.map (fun g => (g, none)) ++ [lc]) := by
      refine ⟨?_, e2, by omega, ?_, ?_⟩
      · rw [e3, hw1]
        rfl
      · exact Waiting.of_get _ _ hw2 (fun q hq => e6 q (by omega))
      · rw [e4, h.len]
        simp only [List.map_cons, List.cons_append, List.length_cons]
        omega
    obtain ⟨w1, i1, i2, i3, i4, i5⟩ := ih _ n (n + 1) g harm
    refine ⟨w1, ?_, ?_, ?_, by rw [i4, e5], fun q hq => by rw [i5 q (by omega), e6 q (by omega)]⟩
    · intro F
      rw [List.length_cons, show F + (fs.length + 1) + 2 = (F + fs.length + 1) + 2 by omega, e1,
        show F + fs.length + 1 + 1 = F + fs.length + 2 by omega, i1]
    · rw [List.length_cons, show n + (fs.length + 1) = n + 1 + fs.length by omega]
      exact i2
    · intro i hi
      rcases Nat.eq_zero_or_pos i with h0 | hpos
      · subst h0
        rw [Nat.add_zero, i5 n (by omega)]
        exact e2
      · rw [List.length_cons] at hi
        have := i3 (i - 1) (by omega)
        rw [show n + 1 + (i - 1) = n + i by omega] at this
        exact this

/-- The reaction of a link whose rejection handler returns a value that is not thenable
fulfils the promise derived by that link. -/
theorem Armed.caught {w : World} {r x : Value} {a n : Nat} {body : Value → Code}
    (h : Armed w r a n (none, some (Fn.user body)) []) (hb : body r = Code.ret x)
    (hx : NonThenable w x) (F : Nat) :
    processMicrotasks (F + 6) w =
      some (Promise.settle { w with microtasks := [] } n PromiseState.FULFILLED x) ∧
    (Promise.settle { w with microtasks := [] } n PromiseState.FULFILLED x).get n =
      ⟨PromiseState.FULFILLED, x, []⟩ ∧
    (Promise.settle { w with microtasks := [] } n PromiseState.FULFILLED x).microtasks = [] ∧
    (∀ q, q ≠ n →
      (Promise.settle { w with microtasks := [] } n PromiseState.FULFILLED x).get q = w.get q) := by
  have hn : n < w.promises.length := by rw [h.len]; omega
  have hnp : w.get n = ⟨PromiseState.PENDING, Value.undefined, []⟩ := h.wait
  obtain ⟨s1, s2, _, _, s5⟩ := Promise.settle_spec ({ w with microtasks := [] } : World) n
    PromiseState.FULFILLED x (by decide) hn
  have s2' : (Promise.settle { w with microtasks := [] } n PromiseState.FULFILLED x).microtasks
      = [] := by
    rw [s2]
    show [] ++ List.map _ (w.get n)._handlers = []
    rw [hnp]
    rfl
  refine ⟨?_, s1, s2', s5⟩
  have hsrc : (({ w with microtasks := [] } : World).get a)._state = PromiseState.REJECTED := by
    show (w.get a)._state = _
    rw [h.src]
  have hval : (({ w with microtasks := [] } : World).get a)._value = r := by
    show (w.get a)._value = _
    rw [h.src]
  have c1 : call (F + 5) ({ w with microtasks := [] } : World) (Fn.user body) r =
      some ({ w with microtasks := [] }, .ok x) := by
    rw [call, hb]
    exact exec_ret _ _ _
  have c2 : call (F + 5) ({ w with microtasks := [] } : World)
      (Fn.native (Native.resolveFn n)) x =
      some (Promise.settle { w with microtasks := [] } n PromiseState.FULFILLED x,
        .ok Value.undefined) := by
    rw [call, Promise._resolve_nonThenable (F + 2) ({ w with microtasks := [] } : World) n x
      (hx.congr rfl) (by show (w.get n)._state = _; rw [hnp])]
    rfl
  have hreact : runReaction (F + 5) ({ w with microtasks := [] } : World) a
      (thenHandler (none, some (Fn.user body)) n) =
      some (Promise.settle { w with microtasks := [] } n PromiseState.FULFILLED x) := by
    unfold runReaction
    simp only [hsrc, thenHandler, hval, c1, c2]
  rw [processMicrotasks]
  simp only [h.queue, hreact]
  exact processMicrotasks_empty _ _ s2'

/-- The reaction of `then` without a fulfilment handler, run for a fulfilled promise,
resolves the derived promise with the value. -/
theorem runReaction_pass_value (k : Nat) (w : World) (p q : Nat) (g : Option Fn)
    (h : (w.get p)._state = PromiseState.FULFILLED) :
    runReaction (k + 1) w p (thenHandler (none, g) q) = Promise._resolve k w q (w.get p)._value := by
  unfold runReaction
  simp only [h, thenHandler]
  rw [call]
  cases Promise._resolve k w q (w.get p)._value <;> rfl

/-- The reaction of `then` without a rejection handler, run for a rejected promise,
rejects the derived promise with the reason. -/
theorem runReaction_pass_reason (k : Nat) (w : World) (p q : Nat) (f : Option Fn)
    (h : (w.get p)._state = PromiseState.REJECTED) :
    runReaction (k + 1) w p (thenHandler (f, none) q) =
      some (Promise._reject w q (w.get p)._value) := by
  unfold runReaction
  simp only [h, thenHandler]
  rw [call]
  rfl

end JS
end GoJS

namespace GoJS
namespace JS

/-- C26: a reaction registered by `then` without the matching handler passes the settlement
on.  Run for a fulfilled promise, the reaction of `then(undefined, g)` resolves the derived
promise with the value; run for a rejected promise, the reaction of `then(f)` rejects the
derived promise with the reason.  Hence, for a promise `p` rejected with `r` in a world with
no microtask queued, after `p.then(f1).then(f2)...then(fk).catch(h)` and the drain of the
microtask queue every promise derived by a `then(fi)` is rejected with `r`, whatever the
`fi` are, and the promise derived by `catch(h)` is fulfilled with the value `x` that `h`
returns for `r` (`x` not thenable). -/
theorem rejection_passes_through_links_without_handler (fuel : Nat) (w : World) (p : Nat)
    (r x : Value) (fs : List (Option Fn)) (body : Value → Code) (hp : p < w.promises.length)
    (hget : w.get p = ⟨PromiseState.REJECTED, r, []⟩) (hm : w.microtasks = [])
    (hb : body r = Code.ret x) (hx : NonThenable w x) :
    (thenChain w p (fs.map (fun f => (f, none)) ++ [(none, some (Fn.user body))])).2 =
      w.promises.length + fs.length ∧
    (∃ w', processMicrotasks (fuel + fs.length + 6)
        (thenChain w p (fs.map (fun f => (f, none)) ++ [(none, some (Fn.user body))])).1 =
          some w' ∧
      w'.microtasks = [] ∧ w'.get p = ⟨PromiseState.REJECTED, r, []⟩ ∧
      (∀ i, i < fs.length →
        w'.get (w.promises.length + i) = ⟨PromiseState.REJECTED, r, []⟩) ∧
      w'.get (w.promises.length + fs.length) = ⟨PromiseState.FULFILLED, x, []⟩) ∧
    (∀ (w0 : World) (p0 : Nat) (f g : Option Fn), p0 < w0.promises.length →
      (w0.get p0)._state ≠ PromiseState.PENDING → (w0.get p0)._handlers = [] →
      (Promise.then_ w0 p0 f g).2 = w0.promises.length ∧
      (Promise.then_ w0 p0 f g).1.microtasks =
        w0.microtasks ++ [(p0, thenHandler (f, g) w0.promises.length)]) ∧
    (∀ (w0 : World) (p0 q : Nat) (g : Option Fn) (k : Nat),
      (w0.get p0)._state = PromiseState.FULFILLED →
      runReaction (k + 1) w0 p0 (thenHandler (none, g) q) =
        Promise._resolve k w0 q (w0.get p0)._value) ∧
    (∀ (w0 : World) (p0 q : Nat) (f : Option Fn) (k : Nat),
      (w0.get p0)._state = PromiseState.REJECTED →
      runReaction (k + 1) w0 p0 (thenHandler (f, none) q) =
        some (Promise._reject w0 q (w0.get p0)._value)) := by
  refine ⟨?_, ?_, ?_, fun w0 p0 q g k h => runReaction_pass_value k w0 p0 q g h,
    fun w0 p0 q f k h => runReaction_pass_reason k w0 p0 q f h⟩
  · cases fs with
    | nil =>
      rw [List.map_nil, List.nil_append,
        (thenChain_rejected w p r (none, some (Fn.user body)) [] hp hget hm).2.1]
      rfl
    | cons f fs =>
      rw [List.map_cons, List.cons_append,
        (thenChain_rejected w p r (f, none) _ hp hget hm).2.1]
      simp only [List.length_append, List.length_map, List.length_cons, List.length_nil]
  · cases fs with
    | nil =>
      obtain ⟨b1, _, b3, b4⟩ := thenChain_rejected w p r (none, some (Fn.user body)) [] hp hget hm
      obtain ⟨c1, c2, c3, c4⟩ := b1.caught hb (hx.congr b3) fuel
      simp only [List.map_nil, List.nil_append, List.length_nil, Nat.add_zero]
      refine ⟨_, c1, c3, ?_, fun i hi => absurd hi (by omega), c2⟩
      rw [c4 p (by omega), b4 p hp, hget]
    | cons f fs =>
      obtain ⟨b1, _, b3, b4⟩ := thenChain_rejected w p r (f, none)
        (fs.map (fun f => (f, none)) ++ [(none, some (Fn.user body))]) hp hget hm
      obtain ⟨w1, i1, i2, i3, i4, i5⟩ := Armed.run fs _ p w.promises.length f b1
      obtain ⟨c1, c2, c3, c4⟩ := i2.caught hb (hx.congr (by rw [i4, b3])) fuel
      simp only [List.map_cons, List.cons_append, List.length_cons]
      refine ⟨_, ?_, c3, ?_, ?_, ?_⟩
      · rw [show fuel + (fs.length + 1) + 6 = (fuel + 5) + fs.length + 2 by omega, i1]
        exact c1
      · rw [c4 p (by omega), i5 p hp, b4 p hp, hget]
      · intro i hi
        rw [c4 _ (by omega)]
        exact i3 i (by omega)
      · rw [show w.promises.length + (fs.length + 1) = w.promises.length + fs.length + 1 by omega]
        exact c2
  · intro w0 p0 f g hp0 hs hh
    obtain ⟨t1, t2, _⟩ := Promise.then_settled w0 p0 f g hs hp0
    refine ⟨t1, ?_⟩
    rw [t2, hh]
    rfl

/-- C26, witness: promise 0 is rejected with the error `boom`; after
`p.then(f).then(undefined).catch(e => e)` and the drain, the promises 1 and 2 are rejected
with `boom` and the promise 3 is fulfilled with `boom`. -/
theorem rejection_passes_through_witness :
    (0 : Nat) < rejectedOne.promises.length ∧
    rejectedOne.get 0 = ⟨PromiseState.REJECTED, Value.error "boom", []⟩ ∧
    rejectedOne.microtasks = [] ∧ NonThenable rejectedOne (Value.error "boom") ∧
    ∃ w', processMicrotasks 8
        (thenChain rejectedOne 0 [(some (Fn.user (fun _ => Code.ret (Value.num 1))), none),
          (none, none), (none, some (Fn.user Code.ret))]).1 = some w' ∧
      w'.microtasks = [] ∧ w'.get 0 = ⟨PromiseState.REJECTED, Value.error "boom", []⟩ ∧
      (∀ i, i < 2 → w'.get (1 + i) = ⟨PromiseState.REJECTED, Value.error "boom", []⟩) ∧
      w'.get 3 = ⟨PromiseState.FULFILLED, Value.error "boom", []⟩ :=
  ⟨by decide, rfl, rfl, trivial,
    (rejection_passes_through_links_without_handler 0 rejectedOne 0 (Value.error "boom")
      (Value.error "boom") [some (Fn.user (fun _ => Code.ret (Value.num 1))), none] Code.ret
      (by decide) rfl rfl rfl trivial).2.1⟩

end JS
end GoJS

namespace GoJS
namespace JS

theorem holdsAt_zero (R : World → World → Prop) : HoldsAt R 0 := by
  refine ⟨?_, ?_, ?_, ?_, ?_, ?_, ?_, ?_⟩
  · intro w p v w1 h
    simp [Promise._resolve] at h
  · intro w v r h
    simp [Promise.resolve] at h
  · intro w f a r h
    simp [call] at h
  · intro w vs i H w1 h
    simp [forEach] at h
  · intro w v r h
    simp [Promise.all] at h
  · intro w v r h
    simp [Promise.race] at h
  · intro w v r h
    simp [Promise.allSettled] at h
  · intro w code r h
    simp [exec] at h

theorem holds_res {R : World → World → Prop} (S : Stable R) (fuel : Nat) (ih : HoldsAt R fuel) :
    ∀ w p v w1, Promise._resolve (fuel + 1) w p v = some w1 → R w w1 := by
  intro w p v w1 h
  unfold Promise._resolve at h
  split_ifs at h with h1 h2
  · injection h with h
    subst h
    exact S.same w
  · injection h with h
    subst h
    exact S.reject _ _ _
  · split at h
    · injection h with h
      subst h
      exact S.next _ _ _ (S.called w _) (S.then_ _ _ _ _)
    · split at h
      · cases h
      · rename_i wa e hx
        injection h with h
        subst h
        exact S.next _ _ _ (ih.exec _ _ _ hx) (S.reject _ _ _)
      · rename_i wa r hx
        have k1 : R w wa := ih.exec _ _ _ hx
        split at h
        · rename_i body hb
          dsimp only at h
          split at h
          · cases h
          · rename_i wb e hy
            have k2 : R wa wb := S.next _ _ _ (S.called wa _) (ih.exec _ _ _ hy)
            split_ifs at h
            · injection h with h
              subst h
              exact S.next _ _ _ k1 k2
            · injection h with h
              subst h
              exact S.next _ _ _ (S.next _ _ _ k1 k2) (S.reject _ _ _)
          · rename_i wb r' hy
            have k2 : R wa wb := S.next _ _ _ (S.called wa _) (ih.exec _ _ _ hy)
            injection h with h
            subst h
            exact S.next _ _ _ k1 k2
        · injection h with h
          subst h
          exact S.next _ _ _ k1 (S.fulfil _ _ _)
    · injection h with h
      subst h
      exact S.fulfil _ _ _

theorem holds_resolve {R : World → World → Prop} (S : Stable R) (fuel : Nat)
    (ih : HoldsAt R fuel) :
    ∀ w v r, Promise.resolve (fuel + 1) w v = some r → R w r.1 := by
  intro w v r h
  unfold Promise.resolve at h
  split at h
  · injection h with h
    subst h
    exact S.same w
  · dsimp only at h
    split at h
    · cases h
    · rename_i w1 hx
      injection h with h
      subst h
      exact S.next _ _ _ (S.alloc w) (ih.res _ _ _ _ hx)

theorem holds_of_map {R : World → World → Prop} {w : World} {o : Option World}
    {r : World × Outcome} {out : Outcome}
    (h : o.map (fun w1 => (w1, out)) = some r) (hk : ∀ w1, o = some w1 → R w w1) :
    R w r.1 := by
  obtain ⟨w1, hw, rfl⟩ := Option.map_eq_some'.1 h
  exact hk w1 hw

theorem holds_counted {R : World → World → Prop} (S : Stable R) (fuel : Nat)
    (ih : HoldsAt R fuel) (w : World) (ctx : Nat) (c1 : Ctx) (r : World × Outcome)
    (h : (if c1.remaining = 0 then
        (Promise._resolve fuel ({ w with ctxs := w.ctxs.set ctx c1 } : World) c1.target
          (Value.array c1.results)).map (fun w2 => (w2, (.ok Value.undefined : Outcome)))
      else some (({ w with ctxs := w.ctxs.set ctx c1 } : World), .ok Value.undefined)) = some r) :
    R w r.1 := by
  split_ifs at h
  · exact holds_of_map h (fun w1 hw => S.next _ _ _ (S.ctxs w _) (ih.res _ _ _ _ hw))
  · injection h with h
    subst h
    exact S.ctxs w _

theorem holds_finally {R : World → World → Prop} (S : Stable R) (fuel : Nat)
    (ih : HoldsAt R fuel) (w : World) (onFinally : Option Fn) (tail : Fn) (r : World × Outcome)
    (h : (match onFinally with
      | none => some (w, (.error (Value.error "onFinally is not a function") : Outcome))
      | some g =>
        match call fuel w g Value.undefined with
        | none => none
        | some (w1, .error e) => some (w1, .error e)
        | some (w1, .ok r) =>
          match Promise.resolve fuel w1 r with
          | none => none
          | some (w2, q) =>
            some ((Promise.then_ w2 q (some tail) none).1,
              .ok (Value.promise (Promise.then_ w2 q (some tail) none).2))) = some r) :
    R w r.1 := by
  split at h
  · injection h with h
    subst h
    exact S.same w
  · split at h
    · cases h
    · rename_i w1 e hx
      injection h with h
      subst h
      exact ih.call _ _ _ _ hx
    · rename_i w1 r1 hx
      split at h
      · cases h
      · rename_i w2 q hy
        injection h with h
        subst h
        exact S.next _ _ _ (S.next _ _ _ (ih.call _ _ _ _ hx) (ih.resolve _ _ _ hy))
          (S.then_ _ _ _ _)

theorem holds_call {R : World → World → Prop} (S : Stable R) (fuel : Nat) (ih : HoldsAt R fuel) :
    ∀ w f a r, call (fuel + 1) w f a = some r → R w r.1 := by
  intro w f a r h
  unfold call at h
  split at h
  · exact holds_of_map h (fun w1 hw => ih.res _ _ _ _ hw)
  · injection h with h
    subst h
    exact S.reject _ _ _
  · split_ifs at h
    · injection h with h
      subst h
      exact S.same w
    · exact holds_of_map h (fun w1 hw => S.next _ _ _ (S.called w _) (ih.res _ _ _ _ hw))
  · split_ifs at h
    · injection h with h
      subst h
      exact S.same w
    · injection h with h
      subst h
      exact S.next _ _ _ (S.called w _) (S.reject _ _ _)
  · injection h with h
    subst h
    exact S.same w
  · injection h with h
    subst h
    exact S.same w
  · exact holds_counted S fuel ih w _ _ r h
  · injection h with h
    subst h
    exact S.reject _ _ _
  · exact holds_counted S fuel ih w _ _ r h
  · exact holds_counted S fuel ih w _ _ r h
  · exact ih.exec _ _ _ h
  · exact holds_finally S fuel ih w _ _ r h
  · exact holds_finally S fuel ih w _ _ r h

theorem holds_forEach {R : World → World → Prop} (S : Stable R) (fuel : Nat)
    (ih : HoldsAt R fuel) :
    ∀ w vs i H w1, forEach (fuel + 1) w vs i H = some w1 → R w w1 := by
  intro w vs i H w1 h
  cases vs with
  | nil =>
    rw [forEach] at h
    injection h with h
    subst h
    exact S.same w
  | cons v rest =>
    rw [forEach] at h
    split at h
    · cases h
    · rename_i wa q hx
      exact S.next _ _ _ (S.next _ _ _ (ih.resolve _ _ _ hx) (S.then_ _ _ _ _))
        (ih.forEach _ _ _ _ _ h)

theorem holds_of_map_pair {R : World → World → Prop} {w : World} {o : Option World}
    {r : World × Nat} {q : Nat}
    (h : o.map (fun w1 => (w1, q)) = some r) (hk : ∀ w1, o = some w1 → R w w1) :
    R w r.1 := by
  obtain ⟨w1, hw, rfl⟩ := Option.map_eq_some'.1 h
  exact hk w1 hw

theorem holds_all {R : World → World → Prop} (S : Stable R) (fuel : Nat) (ih : HoldsAt R fuel) :
    ∀ w v r, Promise.all (fuel + 1) w v = some r → R w r.1 := by
  intro w v r h
  unfold Promise.all at h
  dsimp only at h
  split at h
  · split_ifs at h
    · exact holds_of_map_pair h (fun w1 hw => S.next _ _ _ (S.alloc w) (ih.res _ _ _ _ hw))
    · exact holds_of_map_pair h (fun w1 hw =>
        S.next _ _ _ (S.next _ _ _ (S.alloc w) (S.ctxs _ _)) (ih.forEach _ _ _ _ _ hw))
  · injection h with h
    subst h
    exact S.next _ _ _ (S.alloc w) (S.reject _ _ _)

theorem holds_race {R : World → World → Prop} (S : Stable R) (fuel : Nat) (ih : HoldsAt R fuel) :
    ∀ w v r, Promise.race (fuel + 1) w v = some r → R w r.1 := by
  intro w v r h
  unfold Promise.race at h
  dsimp only at h
  split at h
  · exact holds_of_map_pair h (fun w1 hw => S.next _ _ _ (S.alloc w) (ih.forEach _ _ _ _ _ hw))
  · injection h with h
    subst h
    exact S.next _ _ _ (S.alloc w) (S.reject _ _ _)

theorem holds_allSettled {R : World → World → Prop} (S : Stable R) (fuel : Nat)
    (ih : HoldsAt R fuel) :
    ∀ w v r, Promise.allSettled (fuel + 1) w v = some r → R w r.1 := by
  intro w v r h
  unfold Promise.allSettled at h
  dsimp only at h
  split at h
  · split_ifs at h
    · exact holds_of_map_pair h (fun w1 hw => S.next _ _ _ (S.alloc w) (ih.res _ _ _ _ hw))
    · exact holds_of_map_pair h (fun w1 hw =>
        S.next _ _ _ (S.next _ _ _ (S.alloc w) (S.ctxs _ _)) (ih.forEach _ _ _ _ _ hw))
  · exact holds_of_map_pair h (fun w1 hw => S.next _ _ _ (S.alloc w) (ih.res _ _ _ _ hw))

theorem holds_exec {R : World → World → Prop} (S : Stable R) (fuel : Nat) (ih : HoldsAt R fuel) :
    ∀ w code r, exec (fuel + 1) w code = some r → R w r.1 := by
  intro w code r h
  unfold exec at h
  split at h
  · injection h with h
    subst h
    exact S.same w
  · injection h with h
    subst h
    exact S.same w
  · split at h
    · cases h
    · rename_i w1 e hx
      injection h with h
      subst h
      exact ih.call _ _ _ _ hx
    · rename_i w1 r1 hx
      exact S.next _ _ _ (ih.call _ _ _ _ hx) (ih.exec _ _ _ h)
  · split at h
    · injection h with h
      subst h
      exact S.same w
    · dsimp only at h
      split at h
      · cases h
      · rename_i body w1 e hx
        exact S.next _ _ _ (S.next _ _ _ (S.alloc w) (ih.exec _ _ _ hx))
          (S.next _ _ _ (S.reject _ _ _) (ih.exec _ _ _ h))
      · rename_i body w1 r1 hx
        exact S.next _ _ _ (S.next _ _ _ (S.alloc w) (ih.exec _ _ _ hx)) (ih.exec _ _ _ h)
  · exact S.next _ _ _ (S.then_ _ _ _ _) (ih.exec _ _ _ h)
  · exact S.next _ _ _ (S.then_ _ _ _ _) (ih.exec _ _ _ h)
  · exact S.next _ _ _ (S.then_ _ _ _ _) (ih.exec _ _ _ h)
  · split at h
    · cases h
    · rename_i w1 q hx
      exact S.next _ _ _ (ih.resolve _ _ _ hx) (ih.exec _ _ _ h)
  · exact S.next _ _ _ (S.next _ _ _ (S.alloc w) (S.reject _ _ _)) (ih.exec _ _ _ h)
  · split at h
    · cases h
    · rename_i w1 q hx
      exact S.next _ _ _ (ih.all _ _ _ hx) (ih.exec _ _ _ h)
  · split at h
    · cases h
    · rename_i w1 q hx
      exact S.next _ _ _ (ih.race _ _ _ hx) (ih.exec _ _ _ h)
  · split at h
    · cases h
    · rename_i w1 q hx
      exact S.next _ _ _ (ih.allSettled _ _ _ hx) (ih.exec _ _ _ h)
  · split at h
    · cases h
    · rename_i w1 hx
      exact S.next _ _ _ (ih.res _ _ _ _ hx) (ih.exec _ _ _ h)
  · exact S.next _ _ _ (S.reject _ _ _) (ih.exec _ _ _ h)

/-- A stable relation holds from the start to the end of everything that the promise
implementation or user code does. -/
theorem holdsAt {R : World → World → Prop} (S : Stable R) (fuel : Nat) : HoldsAt R fuel := by
  induction fuel with
  | zero => exact holdsAt_zero R
  | succ n ih =>
    exact ⟨holds_res S n ih, holds_resolve S n ih, holds_call S n ih, holds_forEach S n ih,
      holds_all S n ih, holds_race S n ih, holds_allSettled S n ih, holds_exec S n ih⟩

theorem holds_runReaction {R : World → World → Prop} (S : Stable R) (fuel : Nat) (w : World)
    (p : Nat) (h : Handler) (w1 : World) (hr : runReaction fuel w p h = some w1) : R w w1 := by
  have ih := holdsAt S fuel
  have hmap : ∀ (x : World) (f : Fn) (a : Value),
      (call fuel x f a).map (fun r => r.1) = some w1 → R x w1 := by
    intro x f a hx
    obtain ⟨r, hr1, rfl⟩ := Option.map_eq_some'.1 hx
    exact ih.call _ _ _ _ hr1
  have hbody : ∀ (f : Fn),
      (match call fuel w f (w.get p)._value with
        | none => none
        | some (w1, .ok result) =>
          match call fuel w1 h.resolve result with
          | none => none
          | some (w2, .ok _) => some w2
          | some (w2, .error e) => (call fuel w2 h.reject e).map (fun r => r.1)
        | some (w1, .error e) => (call fuel w1 h.reject e).map (fun r => r.1)) = some w1 →
      R w w1 := by
    intro f hf
    split at hf
    · cases hf
    · rename_i wa res hx
      have k1 := ih.call _ _ _ _ hx
      split at hf
      · cases hf
      · rename_i wb _ hy
        injection hf with hf
        subst hf
        exact S.next _ _ _ k1 (ih.call _ _ _ _ hy)
      · rename_i wb e hy
        exact S.next _ _ _ (S.next _ _ _ k1 (ih.call _ _ _ _ hy)) (hmap _ _ _ hf)
    · rename_i wa e hx
      exact S.next _ _ _ (ih.call _ _ _ _ hx) (hmap _ _ _ hf)
  unfold runReaction at hr
  split at hr
  · split at hr
    · exact hbody _ hr
    · exact hmap _ _ _ hr
  · split at hr
    · exact hbody _ hr
    · exact hmap _ _ _ hr
  · injection hr with hr
    subst hr
    exact S.same w

end JS
end GoJS

namespace GoJS
namespace JS

theorem World.get_default (w : World) (p : Nat) (h : w.promises.length ≤ p) :
    w.get p = ⟨PromiseState.PENDING, Value.undefined, []⟩ := by
  unfold World.get
  rw [List.getD_eq_default _ _ h]
  rfl

theorem World.lt_of_settled (w : World) (p : Nat)
    (h : (w.get p)._state ≠ PromiseState.PENDING) : p < w.promises.length := by
  by_contra hge
  rw [World.get_default w p (by omega)] at h
  exact h rfl

theorem World.get_alloc_all (w : World) (p : Nat) : w.alloc.1.get p = w.get p := by
  rcases Nat.lt_trichotomy p w.promises.length with h | h | h
  · exact World.get_alloc_old w p h
  · rw [h, World.get_alloc_new, World.get_default w _ (le_refl _)]
  · rw [World.get_default w p (by omega), World.get_default _ p (by simp; omega)]

/-- What `_executeHandlers` does, for any promise. -/
theorem Promise._executeHandlers_all (w : World) (p : Nat) :
    (∀ q, ((Promise._executeHandlers w p).get q)._state = (w.get q)._state) ∧
    (∀ q, q ≠ p → ((Promise._executeHandlers w p).get q)._handlers = (w.get q)._handlers) ∧
    ((w.get p)._state ≠ PromiseState.PENDING →
      ((Promise._executeHandlers w p).get p)._handlers = [] ∧
      (Promise._executeHandlers w p).microtasks =
        w.microtasks ++ (w.get p)._handlers.map (fun h => (p, h))) ∧
    ((w.get p)._state = PromiseState.PENDING → Promise._executeHandlers w p = w) ∧
    (Promise._executeHandlers w p).promises.length = w.promises.length ∧
    (Promise._executeHandlers w p).writes = w.writes := by
  by_cases hs : (w.get p)._state = PromiseState.PENDING
  · have he : Promise._executeHandlers w p = w := by
      unfold Promise._executeHandlers
      rw [if_pos hs]
    rw [he]
    exact ⟨fun _ => rfl, fun _ _ => rfl, fun h => absurd hs h, fun _ => rfl, rfl, rfl⟩
  · obtain ⟨e1, e2, e3, e4, _⟩ := Promise._executeHandlers_spec w p hs (w.lt_of_settled p hs)
    refine ⟨?_, fun q hq => by rw [e3 q hq], fun _ => ⟨by rw [e2], e1⟩, fun h => absurd h hs, e4, ?_⟩
    · intro q
      by_cases e : q = p
      · rw [e, e2]
      · rw [e3 q e]
    · unfold Promise._executeHandlers
      rw [if_neg hs]
      rfl

/-- A world is sane after `_executeHandlers` for `p` if before it was so but for the
handler list of `p`. -/
theorem Promise._executeHandlers_sane (w : World) (p : Nat)
    (ht : ∀ q, q ≠ p → (w.get q)._state ≠ PromiseState.PENDING → (w.get q)._handlers = [])
    (hq : ∀ m ∈ w.microtasks, (w.get m.1)._state ≠ PromiseState.PENDING) :
    Sane (Promise._executeHandlers w p) := by
  obtain ⟨e1, e2, e3, e4, _⟩ := Promise._executeHandlers_all w p
  constructor
  · intro q hs
    rw [e1] at hs
    by_cases e : q = p
    · subst e
      exact (e3 hs).1
    · rw [e2 q e]
      exact ht q e hs
  · intro m hm
    rw [e1]
    by_cases hs : (w.get p)._state = PromiseState.PENDING
    · rw [e4 hs] at hm
      exact hq m hm
    · rw [(e3 hs).2] at hm
      rcases List.mem_append.1 hm with h | h
      · exact hq m h
      · obtain ⟨x, _, rfl⟩ := List.mem_map.1 h
        exact hs

theorem Promise._executeHandlers_prefix (w : World) (p : Nat) :
    w.microtasks <+: (Promise._executeHandlers w p).microtasks := by
  obtain ⟨_, _, e3, e4, _⟩ := Promise._executeHandlers_all w p
  by_cases hs : (w.get p)._state = PromiseState.PENDING
  · rw [e4 hs]
  · rw [(e3 hs).2]
    exact List.prefix_append _ _

theorem Promise._executeHandlers_prefix_of (w0 w : World) (p : Nat)
    (h : w.microtasks = w0.microtasks) :
    w0.microtasks <+: (Promise._executeHandlers w p).microtasks := by
  rw [← h]
  exact Promise._executeHandlers_prefix w p

/-- The state and the handlers after the two assignments of a settlement. -/
theorem World.get_assign (w : World) (p : Nat) (s : PromiseState) (v : Value) (q : Nat) :
    ((w.modify p (fun o => { o with _state := s, _value := v })).get q)._handlers =
      (w.get q)._handlers ∧
    (q ≠ p → (w.modify p (fun o => { o with _state := s, _value := v })).get q = w.get q) ∧
    (q = p → p < w.promises.length →
      ((w.modify p (fun o => { o with _state := s, _value := v })).get q)._state = s) ∧
    (q = p → ¬ p < w.promises.length →
      (w.modify p (fun o => { o with _state := s, _value := v })).get q = w.get q) := by
  rw [World.get_modify]
  refine ⟨?_, ?_, ?_, ?_⟩
  · split_ifs <;> rfl
  · intro hne
    rw [if_neg (fun h => hne h.1.symm)]
  · intro he hp
    rw [if_pos ⟨he.symm, by rw [he]; exact hp⟩]
  · intro he hp
    rw [if_neg (fun h => hp (by rw [← he]; exact h.2))]

theorem Promise.settle_grows (w : World) (p : Nat) (s : PromiseState) (v : Value)
    (hs : s ≠ PromiseState.PENDING) : Grows w (Promise.settle w p s v) := by
  have hst : ∀ q, (w.get q)._state ≠ PromiseState.PENDING →
      ((w.modify p (fun o => { o with _state := s, _value := v })).get q)._state ≠
        PromiseState.PENDING := by
    intro q hq
    obtain ⟨_, a2, a3, _⟩ := World.get_assign w p s v q
    by_cases e : q = p
    · rw [a3 e (by rw [← e]; exact w.lt_of_settled q hq)]
      exact hs
    · rw [a2 e]
      exact hq
  refine ⟨?_, ?_, ?_⟩
  · intro hsane
    apply Promise._executeHandlers_sane
    · intro q hq hsq
      show ((w.modify p _).get q)._handlers = []
      have hsq' : ((w.modify p (fun o => { o with _state := s, _value := v })).get q)._state ≠
          PromiseState.PENDING := hsq
      rw [(World.get_assign w p s v q).1]
      rw [(World.get_assign w p s v q).2.1 hq] at hsq'
      exact hsane.tidy q hsq'
    · intro m hm
      exact hst m.1 (hsane.queued m hm)
  · exact Promise._executeHandlers_prefix_of w _ p rfl
  · intro q hq
    show ((Promise._executeHandlers _ p).get q)._state ≠ _
    rw [(Promise._executeHandlers_all _ p).1 q]
    exact hst q hq

theorem Promise._reject_grows (w : World) (p : Nat) (e : Value) :
    Grows w (Promise._reject w p e) := by
  unfold Promise._reject
  split_ifs
  · exact ⟨fun h => h, List.prefix_refl _, fun _ h => h⟩
  · exact Promise.settle_grows w p _ e (by decide)

/-- The state and the handlers after the push of a handler. -/
theorem World.get_push (w : World) (p : Nat) (x : Handler) (q : Nat) :
    ((w.alloc.1.modify p (fun o => { o with _handlers := o._handlers ++ [x] })).get q)._state =
      (w.get q)._state ∧
    (q ≠ p → (w.alloc.1.modify p (fun o => { o with _handlers := o._handlers ++ [x] })).get q =
      w.get q) := by
  rw [World.get_modify]
  refine ⟨?_, ?_⟩
  · split_ifs
    · show (w.alloc.1.get q)._state = _
      rw [World.get_alloc_all]
    · rw [World.get_alloc_all]
  · intro hne
    rw [if_neg (fun h => hne h.1.symm), World.get_alloc_all]

theorem Promise.then_grows (w : World) (p : Nat) (f g : Option Fn) :
    Grows w (Promise.then_ w p f g).1 := by
  refine ⟨?_, ?_, ?_⟩
  · intro hsane
    apply Promise._executeHandlers_sane
    · intro q hq hsq
      rw [(World.get_push w p _ q).2 hq] at hsq ⊢
      exact hsane.tidy q hsq
    · intro m hm
      rw [(World.get_push w p _ m.1).1]
      exact hsane.queued m hm
  · exact Promise._executeHandlers_prefix_of w _ p rfl
  · intro q hq
    show ((Promise._executeHandlers _ p).get q)._state ≠ _
    rw [(Promise._executeHandlers_all _ p).1 q, (World.get_push w p _ q).1]
    exact hq

theorem grows_stable : Stable Grows := by
  refine ⟨?_, ?_, ?_, ?_, ?_, ?_, ?_, ?_⟩
  · intro w
    exact ⟨fun h => h, List.prefix_refl _, fun _ h => h⟩
  · intro w w1 w2 h1 h2
    exact ⟨fun h => h2.sane (h1.sane h), h1.queue.trans h2.queue,
      fun p h => h2.settled p (h1.settled p h)⟩
  · intro w
    refine ⟨fun h => ⟨fun p hp => ?_, fun m hm => ?_⟩, List.prefix_refl _, fun p hp => ?_⟩
    · rw [World.get_alloc_all] at hp ⊢
      exact h.tidy p hp
    · rw [World.get_alloc_all]
      exact h.queued m hm
    · rw [World.get_alloc_all]
      exact hp
  · intro w p v
    exact Promise.settle_grows w p _ v (by decide)
  · intro w p e
    exact Promise._reject_grows w p e
  · intro w p f g
    exact Promise.then_grows w p f g
  · intro w cs
    exact ⟨fun h => ⟨h.tidy, h.queued⟩, List.prefix_refl _, fun _ h => h⟩
  · intro w cs
    exact ⟨fun h => ⟨h.tidy, h.queued⟩, List.prefix_refl _, fun _ h => h⟩

/-- The reactions that were queued when the drain began run first, in the order of the
queue. -/
theorem drainLog_prefix : ∀ (fuel : Nat) (w : World) (r : World × List (Nat × Handler)),
    drainLog fuel w = some r → w.microtasks <+: r.2 := by
  intro fuel
  induction fuel with
  | zero =>
    intro w r h
    simp [drainLog] at h
  | succ n ih =>
    intro w r h
    rw [drainLog] at h
    split at h
    · rename_i hm
      rw [hm]
      exact List.nil_prefix
    · rename_i p handler rest hm
      split at h
      · cases h
      · rename_i w1 hx
        obtain ⟨r1, hr1, rfl⟩ := Option.map_eq_some'.1 h
        have hq : rest <+: w1.microtasks := (holds_runReaction grows_stable _ _ _ _ _ hx).queue
        rw [hm]
        exact (List.prefix_cons_inj _).2 (hq.trans (ih _ _ hr1))

/-- The drain with the record of the reactions is the drain. -/
theorem drainLog_fst : ∀ (fuel : Nat) (w : World),
    (drainLog fuel w).map (fun r => r.1) = processMicrotasks fuel w := by
  intro fuel
  induction fuel with
  | zero => intro w; rfl
  | succ n ih =>
    intro w
    rw [drainLog, processMicrotasks]
    cases hm : w.microtasks with
    | nil => rfl
    | cons m rest =>
      obtain ⟨p, handler⟩ := m
      simp only
      cases hx : runReaction n { w with microtasks := rest } p handler with
      | none => rfl
      | some w1 =>
        simp only [Option.map_map]
        rw [← ih w1]
        rfl

end JS
end GoJS

namespace GoJS
namespace JS

theorem onOf_append (a b : List (Nat × Handler)) (q : Nat) :
    onOf (a ++ b) q = onOf a q ++ onOf b q := by
  simp [onOf, List.filter_append]

theorem onOf_map_self (hs : List Handler) (p : Nat) : onOf (hs.map (fun h => (p, h))) p = hs := by
  induction hs with
  | nil => rfl
  | cons h hs ih =>
    have : onOf ((p, h) :: hs.map (fun h => (p, h))) p =
        h :: onOf (hs.map (fun h => (p, h))) p := by
      simp [onOf]
    rw [List.map_cons, this, ih]

theorem onOf_map_ne (hs : List Handler) (p q : Nat) (h : p ≠ q) :
    onOf (hs.map (fun h => (p, h))) q = [] := by
  induction hs with
  | nil => rfl
  | cons x hs ih =>
    have : onOf ((p, x) :: hs.map (fun h => (p, h))) q = onOf (hs.map (fun h => (p, h))) q := by
      simp [onOf, h]
    rw [List.map_cons, this, ih]

theorem onOf_prefix {a b : List (Nat × Handler)} (h : a <+: b) (q : Nat) :
    onOf a q <+: onOf b q := by
  obtain ⟨t, rfl⟩ := h
  rw [onOf_append]
  exact List.prefix_append _ _

theorem Sane.reactions_settled {w : World} (h : Sane w) (q : Nat)
    (hs : (w.get q)._state ≠ PromiseState.PENDING) : reactionsOn w q = queuedOn w q := by
  unfold reactionsOn
  rw [h.tidy q hs, List.append_nil]

theorem Sane.queued_pending {w : World} (h : Sane w) (q : Nat)
    (hs : (w.get q)._state = PromiseState.PENDING) : queuedOn w q = [] := by
  unfold queuedOn onOf
  rw [List.map_eq_nil_iff, List.filter_eq_nil_iff]
  intro m hm hq
  have := h.queued m hm
  rw [of_decide_eq_true hq] at this
  exact this hs

/-- The handlers of the promises other than `p` after `p.then(f, g)`. -/
theorem Promise.then_handlers_ne (w : World) (p : Nat) (f g : Option Fn) (q : Nat) (hq : q ≠ p) :
    ((Promise.then_ w p f g).1.get q)._handlers = (w.get q)._handlers := by
  show ((Promise._executeHandlers _ p).get q)._handlers = _
  rw [(Promise._executeHandlers_all _ p).2.1 q hq, (World.get_push w p _ q).2 hq]

theorem Promise.then_writes (w : World) (p : Nat) (f g : Option Fn) :
    (Promise.then_ w p f g).1.writes = w.writes := by
  show (Promise._executeHandlers _ p).writes = _
  rw [(Promise._executeHandlers_all _ p).2.2.2.2.2]
  rfl

/-- The reactions pending after `p.then(f, g)`: one more on `p`. -/
theorem Promise.then_reactions (w : World) (p : Nat) (f g : Option Fn) (hs : Sane w)
    (hp : p < w.promises.length) (q : Nat) :
    reactionsOn (Promise.then_ w p f g).1 q =
      reactionsOn w q ++ (if p = q then [thenHandler (f, g) w.promises.length] else []) := by
  obtain ⟨_, _, _, _, _, _, t7, t8⟩ := Promise.then_spec w p f g hp
  unfold reactionsOn queuedOn
  by_cases hst : (w.get p)._state = PromiseState.PENDING
  · obtain ⟨m1, m2⟩ := t7 hst
    rw [m1]
    by_cases e : p = q
    · subst e
      rw [m2, if_pos rfl, List.append_assoc]
      rfl
    · rw [if_neg e, List.append_nil, Promise.then_handlers_ne w p f g q (fun h => e h.symm)]
  · obtain ⟨m1, m2⟩ := t8 hst
    rw [m1, hs.tidy p hst, List.nil_append, onOf_append]
    by_cases e : p = q
    · subst e
      rw [m2, if_pos rfl, hs.tidy p hst, List.append_nil, List.append_nil, onOf_map_self]
      rfl
    · rw [if_neg e, List.append_nil, Promise.then_handlers_ne w p f g q (fun h => e h.symm),
        onOf_map_ne _ p q e, List.append_nil]

/-- The reactions pending after the settlement of a pending promise: the same. -/
theorem Promise.settle_reactions (w : World) (p : Nat) (s : PromiseState) (v : Value)
    (hs : s ≠ PromiseState.PENDING) (hp : p < w.promises.length) (q : Nat) :
    reactionsOn (Promise.settle w p s v) q = reactionsOn w q := by
  obtain ⟨s1, s2, _, _, s5⟩ := Promise.settle_spec w p s v hs hp
  unfold reactionsOn queuedOn
  rw [s2, onOf_append]
  by_cases e : q = p
  · subst e
    rw [s1, onOf_map_self, List.append_nil]
  · rw [s5 q e, onOf_map_ne _ p q (fun h => e h.symm), List.append_nil]

theorem Promise._reject_reactions (w : World) (p : Nat) (e : Value)
    (hp : p < w.promises.length) (q : Nat) :
    reactionsOn (Promise._reject w p e) q = reactionsOn w q := by
  unfold Promise._reject
  split_ifs
  · rfl
  · exact Promise.settle_reactions w p _ e (by decide) hp q

theorem Promise._reject_writes (w : World) (p : Nat) (e : Value) :
    (Promise._reject w p e).writes.length ≤ w.writes.length + 1 := by
  unfold Promise._reject
  split_ifs
  · omega
  · rw [Promise.settle_writes]
    simp

/-- What one call does to a sane world. -/
theorem PCall.run_spec (fuel : Nat) (w : World) (c : PCall) (hs : Sane w) (hok : c.OK w) :
    ∃ w1, c.run (fuel + 2) w = some w1 ∧ Sane w1 ∧ w.microtasks <+: w1.microtasks ∧
      (∀ q, reactionsOn w1 q = reactionsOn w q ++ c.registers w q) ∧
      w1.writes.length ≤ w.writes.length + 1 := by
  cases c with
  | then_ p f g =>
    refine ⟨_, rfl, (Promise.then_grows w p f g).sane hs, (Promise.then_grows w p f g).queue,
      fun q => Promise.then_reactions w p f g hs hok q, ?_⟩
    rw [Promise.then_writes]
    omega
  | _reject p e =>
    refine ⟨_, rfl, (Promise._reject_grows w p e).sane hs, (Promise._reject_grows w p e).queue,
      fun q => ?_, Promise._reject_writes w p e⟩
    rw [Promise._reject_reactions w p e hok q]
    exact (List.append_nil _).symm
  | _resolve p v =>
    obtain ⟨hp, hv⟩ := hok
    by_cases hst : (w.get p)._state = PromiseState.PENDING
    · rcases hv with hv | ⟨p', rfl, hp'⟩
      · refine ⟨_, Promise._resolve_nonThenable fuel w p v hv hst,
          (Promise.settle_grows w p _ v (by decide)).sane hs,
          (Promise.settle_grows w p _ v (by decide)).queue, fun q => ?_, ?_⟩
        · rw [Promise.settle_reactions w p _ v (by decide) hp q]
          cases v with
          | promise x => exact absurd hv (by simp [NonThenable])
          | _ => exact (List.append_nil _).symm
        · rw [Promise.settle_writes]
          simp
      · by_cases e : p' = p
        · have hrun : PCall.run (fuel + 2) w (PCall._resolve p (Value.promise p')) =
              some (Promise._reject w p (Value.error "Cannot resolve promise with itself")) := by
            show Promise._resolve (fuel + 2) w p (Value.promise p') = _
            unfold Promise._resolve
            simp [hst, Value.isPromise, e]
          refine ⟨_, hrun, (Promise._reject_grows w p _).sane hs,
            (Promise._reject_grows w p _).queue, fun q => ?_, Promise._reject_writes w p _⟩
          rw [Promise._reject_reactions w p _ hp q]
          show _ = _ ++ (if _ then _ else _)
          rw [if_neg (fun h => h.2.1 e), List.append_nil]
        · have hrun : PCall.run (fuel + 2) w (PCall._resolve p (Value.promise p')) =
              some (Promise.then_ ({ w with called := w.called ++ [false] } : World) p'
                (some (Fn.native (Native.adoptResolve p w.called.length)))
                (some (Fn.native (Native.adoptReject p w.called.length)))).1 := by
            show Promise._resolve (fuel + 2) w p (Value.promise p') = _
            unfold Promise._resolve
            simp [hst, Value.isPromise, e]
          have hs1 : Sane ({ w with called := w.called ++ [false] } : World) :=
            ⟨hs.tidy, hs.queued⟩
          refine ⟨_, hrun, (Promise.then_grows _ p' _ _).sane hs1,
            (Promise.then_grows ({ w with called := w.called ++ [false] } : World) p' _ _).queue,
            fun q => ?_, ?_⟩
          · rw [Promise.then_reactions _ p' _ _ hs1 hp' q]
            show _ = _ ++ (if _ then _ else _)
            by_cases eq : p' = q
            · rw [if_pos eq, if_pos ⟨hst, e, eq⟩]
              rfl
            · rw [if_neg eq, if_neg (fun h => eq h.2.2)]
              rfl
          · rw [Promise.then_writes]
            show w.writes.length ≤ _
            omega
    · have hrun : PCall.run (fuel + 2) w (PCall._resolve p v) = some w := by
        show Promise._resolve (fuel + 2) w p v = _
        unfold Promise._resolve
        rw [if_pos hst]
      refine ⟨w, hrun, hs, List.prefix_refl _, fun q => ?_, by omega⟩
      cases v with
      | promise x =>
        show _ = _ ++ (if _ then _ else _)
        rw [if_neg (fun h => hst h.1), List.append_nil]
      | _ => exact (List.append_nil _).symm

/-- What a sequence of calls does to a sane world. -/
theorem runCalls_spec (fuel : Nat) : ∀ (calls : List PCall) (w : World), Sane w →
    CallsOK (fuel + 2) w calls →
    ∃ w1, runCalls (fuel + 2) w calls = some w1 ∧ Sane w1 ∧ w.microtasks <+: w1.microtasks ∧
      (∀ q, reactionsOn w1 q = reactionsOn w q ++ registeredOn (fuel + 2) w calls q) ∧
      w1.writes.length ≤ w.writes.length + calls.length := by
  intro calls
  induction calls with
  | nil =>
    intro w hs _
    exact ⟨w, rfl, hs, List.prefix_refl _, fun q => (List.append_nil _).symm, by simp⟩
  | cons c cs ih =>
    intro w hs hok
    obtain ⟨hc, hrest⟩ := hok
    obtain ⟨w1, r1, s1, p1, a1, x1⟩ := PCall.run_spec fuel w c hs hc
    rw [r1] at hrest
    obtain ⟨w2, r2, s2, p2, a2, x2⟩ := ih w1 s1 hrest
    refine ⟨w2, ?_, s2, p1.trans p2, fun q => ?_, ?_⟩
    · rw [runCalls, r1]
      exact r2
    · rw [a2 q, a1 q, registeredOn, r1, List.append_assoc]
    · rw [List.length_cons]
      omega

end JS
end GoJS

namespace GoJS
namespace JS

theorem Sane.of_pending (w : World) (h : ∀ o ∈ w.promises, o._state = PromiseState.PENDING)
    (hm : w.microtasks = []) : Sane w := by
  have hall : ∀ p, (w.get p)._state = PromiseState.PENDING := by
    intro p
    by_cases hp : p < w.promises.length
    · unfold World.get
      rw [List.getD_eq_getElem _ _ hp]
      exact h _ (List.getElem_mem _)
    · rw [World.get_default w p (by omega)]
  refine ⟨fun p hp => absurd (hall p) hp, ?_⟩
  intro m hmem
  rw [hm] at hmem
  cases hmem

theorem twoPending_sane : Sane twoPending := by
  apply Sane.of_pending
  · intro o ho
    simp only [twoPending, World.init, List.mem_cons, List.mem_singleton, List.not_mem_nil,
      or_false, or_self] at ho
    rw [ho]
  · rfl

theorem fourCalls_ok : CallsOK 2 twoPending fourCalls := by
  refine ⟨?_, ⟨?_, Or.inl trivial⟩, ?_, ⟨?_, Or.inr ⟨0, rfl, ?_⟩⟩, trivial⟩
  · show (0 : Nat) < _
    decide
  · show (0 : Nat) < _
    decide
  · show (0 : Nat) < _
    decide
  · show (1 : Nat) < _
    decide
  · show (0 : Nat) < _
    decide

theorem prefix_take {α : Type} {a b : List α} (h : a <+: b) (n : Nat) :
    a.take n <+: b.take n := by
  obtain ⟨t, rfl⟩ := h
  rw [List.take_append_eq_append_take]
  exact List.prefix_append _ _

/-- The first `n` reactions that were queued when the drain began are the first to run, in
the order of the queue. -/
theorem drainUpTo_prefix : ∀ (fuel n : Nat) (w : World) (r : World × List (Nat × Handler)),
    drainUpTo fuel n w = some r → w.microtasks.take n <+: r.2 := by
  intro fuel
  induction fuel with
  | zero =>
    intro n w r h
    simp [drainUpTo] at h
  | succ k ih =>
    intro n w r h
    cases n with
    | zero =>
      rw [List.take_zero]
      exact List.nil_prefix
    | succ n =>
      rw [drainUpTo] at h
      split at h
      · rename_i hm
        rw [hm]
        exact List.nil_prefix
      · rename_i p handler rest hm
        split at h
        · cases h
        · rename_i w1 hx
          obtain ⟨r1, hr1, rfl⟩ := Option.map_eq_some'.1 h
          have hq : rest <+: w1.microtasks := (holds_runReaction grows_stable _ _ _ _ _ hx).queue
          rw [hm, List.take_succ_cons]
          exact (List.prefix_cons_inj _).2 ((prefix_take hq n).trans (ih _ _ _ hr1))

/-- The drain stopped after as many reactions as there is fuel is the whole drain. -/
theorem drainUpTo_self : ∀ (fuel : Nat) (w : World), drainUpTo fuel fuel w = drainLog fuel w := by
  intro fuel
  induction fuel with
  | zero => intro w; rfl
  | succ k ih =>
    intro w
    rw [drainUpTo, drainLog]
    cases hm : w.microtasks with
    | nil => rfl
    | cons m rest =>
      obtain ⟨p, handler⟩ := m
      simp only
      cases hx : runReaction k { w with microtasks := rest } p handler with
      | none => rfl
      | some w1 =>
        simp only
        rw [ih w1]

/-- C27: every call of `then`, `_resolve` (with a value that is not thenable, or with a
promise) and `_reject` on a sane world returns, and after any sequence of such calls: the
reactions pending on each promise (those queued as microtasks followed by those in the
handler list) are the ones pending before followed by the ones the calls registered, each
once and in the order of registration; a promise that is not pending has an empty handler
list, so all its pending reactions are queued; for a pending promise none is queued; the
microtask queue was only appended to, so no reaction was taken from it and run; and at most
one assignment to a state was made per call.  Whatever code runs, and for every value
given to `_resolve`, a sane world stays sane and the microtask queue is only appended
to. -/
theorem reactions_are_queued_exactly_once (fuel : Nat) (w : World) (calls : List PCall)
    (hs : Sane w) (hok : CallsOK (fuel + 2) w calls) :
    (∃ w1, runCalls (fuel + 2) w calls = some w1 ∧
      (∀ q, reactionsOn w1 q = reactionsOn w q ++ registeredOn (fuel + 2) w calls q) ∧
      (∀ q, (w1.get q)._state ≠ PromiseState.PENDING →
        (w1.get q)._handlers = [] ∧ queuedOn w1 q = reactionsOn w1 q) ∧
      (∀ q, (w1.get q)._state = PromiseState.PENDING →
        queuedOn w1 q = [] ∧ (w1.get q)._handlers = reactionsOn w1 q) ∧
      w.microtasks <+: w1.microtasks ∧
      w1.writes.length ≤ w.writes.length + calls.length) ∧
    (∀ (k : Nat) (w0 : World) (code : Code) (r : World × Outcome), Sane w0 →
      exec k w0 code = some r → Sane r.1 ∧ w0.microtasks <+: r.1.microtasks) ∧
    (∀ (k : Nat) (w0 : World) (p : Nat) (v : Value) (w2 : World), Sane w0 →
      Promise._resolve k w0 p v = some w2 → Sane w2 ∧ w0.microtasks <+: w2.microtasks) := by
  refine ⟨?_, ?_, ?_⟩
  · obtain ⟨w1, r1, s1, p1, a1, x1⟩ := runCalls_spec fuel calls w hs hok
    refine ⟨w1, r1, a1, ?_, ?_, p1, x1⟩
    · intro q hq
      exact ⟨s1.tidy q hq, (s1.reactions_settled q hq).symm⟩
    · intro q hq
      refine ⟨s1.queued_pending q hq, ?_⟩
      unfold reactionsOn
      rw [s1.queued_pending q hq, List.nil_append]
  · intro k w0 code r h0 hr
    have g := (holdsAt grows_stable k).exec w0 code r hr
    exact ⟨g.sane h0, g.queue⟩
  · intro k w0 p v w2 h0 hr
    have g := (holdsAt grows_stable k).res w0 p v w2 hr
    exact ⟨g.sane h0, g.queue⟩

/-- C27, witness: on two pending promises, after `p.then(a)`, `p._resolve(7)`, `p.then(b)`
and `q._resolve(p)` the three reactions registered on `p` are pending on `p`, in this
order, and all of them are queued. -/
theorem reactions_are_queued_exactly_once_witness :
    Sane twoPending ∧ CallsOK 2 twoPending fourCalls ∧
    ∃ w1, runCalls 2 twoPending fourCalls = some w1 ∧
      (∀ q, reactionsOn w1 q = reactionsOn twoPending q ++ registeredOn 2 twoPending fourCalls q) ∧
      (∀ q, (w1.get q)._state ≠ PromiseState.PENDING →
        (w1.get q)._handlers = [] ∧ queuedOn w1 q = reactionsOn w1 q) :=
  ⟨twoPending_sane, fourCalls_ok,
    (reactions_are_queued_exactly_once 0 twoPending fourCalls twoPending_sane fourCalls_ok).1.imp
      (fun _ h => ⟨h.1, h.2.1, h.2.2.1⟩)⟩

/-- C28: let `then(f1, g1)` and later `then(f2, g2)` be called on the promise `p` of a sane
world, with any calls of `then`, `_resolve` and `_reject` before, between and after them.
Then the reactions pending on `p` are those pending before, the reaction of the first call,
those registered in between, the reaction of the second call, and those registered after,
in this order: in the microtask queue if `p` is settled, in the handler list if it is
pending.  And when the queue is drained, the reactions that were queued run first, in the
order of the queue, also when the drain is stopped after `n` reactions; so the reaction of
the first call runs before the reaction of the second. -/
theorem reactions_run_in_registration_order (fuel : Nat) (w : World) (p : Nat)
    (f1 g1 f2 g2 : Option Fn) (mid post : List PCall) (hs : Sane w)
    (hp : p < w.promises.length)
    (hmid : CallsOK (fuel + 2) (Promise.then_ w p f1 g1).1 mid)
    (hpost : ∀ w2, runCalls (fuel + 2) (Promise.then_ w p f1 g1).1 mid = some w2 →
      CallsOK (fuel + 2) (Promise.then_ w2 p f2 g2).1 post) :
    ∃ w2 w4, runCalls (fuel + 2) (Promise.then_ w p f1 g1).1 mid = some w2 ∧
      runCalls (fuel + 2) (Promise.then_ w2 p f2 g2).1 post = some w4 ∧
      reactionsOn w4 p =
        reactionsOn w p ++ [thenHandler (f1, g1) w.promises.length] ++
          registeredOn (fuel + 2) (Promise.then_ w p f1 g1).1 mid p ++
          [thenHandler (f2, g2) w2.promises.length] ++
          registeredOn (fuel + 2) (Promise.then_ w2 p f2 g2).1 post p ∧
      ((w4.get p)._state ≠ PromiseState.PENDING → queuedOn w4 p = reactionsOn w4 p) ∧
      ((w4.get p)._state = PromiseState.PENDING → (w4.get p)._handlers = reactionsOn w4 p) ∧
      (∀ k n r, drainUpTo k n w4 = some r →
        w4.microtasks.take n <+: r.2 ∧ onOf (w4.microtasks.take n) p <+: onOf r.2 p) ∧
      (∀ k r, drainUpTo k k w4 = some r →
        processMicrotasks k w4 = some r.1 ∧ w4.microtasks <+: r.2 ∧
        queuedOn w4 p <+: onOf r.2 p) := by
  have s1 := (Promise.then_grows w p f1 g1).sane hs
  have a1 := Promise.then_reactions w p f1 g1 hs hp p
  rw [if_pos rfl] at a1
  obtain ⟨w2, r2, s2, p2, a2, _⟩ := runCalls_spec fuel mid _ s1 hmid
  have hlen : p < w2.promises.length := by
    by_contra hge
    have hdef := World.get_default w2 p (by omega)
    have h1 : reactionsOn w2 p = [] := by
      unfold reactionsOn
      rw [s2.queued_pending p (by rw [hdef]), hdef]
      rfl
    rw [a2 p, a1] at h1
    simp at h1
  have s3 := (Promise.then_grows w2 p f2 g2).sane s2
  have a3 := Promise.then_reactions w2 p f2 g2 s2 hlen p
  rw [if_pos rfl] at a3
  obtain ⟨w4, r4, s4, p4, a4, _⟩ := runCalls_spec fuel post _ s3 (hpost w2 r2)
  refine ⟨w2, w4, r2, r4, ?_, ?_, ?_, ?_, ?_⟩
  · rw [a4 p, a3, a2 p, a1]
  · intro hq
    exact (s4.reactions_settled p hq).symm
  · intro hq
    unfold reactionsOn
    rw [s4.queued_pending p hq, List.nil_append]
  · intro k n r hr
    have := drainUpTo_prefix k n w4 r hr
    exact ⟨this, onOf_prefix this p⟩
  · intro k r hr
    rw [drainUpTo_self] at hr
    have := drainLog_prefix k w4 r hr
    refine ⟨?_, this, onOf_prefix this p⟩
    rw [← drainLog_fst, hr]
    rfl

/-- C28, witness: on a pending promise, `then(a)` is called, the promise is fulfilled with
7, and `then(b)` is called; the two reactions are queued in this order, and the drain
settles the promise derived by `then(a)` before the one derived by `then(b)`. -/
theorem reactions_run_in_registration_order_witness :
    Sane twoPending ∧ (0 : Nat) < twoPending.promises.length ∧
    (∃ w2 w4,
      runCalls 2 (Promise.then_ twoPending 0
        (some (Fn.native (Native.constant (Value.num 1)))) none).1
        [PCall._resolve 0 (Value.num 7)] = some w2 ∧
      runCalls 2 (Promise.then_ w2 0
        (some (Fn.native (Native.constant (Value.num 2)))) none).1 [] = some w4 ∧
      reactionsOn w4 0 =
        reactionsOn twoPending 0 ++
          [thenHandler (some (Fn.native (Native.constant (Value.num 1))), none)
            twoPending.promises.length] ++
          registeredOn 2 (Promise.then_ twoPending 0
            (some (Fn.native (Native.constant (Value.num 1)))) none).1
            [PCall._resolve 0 (Value.num 7)] 0 ++
          [thenHandler (some (Fn.native (Native.constant (Value.num 2))), none)
            w2.promises.length] ++
          registeredOn 2 (Promise.then_ w2 0
            (some (Fn.native (Native.constant (Value.num 2)))) none).1 [] 0) ∧
    ((runCalls 2 (Promise.then_ twoPending 0
        (some (Fn.native (Native.constant (Value.num 1)))) none).1
        [PCall._resolve 0 (Value.num 7),
          PCall.then_ 0 (some (Fn.native (Native.constant (Value.num 2)))) none]).bind
      (processMicrotasks 5)).map (fun x => x.writes) =
      some [(0, PromiseState.FULFILLED, Value.num 7), (2, PromiseState.FULFILLED, Value.num 1),
        (3, PromiseState.FULFILLED, Value.num 2)] :=
  ⟨twoPending_sane, by decide,
    (reactions_run_in_registration_order 0 twoPending 0
      (some (Fn.native (Native.constant (Value.num 1)))) none
      (some (Fn.native (Native.constant (Value.num 2)))) none [PCall._resolve 0 (Value.num 7)] []
      twoPending_sane (by decide) ⟨⟨by show (0 : Nat) < _; decide, Or.inl trivial⟩, trivial⟩
      (fun _ _ => trivial)).imp
      (fun _ h => h.imp (fun _ h4 => ⟨h4.1, h4.2.1, h4.2.2.1⟩)),
    rfl⟩

end JS
end GoJS

namespace GoJS
namespace JS

/-- Resolving a pending promise with a thenable whose `then` just returns allocates the
variable `called` and does nothing else. -/
theorem Promise._resolve_deferring (fuel : Nat) (w : World) (p o : Nat) (r0 r1 : Value)
    (hpend : (w.get p)._state = PromiseState.PENDING)
    (hget : (w.objects.getD o default).getter = Code.ret r0)
    (hmem : (w.objects.getD o default).member = some (fun _ _ => Code.ret r1)) :
    Promise._resolve (fuel + 2) w p (Value.object o) =
      some ({ w with called := w.called ++ [false] } : World) := by
  unfold Promise._resolve
  simp only [hpend, ne_eq, not_true_eq_false, if_false]
  simp only [Value.isPromise, hget, hmem]
  simp [exec]

/-- A callback of a thenable adoption, called when the promise is no longer pending, sets
`called` at most. -/
theorem call_adopt_settled (fuel : Nat) (y : World) (p c : Nat) (b : Value) (f : Native)
    (hf : f = Native.adoptResolve p c ∨ f = Native.adoptReject p c)
    (hset : (y.get p)._state ≠ PromiseState.PENDING) :
    ∃ y1, call (fuel + 2) y (Fn.native f) b = some (y1, .ok Value.undefined) ∧
      y1.promises = y.promises ∧ y1.microtasks = y.microtasks ∧ y1.writes = y.writes ∧
      y1.ctxs = y.ctxs ∧ y1.objects = y.objects := by
  have hset1 : (({ y with called := y.called.set c true } : World).get p)._state ≠
      PromiseState.PENDING := hset
  rcases hf with hf | hf
  · subst hf
    by_cases hc : y.called.getD c false = true
    · refine ⟨y, ?_, rfl, rfl, rfl, rfl, rfl⟩
      rw [call]
      simp only [hc, if_true]
    · refine ⟨{ y with called := y.called.set c true }, ?_, rfl, rfl, rfl, rfl, rfl⟩
      rw [call]
      simp only [hc, if_false]
      unfold Promise._resolve
      rw [if_pos hset1]
      rfl
  · subst hf
    by_cases hc : y.called.getD c false = true
    · refine ⟨y, ?_, rfl, rfl, rfl, rfl, rfl⟩
      rw [call]
      simp only [hc, if_true]
    · refine ⟨{ y with called := y.called.set c true }, ?_, rfl, rfl, rfl, rfl, rfl⟩
      rw [call]
      simp only [hc, if_false]
      unfold Promise._reject
      rw [if_pos hset1]
      rfl

/-- C34: let the pending promise `p` be resolved with a thenable `o` whose `then` member
can be read and is a function that returns without calling either callback.  Then the
resolution allocates the variable `called`, unset, and does nothing else: `p` is still
pending.  In every world in which `p` is still pending, the call of the `resolve` function
of `p` with a value `v` that is not thenable fulfils `p` with `v` (it does not look at
`called`, which stays as it was).  And in every world in which `p` is no longer pending, a
call of either callback of the thenable returns normally and changes neither a promise nor
the microtask queue nor the history of assignments. -/
theorem thenable_resolution_does_not_lock (fuel : Nat) (w : World) (p o : Nat) (r0 r1 : Value)
    (hpend : (w.get p)._state = PromiseState.PENDING)
    (hget : (w.objects.getD o default).getter = Code.ret r0)
    (hmem : (w.objects.getD o default).member = some (fun _ _ => Code.ret r1)) :
    (Promise._resolve (fuel + 2) w p (Value.object o) =
        some ({ w with called := w.called ++ [false] } : World) ∧
      (({ w with called := w.called ++ [false] } : World).get p)._state =
        PromiseState.PENDING ∧
      ({ w with called := w.called ++ [false] } : World).called.getD w.called.length true =
        false) ∧
    (∀ (x : World) (v : Value) (fuel1 : Nat), p < x.promises.length →
      (x.get p)._state = PromiseState.PENDING → NonThenable x v →
      call (fuel1 + 3) x (Fn.native (Native.resolveFn p)) v =
        some (Promise.settle x p PromiseState.FULFILLED v, .ok Value.undefined) ∧
      ((Promise.settle x p PromiseState.FULFILLED v).get p)._state = PromiseState.FULFILLED ∧
      ((Promise.settle x p PromiseState.FULFILLED v).get p)._value = v ∧
      (Promise.settle x p PromiseState.FULFILLED v).called = x.called) ∧
    (∀ (y : World) (b : Value) (fuel2 : Nat) (f : Native),
      f = Native.adoptResolve p w.called.length ∨ f = Native.adoptReject p w.called.length →
      (y.get p)._state ≠ PromiseState.PENDING →
      ∃ y1, call (fuel2 + 2) y (Fn.native f) b = some (y1, .ok Value.undefined) ∧
        y1.promises = y.promises ∧ y1.microtasks = y.microtasks ∧ y1.writes = y.writes) := by
  refine ⟨⟨Promise._resolve_deferring fuel w p o r0 r1 hpend hget hmem, hpend, ?_⟩,
    fun x v fuel1 hp hx hv => ?_, fun y b fuel2 f hf hy => ?_⟩
  · show (w.called ++ [false]).getD w.called.length true = false
    simp [List.getD_eq_getElem?_getD]
  · obtain ⟨s1, _, _, _, _⟩ := Promise.settle_spec x p PromiseState.FULFILLED v (by decide) hp
    refine ⟨?_, by rw [s1], by rw [s1], (Promise.settle_ctxs x p _ v).2⟩
    rw [call, Promise._resolve_nonThenable fuel1 x p v hv hx]
    rfl
  · obtain ⟨y1, h1, h2, h3, h4, _, _⟩ := call_adopt_settled fuel2 y p w.called.length b f hf hy
    exact ⟨y1, h1, h2, h3, h4⟩

/-- C34, witness: the pending promise 0 of `deferredWorld` is resolved with the thenable 0,
whose `then` just returns: the promise is still pending.  The call `resolve(5)` then
fulfils it with 5, by the one assignment in the history, and the later calls of the two
callbacks of the thenable, with 6 and with 7, leave it fulfilled with 5. -/
theorem thenable_resolution_does_not_lock_witness :
    (deferredWorld.get 0)._state = PromiseState.PENDING ∧
    Promise._resolve 2 deferredWorld 0 (Value.object 0) =
      some ({ deferredWorld with called := [false] } : World) ∧
    (∃ y1, call 3 ({ deferredWorld with called := [false] } : World)
        (Fn.native (Native.resolveFn 0)) (Value.num 5) = some (y1, .ok Value.undefined) ∧
      y1.get 0 = ⟨PromiseState.FULFILLED, Value.num 5, []⟩ ∧
      y1.writes = [(0, PromiseState.FULFILLED, Value.num 5)] ∧
      ∃ y2, call 2 y1 (Fn.native (Native.adoptResolve 0 0)) (Value.num 6) =
          some (y2, .ok Value.undefined) ∧
        y2.get 0 = ⟨PromiseState.FULFILLED, Value.num 5, []⟩ ∧
        y2.writes = [(0, PromiseState.FULFILLED, Value.num 5)] ∧
        ∃ y3, call 2 y2 (Fn.native (Native.adoptReject 0 0)) (Value.num 7) =
            some (y3, .ok Value.undefined) ∧
          y3.get 0 = ⟨PromiseState.FULFILLED, Value.num 5, []⟩ ∧
          y3.writes = [(0, PromiseState.FULFILLED, Value.num 5)]) :=
  ⟨rfl,
    (thenable_resolution_does_not_lock 0 deferredWorld 0 0 Value.undefined Value.undefined
      rfl rfl rfl).1.1,
    ⟨_, rfl, rfl, rfl, _, rfl, rfl, rfl, _, rfl, rfl, rfl⟩⟩

end JS
end GoJS

namespace GoJS
namespace Modules

/-- C6, failing input: the top-level `require("./a")` with `a.js` and `b.js` requiring each
other.  The body of `a.js` is called twice, the top-level call returns the object 3, and
`b.js` receives another object, 7, from its `require("./a")`. -/
theorem circular_require_runs_body_twice :
    (requireGlobal 20 circularVM [Val.str "./a"]).map (fun r => (r.2, r.1.log)) =
      some (Res.ok (Val.obj 3),
        [Event.read "/app/a.js", Event.run "/app/a.js", Event.read "/app/b.js",
          Event.run "/app/b.js", Event.read "/app/a.js", Event.run "/app/a.js",
          Event.got "/app/a.js" "./b" (Val.obj 5), Event.got "/app/b.js" "./a" (Val.obj 7),
          Event.got "/app/a.js" "./b" (Val.obj 5)]) := by
  decide

/-- C7, failing input: on an engine on which `SetupRequire(vm, ".")` ran, `SetupFS` and
`SetupPath` both return the error of `RegisterModule`, and `require("fs")` and
`require("path")` throw. -/
theorem builtin_modules_are_not_registered :
    errorOf (SetupFS (SetupRequire (VM.fresh []) ".")) =
      some "module cache not initialized - call SetupRequire first" ∧
    errorOf (SetupPath (SetupRequire (VM.fresh []) ".")) =
      some "module cache not initialized - call SetupRequire first" ∧
    (requireGlobal 5 (SetupRequire (VM.fresh []) ".") [Val.str "fs"]).map (fun r => r.2) =
      some (Res.throw "Built-in module 'fs' not found") ∧
    (requireGlobal 5 (SetupRequire (VM.fresh []) ".") [Val.str "path"]).map (fun r => r.2) =
      some (Res.throw "Built-in module 'path' not found") := by
  refine ⟨by decide, by decide, by decide, by decide⟩

end Modules
end GoJS

namespace GoJS
namespace Modules

theorem lookup_filter_ne {α : Type} (name : String) (ps : List (String × α)) :
    (ps.filter (fun e => e.1 ≠ name)).lookup name = none := by
  induction ps with
  | nil => rfl
  | cons e ps ih =>
    obtain ⟨k, v⟩ := e
    by_cases h : k = name
    · have hf : (decide ((k, v).1 ≠ name)) = false := by simpa using h
      rw [List.filter_cons, hf]
      exact ih
    · have hf : (decide ((k, v).1 ≠ name)) = true := by simpa using h
      have hk : (name == k) = false := by
        simp only [beq_eq_false_iff_ne, ne_eq]
        exact fun hc => h hc.symm
      rw [List.filter_cons, hf]
      simp only [if_true]
      rw [List.lookup_cons, hk]
      exact ih

/-- After `cache.Delete(name)` the cache has no entry for `name`. -/
theorem VM.Get_Delete (vm : VM) (cache : Nat) (name : String) :
    (vm.Delete cache name).Get cache name = none := by
  unfold VM.Get VM.Delete
  simp only
  by_cases h : cache < vm.objects.length
  · rw [List.getD_eq_getElem?_getD, List.getElem?_modify]
    simp only [if_true, List.getElem?_eq_getElem h, Option.map_some', Option.getD_some]
    exact lookup_filter_ne name _
  · rw [List.getD_eq_default _ _ (by simpa using h)]
    rfl

theorem VM.Get_files (vm : VM) (files : List (String × Source)) (obj : Nat) (name : String) :
    ({ vm with files := files } : VM).Get obj name = vm.Get obj name := rfl

/-- What `require` does for a module that is not in the cache, is not built in, and whose
file exists: it reads the file, registers the module and compiles and calls the body. -/
theorem require_load (fuel : Nat) (vm : VM) (cache : Nat) (dir : String) (arg : Val) (c : Char)
    (cs : List Char) (content : Source) (hmiss : vm.Get cache arg.String = none)
    (hname : ¬ (arg.String = "fs" ∨ arg.String = "path")) (hdata : arg.String.data = c :: cs)
    (hfile : vm.files.lookup (modulePath dir arg.String c) = some content) :
    require (fuel + 1) vm cache dir [arg] =
      match content with
      | .invalid _ =>
        some (((vm.registered cache arg.String (modulePath dir arg.String c)).Delete cache
          arg.String), .throw ("Error compiling module '" ++ arg.String ++ "'"))
      | .code body =>
        match run fuel (vm.loading cache arg.String (modulePath dir arg.String c)) body
            (vm.objects.length + 1) vm.objects.length (modulePath dir arg.String c)
            (filepath.Dir (modulePath dir arg.String c)) with
        | none => none
        | some (vm3, .ok _) =>
          some (vm3, .ok ((vm3.Get vm.objects.length "exports").getD Val.undefined))
        | some (vm3, .throw _) =>
          some (vm3.Delete cache arg.String,
            .throw ("Error executing module '" ++ arg.String ++ "'"))
        | some (vm3, .crash) => some (vm3, .crash) := by
  have hfile0 : (vm.note (Event.read (modulePath dir arg.String c))).files.lookup
      (modulePath dir arg.String c) = some content := hfile
  rw [require]
  simp only [hmiss, hname, if_false, hdata]
  unfold modulePath at hfile0
  simp only at hfile0
  simp only [hfile0]
  cases content with
  | invalid err => rfl
  | code body =>
    have hlen : (vm.note (Event.read (modulePath dir arg.String c))).NewObject.1.NewObject.2 =
        vm.objects.length + 1 := by
      simp [VM.NewObject, VM.note]
    rw [← hlen]
    rfl

end Modules
end GoJS

namespace GoJS
namespace Modules

theorem LogGrows.same (vm : VM) : LogGrows vm vm := List.prefix_refl _

theorem LogGrows.grows_then {vm vm1 vm2 : VM} (h1 : LogGrows vm vm1) (h2 : LogGrows vm1 vm2) :
    LogGrows vm vm2 := List.IsPrefix.trans h1 h2

theorem LogGrows.from {vm vm1 vm2 : VM} (k : LogGrows vm1 vm2) (h : vm.log <+: vm1.log) :
    LogGrows vm vm2 := List.IsPrefix.trans h k

theorem LogGrows.to {vm vm1 vm2 : VM} (k : LogGrows vm vm1) (h : vm2.log = vm1.log) :
    LogGrows vm vm2 := by
  unfold LogGrows
  rw [h]
  exact k

theorem growsAt_zero : GrowsAt 0 := by
  refine ⟨?_, ?_, ?_⟩
  · intro vm cache dir args r h
    simp [require] at h
  · intro vm dir args r h
    simp [requireInner] at h
  · intro vm body e m f d r h
    simp [run] at h

theorem grows_load (fuel : Nat) (ih : GrowsAt fuel) (vm : VM) (cache : Nat)
    (moduleName filePath : String) (r : VM × Res Val)
    (h : (match (vm.note (Event.read filePath)).files.lookup filePath with
      | none => some (vm.note (Event.read filePath),
          Res.throw ("Cannot find module '" ++ moduleName ++ "'"))
      | some content =>
        match content with
        | .invalid _ =>
          some ((vm.registered cache moduleName filePath).Delete cache moduleName,
            Res.throw ("Error compiling module '" ++ moduleName ++ "'"))
        | .code body =>
          match run fuel (vm.loading cache moduleName filePath) body
              (vm.note (Event.read filePath)).NewObject.1.NewObject.2
              (vm.note (Event.read filePath)).NewObject.2 filePath (filepath.Dir filePath) with
          | none => none
          | some (vm3, .ok _) =>
            some (vm3, Res.ok ((vm3.Get (vm.note (Event.read filePath)).NewObject.2
              "exports").getD Val.undefined))
          | some (vm3, .throw _) =>
            some (vm3.Delete cache moduleName,
              Res.throw ("Error executing module '" ++ moduleName ++ "'"))
          | some (vm3, .crash) => some (vm3, Res.crash)) = some r) :
    LogGrows vm r.1 := by
  have hreg : vm.log <+: (vm.registered cache moduleName filePath).log :=
    List.prefix_append _ _
  have hload : vm.log <+: (vm.loading cache moduleName filePath).log :=
    hreg.trans (List.prefix_append _ _)
  split at h
  · injection h with h
    subst h
    exact List.prefix_append _ _
  · split at h
    · injection h with h
      subst h
      exact hreg
    · split at h
      · cases h
      · rename_i vm3 _ hx
        injection h with h
        subst h
        exact (ih.run _ _ _ _ _ _ _ hx).from hload
      · rename_i vm3 _ hx
        injection h with h
        subst h
        exact LogGrows.to ((ih.run _ _ _ _ _ _ _ hx).from hload) rfl
      · rename_i vm3 hx
        injection h with h
        subst h
        exact (ih.run _ _ _ _ _ _ _ hx).from hload

theorem grows_require (fuel : Nat) (ih : GrowsAt fuel) :
    ∀ vm cache dir args r, require (fuel + 1) vm cache dir args = some r → LogGrows vm r.1 := by
  intro vm cache dir args r h
  cases args with
  | nil =>
    rw [require] at h
    injection h with h
    subst h
    exact LogGrows.same vm
  | cons arg rest =>
    rw [require] at h
    dsimp only at h
    split at h
    · injection h with h
      subst h
      exact LogGrows.same vm
    · by_cases hb : arg.String = "fs" ∨ arg.String = "path"
      · rw [if_pos hb] at h
        split at h <;>
        · injection h with h
          subst h
          exact LogGrows.same vm
      · rw [if_neg hb] at h
        split at h
        · injection h with h
          subst h
          exact LogGrows.same vm
        · exact grows_load fuel ih vm cache _ _ r h

theorem grows_inner (fuel : Nat) (ih : GrowsAt fuel) :
    ∀ vm dir args r, requireInner (fuel + 1) vm dir args = some r → LogGrows vm r.1 := by
  intro vm dir args r h
  unfold requireInner at h
  split at h
  · injection h with h
    subst h
    exact LogGrows.same vm
  · dsimp only at h
    split at h
    · exact ih.require _ _ _ _ _ h
    · split at h
      · injection h with h
        subst h
        exact LogGrows.same vm
      · try dsimp only at h
        split at h
        · exact ih.require _ _ _ _ _ h
        · injection h with h
          subst h
          exact LogGrows.same vm

theorem grows_run (fuel : Nat) (ih : GrowsAt fuel) :
    ∀ vm body e m f d r, run (fuel + 1) vm body e m f d = some r → LogGrows vm r.1 := by
  intro vm body e m f d r h
  unfold run at h
  split at h
  · injection h with h
    subst h
    exact LogGrows.same vm
  · injection h with h
    subst h
    exact LogGrows.same vm
  · split at h
    · cases h
    · rename_i vm1 v hx
      exact (ih.inner _ _ _ _ hx).grows_then ((ih.run _ _ _ _ _ _ _ h).from (List.prefix_append _ _))
    · rename_i vm1 msg hx
      injection h with h
      subst h
      exact ih.inner _ _ _ _ hx
    · rename_i vm1 hx
      injection h with h
      subst h
      exact ih.inner _ _ _ _ hx
  · exact (ih.run _ _ _ _ _ _ _ h).from (List.prefix_refl _)
  · exact (ih.run _ _ _ _ _ _ _ h).from (List.prefix_refl _)
  · exact (ih.run _ _ _ _ _ _ _ h).from (List.prefix_append _ _)

/-- Nothing that the loader does removes an event from the history. -/
theorem growsAt (fuel : Nat) : GrowsAt fuel := by
  induction fuel with
  | zero => exact growsAt_zero
  | succ n ih => exact ⟨grows_require n ih, grows_inner n ih, grows_run n ih⟩

end Modules
end GoJS

namespace GoJS
namespace Modules

/-- What `require` does for a module that is not in the cache, is not built in, and whose
file does not exist. -/
theorem require_nofile (fuel : Nat) (vm : VM) (cache : Nat) (dir : String) (arg : Val) (c : Char)
    (cs : List Char) (hmiss : vm.Get cache arg.String = none)
    (hname : ¬ (arg.String = "fs" ∨ arg.String = "path")) (hdata : arg.String.data = c :: cs)
    (hfile : vm.files.lookup (modulePath dir arg.String c) = none) :
    require (fuel + 1) vm cache dir [arg] =
      some (vm.note (Event.read (modulePath dir arg.String c)),
        .throw ("Cannot find module '" ++ arg.String ++ "'")) := by
  have hfile0 : (vm.note (Event.read (modulePath dir arg.String c))).files.lookup
      (modulePath dir arg.String c) = none := hfile
  rw [require]
  simp only [hmiss, hname, if_false, hdata]
  unfold modulePath at hfile0
  simp only at hfile0
  simp only [hfile0]
  rfl

/-- A `require` of a module that is not in the cache and is not built in reads the
file. -/
theorem require_reads (fuel : Nat) (vm : VM) (cache : Nat) (dir : String) (arg : Val) (c : Char)
    (cs : List Char) (hmiss : vm.Get cache arg.String = none)
    (hname : ¬ (arg.String = "fs" ∨ arg.String = "path")) (hdata : arg.String.data = c :: cs)
    (r : VM × Res Val) (h : require (fuel + 1) vm cache dir [arg] = some r) :
    (vm.log ++ [Event.read (modulePath dir arg.String c)]) <+: r.1.log := by
  have hreg : (vm.registered cache arg.String (modulePath dir arg.String c)).log =
      vm.log ++ [Event.read (modulePath dir arg.String c)] := rfl
  have hload : (vm.log ++ [Event.read (modulePath dir arg.String c)]) <+:
      (vm.loading cache arg.String (modulePath dir arg.String c)).log :=
    List.prefix_append _ _
  cases hl : vm.files.lookup (modulePath dir arg.String c) with
  | none =>
    rw [require_nofile fuel vm cache dir arg c cs hmiss hname hdata hl] at h
    injection h with h
    subst h
    exact List.prefix_refl _
  | some content =>
    rw [require_load fuel vm cache dir arg c cs content hmiss hname hdata hl] at h
    cases content with
    | invalid err =>
      injection h with h
      subst h
      exact List.prefix_refl _
    | code body =>
      dsimp only at h
      split at h
      · cases h
      · rename_i vm3 _ hx
        injection h with h
        subst h
        exact hload.trans ((growsAt fuel).run _ _ _ _ _ _ _ hx)
      · rename_i vm3 _ hx
        injection h with h
        subst h
        exact hload.trans ((growsAt fuel).run _ _ _ _ _ _ _ hx)
      · rename_i vm3 hx
        injection h with h
        subst h
        exact hload.trans ((growsAt fuel).run _ _ _ _ _ _ _ hx)

/-- Loads that fail by an error: let `require` be called with a specifier that is not in the
cache and is not a built-in name, whose file exists and either does not compile or has a
body that throws.
Then `require` throws to its caller and leaves the cache without an entry for the
specifier.  Whatever the files are afterwards, a later `require` of the same specifier
that returns has read the file again; and when the file then holds a body, the call is the
call of that body in an engine in which the file has been read and the body is being run:
the history has the reading and the running, and when the body ends normally the call
returns the exports of the module. -/
theorem failed_load_is_not_cached (fuel : Nat) (vm : VM) (cache : Nat) (dir : String) (arg : Val)
    (c : Char) (cs : List Char) (content : Source)
    (hmiss : vm.Get cache arg.String = none)
    (hname : ¬ (arg.String = "fs" ∨ arg.String = "path")) (hdata : arg.String.data = c :: cs)
    (hfile : vm.files.lookup (modulePath dir arg.String c) = some content)
    (hfail : (∃ err, content = .invalid err) ∨
      ∃ body vm3 msg, content = .code body ∧
        run fuel (vm.loading cache arg.String (modulePath dir arg.String c)) body
          (vm.objects.length + 1) vm.objects.length (modulePath dir arg.String c)
          (filepath.Dir (modulePath dir arg.String c)) = some (vm3, .throw msg)) :
    ∃ vm1 msg, require (fuel + 1) vm cache dir [arg] = some (vm1, .throw msg) ∧
      vm1.Get cache arg.String = none ∧
      (∀ (files : List (String × Source)) (fuel1 : Nat) (r1 : VM × Res Val),
        require (fuel1 + 1) ({ vm1 with files := files } : VM) cache dir [arg] = some r1 →
        (vm1.log ++ [Event.read (modulePath dir arg.String c)]) <+: r1.1.log) ∧
      (∀ (files : List (String × Source)) (body : Body) (fuel1 : Nat) (r : VM × Res Unit),
        files.lookup (modulePath dir arg.String c) = some (.code body) →
        run fuel1 (({ vm1 with files := files } : VM).loading cache arg.String
            (modulePath dir arg.String c)) body
          (vm1.objects.length + 1) vm1.objects.length (modulePath dir arg.String c)
          (filepath.Dir (modulePath dir arg.String c)) = some r →
        ∃ r1, require (fuel1 + 1) ({ vm1 with files := files } : VM) cache dir [arg] = some r1 ∧
          (vm1.log ++ [Event.read (modulePath dir arg.String c),
            Event.run (modulePath dir arg.String c)]) <+: r1.1.log ∧
          (∀ vm3, r = (vm3, .ok ()) →
            r1 = (vm3, .ok ((vm3.Get vm1.objects.length "exports").getD Val.undefined)))) := by
  have hmain : ∃ vm1 msg, require (fuel + 1) vm cache dir [arg] = some (vm1, .throw msg) ∧
      vm1.Get cache arg.String = none := by
    rcases hfail with ⟨err, rfl⟩ | ⟨body, vm3, msg, rfl, hrun⟩
    · exact ⟨_, _, require_load fuel vm cache dir arg c cs _ hmiss hname hdata hfile,
        VM.Get_Delete _ _ _⟩
    · refine ⟨vm3.Delete cache arg.String, "Error executing module '" ++ arg.String ++ "'", ?_,
        VM.Get_Delete _ _ _⟩
      rw [require_load fuel vm cache dir arg c cs _ hmiss hname hdata hfile]
      simp only [hrun]
  obtain ⟨vm1, msg, h1, h2⟩ := hmain
  refine ⟨vm1, msg, h1, h2, fun files fuel1 r1 hr => ?_, fun files body fuel1 r hl hrun => ?_⟩
  · exact require_reads fuel1 ({ vm1 with files := files } : VM) cache dir arg c cs h2 hname hdata
      r1 hr
  · have hl2 := require_load fuel1 ({ vm1 with files := files } : VM) cache dir arg c cs
      (.code body) h2 hname hdata hl
    have hpre : (vm1.log ++ [Event.read (modulePath dir arg.String c),
        Event.run (modulePath dir arg.String c)]) <+: r.1.log := by
      have := (growsAt fuel1).run _ _ _ _ _ _ _ hrun
      refine List.IsPrefix.trans ?_ this
      show _ <+: (vm1.log ++ [Event.read (modulePath dir arg.String c)]) ++
        [Event.run (modulePath dir arg.String c)]
      rw [List.append_assoc]
      exact List.prefix_refl _
    dsimp only at hl2
    have hrun' : run fuel1 (({ vm1 with files := files } : VM).loading cache arg.String
        (modulePath dir arg.String c)) body
        (({ vm1 with files := files } : VM).objects.length + 1)
        ({ vm1 with files := files } : VM).objects.length (modulePath dir arg.String c)
        (filepath.Dir (modulePath dir arg.String c)) = some r := hrun
    rw [hrun'] at hl2
    obtain ⟨vm3, res⟩ := r
    cases res with
    | ok u =>
      refine ⟨_, hl2, hpre, fun vm3' he => ?_⟩
      injection he with he1 he2
      subst he1
      rfl
    | throw m =>
      refine ⟨_, hl2, hpre, fun vm3' he => ?_⟩
      injection he with he1 he2
      cases he2
    | crash =>
      refine ⟨_, hl2, hpre, fun vm3' he => ?_⟩
      injection he with he1 he2
      cases he2

/-- Example of a load that fails by an error: with `/app/m.js` throwing, `require("./m")` throws and leaves no cache
entry; with the file repaired, the next `require("./m")` reads and runs the file again and
returns the exports. -/
theorem failed_load_is_not_cached_witness :
    brokenVM.Get 0 (Val.str "./m").String = none ∧
    ¬ ((Val.str "./m").String = "fs" ∨ (Val.str "./m").String = "path") ∧
    (Val.str "./m").String.data = '.' :: ['/', 'm'] ∧
    brokenVM.files.lookup (modulePath "/app" (Val.str "./m").String '.') =
      some (Source.code brokenModule) ∧
    (∃ vm1 msg, require (5 + 1) brokenVM 0 "/app" [Val.str "./m"] = some (vm1, .throw msg) ∧
      vm1.Get 0 (Val.str "./m").String = none) ∧
    (require 6 brokenVM 0 "/app" [Val.str "./m"]).map (fun r => (r.2, r.1.log)) =
      some (Res.throw "Error executing module './m'",
        [Event.read "/app/m.js", Event.run "/app/m.js", Event.emit 1]) ∧
    (require 6 (repairedAfter 6 brokenVM) 0 "/app" [Val.str "./m"]).map
        (fun r => (r.2, r.1.log)) =
      some (Res.ok (Val.obj 5),
        [Event.read "/app/m.js", Event.run "/app/m.js", Event.emit 1, Event.read "/app/m.js",
          Event.run "/app/m.js", Event.emit 2]) := by
  have hrun : ∃ body vm3 msg, Source.code brokenModule = Source.code body ∧
      run 5 (brokenVM.loading 0 (Val.str "./m").String
          (modulePath "/app" (Val.str "./m").String '.')) body
        (brokenVM.objects.length + 1) brokenVM.objects.length
        (modulePath "/app" (Val.str "./m").String '.')
        (filepath.Dir (modulePath "/app" (Val.str "./m").String '.')) = some (vm3, .throw msg) :=
    ⟨brokenModule, _, _, rfl, rfl⟩
  obtain ⟨vm1, msg, h1, h2, _⟩ := failed_load_is_not_cached 5 brokenVM 0 "/app" (Val.str "./m")
    '.' ['/', 'm'] (Source.code brokenModule) (by decide) (by decide) (by decide) rfl
    (Or.inr hrun)
  exact ⟨by decide, by decide, by decide, rfl, ⟨vm1, msg, h1, h2⟩, by decide, by decide⟩

end Modules
end GoJS

namespace GoJS
namespace Modules

/-- C21, failing input: `require("./a")` followed by `require("./a.js")` at top level, both
of which resolve to `/app/a.js`.  The second call is no cache hit: the file is read and its
body is called a second time, and the call returns another exports object (5, not 3).  Only
a second `require` with the same specifier is a cache hit. -/
theorem same_file_under_two_specifiers_loads_twice :
    requireTwice 20 oneFileVM (Val.str "./a") (Val.str "./a.js") =
      some ((Res.ok (Val.obj 3), Res.ok (Val.obj 5)),
        [Event.read "/app/a.js", Event.run "/app/a.js", Event.emit 1,
          Event.read "/app/a.js", Event.run "/app/a.js", Event.emit 1]) ∧
    requireTwice 20 oneFileVM (Val.str "./a") (Val.str "./a") =
      some ((Res.ok (Val.obj 3), Res.ok (Val.obj 3)),
        [Event.read "/app/a.js", Event.run "/app/a.js", Event.emit 1]) := by
  refine ⟨by decide, by decide⟩

end Modules
end GoJS

namespace GoJS
namespace Modules

/-- C35, failing input: the specifier `""`.  On every engine on which `SetupRequire` just
ran, whatever its files and its directory, the top-level `require("")` evaluates
`moduleName[0]` on the empty string, a Go run-time panic (`crash`) and neither a value nor
an error thrown to the script; the function built by `SetupRequireInner` does the same, so
that `require("./a")` of a file `a.js` that calls `require("")` ends in the panic too.  A
specifier that is not empty and names no file gives the error thrown to the script. -/
theorem require_of_empty_specifier_indexes_out_of_range :
    (∀ fuel files currentDir,
      (requireGlobal (fuel + 1) (SetupRequire (VM.fresh files) currentDir) [Val.str ""]).map
        (fun r => r.2) = some Res.crash) ∧
    (∀ fuel files currentDir dir,
      (requireInner (fuel + 1) (SetupRequire (VM.fresh files) currentDir) dir [Val.str ""]).map
        (fun r => r.2) = some Res.crash) ∧
    (requireGlobal 20 emptyRequireVM [Val.str "./a"]).map (fun r => (r.2, r.1.log)) =
      some (Res.crash, [Event.read "/app/a.js", Event.run "/app/a.js"]) ∧
    (requireGlobal 20 emptyRequireVM [Val.str "./b"]).map (fun r => r.2) =
      some (Res.throw "Cannot find module './b'") := by
  refine ⟨fun _ _ _ => rfl, fun _ _ _ _ => rfl, by decide, by decide⟩

end Modules
end GoJS

namespace GoJS
namespace Modules

/-- C20, failing input: the file `/app/a.js` is `exports.x = 1; require("")`, and
`require("./a")` is called twice.  The execution of the module ends in the Go run-time
panic of `require("")`: the first call returns neither a value nor an error thrown to the
script, no `cache.Delete` is reached, and the cache (object 0) keeps the module (object 2)
under `"./a"`.  The second call is a cache hit: the file is neither read nor run again, and
the call returns the exports (object 3) as the failed load left them, with `x = 1`.  When
the module ends in a `throw` instead, both calls throw and the second reads and runs the
file again. -/
theorem load_ended_by_panic_stays_cached :
    (requireGlobal 20 partialVM [Val.str "./a"]).map
        (fun r => (r.2, r.1.Get 0 "./a", r.1.log)) =
      some (Res.crash, some (Val.obj 2), [Event.read "/app/a.js", Event.run "/app/a.js"]) ∧
    requireTwice 20 partialVM (Val.str "./a") (Val.str "./a") =
      some ((Res.crash, Res.ok (Val.obj 3)), [Event.read "/app/a.js", Event.run "/app/a.js"]) ∧
    (requireGlobal 20 partialVM [Val.str "./a"]).map (fun r => r.1.Get 3 "x") =
      some (some (Val.num 1)) ∧
    (requireGlobal 20 throwingVM [Val.str "./a"]).map
        (fun r => (r.2.isThrow, r.1.Get 0 "./a")) = some (true, none) ∧
    (requireTwice 20 throwingVM (Val.str "./a") (Val.str "./a")).map
        (fun r => (r.1.1.isThrow, r.1.2.isThrow, r.2)) =
      some (true, true,
        [Event.read "/app/a.js", Event.run "/app/a.js", Event.read "/app/a.js",
          Event.run "/app/a.js"]) := by
  refine ⟨by decide, by decide, by decide, by decide, by decide⟩

end Modules
end GoJS

namespace GoJS
namespace Lex

/-- C33, refuted: on the three-byte input double quote, `a`, backslash the first call of
`NextToken` ends in a run-time panic, with whatever fuel above four; so does it on the
input backquote, `a`, backslash.  `readString` skips the byte after the backslash with a
`readChar` that already stands at the end of the input, and the `readChar` of the next
round moves `position` to 4, one past `len(input) = 3`; the slice
`l.input[position:l.position]` is then `input[1:4]`.  An unterminated literal that does not
end in a backslash is returned as a substring: the input double quote, `a` gives the
string token `a`, then the end of the input. -/
theorem unterminated_literal_ending_in_backslash_panics :
    (∀ fuel, (New [34, 97, 92]).NextToken (fuel + 5) =
      some (Except.error "slice bounds out of range")) ∧
    (∀ fuel, (New [96, 97, 92]).NextToken (fuel + 5) =
      some (Except.error "slice bounds out of range")) ∧
    (∀ fuel, ((New [34, 97, 92]).readStringLoop 34 (fuel + 5)).map
      (fun l => (l.position, l.input.length)) = some (4, 3)) ∧
    slice [34, 97, 92] 1 4 = Except.error "slice bounds out of range" ∧
    (∀ fuel, (tokens (fuel + 5) 2 (New [34, 97])).map
        (fun r => r.toOption.map (fun ts => ts.map (fun t => (t.Type_, t.Literal)))) =
      some (some [(token.STRING, [97]), (token.EOF, [])])) :=
  ⟨fun _ => rfl, fun _ => rfl, fun _ => rfl, rfl, fun _ => rfl⟩

end Lex
end GoJS
